import Mathlib

/-!
# Bohrium instruction graph (core/graph/bh_graph.cpp)

A shallow embedding of the dependency-graph builder (`bh_graph_parse`), the
edge primitives (`bh_grap_node_add_child`, `bh_grap_node_add_parent`), the
traversal iterator (`bh_graph_iterator_next_node`,
`bh_graph_iterator_next_instruction`) and `bh_graph_serialize`, followed by
theorems about them.

Conventions.
* Handles (`bh_node_index`, `bh_instruction_index`, `bh_intp`) are `Int`; the
  sentinels `INVALID_NODE` and `INVALID_INSTRUCTION` are `-1`.
* A `bh_base*` is an `Option Nat`: `none` is the null pointer, `some k` the
  base with identity `k`.
* The two arenas of a `bh_ir` are lists; `NODE_LOOKUP` reads a slot.
* Every function that mutates the IR takes the IR and returns the new one.
* Allocation outcomes are parameters: `mem` bounds the node arena, and `alloc`
  says whether the `malloc` of the iterator record succeeds.
* A call that does not return in the source (a read through a null
  user-function pointer in `bh_graph_getIds`) has no value in the embedding;
  the statements it could affect assume the pointer is not null.
-/

namespace Bohrium

/-! ## Data model -/

/-- Sentinel handle of "no node". -/
def INVALID_NODE : Int := -1

/-- Sentinel handle of "no instruction". -/
def INVALID_INSTRUCTION : Int := -1

/-- Status codes returned by the library functions. -/
inductive bh_error where
  | BH_SUCCESS
  | BH_ERROR
  deriving DecidableEq, Repr

/-- Node kinds of the dependency graph. -/
inductive bh_node_type where
  | BH_INSTRUCTION
  | BH_COLLECTION
  deriving DecidableEq, Repr

open bh_error bh_node_type

/-- A view: only the base pointer matters to the graph code. A constant
operand and an unused operand slot have a null base. -/
structure bh_view where
  base : Option Nat
  deriving DecidableEq, Repr

instance : Inhabited bh_view := ⟨⟨none⟩⟩

/-- The user-function record an instruction with opcode `BH_USERFUNC`
points to. -/
structure bh_userfunc where
  nout : Int
  nin : Int
  operand : List bh_view
  deriving DecidableEq, Repr

/-- An instruction: opcode, operand array and the user-function pointer
(`none` is the null pointer). -/
structure bh_instruction where
  opcode : Int
  operand : List bh_view
  userfunc : Option bh_userfunc
  deriving DecidableEq, Repr

/-- A graph node (`bh_graph_node`). -/
structure bh_graph_node where
  type : bh_node_type
  instruction : Int
  left_child : Int
  right_child : Int
  left_parent : Int
  right_parent : Int
  deriving DecidableEq, Repr

instance : Inhabited bh_graph_node :=
  ⟨⟨BH_COLLECTION, INVALID_INSTRUCTION, INVALID_NODE, INVALID_NODE, INVALID_NODE, INVALID_NODE⟩⟩

/-- The IR (`bh_ir`): node arena, instruction arena and root handle. -/
structure bh_ir where
  nodes : List bh_graph_node
  instructions : List bh_instruction
  root : Int
  deriving DecidableEq, Repr

/-- Modelled from the spec: the opcode enumeration and the arity function
`bh_operands` live in bh.h, which is not part of the sources. The spec only
says that `USERFUNC` is one of the opcodes and that "the arity per opcode is a
static property", so both are taken as a parameter. -/
structure bh_opcodes where
  BH_USERFUNC : Int
  bh_operands : Int → Int

/-- Modelled from the spec: `bh_dynamic_list_append` is declared in bh.h, not
in the sources. "append(arena) → index — returns the index of a newly appended
slot ... Fails with AllocError on out-of-memory; the arena is unchanged on
failure." The memory bound `mem` is the number of slots the arena can grow to
(`none`: memory is never exhausted); a failed append returns `-1`. The node
arena is created with 4000 slots (line 122) and "grows capacity by doubling
when full", so an append can fail when the arena holds 4000, 8000, ... nodes;
the bound is kept general. -/
def bh_dynamic_list_append (mem : Option Nat) (count : Nat) : Int :=
  match mem with
  | none => (count : Int)
  | some c => if count < c then (count : Int) else -1

/-- The macro `NODE_LOOKUP(ix)`: the node slot at handle `ix`. A handle outside
the arena (undefined behaviour in the source) reads an empty slot. -/
def NODE_LOOKUP (nodes : List bh_graph_node) (ix : Int) : bh_graph_node :=
  if ix < 0 then default else nodes.getD ix.toNat default

/-- An assignment `NODE_LOOKUP(ix).field = ...`, given as the function `f`
that rewrites the slot. A store through a handle outside the arena is
dropped. -/
def NODE_UPDATE (nodes : List bh_graph_node) (ix : Int)
    (f : bh_graph_node → bh_graph_node) : List bh_graph_node :=
  if ix < 0 then nodes else nodes.set ix.toNat (f (NODE_LOOKUP nodes ix))

/-- The macro `INSTRUCTION_LOOKUP(ix)`. A handle outside the arena reads an
instruction without operands. -/
def INSTRUCTION_LOOKUP (instructions : List bh_instruction) (ix : Int) : bh_instruction :=
  if ix < 0 then ⟨0, [], none⟩ else instructions.getD ix.toNat ⟨0, [], none⟩

/-- The base of the operand at slot `k` (`bh_get_basearray(&operands[k])`: the
pointer to an array slot is never null, so the result is the view's base). -/
def bh_get_basearray (operands : List bh_view) (k : Nat) : Option Nat :=
  (operands.getD k default).base

/-- The out-parameters of `bh_graph_getIds`. -/
structure bh_ids where
  nops : Int
  selfId : Option Nat
  leftId : Option Nat
  rightId : Option Nat
  deriving DecidableEq, Repr

/-- Decode `bh_graph_getIds`: operand count and the bases of operand 0, 1, 2.
For the opcode `BH_USERFUNC` the source reads `uf->nout`, `uf->nin` and
`uf->operand` (lines 87-88) before it tests `uf == NULL` (line 90), so a call
with a null user-function pointer dereferences it and does not return. The
embedding has no value for a call that does not return: it gives the error
return of the null test there, and the statements that depend on the
difference assume that an instruction with opcode `BH_USERFUNC` carries its
user-function record. `nops` is the sum `nout + nin` without the wrap-around
of `bh_intp`; after a successful return it is 1, 2 or 3. -/
def bh_graph_getIds (T : bh_opcodes) (instr : bh_instruction) : bh_error × bh_ids :=
  if instr.opcode ≠ T.BH_USERFUNC then
    let nops := T.bh_operands instr.opcode
    let operands := instr.operand
    (BH_SUCCESS,
      { nops := nops
        selfId := bh_get_basearray operands 0
        leftId := if nops ≥ 2 then bh_get_basearray operands 1 else none
        rightId := if nops ≥ 3 then bh_get_basearray operands 2 else none })
  else
    match instr.userfunc with
    | none => (BH_ERROR, ⟨0, none, none, none⟩)
    | some uf =>
      let nops := uf.nout + uf.nin
      let operands := uf.operand
      if uf.nout ≠ 1 ∨ (uf.nin ≠ 0 ∧ uf.nin ≠ 1 ∧ uf.nin ≠ 2) then
        (BH_ERROR, ⟨nops, none, none, none⟩)
      else
        (BH_SUCCESS,
          { nops := nops
            selfId := bh_get_basearray operands 0
            leftId := if nops ≥ 2 then bh_get_basearray operands 1 else none
            rightId := if nops ≥ 3 then bh_get_basearray operands 2 else none })

/-! ## IR container -/

/-- Remove every node and reset the root (`bh_graph_delete_all_nodes`). -/
def bh_graph_delete_all_nodes (bhir : bh_ir) : bh_ir :=
  { bhir with nodes := [], root := INVALID_NODE }

/-- The loop of `bh_graph_append`: copy the instructions one by one, stopping
at the first failed arena append. -/
def bh_graph_append_loop (imem : Option Nat) :
    List bh_instruction → List bh_instruction → bh_error × List bh_instruction
  | arena, [] => (BH_SUCCESS, arena)
  | arena, x :: rest =>
    let ix := bh_dynamic_list_append imem arena.length
    if ix < 0 then (BH_ERROR, arena)
    else bh_graph_append_loop imem (arena ++ [x]) rest

/-- Append instructions to an IR that is not built yet (`bh_graph_append`). -/
def bh_graph_append (imem : Option Nat) (bhir : bh_ir) (instructions : List bh_instruction) :
    bh_error × bh_ir :=
  if bhir.root ≥ 0 then (BH_ERROR, bhir)
  else
    let r := bh_graph_append_loop imem bhir.instructions instructions
    (r.1, { bhir with instructions := r.2 })

/-- Allocate a node (`bh_graph_new_node`): the new handle, or `INVALID_NODE`
with the arena unchanged when the arena cannot grow. -/
def bh_graph_new_node (mem : Option Nat) (nodes : List bh_graph_node) (type : bh_node_type)
    (instruction : Int) : Int × List bh_graph_node :=
  let ix := bh_dynamic_list_append mem nodes.length
  if ix < 0 then (INVALID_NODE, nodes)
  else (ix, nodes ++ [⟨type, instruction, INVALID_NODE, INVALID_NODE, INVALID_NODE, INVALID_NODE⟩])

/-! ## Edge primitives -/

/-- The rewiring step of the fan-in overflow: the child slot of `parent` that
holds `self` is redirected to `cn`, the left slot being tested first (the
`if` / `else if` of lines 795-798 and 800-803). `parent` is the node the test
reads, `target` the node the store goes to. -/
def rewire_child (nodes : List bh_graph_node) (parent target self cn : Int) :
    List bh_graph_node :=
  if (NODE_LOOKUP nodes parent).left_child = self then
    NODE_UPDATE nodes target (fun x => { x with left_child := cn })
  else if (NODE_LOOKUP nodes parent).right_child = self then
    NODE_UPDATE nodes target (fun x => { x with right_child := cn })
  else nodes

/-- The fan-in overflow block of `bh_grap_node_add_parent` (lines 792-807),
after the collection node `cn` has been allocated: `cn` takes over the two
parents of `self`, those parents are rewired to `cn`, and `self` gets the
parents `cn` and `newparent`. -/
def add_parent_overflow (nodes : List bh_graph_node) (self newparent cn : Int) :
    List bh_graph_node :=
  let n1 := NODE_UPDATE nodes cn (fun x => { x with left_parent := (NODE_LOOKUP nodes self).left_parent })
  let n2 := NODE_UPDATE n1 cn (fun x => { x with right_parent := (NODE_LOOKUP n1 self).right_parent })
  let n3 := rewire_child n2 (NODE_LOOKUP n2 self).left_parent (NODE_LOOKUP n2 cn).left_parent self cn
  let n4 := rewire_child n3 (NODE_LOOKUP n3 self).right_parent (NODE_LOOKUP n3 cn).right_parent self cn
  let n5 := NODE_UPDATE n4 self (fun x => { x with left_parent := cn })
  let n6 := NODE_UPDATE n5 self (fun x => { x with right_parent := newparent })
  NODE_UPDATE n6 cn (fun x => { x with left_child := self })

/-- Give `self` the parent `newparent` (`bh_grap_node_add_parent`). -/
def bh_grap_node_add_parent (mem : Option Nat) (nodes : List bh_graph_node)
    (self newparent : Int) : bh_error × List bh_graph_node :=
  if (NODE_LOOKUP nodes self).left_parent = newparent
      ∨ (NODE_LOOKUP nodes self).right_parent = newparent ∨ newparent = INVALID_NODE then
    (BH_SUCCESS, nodes)
  else if (NODE_LOOKUP nodes self).left_parent = INVALID_NODE then
    (BH_SUCCESS, NODE_UPDATE nodes self (fun x => { x with left_parent := newparent }))
  else if (NODE_LOOKUP nodes self).right_parent = INVALID_NODE then
    (BH_SUCCESS, NODE_UPDATE nodes self (fun x => { x with right_parent := newparent }))
  else
    let r := bh_graph_new_node mem nodes BH_COLLECTION INVALID_INSTRUCTION
    let cn := r.1
    if cn = INVALID_NODE then (BH_ERROR, r.2)
    else (BH_SUCCESS, add_parent_overflow r.2 self newparent cn)

/-- The fan-out overflow block of `bh_grap_node_add_child` (lines 748-765),
after the collection node `cn` has been allocated: `cn` takes over the left
child of `self` and gets `newchild` as right child, the displaced child's
parent slot is redirected from `self` to `cn` ("Bad graph" when neither slot
holds `self`), then `newchild` gets the parent `cn`. -/
def add_child_overflow (mem : Option Nat) (nodes : List bh_graph_node)
    (self newchild cn : Int) : bh_error × List bh_graph_node :=
  let n1 := NODE_UPDATE nodes cn (fun x => { x with left_child := (NODE_LOOKUP nodes self).left_child })
  let n2 := NODE_UPDATE n1 cn (fun x => { x with right_child := newchild })
  let n3 := NODE_UPDATE n2 self (fun x => { x with left_child := cn })
  let d := (NODE_LOOKUP n3 cn).left_child
  if (NODE_LOOKUP n3 d).left_parent = self then
    let n4 := NODE_UPDATE n3 d (fun x => { x with left_parent := cn })
    let p := bh_grap_node_add_parent mem n4 newchild cn
    if p.1 ≠ BH_SUCCESS then (BH_ERROR, p.2)
    else (BH_SUCCESS, NODE_UPDATE p.2 cn (fun x => { x with left_parent := self }))
  else if (NODE_LOOKUP n3 d).right_parent = self then
    let n4 := NODE_UPDATE n3 d (fun x => { x with right_parent := cn })
    let p := bh_grap_node_add_parent mem n4 newchild cn
    if p.1 ≠ BH_SUCCESS then (BH_ERROR, p.2)
    else (BH_SUCCESS, NODE_UPDATE p.2 cn (fun x => { x with left_parent := self }))
  else (BH_ERROR, n3)

/-- Give `self` the child `newchild` (`bh_grap_node_add_child`). In the two
branches with a free child slot the status of the nested `add_parent` is
dropped, as in the source. -/
def bh_grap_node_add_child (mem : Option Nat) (nodes : List bh_graph_node)
    (self newchild : Int) : bh_error × List bh_graph_node :=
  if self = newchild then (BH_ERROR, nodes)
  else if (NODE_LOOKUP nodes self).left_child = INVALID_NODE then
    let n1 := NODE_UPDATE nodes self (fun x => { x with left_child := newchild })
    (BH_SUCCESS, (bh_grap_node_add_parent mem n1 newchild self).2)
  else if (NODE_LOOKUP nodes self).right_child = INVALID_NODE then
    let n1 := NODE_UPDATE nodes self (fun x => { x with right_child := newchild })
    (BH_SUCCESS, (bh_grap_node_add_parent mem n1 newchild self).2)
  else
    let r := bh_graph_new_node mem nodes BH_COLLECTION INVALID_INSTRUCTION
    let cn := r.1
    if cn = INVALID_NODE then (BH_ERROR, r.2)
    else add_child_overflow mem r.2 self newchild cn

/-! ## Graph builder -/

/-- Ordered insertion into a `std::set<bh_node_index>`, kept as an ascending
list without repetition (the order `begin()..end()` walks it). -/
def set_insert (x : Int) : List Int → List Int
  | [] => [x]
  | y :: ys => if x < y then x :: y :: ys else if x = y then y :: ys else y :: set_insert x ys

/-- The local state of one build: the node arena, `writemap` (base to last
writer) and `readmap` (base to the set of readers since the last write). -/
structure parse_state where
  nodes : List bh_graph_node
  writemap : Option Nat → Option Int
  readmap : Option Nat → Option (List Int)

/-- The `operator[]` assignment of a hash map. -/
def map_set {β : Type} (m : Option Nat → Option β) (k : Option Nat) (v : β) :
    Option Nat → Option β :=
  fun b => if b = k then some v else m b

/-- The `erase` of a hash map. -/
def map_erase {β : Type} (m : Option Nat → Option β) (k : Option Nat) :
    Option Nat → Option β :=
  fun b => if b = k then none else m b

/-- The write-after-read loop of `bh_graph_parse`: every reader of the written
base that is neither `leftDep` nor `rightDep` gets `selfNode` as a child. -/
def parse_war_loop (mem : Option Nat) (selfNode leftDep rightDep : Int) :
    List bh_graph_node → List Int → bh_error × List bh_graph_node
  | nodes, [] => (BH_SUCCESS, nodes)
  | nodes, r :: rest =>
    if r ≠ leftDep ∧ r ≠ rightDep then
      let a := bh_grap_node_add_child mem nodes r selfNode
      if a.1 ≠ BH_SUCCESS then (BH_ERROR, a.2)
      else parse_war_loop mem selfNode leftDep rightDep a.2 rest
    else parse_war_loop mem selfNode leftDep rightDep nodes rest

/-- Record `selfNode` as a reader of base `b` (the two `readmap` blocks). -/
def readmap_add (readmap : Option Nat → Option (List Int)) (b : Option Nat) (selfNode : Int) :
    Option Nat → Option (List Int) :=
  match readmap b with
  | none => map_set readmap b (set_insert selfNode [])
  | some nodes => map_set readmap b (set_insert selfNode nodes)

/-- One iteration of the main loop of `bh_graph_parse`, for the instruction at
arena index `i`; `none` is any of the `delete_all_nodes; return BH_ERROR`
exits. -/
def parse_instruction (T : bh_opcodes) (mem : Option Nat) (root : Int) (st : parse_state)
    (i : Int) (instr : bh_instruction) : Option parse_state :=
  let ids := bh_graph_getIds T instr
  if ids.1 ≠ BH_SUCCESS then none
  else
    let selfId := ids.2.selfId
    let leftId := ids.2.leftId
    let rightId := ids.2.rightId
    let r := bh_graph_new_node mem st.nodes BH_INSTRUCTION i
    let selfNode := r.1
    if selfNode = INVALID_NODE then none
    else
      -- write after write
      let a1 : bh_error × List bh_graph_node :=
        match st.writemap selfId with
        | some oldTarget => bh_grap_node_add_child mem r.2 oldTarget selfNode
        | none => (BH_SUCCESS, r.2)
      if a1.1 ≠ BH_SUCCESS then none
      else
        let writemap := map_set st.writemap selfId selfNode
        let leftDep := (writemap leftId).getD INVALID_NODE
        let rightDep := (writemap rightId).getD INVALID_NODE
        -- write after read
        let a2 : bh_error × List bh_graph_node :=
          match st.readmap selfId with
          | some readers => parse_war_loop mem selfNode leftDep rightDep a1.2 readers
          | none => (BH_SUCCESS, a1.2)
        if a2.1 ≠ BH_SUCCESS then none
        else
          let readmap1 :=
            match st.readmap selfId with
            | some _ => map_erase st.readmap selfId
            | none => st.readmap
          let readmap2 := if leftId ≠ none then readmap_add readmap1 leftId selfNode else readmap1
          let readmap3 :=
            if rightId ≠ none ∧ rightId ≠ leftId then readmap_add readmap2 rightId selfNode
            else readmap2
          -- read after write
          let a3 : bh_error × List bh_graph_node :=
            if leftDep ≠ INVALID_NODE ∧ leftDep ≠ selfNode then
              bh_grap_node_add_child mem a2.2 leftDep selfNode
            else (BH_SUCCESS, a2.2)
          if a3.1 ≠ BH_SUCCESS then none
          else
            let a4 : bh_error × List bh_graph_node :=
              if rightDep ≠ INVALID_NODE ∧ rightDep ≠ leftDep ∧ rightDep ≠ selfNode then
                bh_grap_node_add_child mem a3.2 rightDep selfNode
              else (BH_SUCCESS, a3.2)
            if a4.1 ≠ BH_SUCCESS then none
            else
              -- root attachment: `left_parent == INVALID_NODE && right_parent`
              let a5 : bh_error × List bh_graph_node :=
                if (NODE_LOOKUP a4.2 selfNode).left_parent = INVALID_NODE
                    ∧ (NODE_LOOKUP a4.2 selfNode).right_parent ≠ 0 then
                  bh_grap_node_add_child mem a4.2 root selfNode
                else (BH_SUCCESS, a4.2)
              if a5.1 ≠ BH_SUCCESS then none
              else some { nodes := a5.2, writemap := writemap, readmap := readmap3 }

/-- The main loop of `bh_graph_parse` over the instruction arena, from arena
index `i` on. -/
def parse_loop (T : bh_opcodes) (mem : Option Nat) (root : Int) :
    parse_state → Int → List bh_instruction → Option parse_state
  | st, _, [] => some st
  | st, i, instr :: rest =>
    match parse_instruction T mem root st i instr with
    | none => none
    | some st' => parse_loop T mem root st' (i + 1) rest

/-- Build the dependency graph (`bh_graph_parse`). -/
def bh_graph_parse (T : bh_opcodes) (mem : Option Nat) (bhir : bh_ir) : bh_error × bh_ir :=
  if bhir.root ≥ 0 then (BH_SUCCESS, bhir)
  else
    let r := bh_graph_new_node mem bhir.nodes BH_COLLECTION INVALID_INSTRUCTION
    let root := r.1
    match parse_loop T mem root ⟨r.2, fun _ => none, fun _ => none⟩ 0 bhir.instructions with
    | none => (BH_ERROR, bh_graph_delete_all_nodes bhir)
    | some st => (BH_SUCCESS, { bhir with nodes := st.nodes, root := root })

/-! ## Traversal iterator -/

/-- The iterator record (`struct bh_graph_iterator`). `scheduled` holds the
keys of the hash map, `blocked` the work queue from front to back. -/
structure bh_graph_iterator where
  scheduled : List Int
  blocked : List Int
  bhir : bh_ir
  current : Int
  last_blocked : Int
  deriving DecidableEq, Repr

/-- Create an iterator (`bh_graph_iterator_create`). `alloc` says whether the
`malloc` of the iterator record succeeds (`t != NULL`), `disable` that the
environment variable `BH_DISABLE_BHIR_GRAPH` is set. The result is the IR
after the call (it is built here when needed) and the iterator; `none` is the
failure return `BH_ERROR`, which leaves the IR untouched when the record
could not be allocated and as the failed `bh_graph_parse` leaves it
otherwise. The debug print of the graph under `BH_PRINT_NODE_OUTPUT_GRAPH`
only reads the IR and is left out. -/
def bh_graph_iterator_create (T : bh_opcodes) (mem : Option Nat) (alloc : Bool) (disable : Bool)
    (bhir : bh_ir) : Option (bh_ir × bh_graph_iterator) :=
  if alloc = false then none
  else
    let p : bh_error × bh_ir :=
      if bhir.root < 0 ∧ disable = false then bh_graph_parse T mem bhir else (BH_SUCCESS, bhir)
    if p.1 ≠ BH_SUCCESS then none
    else
      let ir := p.2
      some (ir,
        { scheduled := []
          blocked := if ir.root ≠ INVALID_NODE then [ir.root] else []
          bhir := ir
          current := ir.root
          last_blocked := INVALID_NODE })

/-- Reset an iterator (`bh_graph_iterator_reset`); `last_blocked` is not
touched. -/
def bh_graph_iterator_reset (it : bh_graph_iterator) : bh_graph_iterator :=
  { it with
    scheduled := []
    current := it.bhir.root
    blocked := if it.bhir.root ≠ INVALID_NODE then [it.bhir.root] else [] }

/-- What one call of `bh_graph_iterator_next_node` leaves behind: the status,
the value stored through the out-pointer `node` (`none` when the call returns
without storing, which is the circular-dependency exit) and the iterator. -/
structure next_node_result where
  status : bh_error
  node : Option Int
  it : bh_graph_iterator
  deriving DecidableEq, Repr

/-- The `while (!blocked->empty())` loop of `bh_graph_iterator_next_node`,
run for at most `fuel` iterations; `none` means the loop is still running
when the fuel is spent. -/
def next_node_loop : Nat → bh_graph_iterator → Option next_node_result
  | 0, _ => none
  | fuel + 1, it =>
    match it.blocked with
    | [] => some ⟨BH_ERROR, some INVALID_NODE, it⟩
    | n :: rest =>
      let nodes := it.bhir.nodes
      if n ≠ INVALID_NODE ∧ n ∉ it.scheduled then
        if ((NODE_LOOKUP nodes n).left_parent = INVALID_NODE
              ∨ (NODE_LOOKUP nodes n).left_parent ∈ it.scheduled)
            ∧ ((NODE_LOOKUP nodes n).right_parent = INVALID_NODE
              ∨ (NODE_LOOKUP nodes n).right_parent ∈ it.scheduled) then
          let b1 :=
            if (NODE_LOOKUP nodes n).left_child ≠ INVALID_NODE then
              (NODE_LOOKUP nodes n).left_child :: rest
            else rest
          let b2 :=
            if (NODE_LOOKUP nodes n).right_child ≠ INVALID_NODE
                ∧ (NODE_LOOKUP nodes n).right_child ≠ (NODE_LOOKUP nodes n).left_child then
              b1 ++ [(NODE_LOOKUP nodes n).right_child]
            else b1
          some ⟨BH_SUCCESS, some n,
            { it with last_blocked := INVALID_NODE, scheduled := n :: it.scheduled, blocked := b2 }⟩
        else if it.last_blocked = n then
          -- circular dependency: the queue is printed and emptied
          some ⟨BH_ERROR, none, { it with blocked := [] }⟩
        else if it.last_blocked = INVALID_NODE then
          next_node_loop fuel { it with blocked := rest ++ [n], last_blocked := n }
        else next_node_loop fuel { it with blocked := rest ++ [n] }
      else next_node_loop fuel { it with blocked := rest }

/-- One call of `bh_graph_iterator_next_node`. From a state a fresh iterator
can reach, the loop ends within `2 * |blocked| + 2` iterations. -/
def bh_graph_iterator_next_node (it : bh_graph_iterator) : Option next_node_result :=
  next_node_loop (2 * it.blocked.length + 2) it

/-- What one call of `bh_graph_iterator_next_instruction` leaves behind: the
status, the arena index of the instruction the out-pointer is set to (`none`
for the null pointer) and the iterator. -/
structure next_instruction_result where
  status : bh_error
  instruction : Option Int
  it : bh_graph_iterator
  deriving DecidableEq, Repr

/-- The `while (next_node == BH_SUCCESS)` loop of
`bh_graph_iterator_next_instruction`, for at most `fuel` calls. -/
def next_instruction_loop : Nat → bh_graph_iterator → Option next_instruction_result
  | 0, _ => none
  | fuel + 1, it =>
    match bh_graph_iterator_next_node it with
    | none => none
    | some r =>
      if r.status = BH_SUCCESS then
        let ix := r.node.getD INVALID_NODE
        if (NODE_LOOKUP r.it.bhir.nodes ix).type = BH_INSTRUCTION then
          some ⟨BH_SUCCESS, some (NODE_LOOKUP r.it.bhir.nodes ix).instruction, r.it⟩
        else next_instruction_loop fuel r.it
      else some ⟨BH_ERROR, none, r.it⟩

/-- One call of `bh_graph_iterator_next_instruction`. -/
def bh_graph_iterator_next_instruction (it : bh_graph_iterator) :
    Option next_instruction_result :=
  if it.bhir.root = INVALID_NODE then
    let current := (if it.current = INVALID_NODE then -1 else it.current) + 1
    if current < (it.bhir.instructions.length : Int) then
      some ⟨BH_SUCCESS, some current, { it with current := current }⟩
    else some ⟨BH_ERROR, none, { it with current := current }⟩
  else next_instruction_loop (2 * it.bhir.nodes.length + 3) it

/-- What a full drain leaves behind: what was emitted, in order, and the last
call's result (the one that did not return `BH_SUCCESS`). -/
structure drain_result (ρ : Type) where
  emitted : List Int
  last : ρ

/-- Call `bh_graph_iterator_next_node` until it stops returning `BH_SUCCESS`
(at most `fuel` calls) and collect the emitted nodes. -/
def drain_nodes_loop : Nat → bh_graph_iterator → Option (drain_result next_node_result)
  | 0, _ => none
  | fuel + 1, it =>
    match bh_graph_iterator_next_node it with
    | none => none
    | some r =>
      if r.status = BH_SUCCESS then
        match drain_nodes_loop fuel r.it with
        | none => none
        | some d => some ⟨r.node.getD INVALID_NODE :: d.emitted, d.last⟩
      else some ⟨[], r⟩

/-- A full drain of `bh_graph_iterator_next_node`. -/
def drain_nodes (it : bh_graph_iterator) : Option (drain_result next_node_result) :=
  drain_nodes_loop (2 * it.bhir.nodes.length + 3) it

/-- Call `bh_graph_iterator_next_instruction` until it stops returning
`BH_SUCCESS` (at most `fuel` calls) and collect the arena indices of the
instructions it yields. -/
def drain_instructions_loop :
    Nat → bh_graph_iterator → Option (drain_result next_instruction_result)
  | 0, _ => none
  | fuel + 1, it =>
    match bh_graph_iterator_next_instruction it with
    | none => none
    | some r =>
      if r.status = BH_SUCCESS then
        match drain_instructions_loop fuel r.it with
        | none => none
        | some d => some ⟨r.instruction.getD INVALID_INSTRUCTION :: d.emitted, d.last⟩
      else some ⟨[], r⟩

/-- A full drain of `bh_graph_iterator_next_instruction`. -/
def drain_instructions (it : bh_graph_iterator) :
    Option (drain_result next_instruction_result) :=
  drain_instructions_loop (2 * it.bhir.nodes.length + it.bhir.instructions.length + 3) it

/-! ## Serialization -/

/-- What `bh_graph_serialize` leaves behind: the status, the caller's buffer,
the value of `*instruction_count` and the IR. -/
structure serialize_result where
  status : bh_error
  instructions : List bh_instruction
  instruction_count : Int
  bhir : bh_ir
  deriving DecidableEq, Repr

/-- The `while (next_instruction == BH_SUCCESS)` loop of `bh_graph_serialize`:
the buffer and the running `count`, for at most `fuel` calls. `cap` is the
value of `*instruction_count` on entry. -/
def serialize_loop (cap : Int) :
    Nat → bh_graph_iterator → List bh_instruction → Int → Option (List bh_instruction × Int)
  | 0, _, _, _ => none
  | fuel + 1, it, buffer, count =>
    match bh_graph_iterator_next_instruction it with
    | none => none
    | some r =>
      if r.status = BH_SUCCESS then
        let dummy := INSTRUCTION_LOOKUP r.it.bhir.instructions (r.instruction.getD INVALID_INSTRUCTION)
        let buffer' := if count < cap then buffer.set count.toNat dummy else buffer
        serialize_loop cap fuel r.it buffer' (count + 1)
      else some (buffer, count)

/-- Serialize the IR into the caller's buffer (`bh_graph_serialize`);
`instruction_count` is the capacity on entry and `alloc` says whether the
iterator record can be allocated. When `bh_graph_iterator_create` fails the
call returns `BH_ERROR` without touching the buffer or the count; the IR is
then as it was when the record could not be allocated, and as the failed
build leaves it otherwise. `none` means that a loop of the traversal is still
running when its fuel is spent. -/
def bh_graph_serialize (T : bh_opcodes) (mem : Option Nat) (alloc : Bool) (disable : Bool)
    (bhir : bh_ir) (instructions : List bh_instruction) (instruction_count : Int) :
    Option serialize_result :=
  match bh_graph_iterator_create T mem alloc disable bhir with
  | none =>
    some ⟨BH_ERROR, instructions, instruction_count,
      if alloc = true ∧ bhir.root < 0 ∧ disable = false then (bh_graph_parse T mem bhir).2
      else bhir⟩
  | some (ir, it) =>
    match serialize_loop instruction_count
        (2 * ir.nodes.length + ir.instructions.length + 3) it instructions 0 with
    | none => none
    | some (buffer, count) =>
      if count > instruction_count then some ⟨BH_ERROR, buffer, count, ir⟩
      else some ⟨BH_SUCCESS, buffer, count, ir⟩

/-! ## Graph relations used by the statements -/

/-- Node `p` is stored in a parent slot of node `c`. -/
def is_parent (nodes : List bh_graph_node) (p c : Int) : Prop :=
  p ≠ INVALID_NODE ∧ ((NODE_LOOKUP nodes c).left_parent = p ∨ (NODE_LOOKUP nodes c).right_parent = p)

/-- Node `c` is stored in a child slot of node `p`. -/
def is_child (nodes : List bh_graph_node) (p c : Int) : Prop :=
  c ≠ INVALID_NODE ∧ ((NODE_LOOKUP nodes p).left_child = c ∨ (NODE_LOOKUP nodes p).right_child = c)

instance (nodes : List bh_graph_node) (p c : Int) : Decidable (is_parent nodes p c) := by
  unfold is_parent; infer_instance

instance (nodes : List bh_graph_node) (p c : Int) : Decidable (is_child nodes p c) := by
  unfold is_child; infer_instance

/-- Node `a` is a proper ancestor of `b` along parent handles. -/
def Ancestor (nodes : List bh_graph_node) (a b : Int) : Prop :=
  Relation.TransGen (is_parent nodes) a b

/-- There is a path of at least one step from `a` to `b` along child handles. -/
def ChildPath (nodes : List bh_graph_node) (a b : Int) : Prop :=
  Relation.TransGen (is_child nodes) a b

/-! ## Sample opcodes and instructions -/

/-- A sample opcode table for the concrete runs: `ADD` and `MUL` take three
operands, `FILL` two (output and a constant), `FREE` one; opcode `0` is the
user function. -/
def demo_opcodes : bh_opcodes :=
  { BH_USERFUNC := 0
    bh_operands := fun op => if op = 1 ∨ op = 2 then 3 else if op = 3 then 2 else 1 }

/-- The instruction `ADD(out, in1, in2)` on three bases. -/
def ADD (out in1 in2 : Nat) : bh_instruction := ⟨1, [⟨some out⟩, ⟨some in1⟩, ⟨some in2⟩], none⟩

/-- The instruction `MUL(out, in1, in2)` on three bases. -/
def MUL (out in1 in2 : Nat) : bh_instruction := ⟨2, [⟨some out⟩, ⟨some in1⟩, ⟨some in2⟩], none⟩

/-- A unary instruction `out = f(in1)` on two bases. -/
def COPY (out in1 : Nat) : bh_instruction := ⟨3, [⟨some out⟩, ⟨some in1⟩, ⟨none⟩], none⟩

/-- The instruction `FILL(out, constant)`: the input is a constant. -/
def FILL (out : Nat) : bh_instruction := ⟨3, [⟨some out⟩, ⟨none⟩, ⟨none⟩], none⟩

/-- The instruction `FREE(out)`. -/
def FREE (out : Nat) : bh_instruction := ⟨4, [⟨some out⟩, ⟨none⟩, ⟨none⟩], none⟩

/-- An unbuilt IR holding the instruction list `L`, as `bh_graph_create`
leaves it. -/
def fresh_ir (L : List bh_instruction) : bh_ir :=
  { nodes := [], instructions := L, root := INVALID_NODE }

/-- The list `[b3 = f(b3); FILL(b1); b2 = f(b1); b2 = f(b2); ADD(b3, b1, b2)]`:
its first instruction reads and writes base 3, its last one writes base 3 again
and reads two other bases. -/
def dup_edge_list : List bh_instruction :=
  [COPY 3 3, FILL 1, COPY 2 1, COPY 2 2, ADD 3 1 2]

/-- The list `[FILL(c); FILL(d); ADD(a,a,k); ADD(a,c,d)]` with
`a = 1, c = 3, d = 4, k = 9`. -/
def fan_in_list : List bh_instruction :=
  [FILL 3, FILL 4, ADD 1 1 9, ADD 1 3 4]

/-- The fresh iterator on the IR created from `L`, with graph building
enabled and the iterator record allocated. -/
def fresh_iterator (T : bh_opcodes) (mem : Option Nat) (L : List bh_instruction) :
    Option bh_graph_iterator :=
  (bh_graph_iterator_create T mem true false (fresh_ir L)).map (fun p => p.2)

/-- Node `n` has both parent slots satisfied by the set `S`. -/
def ready (nodes : List bh_graph_node) (S : List Int) (n : Int) : Prop :=
  ((NODE_LOOKUP nodes n).left_parent = INVALID_NODE ∨ (NODE_LOOKUP nodes n).left_parent ∈ S)
  ∧ ((NODE_LOOKUP nodes n).right_parent = INVALID_NODE ∨ (NODE_LOOKUP nodes n).right_parent ∈ S)

instance (nodes : List bh_graph_node) (S : List Int) (n : Int) : Decidable (ready nodes S n) := by
  unfold ready; infer_instance

/-- The work queue after node `n` is emitted with `rest` behind it: the left
child goes to the front, the right child (when different) to the back. -/
def queue_after_emit (nodes : List bh_graph_node) (n : Int) (rest : List Int) : List Int :=
  let b1 :=
    if (NODE_LOOKUP nodes n).left_child ≠ INVALID_NODE then
      (NODE_LOOKUP nodes n).left_child :: rest
    else rest
  if (NODE_LOOKUP nodes n).right_child ≠ INVALID_NODE
      ∧ (NODE_LOOKUP nodes n).right_child ≠ (NODE_LOOKUP nodes n).left_child then
    b1 ++ [(NODE_LOOKUP nodes n).right_child]
  else b1

/-- The results of the first `k` calls of `bh_graph_iterator_next_node`, each
call made on the iterator the previous one left behind. -/
def next_node_calls : Nat → bh_graph_iterator → List next_node_result
  | 0, _ => []
  | k + 1, it =>
    match bh_graph_iterator_next_node it with
    | none => []
    | some r => r :: next_node_calls k r.it

/-- The nodes emitted by a sequence of calls: the values stored by the calls
that returned `BH_SUCCESS`, in call order. -/
def emitted_nodes (rs : List next_node_result) : List Int :=
  rs.filterMap (fun r => if r.status = BH_SUCCESS then r.node else none)

/-- Node `x` is a candidate that cannot be emitted yet: a valid handle, not
scheduled, with a parent slot that is not satisfied. -/
def stuck (it : bh_graph_iterator) (x : Int) : Prop :=
  x ≠ INVALID_NODE ∧ x ∉ it.scheduled ∧ ¬ ready it.bhir.nodes it.scheduled x

/-- Node `x` can be emitted now: a valid handle, not scheduled, both parent
slots satisfied. -/
def schedulable (it : bh_graph_iterator) (x : Int) : Prop :=
  x ≠ INVALID_NODE ∧ x ∉ it.scheduled ∧ ready it.bhir.nodes it.scheduled x

instance (it : bh_graph_iterator) (x : Int) : Decidable (stuck it x) := by
  unfold stuck; infer_instance

instance (it : bh_graph_iterator) (x : Int) : Decidable (schedulable it x) := by
  unfold schedulable; infer_instance

/-- The iterator states a caller can reach: a freshly created iterator, and
from there any sequence of `next_node`, `next_instruction` and `reset`
calls. -/
inductive Reachable : bh_graph_iterator → Prop where
  | fresh (T : bh_opcodes) (mem : Option Nat) (alloc : Bool) (disable : Bool)
      (bhir ir : bh_ir) (it : bh_graph_iterator)
      (h : bh_graph_iterator_create T mem alloc disable bhir = some (ir, it)) : Reachable it
  | next_node (it : bh_graph_iterator) (r : next_node_result) (h : Reachable it)
      (hr : bh_graph_iterator_next_node it = some r) : Reachable r.it
  | next_instruction (it : bh_graph_iterator) (r : next_instruction_result) (h : Reachable it)
      (hr : bh_graph_iterator_next_instruction it = some r) : Reachable r.it
  | reset (it : bh_graph_iterator) (h : Reachable it) : Reachable (bh_graph_iterator_reset it)

/-- The scheduled list, newest first, lists every node after its parents and
without repetition. -/
def parents_first (nodes : List bh_graph_node) : List Int → Prop
  | [] => True
  | n :: post => n ∉ post ∧ ready nodes post n ∧ parents_first nodes post

/-- The invariant of the iterator between and inside calls: `last_blocked` is
either clear or names a stuck node that waits in the queue (or the queue is
empty, or its head can be emitted at once); a node other than the root is
only ever looked at after the root was emitted with no parents. -/
structure iterator_inv (it : bh_graph_iterator) : Prop where
  mark : it.last_blocked = INVALID_NODE ∨
    (stuck it it.last_blocked ∧
      (it.last_blocked ∈ it.blocked ∨ it.blocked = []
        ∨ ∃ n rest, it.blocked = n :: rest ∧ schedulable it n))
  mark_root : it.last_blocked = INVALID_NODE ∨ it.last_blocked = it.bhir.root
    ∨ ready it.bhir.nodes [] it.bhir.root
  queue_root : (it.scheduled = [] ∧ ∀ x ∈ it.blocked, x = it.bhir.root)
    ∨ ready it.bhir.nodes [] it.bhir.root
  order : parents_first it.bhir.nodes it.scheduled

/-- A corrupted arena: two nodes, each listing the other as its left parent;
node 0 is the root. -/
def two_cycle_ir : bh_ir :=
  { nodes := [⟨BH_COLLECTION, INVALID_INSTRUCTION, INVALID_NODE, INVALID_NODE, 1, INVALID_NODE⟩,
              ⟨BH_COLLECTION, INVALID_INSTRUCTION, INVALID_NODE, INVALID_NODE, 0, INVALID_NODE⟩]
    instructions := []
    root := 0 }

/-- The fresh iterator on `two_cycle_ir`. -/
def two_cycle_iterator : bh_graph_iterator :=
  { scheduled := [], blocked := [0], bhir := two_cycle_ir, current := 0,
    last_blocked := INVALID_NODE }

/-- Handle `x` names a slot of the arena. -/
def valid_handle (nodes : List bh_graph_node) (x : Int) : Prop :=
  0 ≤ x ∧ x < (nodes.length : Int)

instance (nodes : List bh_graph_node) (x : Int) : Decidable (valid_handle nodes x) := by
  unfold valid_handle; infer_instance

/-- The node graph has no cycle, neither along child handles nor along parent
handles. -/
def acyclic (nodes : List bh_graph_node) : Prop :=
  ∀ n, ¬ ChildPath nodes n n ∧ ¬ Ancestor nodes n n

/-- A node graph as the scheduler expects it: handles are `INVALID_NODE` or in
range, child and parent handles mirror each other, the root is the only node
without a parent, and there is no cycle. -/
structure consistent_dag (nodes : List bh_graph_node) (root : Int) : Prop where
  root_valid : valid_handle nodes root
  child_valid : ∀ p c, valid_handle nodes p → is_child nodes p c → valid_handle nodes c
  parent_valid : ∀ p c, valid_handle nodes c → is_parent nodes p c → valid_handle nodes p
  child_parent : ∀ p c, is_child nodes p c → is_parent nodes p c
  parent_child : ∀ p c, is_parent nodes p c → is_child nodes p c
  root_parentless : (NODE_LOOKUP nodes root).left_parent = INVALID_NODE
    ∧ (NODE_LOOKUP nodes root).right_parent = INVALID_NODE
  only_root : ∀ x, valid_handle nodes x → x ≠ root →
    (NODE_LOOKUP nodes x).left_parent ≠ INVALID_NODE
      ∨ (NODE_LOOKUP nodes x).right_parent ≠ INVALID_NODE
  no_cycle : acyclic nodes

/-- The number of distinct parent slots of `x` that hold a scheduled node. -/
def scheduled_parents (nodes : List bh_graph_node) (S : List Int) (x : Int) : Nat :=
  (if (NODE_LOOKUP nodes x).left_parent ∈ S then 1 else 0)
  + (if (NODE_LOOKUP nodes x).right_parent ∈ S
        ∧ (NODE_LOOKUP nodes x).right_parent ≠ (NODE_LOOKUP nodes x).left_parent then 1 else 0)

/-- The invariant of a traversal of a consistent graph: the scheduled nodes
are valid and distinct, every child of a scheduled node is scheduled or
queued, and a node is queued at most once per scheduled parent. -/
structure live_inv (it : bh_graph_iterator) : Prop where
  graph : consistent_dag it.bhir.nodes it.bhir.root
  root_seen : it.bhir.root ∈ it.scheduled ∨ it.bhir.root ∈ it.blocked
  children_seen : ∀ p ∈ it.scheduled, ∀ c, is_child it.bhir.nodes p c →
    c ∈ it.scheduled ∨ c ∈ it.blocked
  copies : ∀ x, x ≠ INVALID_NODE → x ∉ it.scheduled → x ≠ it.bhir.root →
    it.blocked.count x ≤ scheduled_parents it.bhir.nodes it.scheduled x
  queue_valid : ∀ x ∈ it.blocked, x = INVALID_NODE ∨ valid_handle it.bhir.nodes x
  scheduled_valid : ∀ x ∈ it.scheduled, valid_handle it.bhir.nodes x
  scheduled_nodup : it.scheduled.Nodup

/-- The IR built from `[ADD(b1,b2,b3); MUL(b4,b1,b1)]` (a read after a
write). -/
def raw_ir : bh_ir :=
  (bh_graph_parse demo_opcodes none (fresh_ir [ADD 1 2 3, MUL 4 1 1])).2

/-- The fresh iterator on `raw_ir`. -/
def raw_iterator : bh_graph_iterator :=
  { scheduled := [], blocked := [0], bhir := raw_ir, current := 0,
    last_blocked := INVALID_NODE }

/-- The rank conditions on one node `nd` stored at handle `x` of an arena with
`n` slots: every handle in it is `INVALID_NODE` or in range, child handles
point to nodes of higher rank and parent handles to nodes of lower rank. -/
structure node_ok (n : Nat) (rank : Int → ℚ) (x : Int) (nd : bh_graph_node) : Prop where
  left_child : nd.left_child = INVALID_NODE
    ∨ ((0 ≤ nd.left_child ∧ nd.left_child < (n : Int)) ∧ rank x < rank nd.left_child)
  right_child : nd.right_child = INVALID_NODE
    ∨ ((0 ≤ nd.right_child ∧ nd.right_child < (n : Int)) ∧ rank x < rank nd.right_child)
  left_parent : nd.left_parent = INVALID_NODE
    ∨ ((0 ≤ nd.left_parent ∧ nd.left_parent < (n : Int)) ∧ rank nd.left_parent < rank x)
  right_parent : nd.right_parent = INVALID_NODE
    ∨ ((0 ≤ nd.right_parent ∧ nd.right_parent < (n : Int)) ∧ rank nd.right_parent < rank x)

/-- Every node of the arena satisfies the rank conditions for `rank`. -/
def ranked (nodes : List bh_graph_node) (rank : Int → ℚ) : Prop :=
  ∀ x, valid_handle nodes x → node_ok nodes.length rank x (NODE_LOOKUP nodes x)

/-- The arena `nodes'` with rank `rank'` extends `nodes` with rank `rank`: old
nodes keep their rank, and every node added since ranks below `top`. -/
structure rank_ext (nodes nodes' : List bh_graph_node) (rank rank' : Int → ℚ) (top : ℚ) :
    Prop where
  agree : ∀ x, valid_handle nodes x → rank' x = rank x
  length_le : nodes.length ≤ nodes'.length
  added : ∀ x, valid_handle nodes' x → ¬ valid_handle nodes x → rank' x < top

/-- While the edges of one instruction are installed: the current arena
`cur` satisfies the rank conditions for some rank that extends the rank the
arena `base` had when the instruction's node was allocated. -/
def during (base : List bh_graph_node) (rank : Int → ℚ) (top : ℚ)
    (cur : List bh_graph_node) : Prop :=
  ∃ rank', ranked cur rank' ∧ rank_ext base cur rank rank' top

/-- The invariant of the main loop of `bh_graph_parse` between two
instructions: the arena satisfies the rank conditions with every rank below
`B`, the handles kept in `writemap` and `readmap` are valid, and so is the
root. -/
structure parse_inv (root : Int) (st : parse_state) (rank : Int → ℚ) (B : ℚ) : Prop where
  ranked : ranked st.nodes rank
  bound : ∀ x, valid_handle st.nodes x → rank x < B
  writers : ∀ b v, st.writemap b = some v → valid_handle st.nodes v
  readers : ∀ b l, st.readmap b = some l → ∀ v ∈ l, valid_handle st.nodes v
  root_valid : valid_handle st.nodes root

/-- The run that exhausts the node arena: `k + 1` times `FILL(b1)` (a chain of
writes to base 1), then `FILL(b2)`, `FILL(b3)` and `ADD(b1, b2, b3)`. Its build
asks for `k + 7` nodes, the last one for the fan-in of `ADD`. -/
def oom_list (k : Nat) : List bh_instruction :=
  List.replicate (k + 1) (FILL 1) ++ [FILL 2, FILL 3, ADD 1 2 3]

/-- The arena `nodes` has `len` slots and holds the node `f x` at handle `x`. -/
def node_rep (nodes : List bh_graph_node) (len : Nat) (f : Int → bh_graph_node) : Prop :=
  nodes.length = len ∧ ∀ x, NODE_LOOKUP nodes x = f x

/-- The node at handle `x` after the first `j` instructions `FILL(b1)`: the
root with node 1 as left child, and the chain of the nodes `1 .. j`, each the
left child of the one before. -/
def chain_node (j : Nat) (x : Int) : bh_graph_node :=
  if x = 0 then
    ⟨BH_COLLECTION, INVALID_INSTRUCTION, if j = 0 then INVALID_NODE else 1, INVALID_NODE,
      INVALID_NODE, INVALID_NODE⟩
  else if 1 ≤ x ∧ x ≤ (j : Int) then
    ⟨BH_INSTRUCTION, x - 1, if x < (j : Int) then x + 1 else INVALID_NODE, INVALID_NODE,
      x - 1, INVALID_NODE⟩
  else default

/-- The build state after the first `j` instructions `FILL(b1)`. -/
structure chain_state (j : Nat) (st : parse_state) : Prop where
  rep : node_rep st.nodes (j + 1) (chain_node j)
  writer : st.writemap (some 1) = if j = 0 then none else some (j : Int)
  no_writer : ∀ b, b ≠ some 1 → st.writemap b = none
  no_reader : ∀ b, st.readmap b = none

/-- The node at handle `x` of the graph built from `oom_list k` in an arena
of `k + 6` slots: root `0`, the chain `1 .. k + 1` of the `FILL(b1)` nodes,
`FILL(b2)` at `k + 2`, `FILL(b3)` at `k + 3`, the collection node of the root
at `k + 4` and `ADD` at `k + 5`, whose parents are `k + 1` and `k + 2` only. -/
def oom_node (k : Nat) (x : Int) : bh_graph_node :=
  if x = 0 then
    ⟨BH_COLLECTION, INVALID_INSTRUCTION, (k : Int) + 4, (k : Int) + 2, INVALID_NODE, INVALID_NODE⟩
  else if x = (k : Int) + 2 then
    ⟨BH_INSTRUCTION, (k : Int) + 1, (k : Int) + 5, INVALID_NODE, 0, INVALID_NODE⟩
  else if x = (k : Int) + 3 then
    ⟨BH_INSTRUCTION, (k : Int) + 2, (k : Int) + 5, INVALID_NODE, (k : Int) + 4, INVALID_NODE⟩
  else if x = (k : Int) + 4 then
    ⟨BH_COLLECTION, INVALID_INSTRUCTION, 1, (k : Int) + 3, 0, INVALID_NODE⟩
  else if x = (k : Int) + 5 then
    ⟨BH_INSTRUCTION, (k : Int) + 3, INVALID_NODE, INVALID_NODE, (k : Int) + 1, (k : Int) + 2⟩
  else if 1 ≤ x ∧ x ≤ (k : Int) + 1 then
    ⟨BH_INSTRUCTION, x - 1, if x < (k : Int) + 1 then x + 1 else (k : Int) + 5, INVALID_NODE,
      if x = 1 then (k : Int) + 4 else x - 1, INVALID_NODE⟩
  else default

/-- The graph after `FILL(b2)`: the chain plus the node `k + 2` as right child
of the root. -/
def oom_node2 (k : Nat) (x : Int) : bh_graph_node :=
  if x = 0 then
    ⟨BH_COLLECTION, INVALID_INSTRUCTION, 1, (k : Int) + 2, INVALID_NODE, INVALID_NODE⟩
  else if x = (k : Int) + 2 then
    ⟨BH_INSTRUCTION, (k : Int) + 1, INVALID_NODE, INVALID_NODE, 0, INVALID_NODE⟩
  else chain_node (k + 1) x

/-- The graph after `FILL(b3)`: the collection node `k + 4` has taken node 1
and the new node `k + 3` and is the left child of the root. -/
def oom_node3 (k : Nat) (x : Int) : bh_graph_node :=
  if x = 0 then
    ⟨BH_COLLECTION, INVALID_INSTRUCTION, (k : Int) + 4, (k : Int) + 2, INVALID_NODE, INVALID_NODE⟩
  else if x = (k : Int) + 2 then
    ⟨BH_INSTRUCTION, (k : Int) + 1, INVALID_NODE, INVALID_NODE, 0, INVALID_NODE⟩
  else if x = (k : Int) + 3 then
    ⟨BH_INSTRUCTION, (k : Int) + 2, INVALID_NODE, INVALID_NODE, (k : Int) + 4, INVALID_NODE⟩
  else if x = (k : Int) + 4 then
    ⟨BH_COLLECTION, INVALID_INSTRUCTION, 1, (k : Int) + 3, 0, INVALID_NODE⟩
  else if x = 1 then
    ⟨BH_INSTRUCTION, 0, if (1 : Int) < (k : Int) + 1 then 2 else INVALID_NODE, INVALID_NODE,
      (k : Int) + 4, INVALID_NODE⟩
  else chain_node (k + 1) x

/-- The order in which the nodes of the graph `oom_node k` are emitted: the
root, its collection node, the chain `1 .. k + 1`, `FILL(b2)`, then `ADD`
(node `k + 5`) and only then `FILL(b3)` (node `k + 3`). -/
def oom_order (k : Nat) : List Int :=
  [0, (k : Int) + 4] ++ (List.range' 1 (k + 1)).map (fun (j : Nat) => (j : Int))
    ++ [(k : Int) + 2, (k : Int) + 5, (k : Int) + 3]

/-- The `scheduled` set once the root, the collection node and the chain nodes
`1 .. i` are emitted. -/
def oom_sched (k : Nat) : Nat → List Int
  | 0 => [(k : Int) + 4, 0]
  | i + 1 => ((i + 1 : Nat) : Int) :: oom_sched k i

/-- The iterator once the root, the collection node and the chain nodes
`1 .. i` are emitted. -/
def oom_state (k : Nat) (ir : bh_ir) (i : Nat) : bh_graph_iterator :=
  { scheduled := oom_sched k i
    blocked := [if i < k + 1 then (i : Int) + 1 else (k : Int) + 5, (k : Int) + 2, (k : Int) + 3]
    bhir := ir
    current := 0
    last_blocked := INVALID_NODE }

/-- A user-function instruction with two outputs, which `bh_graph_getIds`
rejects. -/
def BAD_USERFUNC : bh_instruction :=
  ⟨0, [⟨some 1⟩, ⟨none⟩, ⟨none⟩], some ⟨2, 0, [⟨some 1⟩, ⟨some 2⟩]⟩⟩

/-- A user-function instruction `out = f(in1, in2)` with one output and two
inputs. -/
def USERFUNC3 (out in1 in2 : Nat) : bh_instruction :=
  ⟨0, [⟨none⟩, ⟨none⟩, ⟨none⟩], some ⟨1, 2, [⟨some out⟩, ⟨some in1⟩, ⟨some in2⟩]⟩⟩

/-- The results of the first `k` calls of `bh_graph_iterator_next_instruction`,
each call made on the iterator the previous one left behind. -/
def next_instruction_calls : Nat → bh_graph_iterator → List next_instruction_result
  | 0, _ => []
  | k + 1, it =>
    match bh_graph_iterator_next_instruction it with
    | none => []
    | some r => r :: next_instruction_calls k r.it

/-- The type and instruction index of every node, in arena order. -/
def typing (nodes : List bh_graph_node) : List (bh_node_type × Int) :=
  nodes.map (fun n => (n.type, n.instruction))

/-- The instruction indices of the `BH_INSTRUCTION` entries of a typing list,
in order. -/
def typing_ids (tl : List (bh_node_type × Int)) : List Int :=
  (tl.filter (fun p => decide (p.1 = BH_INSTRUCTION))).map (fun p => p.2)

/-- The instruction indices of the `BH_INSTRUCTION` nodes, in arena order. -/
def instruction_ids (nodes : List bh_graph_node) : List Int :=
  (nodes.filter (fun n => decide (n.type = BH_INSTRUCTION))).map (fun n => n.instruction)

/-- Every handle a traversal of the IR can meet: the root and what the child
slots of the arena hold. -/
def handle_list (ir : bh_ir) : List Int :=
  ir.root :: ir.nodes.flatMap (fun n => [n.left_child, n.right_child])

/-- The scheduled nodes are distinct, and they and the queued nodes are among
the handles of the IR. -/
structure bounded_inv (it : bh_graph_iterator) : Prop where
  scheduled_nodup : it.scheduled.Nodup
  scheduled_mem : ∀ x ∈ it.scheduled, x ∈ handle_list it.bhir
  blocked_mem : ∀ x ∈ it.blocked, x ∈ handle_list it.bhir

/-- The buffer after the copy loop of `bh_graph_serialize` has gone through
the emitted arena indices `em`, starting with the running count `count`: the
instruction at index `e` of `arena` is stored at slot `count` while
`count < cap`. -/
def serialize_writes (cap : Int) (arena : List bh_instruction) :
    List bh_instruction → Int → List Int → List bh_instruction
  | buffer, _, [] => buffer
  | buffer, count, e :: rest =>
    serialize_writes cap arena
      (if count < cap then buffer.set count.toNat (INSTRUCTION_LOOKUP arena e) else buffer)
      (count + 1) rest

/-- The iterator on `raw_ir` after one call of `next_node`. -/
def raw_iterator_mid : bh_graph_iterator :=
  ((bh_graph_iterator_next_node raw_iterator).getD ⟨BH_ERROR, none, raw_iterator⟩).it

/-- The test of line 391,
`NODE_LOOKUP(selfNode).left_parent == INVALID_NODE && NODE_LOOKUP(selfNode).right_parent`:
the second operand is the handle itself, which counts as true when it is not
zero. -/
def root_attach_test (nodes : List bh_graph_node) (selfNode : Int) : Prop :=
  (NODE_LOOKUP nodes selfNode).left_parent = INVALID_NODE
    ∧ (NODE_LOOKUP nodes selfNode).right_parent ≠ 0

instance (nodes : List bh_graph_node) (selfNode : Int) :
    Decidable (root_attach_test nodes selfNode) := by
  unfold root_attach_test; infer_instance

/-- The first part of one iteration of the main loop of `bh_graph_parse`
(lines 281-389): decode the instruction, allocate its node, install the
write-after-write, write-after-read and read-after-write edges and update the
two maps. The result is the new node and the build state right before the
test of line 391; `none` is any of the `delete_all_nodes; return BH_ERROR`
exits. -/
def parse_edges (T : bh_opcodes) (mem : Option Nat) (st : parse_state)
    (i : Int) (instr : bh_instruction) : Option (Int × parse_state) :=
  let ids := bh_graph_getIds T instr
  if ids.1 ≠ BH_SUCCESS then none
  else
    let selfId := ids.2.selfId
    let leftId := ids.2.leftId
    let rightId := ids.2.rightId
    let r := bh_graph_new_node mem st.nodes BH_INSTRUCTION i
    let selfNode := r.1
    if selfNode = INVALID_NODE then none
    else
      let a1 : bh_error × List bh_graph_node :=
        match st.writemap selfId with
        | some oldTarget => bh_grap_node_add_child mem r.2 oldTarget selfNode
        | none => (BH_SUCCESS, r.2)
      if a1.1 ≠ BH_SUCCESS then none
      else
        let writemap := map_set st.writemap selfId selfNode
        let leftDep := (writemap leftId).getD INVALID_NODE
        let rightDep := (writemap rightId).getD INVALID_NODE
        let a2 : bh_error × List bh_graph_node :=
          match st.readmap selfId with
          | some readers => parse_war_loop mem selfNode leftDep rightDep a1.2 readers
          | none => (BH_SUCCESS, a1.2)
        if a2.1 ≠ BH_SUCCESS then none
        else
          let readmap1 :=
            match st.readmap selfId with
            | some _ => map_erase st.readmap selfId
            | none => st.readmap
          let readmap2 := if leftId ≠ none then readmap_add readmap1 leftId selfNode else readmap1
          let readmap3 :=
            if rightId ≠ none ∧ rightId ≠ leftId then readmap_add readmap2 rightId selfNode
            else readmap2
          let a3 : bh_error × List bh_graph_node :=
            if leftDep ≠ INVALID_NODE ∧ leftDep ≠ selfNode then
              bh_grap_node_add_child mem a2.2 leftDep selfNode
            else (BH_SUCCESS, a2.2)
          if a3.1 ≠ BH_SUCCESS then none
          else
            let a4 : bh_error × List bh_graph_node :=
              if rightDep ≠ INVALID_NODE ∧ rightDep ≠ leftDep ∧ rightDep ≠ selfNode then
                bh_grap_node_add_child mem a3.2 rightDep selfNode
              else (BH_SUCCESS, a3.2)
            if a4.1 ≠ BH_SUCCESS then none
            else some (selfNode, { nodes := a4.2, writemap := writemap, readmap := readmap3 })

/-- The root-attachment step of the main loop (lines 391-398), run on the
new node and the state `parse_edges` leaves: when the test of line 391 holds,
the node is added as a child of the root. -/
def parse_root_attach (mem : Option Nat) (root : Int) (e : Int × parse_state) :
    Option parse_state :=
  let a5 : bh_error × List bh_graph_node :=
    if root_attach_test e.2.nodes e.1 then bh_grap_node_add_child mem e.2.nodes root e.1
    else (BH_SUCCESS, e.2.nodes)
  if a5.1 ≠ BH_SUCCESS then none
  else some { nodes := a5.2, writemap := e.2.writemap, readmap := e.2.readmap }

/-- No node of the arena has a right parent without a left parent. -/
def parents_ordered (nodes : List bh_graph_node) : Prop :=
  ∀ x, (NODE_LOOKUP nodes x).left_parent = INVALID_NODE →
    (NODE_LOOKUP nodes x).right_parent = INVALID_NODE

/-- What the main loop of `bh_graph_parse` keeps true between two
instructions about parent slots and map entries: no node has a right parent
without a left parent, and the maps hold no `INVALID_NODE`. -/
structure attach_inv (st : parse_state) : Prop where
  ordered : parents_ordered st.nodes
  writers : ∀ b v, st.writemap b = some v → v ≠ INVALID_NODE
  readers : ∀ b l, st.readmap b = some l → ∀ v ∈ l, v ≠ INVALID_NODE

/-- The build state after the main loop has gone through `[FILL(b1)]`. -/
def attach_demo_state : parse_state :=
  (parse_loop demo_opcodes none 0
    ⟨[⟨BH_COLLECTION, INVALID_INSTRUCTION, INVALID_NODE, INVALID_NODE, INVALID_NODE,
      INVALID_NODE⟩], fun _ => none, fun _ => none⟩ 0 [FILL 1]).getD
    ⟨[], fun _ => none, fun _ => none⟩

/-- The new node and the build state after the edges of `ADD(b1, b1, b2)`,
the second instruction of `[FILL(b1); ADD(b1, b1, b2)]`, are installed. -/
def attach_demo_edges : Int × parse_state :=
  (parse_edges demo_opcodes none attach_demo_state 1 (ADD 1 1 2)).getD (0, attach_demo_state)

/-- Modelled from the spec: "add `n` as a child of ..." in steps 3, 5, 7 and 9
of the main loop of section 4.3. The edge is installed by
`bh_grap_node_add_child`; "all errors bubble to the caller", so a failed call
ends the build. -/
def reference_edge (mem : Option Nat) (nodes : List bh_graph_node) (parent child : Int) :
    Option (List bh_graph_node) :=
  if (bh_grap_node_add_child mem nodes parent child).1 = BH_SUCCESS then
    some (bh_grap_node_add_child mem nodes parent child).2
  else none

/-- Modelled from the spec: step 5 of the main loop, "for each reader `r` in
`readmap[self]` that is neither `leftDep` nor `rightDep`, add `n` as a child
of `r`". The readers are visited in ascending order. -/
def reference_war (mem : Option Nat) (n : Int) (leftDep rightDep : Option Int) :
    List bh_graph_node → List Int → Option (List bh_graph_node)
  | nodes, [] => some nodes
  | nodes, r :: rest =>
    if some r ≠ leftDep ∧ some r ≠ rightDep then
      (reference_edge mem nodes r n).bind
        (fun nodes1 => reference_war mem n leftDep rightDep nodes1 rest)
    else reference_war mem n leftDep rightDep nodes rest

/-- Modelled from the spec: steps 1 to 9 of the main loop of section 4.3 for
the instruction at arena index `i`, written step by step. "1. Decode ... On
failure, delete all nodes and fail. 2. Allocate an INSTRUCTION node `n`. 3. WAW
hazard: if `writemap[self]` exists, add `n` as a child of that prior writer.
4. let `leftDep = writemap.get(left)`, `rightDep = writemap.get(right)`. 5. WAR
hazards ... Then clear `readmap[self]`. 6. Record `n` as a current reader of
`left` and of `right` (skipping `right` when `right == left`). 7. if
`leftDep ≠ none ∧ leftDep ≠ n`, add `n` as child of `leftDep`. Likewise for
`rightDep`, additionally skipping when `rightDep == leftDep`. 8. Update
`writemap[self] = n`. 9. Root attachment: if after all edges, `n` still has no
parent, add it as a child of `root`." An absent base (`none`, "operand slot
unused") is never recorded as read; as a key of `writemap` it is a key like
any other. With `write_first = false` the steps run in the order written
(step 4 reads `writemap` before step 8 updates it); with `write_first = true`
step 8 runs right after step 3. `none` is the failed build. -/
def reference_instruction (write_first : Bool) (T : bh_opcodes) (mem : Option Nat) (root : Int)
    (st : parse_state) (i : Int) (instr : bh_instruction) : Option parse_state :=
  -- step 1
  if (bh_graph_getIds T instr).1 ≠ BH_SUCCESS then none
  else
    let self := (bh_graph_getIds T instr).2.selfId
    let left := (bh_graph_getIds T instr).2.leftId
    let right := (bh_graph_getIds T instr).2.rightId
    -- step 2
    let n := (bh_graph_new_node mem st.nodes BH_INSTRUCTION i).1
    if n = INVALID_NODE then none
    else
      -- step 3
      (match st.writemap self with
        | some w => reference_edge mem (bh_graph_new_node mem st.nodes BH_INSTRUCTION i).2 w n
        | none => some (bh_graph_new_node mem st.nodes BH_INSTRUCTION i).2).bind
      (fun nodes3 =>
        -- step 4
        let known := if write_first = true then map_set st.writemap self n else st.writemap
        let leftDep := known left
        let rightDep := known right
        -- step 5
        (reference_war mem n leftDep rightDep nodes3 ((st.readmap self).getD [])).bind
        (fun nodes5 =>
          let readmap5 := map_erase st.readmap self
          -- step 6
          let readmap6 := if left ≠ none then readmap_add readmap5 left n else readmap5
          let readmap7 :=
            if right ≠ none ∧ right ≠ left then readmap_add readmap6 right n else readmap6
          -- step 7
          (match leftDep with
            | some d => if d ≠ n then reference_edge mem nodes5 d n else some nodes5
            | none => some nodes5).bind
          (fun nodes7 =>
            (match rightDep with
              | some d =>
                if d ≠ n ∧ rightDep ≠ leftDep then reference_edge mem nodes7 d n
                else some nodes7
              | none => some nodes7).bind
            (fun nodes8 =>
              -- step 9
              (if (NODE_LOOKUP nodes8 n).left_parent = INVALID_NODE
                  ∧ (NODE_LOOKUP nodes8 n).right_parent = INVALID_NODE then
                reference_edge mem nodes8 root n
              else some nodes8).bind
              (fun nodes9 =>
                -- step 8
                some { nodes := nodes9, writemap := map_set st.writemap self n,
                       readmap := readmap7 })))))

/-- Modelled from the spec: "For each instruction `i` in the arena", from
arena index `i` on. -/
def reference_loop (write_first : Bool) (T : bh_opcodes) (mem : Option Nat) (root : Int) :
    parse_state → Int → List bh_instruction → Option parse_state
  | st, _, [] => some st
  | st, i, instr :: rest =>
    (reference_instruction write_first T mem root st i instr).bind
      (fun st1 => reference_loop write_first T mem root st1 (i + 1) rest)

/-- Modelled from the spec: the reference builder of section 4.3. "`ir_build`
— idempotent; no-op when already built." "Initialize `root` as a fresh
COLLECTION node. For each instruction ... At end, ... set `ir.root = root`,
return success." "On any build-time error, `delete_all_nodes` restores the IR
to pre-build state". -/
def reference_parse (write_first : Bool) (T : bh_opcodes) (mem : Option Nat) (bhir : bh_ir) :
    bh_error × bh_ir :=
  if bhir.root ≥ 0 then (BH_SUCCESS, bhir)
  else
    match reference_loop write_first T mem
        (bh_graph_new_node mem bhir.nodes BH_COLLECTION INVALID_INSTRUCTION).1
        ⟨(bh_graph_new_node mem bhir.nodes BH_COLLECTION INVALID_INSTRUCTION).2,
          fun _ => none, fun _ => none⟩ 0 bhir.instructions with
    | none => (BH_ERROR, bh_graph_delete_all_nodes bhir)
    | some st =>
      (BH_SUCCESS, { bhir with
        nodes := st.nodes
        root := (bh_graph_new_node mem bhir.nodes BH_COLLECTION INVALID_INSTRUCTION).1 })

/-- What the rewiring step of the fan-in overflow does to the node it reads:
the child slot that holds `self` is redirected to `cn`, the left slot being
tested first. -/
def rewire_node (self cn : Int) (nd : bh_graph_node) : bh_graph_node :=
  if nd.left_child = self then { nd with left_child := cn }
  else if nd.right_child = self then { nd with right_child := cn }
  else nd

/-- The node at handle `x` after the rewiring of the two parents `p1` and `p2`
of `self` (lines 795-803), given the node `nd` before. -/
def rewired (self cn p1 p2 x : Int) (nd : bh_graph_node) : bh_graph_node :=
  let nd1 := if x = p1 then rewire_node self cn nd else nd
  if x = p2 then rewire_node self cn nd1 else nd1

/-- Both parent slots of `self` are taken by nodes other than `newparent`:
the case in which `bh_grap_node_add_parent` creates a collection node. -/
def fan_in_full (nodes : List bh_graph_node) (self newparent : Int) : Prop :=
  (NODE_LOOKUP nodes self).left_parent ≠ INVALID_NODE
  ∧ (NODE_LOOKUP nodes self).right_parent ≠ INVALID_NODE
  ∧ (NODE_LOOKUP nodes self).left_parent ≠ newparent
  ∧ (NODE_LOOKUP nodes self).right_parent ≠ newparent

/-- What a successful call `bh_grap_node_add_parent(self, newparent)` with a
valid `newparent` does to the arena `nodes`, read from the arena `u` after
the call. -/
structure parent_added (nodes u : List bh_graph_node) (child parent : Int) : Prop where
  lists : (NODE_LOOKUP u child).left_parent = parent
    ∨ (NODE_LOOKUP u child).right_parent = parent
  parents : ∀ x, x ≠ child → valid_handle nodes x →
    (NODE_LOOKUP u x).left_parent = (NODE_LOOKUP nodes x).left_parent
    ∧ (NODE_LOOKUP u x).right_parent = (NODE_LOOKUP nodes x).right_parent
  kind : ∀ x, valid_handle nodes x →
    (NODE_LOOKUP u x).type = (NODE_LOOKUP nodes x).type
    ∧ (NODE_LOOKUP u x).instruction = (NODE_LOOKUP nodes x).instruction
  left_child : ∀ x, valid_handle nodes x →
    (NODE_LOOKUP u x).left_child = (NODE_LOOKUP nodes x).left_child
    ∨ (fan_in_full nodes child parent ∧ (NODE_LOOKUP nodes x).left_child = child
        ∧ (NODE_LOOKUP u x).left_child = (nodes.length : Int)
        ∧ (x = (NODE_LOOKUP nodes child).left_parent ∨ x = (NODE_LOOKUP nodes child).right_parent))
  right_child : ∀ x, valid_handle nodes x →
    (NODE_LOOKUP u x).right_child = (NODE_LOOKUP nodes x).right_child
    ∨ (fan_in_full nodes child parent ∧ (NODE_LOOKUP nodes x).right_child = child
        ∧ (NODE_LOOKUP u x).right_child = (nodes.length : Int)
        ∧ (x = (NODE_LOOKUP nodes child).left_parent ∨ x = (NODE_LOOKUP nodes child).right_parent))
  rewires : fan_in_full nodes child parent → ∀ x,
    (x = (NODE_LOOKUP nodes child).left_parent ∨ x = (NODE_LOOKUP nodes child).right_parent) →
    (NODE_LOOKUP nodes x).left_child = child →
    (NODE_LOOKUP u x).left_child = (nodes.length : Int)
  new_node : fan_in_full nodes child parent →
    u.length = nodes.length + 1
    ∧ NODE_LOOKUP u (nodes.length : Int)
      = ⟨BH_COLLECTION, INVALID_INSTRUCTION, child, INVALID_NODE,
          (NODE_LOOKUP nodes child).left_parent, (NODE_LOOKUP nodes child).right_parent⟩
    ∧ (NODE_LOOKUP u child).left_parent = (nodes.length : Int)
    ∧ (NODE_LOOKUP u child).right_parent = parent
  no_node : ¬ fan_in_full nodes child parent →
    u.length = nodes.length
    ∧ ((NODE_LOOKUP nodes child).left_parent ≠ INVALID_NODE →
        (NODE_LOOKUP u child).left_parent = (NODE_LOOKUP nodes child).left_parent)
    ∧ ((NODE_LOOKUP nodes child).right_parent ≠ INVALID_NODE →
        (NODE_LOOKUP u child).right_parent = (NODE_LOOKUP nodes child).right_parent)

/-- The left child of `q`, if there is one, lists `q` in one of its parent
slots. -/
def linked_at (nodes : List bh_graph_node) (q : Int) : Prop :=
  (NODE_LOOKUP nodes q).left_child = INVALID_NODE
  ∨ (NODE_LOOKUP nodes (NODE_LOOKUP nodes q).left_child).left_parent = q
  ∨ (NODE_LOOKUP nodes (NODE_LOOKUP nodes q).left_child).right_parent = q

/-- Every left child lists its parent: what the fan-out overflow of
`bh_grap_node_add_child` relies on when it looks for the parent slot of the
displaced child (lines 752-760). -/
def left_linked (nodes : List bh_graph_node) : Prop :=
  ∀ q, linked_at nodes q

/-- The arena `n4` of `bh_grap_node_add_child(p, nc)` in its fan-out overflow
branch right before the nested `add_parent(nc, cn)` (lines 748-755), compared
with the arena `nodes` right after the collection node `cn` was allocated:
`cn` has the displaced child `d` and `nc` as children, the left child slot of
`p` holds `cn`, and the parent slot of `d` that held `p` (the left one being
tested first) holds `cn`. -/
structure fan_out_prepared (nodes n4 : List bh_graph_node) (p nc cn d : Int) : Prop where
  length : n4.length = nodes.length
  new_node : NODE_LOOKUP n4 cn
    = ⟨(NODE_LOOKUP nodes cn).type, (NODE_LOOKUP nodes cn).instruction, d, nc,
        (NODE_LOOKUP nodes cn).left_parent, (NODE_LOOKUP nodes cn).right_parent⟩
  kind : ∀ y, (NODE_LOOKUP n4 y).type = (NODE_LOOKUP nodes y).type
    ∧ (NODE_LOOKUP n4 y).instruction = (NODE_LOOKUP nodes y).instruction
  children : ∀ y, y ≠ cn → y ≠ p →
    (NODE_LOOKUP n4 y).left_child = (NODE_LOOKUP nodes y).left_child
    ∧ (NODE_LOOKUP n4 y).right_child = (NODE_LOOKUP nodes y).right_child
  parent_children : (NODE_LOOKUP n4 p).left_child = cn
    ∧ (NODE_LOOKUP n4 p).right_child = (NODE_LOOKUP nodes p).right_child
  parents : ∀ y, y ≠ d →
    (NODE_LOOKUP n4 y).left_parent = (NODE_LOOKUP nodes y).left_parent
    ∧ (NODE_LOOKUP n4 y).right_parent = (NODE_LOOKUP nodes y).right_parent
  displaced_left : (NODE_LOOKUP nodes d).left_parent = p →
    (NODE_LOOKUP n4 d).left_parent = cn
    ∧ (NODE_LOOKUP n4 d).right_parent = (NODE_LOOKUP nodes d).right_parent
  displaced_right : (NODE_LOOKUP nodes d).left_parent ≠ p →
    (NODE_LOOKUP n4 d).left_parent = (NODE_LOOKUP nodes d).left_parent
    ∧ (NODE_LOOKUP n4 d).right_parent = cn

/-- What the main loop of `bh_graph_parse` keeps true between two
instructions about handles: every left child lists its parent, and the root
and every map entry are handles of the arena. -/
structure build_inv (root : Int) (st : parse_state) : Prop where
  linked : left_linked st.nodes
  root_valid : valid_handle st.nodes root
  writers : ∀ b v, st.writemap b = some v → valid_handle st.nodes v
  readers : ∀ b l, st.readmap b = some l → ∀ v ∈ l, valid_handle st.nodes v

/-- Four instruction nodes wired by three calls of `bh_grap_node_add_child`:
node 0 has the children 1 and 2, node 2 has the parents 0 and 3. -/
def fan_out_demo_state : List bh_graph_node :=
  (bh_grap_node_add_child none
    (bh_grap_node_add_child none
      (bh_grap_node_add_child none
        [⟨BH_INSTRUCTION, 0, INVALID_NODE, INVALID_NODE, INVALID_NODE, INVALID_NODE⟩,
         ⟨BH_INSTRUCTION, 1, INVALID_NODE, INVALID_NODE, INVALID_NODE, INVALID_NODE⟩,
         ⟨BH_INSTRUCTION, 2, INVALID_NODE, INVALID_NODE, INVALID_NODE, INVALID_NODE⟩,
         ⟨BH_INSTRUCTION, 3, INVALID_NODE, INVALID_NODE, INVALID_NODE, INVALID_NODE⟩]
        0 1).2 0 2).2 3 2).2

/-- Four instruction nodes wired by two calls of `bh_grap_node_add_child`:
node 0 has the children 1 and 2, node 3 is free. -/
def fan_out_plain_state : List bh_graph_node :=
  (bh_grap_node_add_child none
    (bh_grap_node_add_child none
      [⟨BH_INSTRUCTION, 0, INVALID_NODE, INVALID_NODE, INVALID_NODE, INVALID_NODE⟩,
       ⟨BH_INSTRUCTION, 1, INVALID_NODE, INVALID_NODE, INVALID_NODE, INVALID_NODE⟩,
       ⟨BH_INSTRUCTION, 2, INVALID_NODE, INVALID_NODE, INVALID_NODE, INVALID_NODE⟩,
       ⟨BH_INSTRUCTION, 3, INVALID_NODE, INVALID_NODE, INVALID_NODE, INVALID_NODE⟩]
      0 1).2 0 2).2

/-- The node arena `bh_grap_node_add_parent(5, 2)` receives during the build
of `fan_in_list`: the main loop has gone through the first three
instructions, node 5 is allocated for `ADD(a, c, d)`, the write-after-write
and the write-after-read step have both called `add_child(3, 5)`, the
read-after-write step has called `add_child(1, 5)`, and `add_child(2, 5)` has
stored node 5 in the free left child slot of node 2 (line 735) and now calls
`add_parent`. -/
def fan_in_state : List bh_graph_node :=
  let st := (parse_loop demo_opcodes none 0
    ⟨[⟨BH_COLLECTION, INVALID_INSTRUCTION, INVALID_NODE, INVALID_NODE, INVALID_NODE,
      INVALID_NODE⟩], fun _ => none, fun _ => none⟩ 0 (fan_in_list.take 3)).getD
    ⟨[], fun _ => none, fun _ => none⟩
  let n := (bh_graph_new_node none st.nodes BH_INSTRUCTION 3).2
  let a1 := (bh_grap_node_add_child none n 3 5).2
  let a2 := (bh_grap_node_add_child none a1 3 5).2
  let a3 := (bh_grap_node_add_child none a2 1 5).2
  NODE_UPDATE a3 2 (fun x => { x with left_child := 5 })

/-- The node arenas a build can go through: starting from the empty arena,
nodes are created by `bh_graph_new_node` (every slot `INVALID_NODE`) and
edges are added by `bh_grap_node_add_child` and `bh_grap_node_add_parent`,
with any arguments, any memory bound at each call and any outcome. -/
inductive build_reachable : List bh_graph_node → Prop where
  | empty : build_reachable []
  | node (mem : Option Nat) (nodes : List bh_graph_node) (t : bh_node_type) (i : Int) :
      build_reachable nodes → build_reachable (bh_graph_new_node mem nodes t i).2
  | child (mem : Option Nat) (nodes : List bh_graph_node) (p c : Int) :
      build_reachable nodes → build_reachable (bh_grap_node_add_child mem nodes p c).2
  | parent (mem : Option Nat) (nodes : List bh_graph_node) (c p : Int) :
      build_reachable nodes → build_reachable (bh_grap_node_add_parent mem nodes c p).2

/-- A view with its base handle renamed by `ρ`; a null base stays null. -/
def rename_view (ρ : Nat → Nat) (v : bh_view) : bh_view := ⟨v.base.map ρ⟩

/-- An instruction with the base handle of every operand renamed by `ρ`, in
the operand array and in the user-function record; opcode and operand counts
are kept. -/
def rename_instruction (ρ : Nat → Nat) (instr : bh_instruction) : bh_instruction :=
  { opcode := instr.opcode
    operand := instr.operand.map (rename_view ρ)
    userfunc := instr.userfunc.map
      (fun uf => { uf with operand := uf.operand.map (rename_view ρ) }) }

/-- The non-null base handles of an instruction, in the operand array and in
the user-function record. -/
def instruction_bases (instr : bh_instruction) : List Nat :=
  instr.operand.filterMap (fun v => v.base)
    ++ (match instr.userfunc with
        | none => []
        | some uf => uf.operand.filterMap (fun v => v.base))

/-- The map key `k` is null or a base handle in `S`. -/
def key_in (S : Nat → Prop) (k : Option Nat) : Prop := ∀ a, k = some a → S a

/-- Two build states that differ by the renaming `ρ` of the base handles in
`S`: the arenas are equal, and the maps of `st'` hold at the renamed key what
the maps of `st` hold at the key. -/
structure renamed (ρ : Nat → Nat) (S : Nat → Prop) (st st' : parse_state) : Prop where
  nodes : st'.nodes = st.nodes
  writemap : ∀ k, key_in S k → st'.writemap (k.map ρ) = st.writemap k
  readmap : ∀ k, key_in S k → st'.readmap (k.map ρ) = st.readmap k

/-- The iterator `it` on the IR with the instruction arena replaced by
`instructions`; every other field is kept. -/
def with_instructions (instructions : List bh_instruction) (it : bh_graph_iterator) :
    bh_graph_iterator :=
  { it with bhir := { it.bhir with instructions := instructions } }

/-- Every parent handle is mirrored by a child handle (a node's parent holds
the node in one of its child slots), and the two parent slots of a node never
hold the same node. -/
structure parent_wired (nodes : List bh_graph_node) : Prop where
  mirrored : ∀ c p, p ≠ INVALID_NODE →
    ((NODE_LOOKUP nodes c).left_parent = p ∨ (NODE_LOOKUP nodes c).right_parent = p) →
    ((NODE_LOOKUP nodes p).left_child = c ∨ (NODE_LOOKUP nodes p).right_child = c)
  distinct : ∀ c, (NODE_LOOKUP nodes c).left_parent = (NODE_LOOKUP nodes c).right_parent →
    (NODE_LOOKUP nodes c).left_parent = INVALID_NODE

/-- Both parent slots of `x` are `INVALID_NODE`. -/
def parentless (nodes : List bh_graph_node) (x : Int) : Prop :=
  (NODE_LOOKUP nodes x).left_parent = INVALID_NODE
  ∧ (NODE_LOOKUP nodes x).right_parent = INVALID_NODE

/-- The root has no parent and is nobody's child. -/
structure rooted (nodes : List bh_graph_node) (root : Int) : Prop where
  root_parentless : parentless nodes root
  no_root_child : ∀ x, (NODE_LOOKUP nodes x).left_child ≠ root
    ∧ (NODE_LOOKUP nodes x).right_child ≠ root

/-- What the main loop of `bh_graph_parse` keeps true between two
instructions about the shape of the graph: the arena is wired, the root is a
node without parent that is nobody's child, every other node has a parent,
and the handles kept in `writemap` and `readmap` are handles of the arena. -/
structure graph_inv (root : Int) (st : parse_state) : Prop where
  wired : parent_wired st.nodes
  rooted : rooted st.nodes root
  root_valid : valid_handle st.nodes root
  others : ∀ x, valid_handle st.nodes x → x ≠ root → ¬ parentless st.nodes x
  writers : ∀ b v, st.writemap b = some v → valid_handle st.nodes v
  readers : ∀ b l, st.readmap b = some l → ∀ v ∈ l, valid_handle st.nodes v

/-- The node arenas reachable by allocating nodes and adding edges between
handles of the arena: starting from the empty arena, nodes are created by
`bh_graph_new_node` and edges are added by `bh_grap_node_add_child(p, c)` with
`p` and `c` handles of the arena, with any memory bound at each call and any
outcome. -/
inductive edge_reachable : List bh_graph_node → Prop where
  | empty : edge_reachable []
  | node (mem : Option Nat) (nodes : List bh_graph_node) (t : bh_node_type) (i : Int) :
      edge_reachable nodes → edge_reachable (bh_graph_new_node mem nodes t i).2
  | edge (mem : Option Nat) (nodes : List bh_graph_node) (p c : Int) :
      edge_reachable nodes → valid_handle nodes p → valid_handle nodes c →
      edge_reachable (bh_grap_node_add_child mem nodes p c).2

/-! ## Theorems -/

set_option maxRecDepth 100000 in
/-- C1, failing run. On `dup_edge_list` the build succeeds; instruction 0 and
instruction 4 both write base 3 (and instruction 3 writes base 2, which
instruction 4 reads), yet a full drain of
`bh_graph_iterator_next_instruction` on a fresh iterator yields the arena
indices `0, 1, 2, 3` only: instruction 4 is never emitted, so it is not
emitted after instruction 0. -/
theorem hazard_preservation_dup_edge_run :
    (bh_graph_parse demo_opcodes none (fresh_ir dup_edge_list)).1 = BH_SUCCESS
    ∧ (bh_graph_getIds demo_opcodes (dup_edge_list.getD 0 (FREE 0))).2.selfId = some 3
    ∧ (bh_graph_getIds demo_opcodes (dup_edge_list.getD 4 (FREE 0))).2.selfId = some 3
    ∧ ((fresh_iterator demo_opcodes none dup_edge_list).bind drain_instructions).map
        (fun d => d.emitted) = some [0, 1, 2, 3] := by
  decide

set_option maxRecDepth 100000 in
/-- C6, failing run. After the successful build of `fan_in_list`, node 3 has
`right_child = 5`, but the parent slots of node 5 hold 6 and 2: neither of
them is node 3. -/
theorem back_pointer_lost_on_fan_in_list :
    (bh_graph_parse demo_opcodes none (fresh_ir fan_in_list)).1 = BH_SUCCESS
    ∧ (NODE_LOOKUP (bh_graph_parse demo_opcodes none (fresh_ir fan_in_list)).2.nodes 3).right_child = 5
    ∧ (NODE_LOOKUP (bh_graph_parse demo_opcodes none (fresh_ir fan_in_list)).2.nodes 5).left_parent = 6
    ∧ (NODE_LOOKUP (bh_graph_parse demo_opcodes none (fresh_ir fan_in_list)).2.nodes 5).right_parent = 2 := by
  decide

set_option maxRecDepth 100000 in
/-- C10, failing run. Serializing the IR created from `dup_edge_list` (five
instructions) into a buffer of capacity five returns `BH_SUCCESS` with the
count set to 4; the last buffer slot is left as it was, and `ADD(b3, b1, b2)`
is not in the buffer. -/
theorem serialize_drops_instruction :
    (bh_graph_serialize demo_opcodes none true false (fresh_ir dup_edge_list)
        (List.replicate 5 (FREE 0)) 5).map
      (fun r => (r.status, r.instruction_count, r.instructions))
      = some (BH_SUCCESS, 4, [COPY 3 3, FILL 1, COPY 2 1, COPY 2 2, FREE 0]) := by
  decide

theorem loop_nil (fuel : Nat) (it : bh_graph_iterator) (hb : it.blocked = []) :
    next_node_loop (fuel + 1) it = some ⟨BH_ERROR, some INVALID_NODE, it⟩ := by
  rw [next_node_loop]; simp [hb]

theorem loop_skip (fuel : Nat) (it : bh_graph_iterator) (n : Int) (rest : List Int)
    (hb : it.blocked = n :: rest) (hc : ¬ (n ≠ INVALID_NODE ∧ n ∉ it.scheduled)) :
    next_node_loop (fuel + 1) it = next_node_loop fuel { it with blocked := rest } := by
  rw [next_node_loop]; simp only [hb]; rw [if_neg hc]

theorem loop_emit (fuel : Nat) (it : bh_graph_iterator) (n : Int) (rest : List Int)
    (hb : it.blocked = n :: rest) (hc : n ≠ INVALID_NODE ∧ n ∉ it.scheduled)
    (hr : ready it.bhir.nodes it.scheduled n) :
    next_node_loop (fuel + 1) it = some ⟨BH_SUCCESS, some n,
      { it with last_blocked := INVALID_NODE, scheduled := n :: it.scheduled,
                blocked := queue_after_emit it.bhir.nodes n rest }⟩ := by
  unfold ready at hr
  rw [next_node_loop]; simp only [hb]; rw [if_pos hc, if_pos hr]; rfl

theorem loop_cycle (fuel : Nat) (it : bh_graph_iterator) (n : Int) (rest : List Int)
    (hb : it.blocked = n :: rest) (hc : n ≠ INVALID_NODE ∧ n ∉ it.scheduled)
    (hr : ¬ ready it.bhir.nodes it.scheduled n) (hl : it.last_blocked = n) :
    next_node_loop (fuel + 1) it = some ⟨BH_ERROR, none, { it with blocked := [] }⟩ := by
  unfold ready at hr
  rw [next_node_loop]; simp only [hb]; rw [if_pos hc, if_neg hr, if_pos hl]

theorem loop_mark (fuel : Nat) (it : bh_graph_iterator) (n : Int) (rest : List Int)
    (hb : it.blocked = n :: rest) (hc : n ≠ INVALID_NODE ∧ n ∉ it.scheduled)
    (hr : ¬ ready it.bhir.nodes it.scheduled n) (hl : it.last_blocked ≠ n)
    (hi : it.last_blocked = INVALID_NODE) :
    next_node_loop (fuel + 1) it
      = next_node_loop fuel { it with blocked := rest ++ [n], last_blocked := n } := by
  unfold ready at hr
  rw [next_node_loop]; simp only [hb]; rw [if_pos hc, if_neg hr, if_neg hl, if_pos hi]

theorem loop_rotate (fuel : Nat) (it : bh_graph_iterator) (n : Int) (rest : List Int)
    (hb : it.blocked = n :: rest) (hc : n ≠ INVALID_NODE ∧ n ∉ it.scheduled)
    (hr : ¬ ready it.bhir.nodes it.scheduled n) (hl : it.last_blocked ≠ n)
    (hi : it.last_blocked ≠ INVALID_NODE) :
    next_node_loop (fuel + 1) it = next_node_loop fuel { it with blocked := rest ++ [n] } := by
  unfold ready at hr
  rw [next_node_loop]; simp only [hb]; rw [if_pos hc, if_neg hr, if_neg hl, if_neg hi]

/-- What a finished run of the loop of `next_node` guarantees. -/
theorem next_node_loop_spec (fuel : Nat) (it : bh_graph_iterator) (r : next_node_result)
    (h : next_node_loop fuel it = some r) :
    r.it.bhir = it.bhir ∧
    ((r.status = BH_SUCCESS ∧ ∃ n, r.node = some n ∧ n ≠ INVALID_NODE ∧ n ∉ it.scheduled
        ∧ ready it.bhir.nodes it.scheduled n ∧ r.it.scheduled = n :: it.scheduled
        ∧ r.it.last_blocked = INVALID_NODE)
     ∨ (r.status = BH_ERROR ∧ r.it.scheduled = it.scheduled)) := by
  induction fuel generalizing it with
  | zero => simp [next_node_loop] at h
  | succ fuel ih =>
    rcases hb : it.blocked with _ | ⟨n, rest⟩
    · rw [loop_nil fuel it hb] at h
      simp only [Option.some.injEq] at h
      subst h
      exact ⟨rfl, Or.inr ⟨rfl, rfl⟩⟩
    · by_cases hc : n ≠ INVALID_NODE ∧ n ∉ it.scheduled
      · by_cases hr : ready it.bhir.nodes it.scheduled n
        · rw [loop_emit fuel it n rest hb hc hr] at h
          simp only [Option.some.injEq] at h
          subst h
          exact ⟨rfl, Or.inl ⟨rfl, n, rfl, hc.1, hc.2, hr, rfl, rfl⟩⟩
        · by_cases hl : it.last_blocked = n
          · rw [loop_cycle fuel it n rest hb hc hr hl] at h
            simp only [Option.some.injEq] at h
            subst h
            exact ⟨rfl, Or.inr ⟨rfl, rfl⟩⟩
          · by_cases hi : it.last_blocked = INVALID_NODE
            · rw [loop_mark fuel it n rest hb hc hr hl hi] at h
              have h2 := ih _ h
              exact h2
            · rw [loop_rotate fuel it n rest hb hc hr hl hi] at h
              have h2 := ih _ h
              exact h2
      · rw [loop_skip fuel it n rest hb hc] at h
        have h2 := ih _ h
        exact h2

theorem next_node_spec (it : bh_graph_iterator) (r : next_node_result)
    (h : bh_graph_iterator_next_node it = some r) :
    r.it.bhir = it.bhir ∧
    ((r.status = BH_SUCCESS ∧ ∃ n, r.node = some n ∧ n ≠ INVALID_NODE ∧ n ∉ it.scheduled
        ∧ ready it.bhir.nodes it.scheduled n ∧ r.it.scheduled = n :: it.scheduled
        ∧ r.it.last_blocked = INVALID_NODE)
     ∨ (r.status = BH_ERROR ∧ r.it.scheduled = it.scheduled)) :=
  next_node_loop_spec _ it r h

/-- Safety of a run of calls from any iterator state: what is emitted is new,
not yet scheduled, and has its parents among the scheduled nodes and the
nodes emitted before it. -/
theorem next_node_calls_safe (k : Nat) (it : bh_graph_iterator) :
    (emitted_nodes (next_node_calls k it)).Nodup
    ∧ (∀ n ∈ emitted_nodes (next_node_calls k it), n ∉ it.scheduled)
    ∧ ∀ pre n post, emitted_nodes (next_node_calls k it) = pre ++ n :: post →
        ((NODE_LOOKUP it.bhir.nodes n).left_parent = INVALID_NODE
          ∨ (NODE_LOOKUP it.bhir.nodes n).left_parent ∈ it.scheduled
          ∨ (NODE_LOOKUP it.bhir.nodes n).left_parent ∈ pre)
        ∧ ((NODE_LOOKUP it.bhir.nodes n).right_parent = INVALID_NODE
          ∨ (NODE_LOOKUP it.bhir.nodes n).right_parent ∈ it.scheduled
          ∨ (NODE_LOOKUP it.bhir.nodes n).right_parent ∈ pre) := by
  induction k generalizing it with
  | zero => simp [next_node_calls, emitted_nodes]
  | succ k ih =>
    rw [next_node_calls]
    rcases hcall : bh_graph_iterator_next_node it with _ | r
    · simp [emitted_nodes]
    · simp only
      obtain ⟨hir, hcase⟩ := next_node_spec it r hcall
      obtain ⟨ihnd, ihnew, ihpar⟩ := ih r.it
      rcases hcase with ⟨hs, n, hn, -, hnS, hrdy, hsch, -⟩ | ⟨hs, hsch⟩
      · have hem : emitted_nodes (r :: next_node_calls k r.it)
            = n :: emitted_nodes (next_node_calls k r.it) := by
          simp [emitted_nodes, List.filterMap_cons, hs, hn]
        rw [hem]
        refine ⟨?_, ?_, ?_⟩
        · refine List.nodup_cons.mpr ⟨fun hmem => ?_, ihnd⟩
          have := ihnew n hmem
          rw [hsch] at this
          exact this (List.mem_cons_self _ _)
        · intro m hm
          rcases List.mem_cons.mp hm with e | hm'
          · exact e ▸ hnS
          · have := ihnew m hm'
            rw [hsch] at this
            exact fun hc => this (List.mem_cons_of_mem _ hc)
        · intro pre m post hsplit
          rcases pre with _ | ⟨p, pre'⟩
          · simp only [List.nil_append, List.cons.injEq] at hsplit
            obtain ⟨e, -⟩ := hsplit
            subst e
            obtain ⟨hl, hr⟩ := hrdy
            exact ⟨hl.imp_right Or.inl, hr.imp_right Or.inl⟩
          · simp only [List.cons_append, List.cons.injEq] at hsplit
            obtain ⟨e, hrest⟩ := hsplit
            subst e
            obtain ⟨hl, hr⟩ := ihpar pre' m post hrest
            rw [hir, hsch] at hl hr
            refine ⟨?_, ?_⟩
            · rcases hl with h1 | h1 | h1
              · exact Or.inl h1
              · rcases List.mem_cons.mp h1 with e | h2
                · exact Or.inr (Or.inr (e ▸ List.mem_cons_self _ _))
                · exact Or.inr (Or.inl h2)
              · exact Or.inr (Or.inr (List.mem_cons_of_mem _ h1))
            · rcases hr with h1 | h1 | h1
              · exact Or.inl h1
              · rcases List.mem_cons.mp h1 with e | h2
                · exact Or.inr (Or.inr (e ▸ List.mem_cons_self _ _))
                · exact Or.inr (Or.inl h2)
              · exact Or.inr (Or.inr (List.mem_cons_of_mem _ h1))
      · have hem : emitted_nodes (r :: next_node_calls k r.it)
            = emitted_nodes (next_node_calls k r.it) := by
          simp [emitted_nodes, List.filterMap_cons, hs]
        rw [hem]
        rw [hir, hsch] at ihpar
        rw [hsch] at ihnew
        exact ⟨ihnd, ihnew, ihpar⟩

/-- What `bh_graph_iterator_create` returns: an iterator on the returned IR
with nothing scheduled. -/
theorem iterator_create_spec (T : bh_opcodes) (mem : Option Nat) (alloc : Bool) (disable : Bool)
    (bhir ir : bh_ir) (it : bh_graph_iterator)
    (h : bh_graph_iterator_create T mem alloc disable bhir = some (ir, it)) :
    it.bhir = ir ∧ it.scheduled = [] ∧ it.last_blocked = INVALID_NODE
    ∧ it.blocked = (if ir.root ≠ INVALID_NODE then [ir.root] else []) ∧ it.current = ir.root := by
  unfold bh_graph_iterator_create at h
  by_cases ha : alloc = false
  · rw [if_pos ha] at h
    cases h
  rw [if_neg ha] at h
  simp only at h
  generalize (if bhir.root < 0 ∧ disable = false then bh_graph_parse T mem bhir
    else (BH_SUCCESS, bhir)) = p at h
  by_cases h1 : p.1 ≠ BH_SUCCESS
  · rw [if_pos h1] at h
    exact absurd h (by simp)
  · rw [if_neg h1] at h
    simp only [Option.some.injEq, Prod.mk.injEq] at h
    obtain ⟨h2, h3⟩ := h
    subst h3
    subst h2
    exact ⟨rfl, rfl, rfl, rfl, rfl⟩

/-- C3 (scheduler safety). For every IR (built by `bh_graph_parse` inside
`bh_graph_iterator_create`, or handed over as it is: any node arena) and every
number `k` of `bh_graph_iterator_next_node` calls on the fresh iterator, no
node is emitted twice, and whenever `n` is emitted, each of `n.left_parent`
and `n.right_parent` that is not `INVALID_NODE` is among the nodes emitted by
earlier calls. -/
theorem scheduler_safety (T : bh_opcodes) (mem : Option Nat) (alloc : Bool) (disable : Bool)
    (bhir ir : bh_ir) (it : bh_graph_iterator) (k : Nat)
    (h : bh_graph_iterator_create T mem alloc disable bhir = some (ir, it)) :
    (emitted_nodes (next_node_calls k it)).Nodup
    ∧ ∀ pre n post, emitted_nodes (next_node_calls k it) = pre ++ n :: post →
        ((NODE_LOOKUP ir.nodes n).left_parent = INVALID_NODE
          ∨ (NODE_LOOKUP ir.nodes n).left_parent ∈ pre)
        ∧ ((NODE_LOOKUP ir.nodes n).right_parent = INVALID_NODE
          ∨ (NODE_LOOKUP ir.nodes n).right_parent ∈ pre) := by
  obtain ⟨hir, hs, -, -, -⟩ := iterator_create_spec T mem alloc disable bhir ir it h
  obtain ⟨hnd, -, hpar⟩ := next_node_calls_safe k it
  refine ⟨hnd, fun pre n post hsplit => ?_⟩
  obtain ⟨hl, hr⟩ := hpar pre n post hsplit
  rw [hir, hs] at hl hr
  simpa using And.intro hl hr


set_option maxRecDepth 100000 in
/-- Witness of `scheduler_safety` on the list `[ADD(b1,b2,b3); MUL(b4,b1,b1)]`,
six calls. -/
theorem scheduler_safety_witness :
    bh_graph_iterator_create demo_opcodes none true false (fresh_ir [ADD 1 2 3, MUL 4 1 1])
      = some ((bh_graph_parse demo_opcodes none (fresh_ir [ADD 1 2 3, MUL 4 1 1])).2,
          { scheduled := [], blocked := [0],
            bhir := (bh_graph_parse demo_opcodes none (fresh_ir [ADD 1 2 3, MUL 4 1 1])).2,
            current := 0, last_blocked := INVALID_NODE })
    ∧ (emitted_nodes (next_node_calls 6
          { scheduled := [], blocked := [0],
            bhir := (bh_graph_parse demo_opcodes none (fresh_ir [ADD 1 2 3, MUL 4 1 1])).2,
            current := 0, last_blocked := INVALID_NODE })).Nodup
    ∧ ∀ pre n post, emitted_nodes (next_node_calls 6
          { scheduled := [], blocked := [0],
            bhir := (bh_graph_parse demo_opcodes none (fresh_ir [ADD 1 2 3, MUL 4 1 1])).2,
            current := 0, last_blocked := INVALID_NODE }) = pre ++ n :: post →
        ((NODE_LOOKUP (bh_graph_parse demo_opcodes none
              (fresh_ir [ADD 1 2 3, MUL 4 1 1])).2.nodes n).left_parent = INVALID_NODE
          ∨ (NODE_LOOKUP (bh_graph_parse demo_opcodes none
              (fresh_ir [ADD 1 2 3, MUL 4 1 1])).2.nodes n).left_parent ∈ pre)
        ∧ ((NODE_LOOKUP (bh_graph_parse demo_opcodes none
              (fresh_ir [ADD 1 2 3, MUL 4 1 1])).2.nodes n).right_parent = INVALID_NODE
          ∨ (NODE_LOOKUP (bh_graph_parse demo_opcodes none
              (fresh_ir [ADD 1 2 3, MUL 4 1 1])).2.nodes n).right_parent ∈ pre) :=
  ⟨by decide,
    scheduler_safety demo_opcodes none true false (fresh_ir [ADD 1 2 3, MUL 4 1 1]) _ _ 6
      (by decide)⟩

theorem ready_mono (nodes : List bh_graph_node) (S S' : List Int) (n : Int)
    (hsub : ∀ x ∈ S, x ∈ S') (h : ready nodes S n) : ready nodes S' n :=
  ⟨h.1.imp_right (hsub _), h.2.imp_right (hsub _)⟩

theorem parents_first_closed (nodes : List bh_graph_node) (S : List Int)
    (h : parents_first nodes S) : ∀ x ∈ S, ready nodes S x := by
  induction S with
  | nil => intro x hx; cases hx
  | cons n post ih =>
    obtain ⟨-, hr, hp⟩ := h
    intro x hx
    rcases List.mem_cons.mp hx with e | hx'
    · subst e
      exact ready_mono nodes post _ _ (fun y hy => List.mem_cons_of_mem _ hy) hr
    · exact ready_mono nodes post _ _ (fun y hy => List.mem_cons_of_mem _ hy) (ih hp x hx')

/-- Two nodes that list each other as a parent are never scheduled. -/
theorem mutual_parents_unscheduled (nodes : List bh_graph_node) (S : List Int)
    (h : parents_first nodes S) (a b : Int) (hab : is_parent nodes a b)
    (hba : is_parent nodes b a) : a ∉ S := by
  induction S generalizing a b with
  | nil => simp
  | cons n post ih =>
    obtain ⟨hn, hr, hp⟩ := h
    have hclosed := parents_first_closed nodes post hp
    -- a parent of a member of `post` is in `post`
    have up : ∀ p c, is_parent nodes p c → ready nodes post c → p ∈ post := by
      intro p c hpc hc
      obtain ⟨hne, hlr⟩ := hpc
      rcases hlr with e | e
      · rcases hc.1 with h1 | h1
        · exact absurd (e ▸ h1) hne
        · exact e ▸ h1
      · rcases hc.2 with h1 | h1
        · exact absurd (e ▸ h1) hne
        · exact e ▸ h1
    intro ha
    rcases List.mem_cons.mp ha with e | ha'
    · subst e
      have hb : b ∈ post := up b a hba hr
      have ha2 : a ∈ post := up a b hab (hclosed b hb)
      exact hn ha2
    · exact ih hp a b hab hba ha'


/-- Second phase of a call: `last_blocked` names a stuck node that waits in the
queue behind `pre`; the loop ends before it has popped that node twice. -/
theorem loop_terminates_marked (pre : List Int) :
    ∀ (it : bh_graph_iterator) (post : List Int) (fuel : Nat),
      it.blocked = pre ++ it.last_blocked :: post → stuck it it.last_blocked →
      pre.length + 1 ≤ fuel →
      ∃ r, next_node_loop fuel it = some r
        ∧ ((∀ x ∈ it.blocked, ¬ schedulable it x) → r.status = BH_ERROR ∧ r.node = none) := by
  induction pre with
  | nil =>
    intro it post fuel hb hst hf
    obtain ⟨f, rfl⟩ : ∃ f, fuel = f + 1 := ⟨fuel - 1, by omega⟩
    simp only [List.nil_append] at hb
    rw [loop_cycle f it _ post hb ⟨hst.1, hst.2.1⟩ hst.2.2 rfl]
    exact ⟨_, rfl, fun _ => ⟨rfl, rfl⟩⟩
  | cons a pre ih =>
    intro it post fuel hb hst hf
    obtain ⟨f, rfl⟩ : ∃ f, fuel = f + 1 := ⟨fuel - 1, by simp at hf; omega⟩
    simp only [List.cons_append] at hb
    simp only [List.length_cons] at hf
    by_cases hc : a ≠ INVALID_NODE ∧ a ∉ it.scheduled
    · by_cases hr : ready it.bhir.nodes it.scheduled a
      · rw [loop_emit f it a _ hb hc hr]
        refine ⟨_, rfl, fun hns => ?_⟩
        exact absurd ⟨hc.1, hc.2, hr⟩ (hns a (by rw [hb]; exact List.mem_cons_self _ _))
      · by_cases hl : it.last_blocked = a
        · rw [loop_cycle f it a _ hb hc hr hl]
          exact ⟨_, rfl, fun _ => ⟨rfl, rfl⟩⟩
        · rw [loop_rotate f it a _ hb hc hr hl hst.1]
          obtain ⟨r, hr1, hr2⟩ := ih { it with blocked := (pre ++ it.last_blocked :: post) ++ [a] }
            (post ++ [a]) f (by simp) hst (by omega)
          refine ⟨r, hr1, fun hns => hr2 ?_⟩
          intro x hx
          have hx' : x ∈ it.blocked := by
            rw [hb]
            simp only [List.mem_append, List.mem_cons, List.mem_singleton] at hx ⊢
            tauto
          exact hns x hx'
    · rw [loop_skip f it a _ hb hc]
      obtain ⟨r, hr1, hr2⟩ := ih { it with blocked := pre ++ it.last_blocked :: post }
        post f rfl hst (by omega)
      refine ⟨r, hr1, fun hns => hr2 ?_⟩
      intro x hx
      exact hns x (by rw [hb]; exact List.mem_cons_of_mem _ hx)

/-- First phase of a call: `last_blocked` is clear; the loop drops entries
until it can emit one, the queue is empty, or it marks a stuck node and goes
on to the second phase. -/
theorem loop_terminates_clear (q : List Int) :
    ∀ (it : bh_graph_iterator) (fuel : Nat),
      it.blocked = q → it.last_blocked = INVALID_NODE → q.length + 1 ≤ fuel →
      ∃ r, next_node_loop fuel it = some r
        ∧ ((∀ x ∈ it.blocked, ¬ schedulable it x) → (∃ x ∈ it.blocked, stuck it x) →
            r.status = BH_ERROR ∧ r.node = none) := by
  induction q with
  | nil =>
    intro it fuel hb _ hf
    obtain ⟨f, rfl⟩ : ∃ f, fuel = f + 1 := ⟨fuel - 1, by omega⟩
    rw [loop_nil f it hb]
    refine ⟨_, rfl, fun _ hex => ?_⟩
    obtain ⟨x, hx, -⟩ := hex
    rw [hb] at hx
    cases hx
  | cons a rest ih =>
    intro it fuel hb hlb hf
    obtain ⟨f, rfl⟩ : ∃ f, fuel = f + 1 := ⟨fuel - 1, by simp at hf; omega⟩
    simp only [List.length_cons] at hf
    by_cases hc : a ≠ INVALID_NODE ∧ a ∉ it.scheduled
    · by_cases hr : ready it.bhir.nodes it.scheduled a
      · rw [loop_emit f it a _ hb hc hr]
        refine ⟨_, rfl, fun hns _ => ?_⟩
        exact absurd ⟨hc.1, hc.2, hr⟩ (hns a (by rw [hb]; exact List.mem_cons_self _ _))
      · have hl : it.last_blocked ≠ a := by rw [hlb]; exact fun e => hc.1 e.symm
        rw [loop_mark f it a rest hb hc hr hl hlb]
        obtain ⟨r, hr1, hr2⟩ := loop_terminates_marked rest
          { it with blocked := rest ++ [a], last_blocked := a } [] f rfl ⟨hc.1, hc.2, hr⟩ (by omega)
        refine ⟨r, hr1, fun hns _ => hr2 ?_⟩
        intro x hx
        have hx' : x ∈ it.blocked := by
          rw [hb]
          simp only [List.mem_append, List.mem_cons, List.mem_singleton] at hx ⊢
          tauto
        exact hns x hx'
    · rw [loop_skip f it a rest hb hc]
      obtain ⟨r, hr1, hr2⟩ := ih { it with blocked := rest } f rfl hlb (by omega)
      refine ⟨r, hr1, fun hns hex => hr2 ?_ ?_⟩
      · intro x hx
        exact hns x (by rw [hb]; exact List.mem_cons_of_mem _ hx)
      · obtain ⟨x, hx, hst⟩ := hex
        rw [hb] at hx
        rcases List.mem_cons.mp hx with e | hx'
        · subst e
          exact absurd ⟨hst.1, hst.2.1⟩ hc
        · exact ⟨x, hx', hst⟩


/-- A finished run of the loop of `next_node` keeps the iterator invariant. -/
theorem loop_inv (fuel : Nat) : ∀ (it : bh_graph_iterator) (r : next_node_result),
    next_node_loop fuel it = some r → iterator_inv it → iterator_inv r.it := by
  induction fuel with
  | zero => intro it r h; simp [next_node_loop] at h
  | succ fuel ih =>
    intro it r h hinv
    rcases hb : it.blocked with _ | ⟨n, rest⟩
    · rw [loop_nil fuel it hb] at h
      simp only [Option.some.injEq] at h
      subst h
      exact hinv
    · have hmem : n ∈ it.blocked := by rw [hb]; exact List.mem_cons_self _ _
      by_cases hc : n ≠ INVALID_NODE ∧ n ∉ it.scheduled
      · by_cases hr : ready it.bhir.nodes it.scheduled n
        · rw [loop_emit fuel it n rest hb hc hr] at h
          simp only [Option.some.injEq] at h
          subst h
          refine ⟨Or.inl rfl, Or.inl rfl, Or.inr ?_, ⟨hc.2, hr, hinv.order⟩⟩
          rcases hinv.queue_root with ⟨hs, hq⟩ | h2
          · have hr' := hr
            rw [hs, hq n hmem] at hr'
            exact hr'
          · exact h2
        · by_cases hl : it.last_blocked = n
          · rw [loop_cycle fuel it n rest hb hc hr hl] at h
            simp only [Option.some.injEq] at h
            subst h
            refine ⟨Or.inr ⟨?_, Or.inr (Or.inl rfl)⟩, hinv.mark_root, ?_, hinv.order⟩
            · exact hl ▸ ⟨hc.1, hc.2, hr⟩
            · rcases hinv.queue_root with ⟨hs, -⟩ | h2
              · exact Or.inl ⟨hs, fun x hx => by cases hx⟩
              · exact Or.inr h2
          · by_cases hi : it.last_blocked = INVALID_NODE
            · rw [loop_mark fuel it n rest hb hc hr hl hi] at h
              refine ih _ r h ⟨Or.inr ⟨⟨hc.1, hc.2, hr⟩, Or.inl (by simp)⟩, ?_, ?_, hinv.order⟩
              · rcases hinv.queue_root with ⟨-, hq⟩ | h2
                · exact Or.inr (Or.inl (hq n hmem))
                · exact Or.inr (Or.inr h2)
              · rcases hinv.queue_root with ⟨hs, hq⟩ | h2
                · refine Or.inl ⟨hs, fun x hx => hq x ?_⟩
                  rw [hb]
                  simp only [List.mem_append, List.mem_cons, List.mem_singleton] at hx ⊢
                  tauto
                · exact Or.inr h2
            · rw [loop_rotate fuel it n rest hb hc hr hl hi] at h
              refine ih _ r h ⟨?_, hinv.mark_root, ?_, hinv.order⟩
              · rcases hinv.mark with h1 | ⟨hst, hq⟩
                · exact absurd h1 hi
                · refine Or.inr ⟨hst, Or.inl ?_⟩
                  rcases hq with h2 | h2 | ⟨m, rest', h2, h3⟩
                  · rw [hb] at h2
                    rcases List.mem_cons.mp h2 with e | h4
                    · exact absurd e hl
                    · exact List.mem_append_left _ h4
                  · rw [hb] at h2; cases h2
                  · rw [hb] at h2
                    simp only [List.cons.injEq] at h2
                    exact absurd (h2.1 ▸ h3.2.2) hr
              · rcases hinv.queue_root with ⟨hs, hq⟩ | h2
                · refine Or.inl ⟨hs, fun x hx => hq x ?_⟩
                  rw [hb]
                  simp only [List.mem_append, List.mem_cons, List.mem_singleton] at hx ⊢
                  tauto
                · exact Or.inr h2
      · rw [loop_skip fuel it n rest hb hc] at h
        refine ih _ r h ⟨?_, hinv.mark_root, ?_, hinv.order⟩
        · rcases hinv.mark with h1 | ⟨hst, hq⟩
          · exact Or.inl h1
          · refine Or.inr ⟨hst, ?_⟩
            rcases hq with h2 | h2 | ⟨m, rest', h2, h3⟩
            · rw [hb] at h2
              rcases List.mem_cons.mp h2 with e | h4
              · exact absurd (e ▸ ⟨hst.1, hst.2.1⟩) hc
              · exact Or.inl h4
            · rw [hb] at h2; cases h2
            · rw [hb] at h2
              simp only [List.cons.injEq] at h2
              exact absurd (h2.1 ▸ ⟨h3.1, h3.2.1⟩) hc
        · rcases hinv.queue_root with ⟨hs, hq⟩ | h2
          · exact Or.inl ⟨hs, fun x hx => hq x (by rw [hb]; exact List.mem_cons_of_mem _ hx)⟩
          · exact Or.inr h2

/-- The loop of `next_instruction` keeps the iterator invariant. -/
theorem next_instruction_loop_inv (fuel : Nat) :
    ∀ (it : bh_graph_iterator) (r : next_instruction_result),
      next_instruction_loop fuel it = some r → iterator_inv it → iterator_inv r.it := by
  induction fuel with
  | zero => intro it r h; simp [next_instruction_loop] at h
  | succ fuel ih =>
    intro it r h hinv
    rw [next_instruction_loop] at h
    rcases hcall : bh_graph_iterator_next_node it with _ | rn
    · rw [hcall] at h; cases h
    · rw [hcall] at h
      have hrn : iterator_inv rn.it := loop_inv _ it rn hcall hinv
      simp only at h
      split_ifs at h with h1 h2
      · simp only [Option.some.injEq] at h
        subst h
        exact hrn
      · exact ih _ r h hrn
      · simp only [Option.some.injEq] at h
        subst h
        exact hrn

/-- On an IR that is not built, `next_instruction` only moves `current`. -/
theorem next_instruction_legacy (it : bh_graph_iterator) (r : next_instruction_result)
    (h1 : it.bhir.root = INVALID_NODE) (hr : bh_graph_iterator_next_instruction it = some r) :
    ∃ c, r.it = { it with current := c } := by
  unfold bh_graph_iterator_next_instruction at hr
  rw [if_pos h1] at hr
  simp only at hr
  split_ifs at hr <;> simp only [Option.some.injEq] at hr <;> subst hr <;> exact ⟨_, rfl⟩

/-- Every reachable iterator state satisfies the invariant. -/
theorem reachable_inv (it : bh_graph_iterator) (h : Reachable it) : iterator_inv it := by
  induction h with
  | fresh T mem alloc disable bhir ir it h =>
    obtain ⟨hir, hs, hl, hb, -⟩ := iterator_create_spec T mem alloc disable bhir ir it h
    refine ⟨Or.inl hl, Or.inl hl, Or.inl ⟨hs, fun x hx => ?_⟩, by rw [hs]; trivial⟩
    rw [hb] at hx
    split_ifs at hx
    · rw [hir]; simpa using hx
    · cases hx
  | next_node it r _ hr ih => exact loop_inv _ it r hr ih
  | next_instruction it r _ hr ih =>
    by_cases h1 : it.bhir.root = INVALID_NODE
    · obtain ⟨c, hc⟩ := next_instruction_legacy it r h1 hr
      rw [hc]
      exact ⟨ih.mark, ih.mark_root, ih.queue_root, ih.order⟩
    · unfold bh_graph_iterator_next_instruction at hr
      rw [if_neg h1] at hr
      exact next_instruction_loop_inv _ it r hr ih
  | reset it _ ih =>
    have hroot : (bh_graph_iterator_reset it).bhir = it.bhir := rfl
    refine ⟨?_, ih.mark_root, Or.inl ⟨rfl, fun x hx => ?_⟩, trivial⟩
    · rcases ih.mark with h1 | ⟨hst, -⟩
      · exact Or.inl h1
      · have hst' : stuck (bh_graph_iterator_reset it) it.last_blocked :=
          ⟨hst.1, by simp [bh_graph_iterator_reset],
            fun hr => hst.2.2 (ready_mono _ [] _ _ (fun y hy => by cases hy) hr)⟩
        refine Or.inr ⟨hst', ?_⟩
        by_cases hv : it.bhir.root ≠ INVALID_NODE
        · rcases ih.mark_root with h2 | h2 | h2
          · exact absurd h2 hst.1
          · refine Or.inl ?_
            show it.last_blocked ∈ (if it.bhir.root ≠ INVALID_NODE then [it.bhir.root] else [])
            rw [if_pos hv, h2]
            exact List.mem_singleton_self _
          · refine Or.inr (Or.inr ⟨it.bhir.root, [], ?_, hv, by simp [bh_graph_iterator_reset], h2⟩)
            show (if it.bhir.root ≠ INVALID_NODE then [it.bhir.root] else []) = [it.bhir.root]
            rw [if_pos hv]
        · refine Or.inr (Or.inl ?_)
          show (if it.bhir.root ≠ INVALID_NODE then [it.bhir.root] else []) = []
          rw [if_neg hv]
    · have hx' : x ∈ (if it.bhir.root ≠ INVALID_NODE then [it.bhir.root] else []) := hx
      split_ifs at hx'
      · simpa using hx'
      · cases hx'


/-- From a state that satisfies the invariant the loop of `next_node` ends
within `|blocked| + 1` iterations; when no queue entry can be emitted and some
entry is stuck, it ends through the circular-dependency exit. -/
theorem loop_terminates (it : bh_graph_iterator) (hinv : iterator_inv it) (fuel : Nat)
    (hf : it.blocked.length + 1 ≤ fuel) :
    ∃ r, next_node_loop fuel it = some r
      ∧ ((∀ x ∈ it.blocked, ¬ schedulable it x) → (∃ x ∈ it.blocked, stuck it x) →
          r.status = BH_ERROR ∧ r.node = none) := by
  rcases hinv.mark with h1 | ⟨hst, hq⟩
  · exact loop_terminates_clear it.blocked it fuel rfl h1 hf
  · rcases hq with h2 | h2 | ⟨n, rest, h2, h3⟩
    · obtain ⟨pre, post, e⟩ := List.append_of_mem h2
      have hlen : pre.length + 1 ≤ fuel := by
        have := congrArg List.length e
        simp only [List.length_append, List.length_cons] at this
        omega
      obtain ⟨r, hr1, hr2⟩ := loop_terminates_marked pre it post fuel e hst hlen
      exact ⟨r, hr1, fun hns _ => hr2 hns⟩
    · obtain ⟨f, rfl⟩ : ∃ f, fuel = f + 1 := ⟨fuel - 1, by omega⟩
      rw [loop_nil f it h2]
      refine ⟨_, rfl, fun _ hex => ?_⟩
      obtain ⟨x, hx, -⟩ := hex
      rw [h2] at hx
      cases hx
    · obtain ⟨f, rfl⟩ : ∃ f, fuel = f + 1 := ⟨fuel - 1, by omega⟩
      rw [loop_emit f it n rest h2 ⟨h3.1, h3.2.1⟩ h3.2.2]
      refine ⟨_, rfl, fun hns _ => ?_⟩
      exact absurd h3 (hns n (by rw [h2]; exact List.mem_cons_self _ _))

/-- C7 (cycle detection terminates). For every iterator state reachable from a
freshly created iterator by `next_node`, `next_instruction` and `reset` calls,
on any node arena, a call of `bh_graph_iterator_next_node` terminates (the
loop ends within its fuel). In particular, when two nodes `a` and `b` each
list the other as a parent, `a` is in the work queue and no queue entry can be
emitted, the call returns `BH_ERROR` through the circular-dependency exit
(nothing is stored through the out-pointer). -/
theorem next_node_terminates (it : bh_graph_iterator) (h : Reachable it) :
    (∃ r, bh_graph_iterator_next_node it = some r)
    ∧ ∀ a b, is_parent it.bhir.nodes a b → is_parent it.bhir.nodes b a → a ∈ it.blocked →
        (∀ x ∈ it.blocked, ¬ schedulable it x) →
        ∃ r, bh_graph_iterator_next_node it = some r ∧ r.status = BH_ERROR ∧ r.node = none := by
  have hinv := reachable_inv it h
  obtain ⟨r, hr1, hr2⟩ := loop_terminates it hinv (2 * it.blocked.length + 2) (by omega)
  refine ⟨⟨r, hr1⟩, fun a b hab hba ha hns => ⟨r, hr1, hr2 hns ⟨a, ha, ?_⟩⟩⟩
  have hna : a ∉ it.scheduled :=
    mutual_parents_unscheduled it.bhir.nodes it.scheduled hinv.order a b hab hba
  exact ⟨hab.1, hna, fun hr => hns a ha ⟨hab.1, hna, hr⟩⟩

set_option maxRecDepth 100000 in
/-- Witness of `next_node_terminates`: the fresh iterator on the arena of two
nodes that list each other as parent is reachable, and the first call on it
returns through the circular-dependency exit. -/
theorem next_node_terminates_witness :
    bh_graph_iterator_create demo_opcodes none true false two_cycle_ir
        = some (two_cycle_ir, two_cycle_iterator)
    ∧ is_parent two_cycle_iterator.bhir.nodes 0 1
    ∧ is_parent two_cycle_iterator.bhir.nodes 1 0
    ∧ (0 : Int) ∈ two_cycle_iterator.blocked
    ∧ (∀ x ∈ two_cycle_iterator.blocked, ¬ schedulable two_cycle_iterator x)
    ∧ (∃ r, bh_graph_iterator_next_node two_cycle_iterator = some r)
    ∧ ∃ r, bh_graph_iterator_next_node two_cycle_iterator = some r
        ∧ r.status = BH_ERROR ∧ r.node = none :=
  ⟨by decide, by decide, by decide, by decide, by decide,
    (next_node_terminates two_cycle_iterator
      (Reachable.fresh demo_opcodes none true false two_cycle_ir two_cycle_ir two_cycle_iterator
        (by decide))).1,
    (next_node_terminates two_cycle_iterator
      (Reachable.fresh demo_opcodes none true false two_cycle_ir two_cycle_ir two_cycle_iterator
        (by decide))).2 0 1 (by decide) (by decide) (by decide) (by decide)⟩

theorem mem_queue_after_emit (nodes : List bh_graph_node) (n : Int) (rest : List Int) (x : Int) :
    x ∈ queue_after_emit nodes n rest ↔ x ∈ rest ∨ is_child nodes n x := by
  unfold queue_after_emit is_child
  simp only
  by_cases hl : (NODE_LOOKUP nodes n).left_child = INVALID_NODE <;>
  by_cases hr : (NODE_LOOKUP nodes n).right_child = INVALID_NODE <;>
  by_cases hlr : (NODE_LOOKUP nodes n).right_child = (NODE_LOOKUP nodes n).left_child <;>
  by_cases e1 : (NODE_LOOKUP nodes n).left_child = x <;>
  by_cases e2 : (NODE_LOOKUP nodes n).right_child = x <;>
  simp_all [eq_comm]

theorem count_queue_after_emit (nodes : List bh_graph_node) (n : Int) (rest : List Int) (x : Int) :
    (queue_after_emit nodes n rest).count x
      ≤ rest.count x + (if is_child nodes n x then 1 else 0) := by
  unfold queue_after_emit is_child
  simp only
  by_cases hl : (NODE_LOOKUP nodes n).left_child = INVALID_NODE <;>
  by_cases hr : (NODE_LOOKUP nodes n).right_child = INVALID_NODE <;>
  by_cases hlr : (NODE_LOOKUP nodes n).right_child = (NODE_LOOKUP nodes n).left_child <;>
  by_cases e1 : (NODE_LOOKUP nodes n).left_child = x <;>
  by_cases e2 : (NODE_LOOKUP nodes n).right_child = x <;>
  simp_all [List.count_cons, List.count_append, eq_comm]


theorem scheduled_parents_step (nodes : List bh_graph_node) (S : List Int) (n x : Int)
    (hn : n ∉ S) (hcp : is_child nodes n x → is_parent nodes n x) :
    scheduled_parents nodes S x + (if is_child nodes n x then 1 else 0)
      ≤ scheduled_parents nodes (n :: S) x := by
  unfold scheduled_parents
  by_cases hc : is_child nodes n x
  · obtain ⟨-, hp⟩ := hcp hc
    rw [if_pos hc]
    by_cases e1 : (NODE_LOOKUP nodes x).left_parent = n
    · have h1 : (NODE_LOOKUP nodes x).left_parent ∉ S := e1 ▸ hn
      by_cases e2 : (NODE_LOOKUP nodes x).right_parent = (NODE_LOOKUP nodes x).left_parent
      · simp [e1, e2, hn]
      · by_cases h2 : (NODE_LOOKUP nodes x).right_parent ∈ S <;>
          simp_all [List.mem_cons]
    · have e2 : (NODE_LOOKUP nodes x).right_parent = n := hp.resolve_left e1
      have h2 : (NODE_LOOKUP nodes x).right_parent ∉ S := e2 ▸ hn
      by_cases h1 : (NODE_LOOKUP nodes x).left_parent ∈ S <;>
        simp_all [List.mem_cons, eq_comm]
  · rw [if_neg hc]
    by_cases h1 : (NODE_LOOKUP nodes x).left_parent ∈ S <;>
    by_cases h2 : (NODE_LOOKUP nodes x).right_parent ∈ S <;>
    by_cases e1 : (NODE_LOOKUP nodes x).left_parent = n <;>
    by_cases e2 : (NODE_LOOKUP nodes x).right_parent = n <;>
    by_cases e3 : (NODE_LOOKUP nodes x).right_parent = (NODE_LOOKUP nodes x).left_parent <;>
    simp_all [List.mem_cons]

theorem live_inv_skip (it : bh_graph_iterator) (n : Int) (rest : List Int)
    (hb : it.blocked = n :: rest) (hc : ¬ (n ≠ INVALID_NODE ∧ n ∉ it.scheduled))
    (h : live_inv it) : live_inv { it with blocked := rest } := by
  have hn : n = INVALID_NODE ∨ n ∈ it.scheduled := by
    by_cases e : n = INVALID_NODE
    · exact Or.inl e
    · exact Or.inr (by_contra fun h2 => hc ⟨e, h2⟩)
  refine ⟨h.graph, ?_, ?_, ?_, ?_, h.scheduled_valid, h.scheduled_nodup⟩
  · rcases h.root_seen with h1 | h1
    · exact Or.inl h1
    · rw [hb] at h1
      rcases List.mem_cons.mp h1 with e | h2
      · rcases hn with h3 | h3
        · exact absurd (e ▸ h3 : it.bhir.root = INVALID_NODE)
            (fun e2 => by
              have := h.graph.root_valid
              unfold valid_handle at this
              rw [e2] at this
              simp [INVALID_NODE] at this)
        · exact Or.inl (e ▸ h3)
      · exact Or.inr h2
  · intro p hp c hchild
    rcases h.children_seen p hp c hchild with h1 | h1
    · exact Or.inl h1
    · rw [hb] at h1
      rcases List.mem_cons.mp h1 with e | h2
      · rcases hn with h3 | h3
        · exact absurd (e ▸ h3) hchild.1
        · exact Or.inl (e ▸ h3)
      · exact Or.inr h2
  · intro x hx hxs hxr
    have := h.copies x hx hxs hxr
    rw [hb, List.count_cons] at this
    show rest.count x ≤ scheduled_parents it.bhir.nodes it.scheduled x
    omega
  · intro x hx
    exact h.queue_valid x (by rw [hb]; exact List.mem_cons_of_mem _ hx)

theorem live_inv_rotate (it : bh_graph_iterator) (n l : Int) (rest : List Int)
    (hb : it.blocked = n :: rest) (h : live_inv it) :
    live_inv { it with blocked := rest ++ [n], last_blocked := l } := by
  have hmem : ∀ x, x ∈ rest ++ [n] ↔ x ∈ it.blocked := by
    intro x
    rw [hb]
    simp only [List.mem_append, List.mem_cons, List.mem_singleton, List.not_mem_nil, or_false]
    exact or_comm
  refine ⟨h.graph, ?_, ?_, ?_, ?_, h.scheduled_valid, h.scheduled_nodup⟩
  · exact h.root_seen.imp_right (fun h1 => (hmem _).mpr h1)
  · intro p hp c hchild
    exact (h.children_seen p hp c hchild).imp_right (fun h1 => (hmem _).mpr h1)
  · intro x hx hxs hxr
    have := h.copies x hx hxs hxr
    rw [hb, List.count_cons] at this
    show (rest ++ [n]).count x ≤ scheduled_parents it.bhir.nodes it.scheduled x
    rw [List.count_append, List.count_cons]
    simpa using this
  · intro x hx
    exact h.queue_valid x ((hmem x).mp hx)

theorem live_inv_emit (it : bh_graph_iterator) (n : Int) (rest : List Int)
    (hb : it.blocked = n :: rest) (hc : n ≠ INVALID_NODE ∧ n ∉ it.scheduled)
    (h : live_inv it) :
    live_inv { it with last_blocked := INVALID_NODE, scheduled := n :: it.scheduled,
                       blocked := queue_after_emit it.bhir.nodes n rest } := by
  have hnv : valid_handle it.bhir.nodes n :=
    (h.queue_valid n (by rw [hb]; exact List.mem_cons_self _ _)).resolve_left hc.1
  refine ⟨h.graph, ?_, ?_, ?_, ?_, ?_, List.nodup_cons.mpr ⟨hc.2, h.scheduled_nodup⟩⟩
  · rcases h.root_seen with h1 | h1
    · exact Or.inl (List.mem_cons_of_mem _ h1)
    · rw [hb] at h1
      rcases List.mem_cons.mp h1 with e | h2
      · exact Or.inl (e ▸ List.mem_cons_self _ _)
      · exact Or.inr ((mem_queue_after_emit _ _ _ _).mpr (Or.inl h2))
  · intro p hp c hchild
    rcases List.mem_cons.mp hp with e | hp'
    · subst e
      exact Or.inr ((mem_queue_after_emit _ _ _ _).mpr (Or.inr hchild))
    · rcases h.children_seen p hp' c hchild with h1 | h1
      · exact Or.inl (List.mem_cons_of_mem _ h1)
      · rw [hb] at h1
        rcases List.mem_cons.mp h1 with e | h2
        · exact Or.inl (e ▸ List.mem_cons_self _ _)
        · exact Or.inr ((mem_queue_after_emit _ _ _ _).mpr (Or.inl h2))
  · intro x hx hxs hxr
    have hxn : x ≠ n := fun e => hxs (e ▸ List.mem_cons_self _ _)
    have hxs' : x ∉ it.scheduled := fun h1 => hxs (List.mem_cons_of_mem _ h1)
    have h1 := h.copies x hx hxs' hxr
    rw [hb, List.count_cons] at h1
    have h2 := count_queue_after_emit it.bhir.nodes n rest x
    have h3 := scheduled_parents_step it.bhir.nodes it.scheduled n x hc.2
      (h.graph.child_parent n x)
    show (queue_after_emit it.bhir.nodes n rest).count x
      ≤ scheduled_parents it.bhir.nodes (n :: it.scheduled) x
    omega
  · intro x hx
    rcases (mem_queue_after_emit _ _ _ _).mp hx with h1 | h1
    · exact h.queue_valid x (by rw [hb]; exact List.mem_cons_of_mem _ h1)
    · exact Or.inr (h.graph.child_valid n x hnv h1)
  · intro x hx
    rcases List.mem_cons.mp hx with e | h1
    · exact e ▸ hnv
    · exact h.scheduled_valid x h1


/-- A finished run of the loop that does not leave through the
circular-dependency exit keeps the traversal invariant. -/
theorem loop_live_inv (fuel : Nat) : ∀ (it : bh_graph_iterator) (r : next_node_result),
    next_node_loop fuel it = some r → live_inv it → r.node ≠ none → live_inv r.it := by
  induction fuel with
  | zero => intro it r h; simp [next_node_loop] at h
  | succ fuel ih =>
    intro it r h hinv hnode
    rcases hb : it.blocked with _ | ⟨n, rest⟩
    · rw [loop_nil fuel it hb] at h
      simp only [Option.some.injEq] at h
      subst h
      exact hinv
    · by_cases hc : n ≠ INVALID_NODE ∧ n ∉ it.scheduled
      · by_cases hr : ready it.bhir.nodes it.scheduled n
        · rw [loop_emit fuel it n rest hb hc hr] at h
          simp only [Option.some.injEq] at h
          subst h
          exact live_inv_emit it n rest hb hc hinv
        · by_cases hl : it.last_blocked = n
          · rw [loop_cycle fuel it n rest hb hc hr hl] at h
            simp only [Option.some.injEq] at h
            subst h
            exact absurd rfl hnode
          · by_cases hi : it.last_blocked = INVALID_NODE
            · rw [loop_mark fuel it n rest hb hc hr hl hi] at h
              exact ih _ r h (live_inv_rotate it n n rest hb hinv) hnode
            · rw [loop_rotate fuel it n rest hb hc hr hl hi] at h
              exact ih _ r h (live_inv_rotate it n it.last_blocked rest hb hinv) hnode
      · rw [loop_skip fuel it n rest hb hc] at h
        exact ih _ r h (live_inv_skip it n rest hb hc hinv) hnode

/-- In a consistent graph the proper-ancestor relation on the valid handles is
well founded. -/
theorem ancestor_wellFounded (nodes : List bh_graph_node) (hac : acyclic nodes) :
    WellFounded (fun a b : Set.Ico (0 : Int) (nodes.length : Int) =>
      Ancestor nodes a.1 b.1) := by
  haveI : IsTrans (Set.Ico (0 : Int) (nodes.length : Int))
      (fun a b => Ancestor nodes a.1 b.1) :=
    ⟨fun _ _ _ h1 h2 => Relation.TransGen.trans h1 h2⟩
  haveI : IsIrrefl (Set.Ico (0 : Int) (nodes.length : Int))
      (fun a b => Ancestor nodes a.1 b.1) :=
    ⟨fun a h => (hac a.1).2 h⟩
  exact Finite.wellFounded_of_trans_of_irrefl _

/-- While an unscheduled valid node waits in the queue, some queue entry can
be emitted. -/
theorem exists_schedulable (it : bh_graph_iterator) (h : live_inv it)
    (hex : ∃ x ∈ it.blocked, x ≠ INVALID_NODE ∧ x ∉ it.scheduled) :
    ∃ R ∈ it.blocked, schedulable it R := by
  obtain ⟨x, hxq, hxi, hxs⟩ := hex
  have hxv : valid_handle it.bhir.nodes x := (h.queue_valid x hxq).resolve_left hxi
  have hwf := ancestor_wellFounded it.bhir.nodes h.graph.no_cycle
  obtain ⟨m, hm, hmin⟩ := hwf.has_min
    {a : Set.Ico (0 : Int) (it.bhir.nodes.length : Int) | a.1 ∉ it.scheduled}
    ⟨⟨x, hxv⟩, hxs⟩
  have hmv : valid_handle it.bhir.nodes m.1 := m.2
  have hmi : m.1 ≠ INVALID_NODE := by
    intro e
    have := hmv.1
    rw [e] at this
    simp [INVALID_NODE] at this
  -- every parent of `m` is scheduled
  have hpar : ∀ p, is_parent it.bhir.nodes p m.1 → p ∈ it.scheduled := by
    intro p hp
    by_contra hps
    have hpv := h.graph.parent_valid p m.1 hmv hp
    exact hmin ⟨p, hpv⟩ hps (Relation.TransGen.single hp)
  have hready : ready it.bhir.nodes it.scheduled m.1 := by
    constructor
    · by_cases e : (NODE_LOOKUP it.bhir.nodes m.1).left_parent = INVALID_NODE
      · exact Or.inl e
      · exact Or.inr (hpar _ ⟨e, Or.inl rfl⟩)
    · by_cases e : (NODE_LOOKUP it.bhir.nodes m.1).right_parent = INVALID_NODE
      · exact Or.inl e
      · exact Or.inr (hpar _ ⟨e, Or.inr rfl⟩)
  refine ⟨m.1, ?_, hmi, hm, hready⟩
  by_cases hroot : m.1 = it.bhir.root
  · rcases h.root_seen with h1 | h1
    · exact absurd (hroot ▸ h1) hm
    · exact hroot ▸ h1
  · rcases h.graph.only_root m.1 hmv hroot with e | e
    · have hp : is_parent it.bhir.nodes (NODE_LOOKUP it.bhir.nodes m.1).left_parent m.1 :=
        ⟨e, Or.inl rfl⟩
      exact (h.children_seen _ (hpar _ hp) m.1 (h.graph.parent_child _ _ hp)).resolve_left hm
    · have hp : is_parent it.bhir.nodes (NODE_LOOKUP it.bhir.nodes m.1).right_parent m.1 :=
        ⟨e, Or.inr rfl⟩
      exact (h.children_seen _ (hpar _ hp) m.1 (h.graph.parent_child _ _ hp)).resolve_left hm

/-- A stuck node waits in the queue at most once. -/
theorem stuck_count_le_one (it : bh_graph_iterator) (h : live_inv it) (x : Int)
    (hst : stuck it x) : it.blocked.count x ≤ 1 := by
  have hroot : x ≠ it.bhir.root := by
    intro e
    apply hst.2.2
    rw [e]
    exact ⟨Or.inl h.graph.root_parentless.1, Or.inl h.graph.root_parentless.2⟩
  have h1 := h.copies x hst.1 hst.2.1 hroot
  have h2 : scheduled_parents it.bhir.nodes it.scheduled x ≤ 1 := by
    unfold scheduled_parents
    by_cases a1 : (NODE_LOOKUP it.bhir.nodes x).left_parent ∈ it.scheduled
    · by_cases a2 : (NODE_LOOKUP it.bhir.nodes x).right_parent ∈ it.scheduled
      · exact absurd ⟨Or.inr a1, Or.inr a2⟩ hst.2.2
      · rw [if_pos a1, if_neg (fun hh => a2 hh.1)]
    · rw [if_neg a1]
      split_ifs <;> omega
  omega


/-- Second phase with a schedulable entry ahead of the marked node: the call
emits. -/
theorem loop_emits_marked (pre : List Int) :
    ∀ (it : bh_graph_iterator) (post : List Int) (fuel : Nat) (r : next_node_result),
      it.blocked = pre ++ it.last_blocked :: post → it.last_blocked ≠ INVALID_NODE →
      it.last_blocked ∉ pre → (∃ R ∈ pre, schedulable it R) →
      next_node_loop fuel it = some r → r.status = BH_SUCCESS := by
  induction pre with
  | nil =>
    intro it post fuel r _ _ _ hex
    obtain ⟨R, hR, -⟩ := hex
    cases hR
  | cons a pre ih =>
    intro it post fuel r hb hlb hnot hex h
    rcases fuel with _ | f
    · simp [next_node_loop] at h
    simp only [List.cons_append] at hb
    have hla : it.last_blocked ≠ a := fun e => hnot (e ▸ List.mem_cons_self _ _)
    have hnot' : it.last_blocked ∉ pre := fun hm => hnot (List.mem_cons_of_mem _ hm)
    by_cases hc : a ≠ INVALID_NODE ∧ a ∉ it.scheduled
    · by_cases hr : ready it.bhir.nodes it.scheduled a
      · rw [loop_emit f it a _ hb hc hr] at h
        simp only [Option.some.injEq] at h
        subst h
        rfl
      · rw [loop_rotate f it a _ hb hc hr hla hlb] at h
        refine ih { it with blocked := (pre ++ it.last_blocked :: post) ++ [a] } (post ++ [a]) f r
          (by simp) hlb hnot' ?_ h
        obtain ⟨R, hR, hsch⟩ := hex
        rcases List.mem_cons.mp hR with e | hR'
        · exact absurd (e ▸ hsch.2.2) hr
        · exact ⟨R, hR', hsch⟩
    · rw [loop_skip f it a _ hb hc] at h
      refine ih { it with blocked := pre ++ it.last_blocked :: post } post f r rfl hlb hnot' ?_ h
      obtain ⟨R, hR, hsch⟩ := hex
      rcases List.mem_cons.mp hR with e | hR'
      · exact absurd (e ▸ ⟨hsch.1, hsch.2.1⟩) hc
      · exact ⟨R, hR', hsch⟩

/-- First phase on a queue where stuck nodes wait at most once and, unless
every entry is invalid or scheduled, some entry is schedulable: the call emits
or reports the end of the traversal with an empty queue. -/
theorem loop_emits_or_ends (q : List Int) :
    ∀ (it : bh_graph_iterator) (fuel : Nat) (r : next_node_result),
      it.blocked = q → it.last_blocked = INVALID_NODE →
      (∀ x, stuck it x → q.count x ≤ 1) →
      ((∃ R ∈ q, schedulable it R) ∨ ∀ x ∈ q, ¬ (x ≠ INVALID_NODE ∧ x ∉ it.scheduled)) →
      next_node_loop fuel it = some r →
      r.status = BH_SUCCESS
        ∨ (r.status = BH_ERROR ∧ r.node = some INVALID_NODE ∧ r.it.blocked = []
            ∧ r.it.last_blocked = INVALID_NODE) := by
  induction q with
  | nil =>
    intro it fuel r hb hlb _ _ h
    rcases fuel with _ | f
    · simp [next_node_loop] at h
    rw [loop_nil f it hb] at h
    simp only [Option.some.injEq] at h
    subst h
    exact Or.inr ⟨rfl, rfl, hb, hlb⟩
  | cons a rest ih =>
    intro it fuel r hb hlb hcount hex h
    rcases fuel with _ | f
    · simp [next_node_loop] at h
    by_cases hc : a ≠ INVALID_NODE ∧ a ∉ it.scheduled
    · by_cases hr : ready it.bhir.nodes it.scheduled a
      · rw [loop_emit f it a _ hb hc hr] at h
        simp only [Option.some.injEq] at h
        subst h
        exact Or.inl rfl
      · have hl : it.last_blocked ≠ a := by rw [hlb]; exact fun e => hc.1 e.symm
        rw [loop_mark f it a rest hb hc hr hl hlb] at h
        have hst : stuck it a := ⟨hc.1, hc.2, hr⟩
        have hnot : a ∉ rest := by
          have := hcount a hst
          rw [List.count_cons_self] at this
          exact List.count_eq_zero.mp (by omega)
        refine Or.inl (loop_emits_marked rest
          { it with blocked := rest ++ [a], last_blocked := a } [] f r rfl hc.1 hnot ?_ h)
        rcases hex with ⟨R, hR, hsch⟩ | hall
        · rcases List.mem_cons.mp hR with e | hR'
          · exact absurd (e ▸ hsch.2.2) hr
          · exact ⟨R, hR', hsch⟩
        · exact absurd hc (hall a (List.mem_cons_self _ _))
    · rw [loop_skip f it a rest hb hc] at h
      refine ih { it with blocked := rest } f r rfl hlb ?_ ?_ h
      · intro x hst
        have := hcount x hst
        rw [List.count_cons] at this
        omega
      · rcases hex with ⟨R, hR, hsch⟩ | hall
        · rcases List.mem_cons.mp hR with e | hR'
          · exact absurd (e ▸ ⟨hsch.1, hsch.2.1⟩) hc
          · exact Or.inl ⟨R, hR', hsch⟩
        · exact Or.inr (fun x hx => hall x (List.mem_cons_of_mem _ hx))

/-- One call of `next_node` during the traversal of a consistent graph: it
terminates, keeps the invariant, and either emits a new node or reports the end
with an empty queue; it never takes the circular-dependency exit. -/
theorem next_node_live (it : bh_graph_iterator) (h : live_inv it)
    (hl : it.last_blocked = INVALID_NODE) :
    ∃ r, bh_graph_iterator_next_node it = some r ∧ live_inv r.it
      ∧ r.it.last_blocked = INVALID_NODE ∧ r.it.bhir = it.bhir
      ∧ ((r.status = BH_SUCCESS ∧ ∃ n, r.node = some n ∧ r.it.scheduled = n :: it.scheduled)
        ∨ (r.status = BH_ERROR ∧ r.node = some INVALID_NODE ∧ r.it.blocked = []
            ∧ r.it.scheduled = it.scheduled)) := by
  obtain ⟨r, hr, -⟩ := loop_terminates_clear it.blocked it (2 * it.blocked.length + 2) rfl hl
    (by omega)
  have hex : (∃ R ∈ it.blocked, schedulable it R)
      ∨ ∀ x ∈ it.blocked, ¬ (x ≠ INVALID_NODE ∧ x ∉ it.scheduled) := by
    by_cases hc : ∃ x ∈ it.blocked, x ≠ INVALID_NODE ∧ x ∉ it.scheduled
    · exact Or.inl (exists_schedulable it h hc)
    · exact Or.inr (fun x hx hx2 => hc ⟨x, hx, hx2⟩)
  have hout := loop_emits_or_ends it.blocked it _ r rfl hl
    (fun x hst => stuck_count_le_one it h x hst) hex hr
  obtain ⟨hbhir, hspec⟩ := next_node_loop_spec _ it r hr
  have hnode : r.node ≠ none := by
    rcases hout with h1 | ⟨-, h2, -, -⟩
    · rcases hspec with ⟨-, n, hn, -⟩ | ⟨h3, -⟩
      · rw [hn]; simp
      · rw [h1] at h3; cases h3
    · rw [h2]; simp
  have hinv := loop_live_inv _ it r hr h hnode
  refine ⟨r, hr, hinv, ?_, hbhir, ?_⟩
  · rcases hspec with ⟨-, n, -, -, -, -, -, h4⟩ | ⟨h3, -⟩
    · exact h4
    · rcases hout with h1 | ⟨-, -, -, h5⟩
      · rw [h1] at h3; cases h3
      · exact h5
  · rcases hspec with ⟨h1, n, hn, -, -, -, hs, -⟩ | ⟨h3, hs⟩
    · exact Or.inl ⟨h1, n, hn, hs⟩
    · rcases hout with h1 | ⟨-, h5, h6, -⟩
      · rw [h1] at h3; cases h3
      · exact Or.inr ⟨h3, h5, h6, hs⟩


/-- Distinct valid handles are at most as many as the arena has slots. -/
theorem nodup_valid_length_le (nodes : List bh_graph_node) (S : List Int) (hnd : S.Nodup)
    (hv : ∀ x ∈ S, valid_handle nodes x) : S.length ≤ nodes.length := by
  have h1 : S.toFinset ⊆ Finset.Ico (0 : Int) (nodes.length : Int) := by
    intro x hx
    rw [List.mem_toFinset] at hx
    rw [Finset.mem_Ico]
    exact hv x hx
  have h2 := Finset.card_le_card h1
  rw [List.toFinset_card_of_nodup hnd, Int.card_Ico] at h2
  simpa using h2

/-- A full drain over a consistent graph: it ends with the end-of-traversal
status, an empty queue, and the scheduled set grown by exactly the emitted
nodes. -/
theorem drain_nodes_live (fuel : Nat) : ∀ (it : bh_graph_iterator), live_inv it →
    it.last_blocked = INVALID_NODE →
    (it.bhir.nodes.length - it.scheduled.length) + 1 ≤ fuel →
    ∃ d, drain_nodes_loop fuel it = some d ∧ d.last.status = BH_ERROR
      ∧ d.last.node = some INVALID_NODE ∧ live_inv d.last.it ∧ d.last.it.blocked = []
      ∧ d.last.it.bhir = it.bhir
      ∧ ∀ n, n ∈ d.last.it.scheduled ↔ n ∈ d.emitted ∨ n ∈ it.scheduled := by
  induction fuel with
  | zero => intro it _ _ hf; omega
  | succ fuel ih =>
    intro it hinv hl hf
    obtain ⟨r, hr, hrinv, hrl, hrb, hout⟩ := next_node_live it hinv hl
    rw [drain_nodes_loop, hr]
    rcases hout with ⟨hs, n, hn, hsch⟩ | ⟨hs, hn, hq, hsch⟩
    · have hlen : r.it.scheduled.length ≤ r.it.bhir.nodes.length :=
        nodup_valid_length_le _ _ hrinv.scheduled_nodup hrinv.scheduled_valid
      have hf' : (r.it.bhir.nodes.length - r.it.scheduled.length) + 1 ≤ fuel := by
        rw [hrb, hsch] at hlen ⊢
        simp only [List.length_cons] at hlen ⊢
        omega
      obtain ⟨d, hd, hd1, hd2, hd3, hd4, hd5, hd6⟩ := ih r.it hrinv hrl hf'
      simp only [hs, if_true, hd]
      refine ⟨_, rfl, hd1, hd2, hd3, hd4, hd5.trans hrb, fun m => ?_⟩
      rw [hd6 m, hsch, hn]
      simp only [Option.getD_some, List.mem_cons]
      tauto
    · have hne : ¬ (r.status = BH_SUCCESS) := by rw [hs]; simp
      simp only [hne, if_false]
      refine ⟨_, rfl, hs, hn, hrinv, hq, hrb, fun m => ?_⟩
      rw [hsch]
      simp

/-- C8 (liveness without false cycle reports). On a node graph that is acyclic,
whose child and parent handles mirror each other and whose root is the only
parentless node, the full drain of `bh_graph_iterator_next_node` on a fresh
iterator terminates, ends with the end-of-traversal return (`BH_ERROR` with
`INVALID_NODE` stored, not the circular-dependency exit) and has emitted the
root and every node reachable from it along child handles. -/
theorem scheduler_liveness (T : bh_opcodes) (mem : Option Nat) (alloc : Bool) (disable : Bool)
    (bhir ir : bh_ir) (it : bh_graph_iterator)
    (hc : bh_graph_iterator_create T mem alloc disable bhir = some (ir, it))
    (hg : consistent_dag ir.nodes ir.root) :
    ∃ d, drain_nodes it = some d ∧ d.last.status = BH_ERROR
      ∧ d.last.node = some INVALID_NODE
      ∧ ∀ n, (n = ir.root ∨ ChildPath ir.nodes ir.root n) → n ∈ d.emitted := by
  obtain ⟨hir, hs, hl, hb, -⟩ := iterator_create_spec T mem alloc disable bhir ir it hc
  have hrootne : ir.root ≠ INVALID_NODE := by
    intro e
    have := hg.root_valid.1
    rw [e] at this
    simp [INVALID_NODE] at this
  rw [if_pos hrootne] at hb
  have hinv : live_inv it := by
    refine ⟨hir ▸ hg, ?_, ?_, ?_, ?_, ?_, ?_⟩
    · rw [hb, hir]; exact Or.inr (List.mem_singleton_self _)
    · intro p hp; rw [hs] at hp; cases hp
    · intro x _ _ hxr
      rw [hb, hir] at *
      rw [List.count_cons, List.count_nil, if_neg]
      · omega
      · simpa using Ne.symm hxr
    · intro x hx
      rw [hb] at hx
      rw [hir]
      exact Or.inr ((List.mem_singleton.mp hx) ▸ hg.root_valid)
    · intro x hx; rw [hs] at hx; cases hx
    · rw [hs]; exact List.nodup_nil
  obtain ⟨d, hd, hd1, hd2, hd3, hd4, hd5, hd6⟩ :=
    drain_nodes_live (2 * it.bhir.nodes.length + 3) it hinv hl (by omega)
  refine ⟨d, hd, hd1, hd2, fun n hn => ?_⟩
  have hsched : ∀ m, m ∈ d.last.it.scheduled → m ∈ d.emitted := by
    intro m hm
    rcases (hd6 m).mp hm with h1 | h1
    · exact h1
    · rw [hs] at h1; cases h1
  have hroot : ir.root ∈ d.last.it.scheduled := by
    rcases hd3.root_seen with h1 | h1
    · rw [hd5, hir] at h1; exact h1
    · rw [hd4] at h1; cases h1
  have hstep : ∀ p c, p ∈ d.last.it.scheduled → is_child ir.nodes p c →
      c ∈ d.last.it.scheduled := by
    intro p c hp hpc
    rcases hd3.children_seen p hp c (by rw [hd5, hir]; exact hpc) with h1 | h1
    · exact h1
    · rw [hd4] at h1; cases h1
  apply hsched
  rcases hn with e | hpath
  · exact e ▸ hroot
  · unfold ChildPath at hpath
    induction hpath with
    | single h1 => exact hstep _ _ hroot h1
    | tail _ h2 ih => exact hstep _ _ ih h2


theorem lookup_invalid (nodes : List bh_graph_node) (x : Int) (h : ¬ valid_handle nodes x) :
    NODE_LOOKUP nodes x = default := by
  unfold NODE_LOOKUP
  split_ifs with h1
  · rfl
  · apply List.getD_eq_default
    unfold valid_handle at h
    omega

theorem is_child_valid (nodes : List bh_graph_node) (p c : Int) (h : is_child nodes p c) :
    valid_handle nodes p := by
  by_contra hv
  obtain ⟨hc, hlr⟩ := h
  rw [lookup_invalid nodes p hv] at hlr
  rcases hlr with e | e <;> exact hc e.symm

theorem is_parent_valid (nodes : List bh_graph_node) (p c : Int) (h : is_parent nodes p c) :
    valid_handle nodes c := by
  by_contra hv
  obtain ⟨hp, hlr⟩ := h
  rw [lookup_invalid nodes c hv] at hlr
  rcases hlr with e | e <;> exact hp e.symm

/-- A statement about every valid handle follows from its check on the slot
indices. -/
theorem forall_valid_of_range (nodes : List bh_graph_node) (Q : Int → Prop)
    (h : ∀ i ∈ List.range nodes.length, Q (i : Int)) : ∀ x, valid_handle nodes x → Q x := by
  intro x hx
  have := h x.toNat (List.mem_range.mpr (by unfold valid_handle at hx; omega))
  rwa [Int.toNat_of_nonneg hx.1] at this

/-- A statement about every child edge follows from its check on the two child
slots of every arena slot. -/
theorem forall_child_of_range (nodes : List bh_graph_node) (P : Int → Int → Prop)
    (h : ∀ i ∈ List.range nodes.length,
      ((NODE_LOOKUP nodes i).left_child ≠ INVALID_NODE → P i (NODE_LOOKUP nodes i).left_child)
      ∧ ((NODE_LOOKUP nodes i).right_child ≠ INVALID_NODE → P i (NODE_LOOKUP nodes i).right_child)) :
    ∀ p c, is_child nodes p c → P p c := by
  intro p c hpc
  obtain ⟨h1, h2⟩ := forall_valid_of_range nodes
    (fun x => ((NODE_LOOKUP nodes x).left_child ≠ INVALID_NODE → P x (NODE_LOOKUP nodes x).left_child)
      ∧ ((NODE_LOOKUP nodes x).right_child ≠ INVALID_NODE → P x (NODE_LOOKUP nodes x).right_child))
    h p (is_child_valid nodes p c hpc)
  obtain ⟨hc, e | e⟩ := hpc
  · exact e ▸ h1 (e ▸ hc)
  · exact e ▸ h2 (e ▸ hc)

/-- A statement about every parent edge follows from its check on the two
parent slots of every arena slot. -/
theorem forall_parent_of_range (nodes : List bh_graph_node) (P : Int → Int → Prop)
    (h : ∀ i ∈ List.range nodes.length,
      ((NODE_LOOKUP nodes i).left_parent ≠ INVALID_NODE → P (NODE_LOOKUP nodes i).left_parent i)
      ∧ ((NODE_LOOKUP nodes i).right_parent ≠ INVALID_NODE → P (NODE_LOOKUP nodes i).right_parent i)) :
    ∀ p c, is_parent nodes p c → P p c := by
  intro p c hpc
  obtain ⟨h1, h2⟩ := forall_valid_of_range nodes
    (fun x => ((NODE_LOOKUP nodes x).left_parent ≠ INVALID_NODE → P (NODE_LOOKUP nodes x).left_parent x)
      ∧ ((NODE_LOOKUP nodes x).right_parent ≠ INVALID_NODE → P (NODE_LOOKUP nodes x).right_parent x))
    h c (is_parent_valid nodes p c hpc)
  obtain ⟨hp, e | e⟩ := hpc
  · exact e ▸ h1 (e ▸ hp)
  · exact e ▸ h2 (e ▸ hp)

/-- A rank that grows along every child handle and every parent-to-child step
rules out cycles. -/
theorem acyclic_of_rank {α : Type} [Preorder α] (nodes : List bh_graph_node) (rank : Int → α)
    (hchild : ∀ p c, is_child nodes p c → rank p < rank c)
    (hparent : ∀ p c, is_parent nodes p c → rank p < rank c) : acyclic nodes := by
  have h1 : ∀ a b, ChildPath nodes a b → rank a < rank b := by
    intro a b h
    induction h with
    | single h => exact hchild _ _ h
    | tail _ h2 ih => exact lt_trans ih (hchild _ _ h2)
  have h2 : ∀ a b, Ancestor nodes a b → rank a < rank b := by
    intro a b h
    induction h with
    | single h => exact hparent _ _ h
    | tail _ h2 ih => exact lt_trans ih (hparent _ _ h2)
  exact fun n => ⟨fun h => lt_irrefl _ (h1 n n h), fun h => lt_irrefl _ (h2 n n h)⟩

set_option maxRecDepth 100000 in
/-- The graph built from `[ADD(b1,b2,b3); MUL(b4,b1,b1)]` is a consistent
graph in the sense of `consistent_dag`. -/
theorem raw_ir_consistent : consistent_dag raw_ir.nodes raw_ir.root where
  root_valid := by decide
  child_valid := fun p c _ h =>
    forall_child_of_range raw_ir.nodes (fun _ c => valid_handle raw_ir.nodes c) (by decide) p c h
  parent_valid := fun p c _ h =>
    forall_parent_of_range raw_ir.nodes (fun p _ => valid_handle raw_ir.nodes p) (by decide) p c h
  child_parent := forall_child_of_range raw_ir.nodes (is_parent raw_ir.nodes) (by decide)
  parent_child := forall_parent_of_range raw_ir.nodes (is_child raw_ir.nodes) (by decide)
  root_parentless := by decide
  only_root := forall_valid_of_range raw_ir.nodes
    (fun x => x ≠ raw_ir.root → (NODE_LOOKUP raw_ir.nodes x).left_parent ≠ INVALID_NODE
      ∨ (NODE_LOOKUP raw_ir.nodes x).right_parent ≠ INVALID_NODE) (by decide)
  no_cycle := acyclic_of_rank raw_ir.nodes (fun x => x)
    (forall_child_of_range raw_ir.nodes (fun p c => p < c) (by decide))
    (forall_parent_of_range raw_ir.nodes (fun p c => p < c) (by decide))

set_option maxRecDepth 100000 in
/-- Witness of `scheduler_liveness` on the graph built from
`[ADD(b1,b2,b3); MUL(b4,b1,b1)]`; the drain emits the root and both
instruction nodes. -/
theorem scheduler_liveness_witness :
    bh_graph_iterator_create demo_opcodes none true false (fresh_ir [ADD 1 2 3, MUL 4 1 1])
        = some (raw_ir, raw_iterator)
    ∧ consistent_dag raw_ir.nodes raw_ir.root
    ∧ (drain_nodes raw_iterator).map (fun d => d.emitted) = some [0, 1, 2]
    ∧ ∃ d, drain_nodes raw_iterator = some d ∧ d.last.status = BH_ERROR
        ∧ d.last.node = some INVALID_NODE
        ∧ ∀ n, (n = raw_ir.root ∨ ChildPath raw_ir.nodes raw_ir.root n) → n ∈ d.emitted :=
  ⟨by decide, raw_ir_consistent, by decide,
    scheduler_liveness demo_opcodes none true false (fresh_ir [ADD 1 2 3, MUL 4 1 1]) raw_ir
      raw_iterator (by decide) raw_ir_consistent⟩

theorem length_update (nodes : List bh_graph_node) (i : Int) (f : bh_graph_node → bh_graph_node) :
    (NODE_UPDATE nodes i f).length = nodes.length := by
  unfold NODE_UPDATE
  split_ifs <;> simp

theorem valid_update (nodes : List bh_graph_node) (i : Int) (f : bh_graph_node → bh_graph_node)
    (x : Int) : valid_handle (NODE_UPDATE nodes i f) x ↔ valid_handle nodes x := by
  unfold valid_handle
  rw [length_update]

theorem lookup_update_same (nodes : List bh_graph_node) (i : Int)
    (f : bh_graph_node → bh_graph_node) (hi : valid_handle nodes i) :
    NODE_LOOKUP (NODE_UPDATE nodes i f) i = f (NODE_LOOKUP nodes i) := by
  obtain ⟨h0, h1⟩ := hi
  unfold NODE_UPDATE
  rw [if_neg (by omega)]
  conv_lhs => unfold NODE_LOOKUP
  rw [if_neg (by omega)]
  rw [List.getD_eq_getElem?_getD, List.getElem?_set_self (by omega)]
  rfl

theorem lookup_update_ne (nodes : List bh_graph_node) (i j : Int)
    (f : bh_graph_node → bh_graph_node) (hij : j ≠ i) :
    NODE_LOOKUP (NODE_UPDATE nodes i f) j = NODE_LOOKUP nodes j := by
  unfold NODE_UPDATE
  split_ifs with h1
  · rfl
  · unfold NODE_LOOKUP
    split_ifs with h2
    · rfl
    · simp only [List.getD_eq_getElem?_getD]
      rw [List.getElem?_set_ne (by omega)]

theorem update_invalid (nodes : List bh_graph_node) (i : Int)
    (f : bh_graph_node → bh_graph_node) (hi : ¬ valid_handle nodes i) :
    NODE_UPDATE nodes i f = nodes := by
  unfold NODE_UPDATE
  split_ifs with h1
  · rfl
  · apply List.set_eq_of_length_le
    unfold valid_handle at hi
    omega

theorem lookup_append_old (nodes : List bh_graph_node) (nd : bh_graph_node) (j : Int)
    (hj : j ≠ (nodes.length : Int)) :
    NODE_LOOKUP (nodes ++ [nd]) j = NODE_LOOKUP nodes j := by
  unfold NODE_LOOKUP
  split_ifs with h1
  · rfl
  · rw [List.getD_eq_getElem?_getD, List.getD_eq_getElem?_getD]
    by_cases h2 : j.toNat < nodes.length
    · rw [List.getElem?_append_left h2]
    · rw [List.getElem?_eq_none (by simp; omega), List.getElem?_eq_none (by omega)]

theorem lookup_append_new (nodes : List bh_graph_node) (nd : bh_graph_node) :
    NODE_LOOKUP (nodes ++ [nd]) (nodes.length : Int) = nd := by
  unfold NODE_LOOKUP
  rw [if_neg (by omega)]
  simp [List.getD_eq_getElem?_getD]


/-- Rewriting one slot keeps the rank conditions when the new content of the
slot satisfies them. -/
theorem ranked_update (nodes : List bh_graph_node) (rank : Int → ℚ) (i : Int)
    (f : bh_graph_node → bh_graph_node) (h : ranked nodes rank)
    (hf : valid_handle nodes i → node_ok nodes.length rank i (f (NODE_LOOKUP nodes i))) :
    ranked (NODE_UPDATE nodes i f) rank := by
  intro x hx
  rw [valid_update] at hx
  rw [length_update]
  by_cases e : x = i
  · subst e
    rw [lookup_update_same nodes x f hx]
    exact hf hx
  · rw [lookup_update_ne nodes i x f e]
    exact h x hx

theorem ranked_set_left_child (nodes : List bh_graph_node) (rank : Int → ℚ) (i v : Int)
    (h : ranked nodes rank)
    (hv : valid_handle nodes i → v = INVALID_NODE ∨ (valid_handle nodes v ∧ rank i < rank v)) :
    ranked (NODE_UPDATE nodes i (fun x => { x with left_child := v })) rank :=
  ranked_update nodes rank i _ h (fun hi =>
    ⟨hv hi, (h i hi).right_child, (h i hi).left_parent, (h i hi).right_parent⟩)

theorem ranked_set_right_child (nodes : List bh_graph_node) (rank : Int → ℚ) (i v : Int)
    (h : ranked nodes rank)
    (hv : valid_handle nodes i → v = INVALID_NODE ∨ (valid_handle nodes v ∧ rank i < rank v)) :
    ranked (NODE_UPDATE nodes i (fun x => { x with right_child := v })) rank :=
  ranked_update nodes rank i _ h (fun hi =>
    ⟨(h i hi).left_child, hv hi, (h i hi).left_parent, (h i hi).right_parent⟩)

theorem ranked_set_left_parent (nodes : List bh_graph_node) (rank : Int → ℚ) (i v : Int)
    (h : ranked nodes rank)
    (hv : valid_handle nodes i → v = INVALID_NODE ∨ (valid_handle nodes v ∧ rank v < rank i)) :
    ranked (NODE_UPDATE nodes i (fun x => { x with left_parent := v })) rank :=
  ranked_update nodes rank i _ h (fun hi =>
    ⟨(h i hi).left_child, (h i hi).right_child, hv hi, (h i hi).right_parent⟩)

theorem ranked_set_right_parent (nodes : List bh_graph_node) (rank : Int → ℚ) (i v : Int)
    (h : ranked nodes rank)
    (hv : valid_handle nodes i → v = INVALID_NODE ∨ (valid_handle nodes v ∧ rank v < rank i)) :
    ranked (NODE_UPDATE nodes i (fun x => { x with right_parent := v })) rank :=
  ranked_update nodes rank i _ h (fun hi =>
    ⟨(h i hi).left_child, (h i hi).right_child, (h i hi).left_parent, hv hi⟩)

/-- Appending a node without handles keeps the rank conditions, whatever rank
the new node gets. -/
theorem ranked_append (nodes : List bh_graph_node) (rank : Int → ℚ) (t : bh_node_type)
    (ins : Int) (q : ℚ) (h : ranked nodes rank) :
    ranked (nodes ++ [⟨t, ins, INVALID_NODE, INVALID_NODE, INVALID_NODE, INVALID_NODE⟩])
      (Function.update rank (nodes.length : Int) q) := by
  intro x hx
  have hlen : (nodes ++ [(⟨t, ins, INVALID_NODE, INVALID_NODE, INVALID_NODE,
      INVALID_NODE⟩ : bh_graph_node)]).length = nodes.length + 1 := by simp
  rw [hlen]
  by_cases e : x = (nodes.length : Int)
  · subst e
    rw [lookup_append_new]
    exact ⟨Or.inl rfl, Or.inl rfl, Or.inl rfl, Or.inl rfl⟩
  · rw [lookup_append_old nodes _ x e]
    have hxv : valid_handle nodes x := by
      unfold valid_handle at hx ⊢
      rw [hlen] at hx
      push_cast at hx
      omega
    have hup : ∀ y : Int, y < (nodes.length : Int) →
        Function.update rank (nodes.length : Int) q y = rank y :=
      fun y hy => Function.update_noteq (by omega) _ _
    obtain ⟨h1, h2, h3, h4⟩ := h x hxv
    refine ⟨?_, ?_, ?_, ?_⟩
    · rcases h1 with a | ⟨a, b⟩
      · exact Or.inl a
      · exact Or.inr ⟨⟨a.1, by push_cast; omega⟩, by rw [hup _ a.2, hup x hxv.2]; exact b⟩
    · rcases h2 with a | ⟨a, b⟩
      · exact Or.inl a
      · exact Or.inr ⟨⟨a.1, by push_cast; omega⟩, by rw [hup _ a.2, hup x hxv.2]; exact b⟩
    · rcases h3 with a | ⟨a, b⟩
      · exact Or.inl a
      · exact Or.inr ⟨⟨a.1, by push_cast; omega⟩, by rw [hup _ a.2, hup x hxv.2]; exact b⟩
    · rcases h4 with a | ⟨a, b⟩
      · exact Or.inl a
      · exact Or.inr ⟨⟨a.1, by push_cast; omega⟩, by rw [hup _ a.2, hup x hxv.2]; exact b⟩

/-- The two outcomes of `bh_graph_new_node`. -/
theorem new_node_cases (mem : Option Nat) (nodes : List bh_graph_node) (t : bh_node_type)
    (ins : Int) :
    bh_graph_new_node mem nodes t ins = (INVALID_NODE, nodes)
    ∨ bh_graph_new_node mem nodes t ins
        = ((nodes.length : Int),
            nodes ++ [⟨t, ins, INVALID_NODE, INVALID_NODE, INVALID_NODE, INVALID_NODE⟩]) := by
  unfold bh_graph_new_node bh_dynamic_list_append
  rcases mem with _ | c
  · right
    simp only
    rw [if_neg (by omega)]
  · simp only
    by_cases hc : nodes.length < c
    · right
      rw [if_pos hc, if_neg (by omega)]
    · left
      rw [if_neg hc, if_pos (by omega)]

/-- Between two ranks there is a third. -/
theorem exists_between_rank (a b c : ℚ) (h1 : a < c) (h2 : b < c) : ∃ q, a < q ∧ b < q ∧ q < c :=
  ⟨(max a b + c) / 2, by
    have := le_max_left a b
    have := le_max_right a b
    have hm : max a b < c := max_lt h1 h2
    refine ⟨?_, ?_, ?_⟩ <;> linarith⟩

theorem length_rewire_child (nodes : List bh_graph_node) (parent target self cn : Int) :
    (rewire_child nodes parent target self cn).length = nodes.length := by
  unfold rewire_child
  split_ifs <;> simp [length_update]

theorem ranked_rewire_child (nodes : List bh_graph_node) (rank : Int → ℚ)
    (parent target self cn : Int) (h : ranked nodes rank)
    (hv : valid_handle nodes target → valid_handle nodes cn ∧ rank target < rank cn) :
    ranked (rewire_child nodes parent target self cn) rank := by
  unfold rewire_child
  split_ifs
  · exact ranked_set_left_child nodes rank target cn h (fun ht => Or.inr (hv ht))
  · exact ranked_set_right_child nodes rank target cn h (fun ht => Or.inr (hv ht))
  · exact h

theorem not_valid_invalid (nodes : List bh_graph_node) : ¬ valid_handle nodes INVALID_NODE := by
  unfold valid_handle INVALID_NODE
  omega

theorem length_add_parent_overflow (nodes : List bh_graph_node) (self newparent cn : Int) :
    (add_parent_overflow nodes self newparent cn).length = nodes.length := by
  unfold add_parent_overflow
  simp only [length_update, length_rewire_child]

/-- The fan-in overflow block keeps the rank conditions when the collection
node ranks between the old parents of `self` and `self`. -/
theorem add_parent_overflow_ranked (nodes : List bh_graph_node) (rank : Int → ℚ)
    (self newparent cn : Int) (h : ranked nodes rank)
    (hcn : valid_handle nodes cn) (hself : valid_handle nodes self)
    (hnp : valid_handle nodes newparent ∧ rank newparent < rank self)
    (hq : rank cn < rank self)
    (hA : (NODE_LOOKUP nodes self).left_parent = INVALID_NODE
      ∨ (valid_handle nodes (NODE_LOOKUP nodes self).left_parent
          ∧ rank (NODE_LOOKUP nodes self).left_parent < rank cn))
    (hB : (NODE_LOOKUP nodes self).right_parent = INVALID_NODE
      ∨ (valid_handle nodes (NODE_LOOKUP nodes self).right_parent
          ∧ rank (NODE_LOOKUP nodes self).right_parent < rank cn)) :
    ranked (add_parent_overflow nodes self newparent cn) rank := by
  have hne : self ≠ cn := fun e => by rw [e] at hq; exact lt_irrefl _ hq
  unfold add_parent_overflow
  lift_lets
  intro n1 n2 n3 n4 n5 n6
  have h1 : ranked n1 rank := ranked_set_left_parent nodes rank cn _ h (fun _ => hA)
  have v1 : ∀ x, valid_handle n1 x ↔ valid_handle nodes x := fun x => valid_update _ _ _ x
  have h2 : ranked n2 rank := by
    refine ranked_set_right_parent n1 rank cn _ h1 (fun _ => ?_)
    rw [show NODE_LOOKUP n1 self = NODE_LOOKUP nodes self from lookup_update_ne _ _ _ _ hne, v1]
    exact hB
  have v2 : ∀ x, valid_handle n2 x ↔ valid_handle nodes x :=
    fun x => (valid_update _ _ _ x).trans (v1 x)
  have h3 : ranked n3 rank := by
    refine ranked_rewire_child n2 rank _ _ self cn h2 (fun ht => ⟨(v2 cn).mpr hcn, ?_⟩)
    rcases (h2 cn ((v2 cn).mpr hcn)).left_parent with e | ⟨-, e⟩
    · rw [e] at ht
      exact absurd ht (not_valid_invalid _)
    · exact e
  have v3 : ∀ x, valid_handle n3 x ↔ valid_handle nodes x := by
    intro x
    unfold valid_handle
    rw [show n3.length = n2.length from length_rewire_child _ _ _ _ _]
    exact v2 x
  have h4 : ranked n4 rank := by
    refine ranked_rewire_child n3 rank _ _ self cn h3 (fun ht => ⟨(v3 cn).mpr hcn, ?_⟩)
    rcases (h3 cn ((v3 cn).mpr hcn)).right_parent with e | ⟨-, e⟩
    · rw [e] at ht
      exact absurd ht (not_valid_invalid _)
    · exact e
  have v4 : ∀ x, valid_handle n4 x ↔ valid_handle nodes x := by
    intro x
    unfold valid_handle
    rw [show n4.length = n3.length from length_rewire_child _ _ _ _ _]
    exact v3 x
  have h5 : ranked n5 rank :=
    ranked_set_left_parent n4 rank self cn h4 (fun _ => Or.inr ⟨(v4 cn).mpr hcn, hq⟩)
  have v5 : ∀ x, valid_handle n5 x ↔ valid_handle nodes x :=
    fun x => (valid_update _ _ _ x).trans (v4 x)
  have h6 : ranked n6 rank :=
    ranked_set_right_parent n5 rank self newparent h5
      (fun _ => Or.inr ⟨(v5 newparent).mpr hnp.1, hnp.2⟩)
  have v6 : ∀ x, valid_handle n6 x ↔ valid_handle nodes x :=
    fun x => (valid_update _ _ _ x).trans (v5 x)
  exact ranked_set_left_child n6 rank cn self h6 (fun _ => Or.inr ⟨(v6 self).mpr hself, hq⟩)

/-- The node `bh_graph_new_node` appends. -/
theorem valid_append (nodes : List bh_graph_node) (nd : bh_graph_node) (x : Int) :
    valid_handle (nodes ++ [nd]) x ↔ valid_handle nodes x ∨ x = (nodes.length : Int) := by
  unfold valid_handle
  simp only [List.length_append, List.length_singleton]
  push_cast
  omega

/-- The five ways through `bh_grap_node_add_parent`. -/
theorem add_parent_cases (mem : Option Nat) (nodes : List bh_graph_node) (self newparent : Int) :
    (((NODE_LOOKUP nodes self).left_parent = newparent
        ∨ (NODE_LOOKUP nodes self).right_parent = newparent ∨ newparent = INVALID_NODE)
      ∧ bh_grap_node_add_parent mem nodes self newparent = (BH_SUCCESS, nodes))
    ∨ (newparent ≠ INVALID_NODE ∧ (NODE_LOOKUP nodes self).left_parent = INVALID_NODE
      ∧ bh_grap_node_add_parent mem nodes self newparent
        = (BH_SUCCESS, NODE_UPDATE nodes self (fun x => { x with left_parent := newparent })))
    ∨ (newparent ≠ INVALID_NODE ∧ (NODE_LOOKUP nodes self).left_parent ≠ INVALID_NODE
      ∧ (NODE_LOOKUP nodes self).right_parent = INVALID_NODE
      ∧ bh_grap_node_add_parent mem nodes self newparent
        = (BH_SUCCESS, NODE_UPDATE nodes self (fun x => { x with right_parent := newparent })))
    ∨ (newparent ≠ INVALID_NODE ∧ (NODE_LOOKUP nodes self).left_parent ≠ INVALID_NODE
      ∧ (NODE_LOOKUP nodes self).right_parent ≠ INVALID_NODE
      ∧ bh_graph_new_node mem nodes BH_COLLECTION INVALID_INSTRUCTION = (INVALID_NODE, nodes)
      ∧ bh_grap_node_add_parent mem nodes self newparent = (BH_ERROR, nodes))
    ∨ (newparent ≠ INVALID_NODE ∧ (NODE_LOOKUP nodes self).left_parent ≠ INVALID_NODE
      ∧ (NODE_LOOKUP nodes self).right_parent ≠ INVALID_NODE
      ∧ (NODE_LOOKUP nodes self).left_parent ≠ newparent
      ∧ (NODE_LOOKUP nodes self).right_parent ≠ newparent
      ∧ bh_graph_new_node mem nodes BH_COLLECTION INVALID_INSTRUCTION
        = ((nodes.length : Int), nodes ++ [⟨BH_COLLECTION, INVALID_INSTRUCTION, INVALID_NODE,
            INVALID_NODE, INVALID_NODE, INVALID_NODE⟩])
      ∧ bh_grap_node_add_parent mem nodes self newparent
        = (BH_SUCCESS, add_parent_overflow (nodes ++ [⟨BH_COLLECTION, INVALID_INSTRUCTION,
            INVALID_NODE, INVALID_NODE, INVALID_NODE, INVALID_NODE⟩]) self newparent
            (nodes.length : Int))) := by
  unfold bh_grap_node_add_parent
  by_cases c1 : (NODE_LOOKUP nodes self).left_parent = newparent
      ∨ (NODE_LOOKUP nodes self).right_parent = newparent ∨ newparent = INVALID_NODE
  · exact Or.inl ⟨c1, by rw [if_pos c1]⟩
  rw [if_neg c1]
  have hnp : newparent ≠ INVALID_NODE := fun e => c1 (Or.inr (Or.inr e))
  by_cases c2 : (NODE_LOOKUP nodes self).left_parent = INVALID_NODE
  · exact Or.inr (Or.inl ⟨hnp, c2, by rw [if_pos c2]⟩)
  rw [if_neg c2]
  by_cases c3 : (NODE_LOOKUP nodes self).right_parent = INVALID_NODE
  · exact Or.inr (Or.inr (Or.inl ⟨hnp, c2, c3, by rw [if_pos c3]⟩))
  rw [if_neg c3]
  rcases new_node_cases mem nodes BH_COLLECTION INVALID_INSTRUCTION with e | e
  · refine Or.inr (Or.inr (Or.inr (Or.inl ⟨hnp, c2, c3, e, ?_⟩)))
    rw [e]
    rfl
  · refine Or.inr (Or.inr (Or.inr (Or.inr ⟨hnp, c2, c3, fun e1 => c1 (Or.inl e1),
      fun e1 => c1 (Or.inr (Or.inl e1)), e, ?_⟩)))
    rw [e]
    simp only
    rw [if_neg (by unfold INVALID_NODE; omega)]

/-- `add_parent` keeps the rank conditions: there is a rank for the new arena
that agrees with the old one on the old nodes and puts every node created here
below `self`. -/
theorem add_parent_ranked (mem : Option Nat) (nodes : List bh_graph_node) (rank : Int → ℚ)
    (self newparent : Int) (h : ranked nodes rank) (hs : valid_handle nodes self)
    (hp : newparent = INVALID_NODE ∨ (valid_handle nodes newparent ∧ rank newparent < rank self)) :
    ∃ rank', ranked (bh_grap_node_add_parent mem nodes self newparent).2 rank'
      ∧ (∀ x, valid_handle nodes x → rank' x = rank x)
      ∧ nodes.length ≤ (bh_grap_node_add_parent mem nodes self newparent).2.length
      ∧ ∀ x, valid_handle (bh_grap_node_add_parent mem nodes self newparent).2 x →
          ¬ valid_handle nodes x → rank' x < rank self := by
  rcases add_parent_cases mem nodes self newparent with
    ⟨-, e⟩ | ⟨hnp, -, e⟩ | ⟨hnp, -, -, e⟩ | ⟨-, -, -, -, e⟩ | ⟨hnp, c2, c3, -, -, -, e⟩
  · rw [e]
    exact ⟨rank, h, fun _ _ => rfl, le_refl _, fun x hx hnx => absurd hx hnx⟩
  · rw [e]
    refine ⟨rank, ranked_set_left_parent nodes rank self newparent h
      (fun _ => Or.inr (hp.resolve_left hnp)), fun _ _ => rfl, by simp [length_update],
      fun x hx hnx => ?_⟩
    simp only [valid_update] at hx
    exact absurd hx hnx
  · rw [e]
    refine ⟨rank, ranked_set_right_parent nodes rank self newparent h
      (fun _ => Or.inr (hp.resolve_left hnp)), fun _ _ => rfl, by simp [length_update],
      fun x hx hnx => ?_⟩
    simp only [valid_update] at hx
    exact absurd hx hnx
  · rw [e]
    exact ⟨rank, h, fun _ _ => rfl, le_refl _, fun x hx hnx => absurd hx hnx⟩
  · rw [e]
    obtain ⟨hpv, hpr⟩ := hp.resolve_left hnp
    obtain ⟨hA1, hA2⟩ := (h self hs).left_parent.resolve_left c2
    obtain ⟨hB1, hB2⟩ := (h self hs).right_parent.resolve_left c3
    obtain ⟨q, hq1, hq2, hq3⟩ := exists_between_rank _ _ _ hA2 hB2
    have hup : ∀ y : Int, valid_handle nodes y →
        Function.update rank (nodes.length : Int) q y = rank y :=
      fun y hy => Function.update_noteq (by unfold valid_handle at hy; omega) _ _
    have hnew : Function.update rank (nodes.length : Int) q (nodes.length : Int) = q :=
      Function.update_same _ _ _
    have hext := ranked_append nodes rank BH_COLLECTION INVALID_INSTRUCTION q h
    have hsn : self ≠ (nodes.length : Int) := by unfold valid_handle at hs; omega
    have hov := add_parent_overflow_ranked _ _ self newparent (nodes.length : Int) hext
      ((valid_append _ _ _).mpr (Or.inr rfl)) ((valid_append _ _ _).mpr (Or.inl hs))
      ⟨(valid_append _ _ _).mpr (Or.inl hpv), by rw [hup _ hpv, hup _ hs]; exact hpr⟩
      (by rw [hnew, hup _ hs]; exact hq3)
      (by
        rw [lookup_append_old _ _ _ hsn]
        exact Or.inr ⟨(valid_append _ _ _).mpr (Or.inl hA1), by rw [hnew, hup _ hA1]; exact hq1⟩)
      (by
        rw [lookup_append_old _ _ _ hsn]
        exact Or.inr ⟨(valid_append _ _ _).mpr (Or.inl hB1), by rw [hnew, hup _ hB1]; exact hq2⟩)
    refine ⟨_, hov, hup, ?_, fun x hx hnx => ?_⟩
    · simp [length_add_parent_overflow]
    · have hx' : valid_handle (nodes ++ [(⟨BH_COLLECTION, INVALID_INSTRUCTION, INVALID_NODE,
          INVALID_NODE, INVALID_NODE, INVALID_NODE⟩ : bh_graph_node)]) x := by
        unfold valid_handle at hx ⊢
        rw [show (add_parent_overflow _ self newparent (nodes.length : Int)).length = _ from
          length_add_parent_overflow _ _ _ _] at hx
        exact hx
      rcases (valid_append _ _ _).mp hx' with h1 | h1
      · exact absurd h1 hnx
      · rw [h1, hnew]
        exact hq3

/-- Above one rank and below two others there is a rank. -/
theorem exists_between_rank_min (a b c : ℚ) (h1 : a < b) (h2 : a < c) :
    ∃ q, a < q ∧ q < b ∧ q < c :=
  ⟨(a + min b c) / 2, by
    have := min_le_left b c
    have := min_le_right b c
    have hm : a < min b c := lt_min h1 h2
    refine ⟨?_, ?_, ?_⟩ <;> linarith⟩

/-- The five ways through `bh_grap_node_add_child`. -/
theorem add_child_cases (mem : Option Nat) (nodes : List bh_graph_node) (self newchild : Int) :
    (self = newchild ∧ bh_grap_node_add_child mem nodes self newchild = (BH_ERROR, nodes))
    ∨ (self ≠ newchild ∧ (NODE_LOOKUP nodes self).left_child = INVALID_NODE
      ∧ bh_grap_node_add_child mem nodes self newchild
        = (BH_SUCCESS, (bh_grap_node_add_parent mem
            (NODE_UPDATE nodes self (fun x => { x with left_child := newchild })) newchild self).2))
    ∨ (self ≠ newchild ∧ (NODE_LOOKUP nodes self).left_child ≠ INVALID_NODE
      ∧ (NODE_LOOKUP nodes self).right_child = INVALID_NODE
      ∧ bh_grap_node_add_child mem nodes self newchild
        = (BH_SUCCESS, (bh_grap_node_add_parent mem
            (NODE_UPDATE nodes self (fun x => { x with right_child := newchild })) newchild self).2))
    ∨ (self ≠ newchild ∧ (NODE_LOOKUP nodes self).left_child ≠ INVALID_NODE
      ∧ (NODE_LOOKUP nodes self).right_child ≠ INVALID_NODE
      ∧ bh_graph_new_node mem nodes BH_COLLECTION INVALID_INSTRUCTION = (INVALID_NODE, nodes)
      ∧ bh_grap_node_add_child mem nodes self newchild = (BH_ERROR, nodes))
    ∨ (self ≠ newchild ∧ (NODE_LOOKUP nodes self).left_child ≠ INVALID_NODE
      ∧ (NODE_LOOKUP nodes self).right_child ≠ INVALID_NODE
      ∧ bh_graph_new_node mem nodes BH_COLLECTION INVALID_INSTRUCTION
        = ((nodes.length : Int), nodes ++ [⟨BH_COLLECTION, INVALID_INSTRUCTION, INVALID_NODE,
            INVALID_NODE, INVALID_NODE, INVALID_NODE⟩])
      ∧ bh_grap_node_add_child mem nodes self newchild
        = add_child_overflow mem (nodes ++ [⟨BH_COLLECTION, INVALID_INSTRUCTION,
            INVALID_NODE, INVALID_NODE, INVALID_NODE, INVALID_NODE⟩]) self newchild
            (nodes.length : Int)) := by
  unfold bh_grap_node_add_child
  by_cases c1 : self = newchild
  · exact Or.inl ⟨c1, by rw [if_pos c1]⟩
  rw [if_neg c1]
  by_cases c2 : (NODE_LOOKUP nodes self).left_child = INVALID_NODE
  · exact Or.inr (Or.inl ⟨c1, c2, by rw [if_pos c2]⟩)
  rw [if_neg c2]
  by_cases c3 : (NODE_LOOKUP nodes self).right_child = INVALID_NODE
  · exact Or.inr (Or.inr (Or.inl ⟨c1, c2, c3, by rw [if_pos c3]⟩))
  rw [if_neg c3]
  rcases new_node_cases mem nodes BH_COLLECTION INVALID_INSTRUCTION with e | e
  · refine Or.inr (Or.inr (Or.inr (Or.inl ⟨c1, c2, c3, e, ?_⟩)))
    rw [e]
    rfl
  · refine Or.inr (Or.inr (Or.inr (Or.inr ⟨c1, c2, c3, e, ?_⟩)))
    rw [e]
    simp only
    rw [if_neg (by unfold INVALID_NODE; omega)]

/-- The fan-out overflow block keeps the rank conditions when the collection
node ranks between `self` and both the displaced child and `newchild`. -/
theorem add_child_overflow_ranked (mem : Option Nat) (nodes : List bh_graph_node)
    (rank : Int → ℚ) (self newchild cn : Int) (h : ranked nodes rank)
    (hcn : valid_handle nodes cn) (hself : valid_handle nodes self)
    (hnc : valid_handle nodes newchild)
    (hq1 : rank self < rank cn) (hq2 : rank cn < rank newchild)
    (hD : (NODE_LOOKUP nodes self).left_child = INVALID_NODE
      ∨ (valid_handle nodes (NODE_LOOKUP nodes self).left_child
          ∧ rank cn < rank (NODE_LOOKUP nodes self).left_child)) :
    ∃ rank', ranked (add_child_overflow mem nodes self newchild cn).2 rank'
      ∧ (∀ x, valid_handle nodes x → rank' x = rank x)
      ∧ nodes.length ≤ (add_child_overflow mem nodes self newchild cn).2.length
      ∧ ∀ x, valid_handle (add_child_overflow mem nodes self newchild cn).2 x →
          ¬ valid_handle nodes x → rank' x < rank newchild := by
  unfold add_child_overflow
  lift_lets
  intro n1 n2 n3 d
  have h1 : ranked n1 rank := ranked_set_left_child nodes rank cn _ h (fun _ => hD)
  have v1 : ∀ x, valid_handle n1 x ↔ valid_handle nodes x := fun x => valid_update _ _ _ x
  have h2 : ranked n2 rank :=
    ranked_set_right_child n1 rank cn newchild h1 (fun _ => Or.inr ⟨(v1 _).mpr hnc, hq2⟩)
  have v2 : ∀ x, valid_handle n2 x ↔ valid_handle nodes x :=
    fun x => (valid_update _ _ _ x).trans (v1 x)
  have h3 : ranked n3 rank :=
    ranked_set_left_child n2 rank self cn h2 (fun _ => Or.inr ⟨(v2 _).mpr hcn, hq1⟩)
  have v3 : ∀ x, valid_handle n3 x ↔ valid_handle nodes x :=
    fun x => (valid_update _ _ _ x).trans (v2 x)
  have l3 : n3.length = nodes.length := by simp only [n3, n2, n1, length_update]
  have hd : valid_handle n3 d → valid_handle n3 cn ∧ rank cn < rank d := by
    intro hdv
    rcases (h3 cn ((v3 cn).mpr hcn)).left_child with e | ⟨-, e⟩
    · rw [show d = INVALID_NODE from e] at hdv
      exact absurd hdv (not_valid_invalid _)
    · exact ⟨(v3 cn).mpr hcn, e⟩
  -- the common tail of the two rewiring branches
  have tail : ∀ n4 : List bh_graph_node, ranked n4 rank → n4.length = nodes.length →
      ∃ rank', ranked (if (bh_grap_node_add_parent mem n4 newchild cn).1 ≠ BH_SUCCESS then
            (BH_ERROR, (bh_grap_node_add_parent mem n4 newchild cn).2)
          else (BH_SUCCESS, NODE_UPDATE (bh_grap_node_add_parent mem n4 newchild cn).2 cn
            (fun x => { x with left_parent := self }))).2 rank'
        ∧ (∀ x, valid_handle nodes x → rank' x = rank x)
        ∧ nodes.length ≤ (if (bh_grap_node_add_parent mem n4 newchild cn).1 ≠ BH_SUCCESS then
            (BH_ERROR, (bh_grap_node_add_parent mem n4 newchild cn).2)
          else (BH_SUCCESS, NODE_UPDATE (bh_grap_node_add_parent mem n4 newchild cn).2 cn
            (fun x => { x with left_parent := self }))).2.length
        ∧ ∀ x, valid_handle (if (bh_grap_node_add_parent mem n4 newchild cn).1 ≠ BH_SUCCESS then
            (BH_ERROR, (bh_grap_node_add_parent mem n4 newchild cn).2)
          else (BH_SUCCESS, NODE_UPDATE (bh_grap_node_add_parent mem n4 newchild cn).2 cn
            (fun x => { x with left_parent := self }))).2 x →
            ¬ valid_handle nodes x → rank' x < rank newchild := by
    intro n4 h4 l4
    have v4 : ∀ x, valid_handle n4 x ↔ valid_handle nodes x := by
      intro x; unfold valid_handle; rw [l4]
    obtain ⟨rank2, hp1, hp2, hp3, hp4⟩ := add_parent_ranked mem n4 rank newchild cn h4
      ((v4 _).mpr hnc) (Or.inr ⟨(v4 _).mpr hcn, hq2⟩)
    have hagree : ∀ x, valid_handle nodes x → rank2 x = rank x :=
      fun x hx => hp2 x ((v4 x).mpr hx)
    have hnew : ∀ x, valid_handle (bh_grap_node_add_parent mem n4 newchild cn).2 x →
        ¬ valid_handle nodes x → rank2 x < rank newchild :=
      fun x hx hnx => hp4 x hx (fun hc => hnx ((v4 x).mp hc))
    have hmono : ∀ x, valid_handle nodes x →
        valid_handle (bh_grap_node_add_parent mem n4 newchild cn).2 x := by
      intro x hx
      unfold valid_handle at hx ⊢
      omega
    split_ifs
    · exact ⟨rank2, hp1, hagree, by simp only; omega, hnew⟩
    · refine ⟨rank2, ?_, hagree, by simp only [length_update]; omega, fun x hx hnx => ?_⟩
      · refine ranked_set_left_parent _ rank2 cn self hp1 (fun _ => Or.inr ⟨hmono _ hself, ?_⟩)
        rw [hagree _ hself, hagree _ hcn]
        exact hq1
      · simp only [valid_update] at hx
        exact hnew x hx hnx
  split_ifs
  · exact tail _ (ranked_set_left_parent n3 rank d cn h3 (fun hdv => Or.inr (hd hdv)))
      (by rw [length_update, l3])
  · exact tail _ (ranked_set_right_parent n3 rank d cn h3 (fun hdv => Or.inr (hd hdv)))
      (by rw [length_update, l3])
  · refine ⟨rank, h3, fun _ _ => rfl, by simp only; omega, fun x hx hnx => ?_⟩
    exact absurd ((v3 x).mp hx) hnx

/-- `add_child` keeps the rank conditions: there is a rank for the new arena
that agrees with the old one on the old nodes and puts every node created here
below `newchild`. -/
theorem add_child_ranked (mem : Option Nat) (nodes : List bh_graph_node) (rank : Int → ℚ)
    (self newchild : Int) (h : ranked nodes rank) (hs : valid_handle nodes self)
    (hc : valid_handle nodes newchild) (hr : rank self < rank newchild) :
    ∃ rank', ranked (bh_grap_node_add_child mem nodes self newchild).2 rank'
      ∧ rank_ext nodes (bh_grap_node_add_child mem nodes self newchild).2 rank rank'
          (rank newchild) := by
  rcases add_child_cases mem nodes self newchild with
    ⟨-, e⟩ | ⟨-, -, e⟩ | ⟨-, -, -, e⟩ | ⟨-, -, -, -, e⟩ | ⟨-, c2, -, -, e⟩
  · rw [e]
    exact ⟨rank, h, fun _ _ => rfl, le_refl _, fun x hx hnx => absurd hx hnx⟩
  · rw [e]
    have h1 := ranked_set_left_child nodes rank self newchild h (fun _ => Or.inr ⟨hc, hr⟩)
    obtain ⟨rank', hp1, hp2, hp3, hp4⟩ := add_parent_ranked mem _ rank newchild self h1
      ((valid_update _ _ _ _).mpr hc) (Or.inr ⟨(valid_update _ _ _ _).mpr hs, hr⟩)
    refine ⟨rank', hp1, fun x hx => hp2 x ((valid_update _ _ _ _).mpr hx), ?_,
      fun x hx hnx => hp4 x hx (fun hv => hnx ((valid_update _ _ _ _).mp hv))⟩
    rw [length_update] at hp3
    exact hp3
  · rw [e]
    have h1 := ranked_set_right_child nodes rank self newchild h (fun _ => Or.inr ⟨hc, hr⟩)
    obtain ⟨rank', hp1, hp2, hp3, hp4⟩ := add_parent_ranked mem _ rank newchild self h1
      ((valid_update _ _ _ _).mpr hc) (Or.inr ⟨(valid_update _ _ _ _).mpr hs, hr⟩)
    refine ⟨rank', hp1, fun x hx => hp2 x ((valid_update _ _ _ _).mpr hx), ?_,
      fun x hx hnx => hp4 x hx (fun hv => hnx ((valid_update _ _ _ _).mp hv))⟩
    rw [length_update] at hp3
    exact hp3
  · rw [e]
    exact ⟨rank, h, fun _ _ => rfl, le_refl _, fun x hx hnx => absurd hx hnx⟩
  · rw [e]
    obtain ⟨hD1, hD2⟩ := (h self hs).left_child.resolve_left c2
    obtain ⟨q, hq1, hq2, hq3⟩ := exists_between_rank_min _ _ _ hD2 hr
    have hup : ∀ y : Int, valid_handle nodes y →
        Function.update rank (nodes.length : Int) q y = rank y :=
      fun y hy => Function.update_noteq (by unfold valid_handle at hy; omega) _ _
    have hnew : Function.update rank (nodes.length : Int) q (nodes.length : Int) = q :=
      Function.update_same _ _ _
    have hext := ranked_append nodes rank BH_COLLECTION INVALID_INSTRUCTION q h
    have hsn : self ≠ (nodes.length : Int) := by unfold valid_handle at hs; omega
    obtain ⟨rank', ho1, ho2, ho3, ho4⟩ := add_child_overflow_ranked mem _ _ self newchild
      (nodes.length : Int) hext
      ((valid_append _ _ _).mpr (Or.inr rfl)) ((valid_append _ _ _).mpr (Or.inl hs))
      ((valid_append _ _ _).mpr (Or.inl hc))
      (by rw [hnew, hup _ hs]; exact hq1) (by rw [hnew, hup _ hc]; exact hq3)
      (by
        rw [lookup_append_old _ _ _ hsn]
        exact Or.inr ⟨(valid_append _ _ _).mpr (Or.inl hD1), by rw [hnew, hup _ hD1]; exact hq2⟩)
    refine ⟨rank', ho1, fun x hx => ?_, ?_, fun x hx hnx => ?_⟩
    · rw [ho2 x ((valid_append _ _ _).mpr (Or.inl hx)), hup x hx]
    · simp only [List.length_append, List.length_singleton] at ho3
      omega
    · by_cases hxe : valid_handle (nodes ++ [(⟨BH_COLLECTION, INVALID_INSTRUCTION, INVALID_NODE,
          INVALID_NODE, INVALID_NODE, INVALID_NODE⟩ : bh_graph_node)]) x
      · rcases (valid_append _ _ _).mp hxe with h1 | h1
        · exact absurd h1 hnx
        · rw [ho2 x hxe, h1, hnew]
          exact hq3
      · have := ho4 x hx hxe
        rwa [hup _ hc] at this

theorem rank_ext_refl (nodes : List bh_graph_node) (rank : Int → ℚ) (top : ℚ) :
    rank_ext nodes nodes rank rank top :=
  ⟨fun _ _ => rfl, le_refl _, fun _ hx hnx => absurd hx hnx⟩

theorem valid_mono (nodes nodes' : List bh_graph_node) (hle : nodes.length ≤ nodes'.length)
    (x : Int) (hx : valid_handle nodes x) : valid_handle nodes' x := by
  unfold valid_handle at hx ⊢
  omega

theorem rank_ext_trans (n0 n1 n2 : List bh_graph_node) (r0 r1 r2 : Int → ℚ) (top : ℚ)
    (h1 : rank_ext n0 n1 r0 r1 top) (h2 : rank_ext n1 n2 r1 r2 top) :
    rank_ext n0 n2 r0 r2 top := by
  refine ⟨fun x hx => ?_, le_trans h1.length_le h2.length_le, fun x hx hnx => ?_⟩
  · rw [h2.agree x (valid_mono _ _ h1.length_le x hx), h1.agree x hx]
  · by_cases hx1 : valid_handle n1 x
    · rw [h2.agree x hx1]
      exact h1.added x hx1 hnx
    · exact h2.added x hx hx1

/-- Installing one edge into the instruction's node keeps the `during`
invariant. -/
theorem during_add_child (mem : Option Nat) (base cur : List bh_graph_node)
    (rank : Int → ℚ) (X N : Int) (hd : during base rank (rank N) cur)
    (hX : valid_handle base X) (hN : valid_handle base N) (hr : rank X < rank N) :
    during base rank (rank N) (bh_grap_node_add_child mem cur X N).2 := by
  obtain ⟨rk, h1, h2⟩ := hd
  have hXc := valid_mono _ _ h2.length_le X hX
  have hNc := valid_mono _ _ h2.length_le N hN
  obtain ⟨rk', h3, h4⟩ := add_child_ranked mem cur rk X N h1 hXc hNc
    (by rw [h2.agree X hX, h2.agree N hN]; exact hr)
  rw [h2.agree N hN] at h4
  exact ⟨rk', h3, rank_ext_trans _ _ _ _ _ _ _ h2 h4⟩

/-- The write-after-read loop keeps the `during` invariant. -/
theorem during_war_loop (mem : Option Nat) (base : List bh_graph_node) (rank : Int → ℚ)
    (N leftDep rightDep : Int) (hN : valid_handle base N) (readers : List Int) :
    ∀ cur : List bh_graph_node, during base rank (rank N) cur →
      (∀ r ∈ readers, valid_handle base r ∧ rank r < rank N) →
      during base rank (rank N) (parse_war_loop mem N leftDep rightDep cur readers).2 := by
  induction readers with
  | nil => intro cur hd _; exact hd
  | cons r rest ih =>
    intro cur hd hall
    have hrest : ∀ r' ∈ rest, valid_handle base r' ∧ rank r' < rank N :=
      fun r' hr' => hall r' (List.mem_cons_of_mem _ hr')
    have hstep := during_add_child mem base cur rank r N hd
      (hall r (List.mem_cons_self _ _)).1 hN (hall r (List.mem_cons_self _ _)).2
    unfold parse_war_loop
    by_cases c1 : r ≠ leftDep ∧ r ≠ rightDep
    · rw [if_pos c1]
      simp only
      by_cases c2 : (bh_grap_node_add_child mem cur r N).1 ≠ BH_SUCCESS
      · rw [if_pos c2]
        exact hstep
      · rw [if_neg c2]
        exact ih _ hstep hrest
    · rw [if_neg c1]
      exact ih cur hd hrest

/-- An arena that satisfies the rank conditions has no cycle. -/
theorem ranked_acyclic (nodes : List bh_graph_node) (rank : Int → ℚ) (h : ranked nodes rank) :
    acyclic nodes := by
  refine acyclic_of_rank nodes rank (fun p c hpc => ?_) (fun p c hpc => ?_)
  · have hp := h p (is_child_valid nodes p c hpc)
    obtain ⟨hc, e | e⟩ := hpc
    · rcases hp.left_child with e2 | ⟨-, e2⟩
      · exact absurd (e ▸ e2) hc
      · exact e ▸ e2
    · rcases hp.right_child with e2 | ⟨-, e2⟩
      · exact absurd (e ▸ e2) hc
      · exact e ▸ e2
  · have hcv := h c (is_parent_valid nodes p c hpc)
    obtain ⟨hp, e | e⟩ := hpc
    · rcases hcv.left_parent with e2 | ⟨-, e2⟩
      · exact absurd (e ▸ e2) hp
      · exact e ▸ e2
    · rcases hcv.right_parent with e2 | ⟨-, e2⟩
      · exact absurd (e ▸ e2) hp
      · exact e ▸ e2

theorem mem_set_insert (x v : Int) (l : List Int) : v ∈ set_insert x l ↔ v = x ∨ v ∈ l := by
  induction l with
  | nil => simp [set_insert]
  | cons y ys ih =>
    unfold set_insert
    split_ifs with h1 h2
    · simp
    · subst h2
      simp
    · simp only [List.mem_cons, ih]
      tauto

/-- Every handle in a list of `readmap_add` is the added node or was in the map
before. -/
theorem readmap_add_mem (m : Option Nat → Option (List Int)) (k : Option Nat) (N : Int)
    (b : Option Nat) (l : List Int) (h : readmap_add m k N b = some l) (v : Int) (hv : v ∈ l) :
    v = N ∨ ∃ l0, m b = some l0 ∧ v ∈ l0 := by
  unfold readmap_add at h
  rcases hm : m k with _ | l0
  · rw [hm] at h
    simp only at h
    unfold map_set at h
    split_ifs at h with e
    · simp only [Option.some.injEq] at h
      subst h
      rcases (mem_set_insert _ _ _).mp hv with h1 | h1
      · exact Or.inl h1
      · cases h1
    · exact Or.inr ⟨l, h, hv⟩
  · rw [hm] at h
    simp only at h
    unfold map_set at h
    split_ifs at h with e
    · simp only [Option.some.injEq] at h
      subst h
      rcases (mem_set_insert _ _ _).mp hv with h1 | h1
      · exact Or.inl h1
      · exact Or.inr ⟨l0, e ▸ hm, h1⟩
    · exact Or.inr ⟨l, h, hv⟩

/-- The dependency read from the updated `writemap` is the new node, no node,
or a writer recorded before. -/
theorem map_set_getD (m : Option Nat → Option Int) (k : Option Nat) (N : Int) (b : Option Nat) :
    (map_set m k N b).getD INVALID_NODE = N
    ∨ (map_set m k N b).getD INVALID_NODE = INVALID_NODE
    ∨ m b = some ((map_set m k N b).getD INVALID_NODE) := by
  unfold map_set
  split_ifs
  · exact Or.inl rfl
  · rcases hm : m b with _ | v
    · exact Or.inr (Or.inl rfl)
    · exact Or.inr (Or.inr rfl)

/-- One iteration of the main loop keeps the loop invariant. -/
theorem parse_instruction_inv (T : bh_opcodes) (mem : Option Nat) (root : Int)
    (st st' : parse_state) (rank : Int → ℚ) (B : ℚ) (i : Int) (instr : bh_instruction)
    (hinv : parse_inv root st rank B)
    (h : parse_instruction T mem root st i instr = some st') :
    ∃ rank' B', parse_inv root st' rank' B' := by
  unfold parse_instruction at h
  lift_lets at h
  extract_lets ids selfId leftId rightId r selfNode a1 writemap leftDep rightDep a2
    readmap1 readmap2 readmap3 a3 a4 a5 at h
  by_cases c0 : ids.1 ≠ BH_SUCCESS
  · rw [if_pos c0] at h; cases h
  rw [if_neg c0] at h
  by_cases c1 : selfNode = INVALID_NODE
  · rw [if_pos c1] at h; cases h
  rw [if_neg c1] at h
  by_cases c2 : a1.1 ≠ BH_SUCCESS
  · rw [if_pos c2] at h; cases h
  rw [if_neg c2] at h
  by_cases c3 : a2.1 ≠ BH_SUCCESS
  · rw [if_pos c3] at h; cases h
  rw [if_neg c3] at h
  by_cases c4 : a3.1 ≠ BH_SUCCESS
  · rw [if_pos c4] at h; cases h
  rw [if_neg c4] at h
  by_cases c5 : a4.1 ≠ BH_SUCCESS
  · rw [if_pos c5] at h; cases h
  rw [if_neg c5] at h
  by_cases c6 : a5.1 ≠ BH_SUCCESS
  · rw [if_pos c6] at h; cases h
  rw [if_neg c6] at h
  simp only [Option.some.injEq] at h
  -- the node of the instruction
  have hr : r = ((st.nodes.length : Int), st.nodes ++ [⟨BH_INSTRUCTION, i, INVALID_NODE,
      INVALID_NODE, INVALID_NODE, INVALID_NODE⟩]) := by
    rcases new_node_cases mem st.nodes BH_INSTRUCTION i with e | e
    · exact absurd (show selfNode = INVALID_NODE from congrArg Prod.fst e) c1
    · exact e
  have hN : selfNode = (st.nodes.length : Int) := congrArg Prod.fst hr
  have hbase : r.2 = st.nodes ++ [⟨BH_INSTRUCTION, i, INVALID_NODE,
      INVALID_NODE, INVALID_NODE, INVALID_NODE⟩] := congrArg Prod.snd hr
  have hup : ∀ y : Int, valid_handle st.nodes y →
      Function.update rank (st.nodes.length : Int) B y = rank y :=
    fun y hy => Function.update_noteq (by unfold valid_handle at hy; omega) _ _
  have htop : Function.update rank (st.nodes.length : Int) B selfNode = B := by
    rw [hN]; exact Function.update_same _ _ _
  have hvN : valid_handle r.2 selfNode := by
    rw [hbase, hN]; exact (valid_append _ _ _).mpr (Or.inr rfl)
  have hold : ∀ x, valid_handle st.nodes x → valid_handle r.2 x
      ∧ Function.update rank (st.nodes.length : Int) B x
          < Function.update rank (st.nodes.length : Int) B selfNode := by
    intro x hx
    refine ⟨by rw [hbase]; exact (valid_append _ _ _).mpr (Or.inl hx), ?_⟩
    rw [htop, hup x hx]
    exact hinv.bound x hx
  have hd0 : during r.2 (Function.update rank (st.nodes.length : Int) B)
      (Function.update rank (st.nodes.length : Int) B selfNode) r.2 := by
    refine ⟨_, ?_, rank_ext_refl _ _ _⟩
    rw [hbase]
    exact ranked_append st.nodes rank BH_INSTRUCTION i B hinv.ranked
  -- write after write
  have hd1 : during r.2 (Function.update rank (st.nodes.length : Int) B)
      (Function.update rank (st.nodes.length : Int) B selfNode) a1.2 := by
    rcases hw : st.writemap selfId with _ | oldTarget
    · have : a1 = (BH_SUCCESS, r.2) := by simp only [a1, hw]
      rw [this]; exact hd0
    · have : a1 = bh_grap_node_add_child mem r.2 oldTarget selfNode := by simp only [a1, hw]
      rw [this]
      have ho := hold oldTarget (hinv.writers _ _ hw)
      exact during_add_child mem _ _ _ oldTarget selfNode hd0 ho.1 hvN ho.2
  -- write after read
  have hd2 : during r.2 (Function.update rank (st.nodes.length : Int) B)
      (Function.update rank (st.nodes.length : Int) B selfNode) a2.2 := by
    rcases hrd : st.readmap selfId with _ | readers
    · have : a2 = (BH_SUCCESS, a1.2) := by simp only [a2, hrd]
      rw [this]; exact hd1
    · have : a2 = parse_war_loop mem selfNode leftDep rightDep a1.2 readers := by
        simp only [a2, hrd]
      rw [this]
      exact during_war_loop mem _ _ selfNode leftDep rightDep hvN readers a1.2 hd1
        (fun x hx => hold x (hinv.readers _ _ hrd x hx))
  -- read after write
  have hdep : ∀ b, (writemap b).getD INVALID_NODE ≠ INVALID_NODE →
      (writemap b).getD INVALID_NODE ≠ selfNode →
      valid_handle st.nodes ((writemap b).getD INVALID_NODE) := by
    intro b h1 h2
    rcases map_set_getD st.writemap selfId selfNode b with e | e | e
    · exact absurd e h2
    · exact absurd e h1
    · exact hinv.writers _ _ e
  have hd3 : during r.2 (Function.update rank (st.nodes.length : Int) B)
      (Function.update rank (st.nodes.length : Int) B selfNode) a3.2 := by
    by_cases c : leftDep ≠ INVALID_NODE ∧ leftDep ≠ selfNode
    · have : a3 = bh_grap_node_add_child mem a2.2 leftDep selfNode := by
        simp only [a3]; rw [if_pos c]
      rw [this]
      have ho := hold leftDep (hdep leftId c.1 c.2)
      exact during_add_child mem _ _ _ leftDep selfNode hd2 ho.1 hvN ho.2
    · have : a3 = (BH_SUCCESS, a2.2) := by simp only [a3]; rw [if_neg c]
      rw [this]; exact hd2
  have hd4 : during r.2 (Function.update rank (st.nodes.length : Int) B)
      (Function.update rank (st.nodes.length : Int) B selfNode) a4.2 := by
    by_cases c : rightDep ≠ INVALID_NODE ∧ rightDep ≠ leftDep ∧ rightDep ≠ selfNode
    · have : a4 = bh_grap_node_add_child mem a3.2 rightDep selfNode := by
        simp only [a4]; rw [if_pos c]
      rw [this]
      have ho := hold rightDep (hdep rightId c.1 c.2.2)
      exact during_add_child mem _ _ _ rightDep selfNode hd3 ho.1 hvN ho.2
    · have : a4 = (BH_SUCCESS, a3.2) := by simp only [a4]; rw [if_neg c]
      rw [this]; exact hd3
  -- root attachment
  have hd5 : during r.2 (Function.update rank (st.nodes.length : Int) B)
      (Function.update rank (st.nodes.length : Int) B selfNode) a5.2 := by
    by_cases c : (NODE_LOOKUP a4.2 selfNode).left_parent = INVALID_NODE
        ∧ (NODE_LOOKUP a4.2 selfNode).right_parent ≠ 0
    · have : a5 = bh_grap_node_add_child mem a4.2 root selfNode := by
        simp only [a5]; rw [if_pos c]
      rw [this]
      have ho := hold root hinv.root_valid
      exact during_add_child mem _ _ _ root selfNode hd4 ho.1 hvN ho.2
    · have : a5 = (BH_SUCCESS, a4.2) := by simp only [a5]; rw [if_neg c]
      rw [this]; exact hd4
  obtain ⟨rank5, h5r, h5e⟩ := hd5
  have hmono : ∀ x, valid_handle st.nodes x → valid_handle a5.2 x :=
    fun x hx => valid_mono _ _ h5e.length_le x (hold x hx).1
  have hvN5 : valid_handle a5.2 selfNode := valid_mono _ _ h5e.length_le _ hvN
  subst h
  refine ⟨rank5, B + 1, h5r, fun x hx => ?_, fun b v hb => ?_, fun b l hb v hv => ?_,
    hmono root hinv.root_valid⟩
  · by_cases hx0 : valid_handle r.2 x
    · rw [h5e.agree x hx0]
      rw [hbase] at hx0
      rcases (valid_append _ _ _).mp hx0 with h1 | h1
      · rw [hup x h1]
        linarith [hinv.bound x h1]
      · rw [h1, Function.update_same]
        linarith
    · have := h5e.added x hx hx0
      rw [htop] at this
      linarith
  · have hb' : map_set st.writemap selfId selfNode b = some v := hb
    unfold map_set at hb'
    split_ifs at hb'
    · simp only [Option.some.injEq] at hb'
      exact hb' ▸ hvN5
    · exact hmono v (hinv.writers b v hb')
  · -- every handle in `readmap3` is the new node or an old reader
    have p0 : ∀ b l, st.readmap b = some l → ∀ v ∈ l, valid_handle a5.2 v :=
      fun b l hb v hv => hmono v (hinv.readers b l hb v hv)
    have p1 : ∀ b l, readmap1 b = some l → ∀ v ∈ l, valid_handle a5.2 v := by
      intro b l hb
      rcases hrd : st.readmap selfId with _ | readers
      · have : readmap1 = st.readmap := by simp only [readmap1, hrd]
        rw [this] at hb
        exact p0 b l hb
      · have : readmap1 = map_erase st.readmap selfId := by simp only [readmap1, hrd]
        rw [this] at hb
        unfold map_erase at hb
        split_ifs at hb
        exact p0 b l hb
    have padd : ∀ (m : Option Nat → Option (List Int)) (k : Option Nat),
        (∀ b l, m b = some l → ∀ v ∈ l, valid_handle a5.2 v) →
        ∀ b l, readmap_add m k selfNode b = some l → ∀ v ∈ l, valid_handle a5.2 v := by
      intro m k hm b l hb v hv
      rcases readmap_add_mem m k selfNode b l hb v hv with e | ⟨l0, hl0, hv0⟩
      · exact e ▸ hvN5
      · exact hm b l0 hl0 v hv0
    have p2 : ∀ b l, readmap2 b = some l → ∀ v ∈ l, valid_handle a5.2 v := by
      by_cases c : leftId ≠ none
      · have : readmap2 = readmap_add readmap1 leftId selfNode := by
          simp only [readmap2]; rw [if_pos c]
        rw [this]
        exact padd _ _ p1
      · have : readmap2 = readmap1 := by simp only [readmap2]; rw [if_neg c]
        rw [this]
        exact p1
    have p3 : ∀ b l, readmap3 b = some l → ∀ v ∈ l, valid_handle a5.2 v := by
      by_cases c : rightId ≠ none ∧ rightId ≠ leftId
      · have : readmap3 = readmap_add readmap2 rightId selfNode := by
          simp only [readmap3]; rw [if_pos c]
        rw [this]
        exact padd _ _ p2
      · have : readmap3 = readmap2 := by simp only [readmap3]; rw [if_neg c]
        rw [this]
        exact p2
    exact p3 b l hb v hv

/-- The main loop keeps the loop invariant. -/
theorem parse_loop_inv (T : bh_opcodes) (mem : Option Nat) (root : Int)
    (L : List bh_instruction) :
    ∀ (st st' : parse_state) (rank : Int → ℚ) (B : ℚ) (i : Int),
      parse_inv root st rank B → parse_loop T mem root st i L = some st' →
      ∃ rank' B', parse_inv root st' rank' B' := by
  induction L with
  | nil =>
    intro st st' rank B i hinv h
    simp only [parse_loop, Option.some.injEq] at h
    exact ⟨rank, B, h ▸ hinv⟩
  | cons instr rest ih =>
    intro st st' rank B i hinv h
    rw [parse_loop] at h
    rcases hstep : parse_instruction T mem root st i instr with _ | st1
    · rw [hstep] at h; cases h
    · rw [hstep] at h
      obtain ⟨rank1, B1, hinv1⟩ := parse_instruction_inv T mem root st st1 rank B i instr hinv hstep
      exact ih st1 st' rank1 B1 (i + 1) hinv1 h

/-- When the arena cannot grow, an iteration of the main loop fails. -/
theorem parse_instruction_alloc_fail (T : bh_opcodes) (mem : Option Nat) (root : Int)
    (st : parse_state) (i : Int) (instr : bh_instruction)
    (hfail : bh_dynamic_list_append mem st.nodes.length < 0) :
    parse_instruction T mem root st i instr = none := by
  unfold parse_instruction
  lift_lets
  intro ids selfId leftId rightId r selfNode
  have hN : selfNode = INVALID_NODE := by
    show (bh_graph_new_node mem st.nodes BH_INSTRUCTION i).1 = INVALID_NODE
    unfold bh_graph_new_node
    simp only
    rw [if_pos hfail]
  intros
  split_ifs <;> rfl

/-- C5 (acyclicity). After a successful `bh_graph_parse` of the IR created from
any instruction list, with any opcode table and any arena capacity, the node
graph has no cycle, neither along `left_child`/`right_child` handles nor along
`left_parent`/`right_parent` handles. -/
theorem parse_acyclic (T : bh_opcodes) (mem : Option Nat) (L : List bh_instruction)
    (ir : bh_ir) (h : bh_graph_parse T mem (fresh_ir L) = (BH_SUCCESS, ir)) :
    acyclic ir.nodes := by
  unfold bh_graph_parse at h
  rw [if_neg (by simp [fresh_ir, INVALID_NODE])] at h
  simp only at h
  rcases hloop : parse_loop T mem
      (bh_graph_new_node mem (fresh_ir L).nodes BH_COLLECTION INVALID_INSTRUCTION).1
      ⟨(bh_graph_new_node mem (fresh_ir L).nodes BH_COLLECTION INVALID_INSTRUCTION).2,
        fun _ => none, fun _ => none⟩ 0 (fresh_ir L).instructions with _ | st
  · rw [hloop] at h
    simp only [Prod.mk.injEq] at h
    exact absurd h.1 (by decide)
  rw [hloop] at h
  simp only [Prod.mk.injEq, true_and] at h
  subst h
  show acyclic st.nodes
  rcases new_node_cases mem (fresh_ir L).nodes BH_COLLECTION INVALID_INSTRUCTION with e | e
  · -- the root could not be allocated: only the empty list gets through
    rw [e] at hloop
    have hfail : bh_dynamic_list_append mem (fresh_ir L).nodes.length < 0 := by
      unfold bh_graph_new_node at e
      simp only at e
      by_contra hc
      rw [if_neg hc] at e
      simp only [Prod.mk.injEq] at e
      have := e.2
      simp [fresh_ir] at this
    rcases hL : (fresh_ir L).instructions with _ | ⟨instr, rest⟩
    · rw [hL] at hloop
      simp only [parse_loop, Option.some.injEq] at hloop
      subst hloop
      exact ranked_acyclic _ (fun _ => 0) (fun x hx => by
        unfold valid_handle at hx
        simp [fresh_ir] at hx
        omega)
    · rw [hL, parse_loop, parse_instruction_alloc_fail T mem _ _ 0 instr hfail] at hloop
      cases hloop
  · rw [e] at hloop
    have hinv : parse_inv ((fresh_ir L).nodes.length : Int)
        ⟨(fresh_ir L).nodes ++ [⟨BH_COLLECTION, INVALID_INSTRUCTION, INVALID_NODE, INVALID_NODE,
          INVALID_NODE, INVALID_NODE⟩], fun _ => none, fun _ => none⟩ (fun _ => 0) 1 := by
      refine ⟨?_, (fun _ _ => by norm_num), (fun b v hb => by cases hb),
        (fun b l hb => by cases hb), ?_⟩
      · intro x hx
        have hx0 : x = 0 := by
          unfold valid_handle at hx
          simp [fresh_ir] at hx
          omega
        subst hx0
        exact ⟨Or.inl rfl, Or.inl rfl, Or.inl rfl, Or.inl rfl⟩
      · unfold valid_handle
        simp [fresh_ir]
    obtain ⟨rank', B', hinv'⟩ := parse_loop_inv T mem _ _ _ st _ _ 0 hinv hloop
    exact ranked_acyclic _ rank' hinv'.ranked

set_option maxRecDepth 100000 in
/-- Witness of `parse_acyclic` on `fan_in_list`, the list whose graph needs two
collection nodes. -/
theorem parse_acyclic_witness :
    bh_graph_parse demo_opcodes none (fresh_ir fan_in_list)
        = (BH_SUCCESS, (bh_graph_parse demo_opcodes none (fresh_ir fan_in_list)).2)
    ∧ (bh_graph_parse demo_opcodes none (fresh_ir fan_in_list)).2.nodes.length = 7
    ∧ acyclic (bh_graph_parse demo_opcodes none (fresh_ir fan_in_list)).2.nodes :=
  ⟨by decide, by decide,
    parse_acyclic demo_opcodes none fan_in_list _ (by decide :
      bh_graph_parse demo_opcodes none (fresh_ir fan_in_list)
        = (BH_SUCCESS, (bh_graph_parse demo_opcodes none (fresh_ir fan_in_list)).2))⟩

set_option maxRecDepth 100000 in
/-- C2, failing run. On `dup_edge_list` (five instructions) the build succeeds
and yields seven nodes without a cycle. The drain of
`bh_graph_iterator_next_node` on a fresh iterator emits the nodes
`0, 1, 2, 3, 4` and then leaves through the circular-dependency exit (status
`BH_ERROR`, nothing stored through the out-pointer); node 5, which holds
instruction 4, and the collection node 6 are never emitted. -/
theorem completeness_dup_edge_run :
    (bh_graph_parse demo_opcodes none (fresh_ir dup_edge_list)).1 = BH_SUCCESS
    ∧ (bh_graph_parse demo_opcodes none (fresh_ir dup_edge_list)).2.nodes.length = 7
    ∧ acyclic (bh_graph_parse demo_opcodes none (fresh_ir dup_edge_list)).2.nodes
    ∧ (NODE_LOOKUP (bh_graph_parse demo_opcodes none (fresh_ir dup_edge_list)).2.nodes 5).instruction = 4
    ∧ ((fresh_iterator demo_opcodes none dup_edge_list).bind drain_nodes).map
        (fun d => (d.emitted, d.last.status, d.last.node))
      = some ([0, 1, 2, 3, 4], BH_ERROR, none) := by
  refine ⟨by decide, by decide, ?_, by decide, by decide⟩
  exact acyclic_of_rank _ (fun x => if x = 6 then 9 else 2 * x)
    (forall_child_of_range _ (fun p c => (if p = 6 then 9 else 2 * p)
      < (if c = 6 then 9 else 2 * c)) (by decide))
    (forall_parent_of_range _ (fun p c => (if p = 6 then 9 else 2 * p)
      < (if c = 6 then 9 else 2 * c)) (by decide))

theorem lookup_update (nodes : List bh_graph_node) (i : Int) (f : bh_graph_node → bh_graph_node)
    (x : Int) (hi : valid_handle nodes i) :
    NODE_LOOKUP (NODE_UPDATE nodes i f) x
      = if x = i then f (NODE_LOOKUP nodes i) else NODE_LOOKUP nodes x := by
  by_cases h : x = i
  · rw [if_pos h, h]; exact lookup_update_same nodes i f hi
  · rw [if_neg h]; exact lookup_update_ne nodes i x f h

theorem lookup_append (nodes : List bh_graph_node) (nd : bh_graph_node) (x : Int) :
    NODE_LOOKUP (nodes ++ [nd]) x
      = if x = (nodes.length : Int) then nd else NODE_LOOKUP nodes x := by
  by_cases h : x = (nodes.length : Int)
  · rw [if_pos h, h]; exact lookup_append_new nodes nd
  · rw [if_neg h]; exact lookup_append_old nodes nd x h

theorem rep_valid (nodes : List bh_graph_node) (len : Nat) (f : Int → bh_graph_node)
    (h : node_rep nodes len f) (x : Int) (h0 : 0 ≤ x) (h1 : x < (len : Int)) :
    valid_handle nodes x := by
  unfold valid_handle; rw [h.1]; exact ⟨h0, h1⟩

theorem rep_append (nodes : List bh_graph_node) (len : Nat) (f : Int → bh_graph_node)
    (h : node_rep nodes len f) (nd : bh_graph_node) :
    node_rep (nodes ++ [nd]) (len + 1) (fun x => if x = (len : Int) then nd else f x) := by
  refine ⟨by rw [List.length_append, h.1]; rfl, fun x => ?_⟩
  rw [lookup_append, h.1, h.2]

theorem rep_update (nodes : List bh_graph_node) (len : Nat) (f : Int → bh_graph_node)
    (h : node_rep nodes len f) (i : Int) (g : bh_graph_node → bh_graph_node)
    (h0 : 0 ≤ i) (h1 : i < (len : Int)) :
    node_rep (NODE_UPDATE nodes i g) len (fun x => if x = i then g (f i) else f x) := by
  refine ⟨by rw [length_update, h.1], fun x => ?_⟩
  rw [lookup_update _ _ _ _ (rep_valid nodes len f h i h0 h1), h.2, h.2]

theorem rep_congr (nodes : List bh_graph_node) (len : Nat) (f g : Int → bh_graph_node)
    (h : node_rep nodes len f) (hfg : ∀ x, f x = g x) : node_rep nodes len g :=
  ⟨h.1, fun x => (h.2 x).trans (hfg x)⟩

theorem new_node_ok (c : Nat) (nodes : List bh_graph_node) (t : bh_node_type) (i : Int)
    (h : nodes.length < c) :
    bh_graph_new_node (some c) nodes t i = ((nodes.length : Int),
      nodes ++ [⟨t, i, INVALID_NODE, INVALID_NODE, INVALID_NODE, INVALID_NODE⟩]) := by
  unfold bh_graph_new_node bh_dynamic_list_append
  simp only
  rw [if_pos h, if_neg (by omega)]

theorem new_node_fail (c : Nat) (nodes : List bh_graph_node) (t : bh_node_type) (i : Int)
    (h : c ≤ nodes.length) :
    bh_graph_new_node (some c) nodes t i = (INVALID_NODE, nodes) := by
  unfold bh_graph_new_node bh_dynamic_list_append
  simp only
  rw [if_neg (by omega : ¬ nodes.length < c), if_pos (by omega)]

/-- `add_parent` into the free left slot. -/
theorem add_parent_first (mem : Option Nat) (nodes : List bh_graph_node) (self newparent : Int)
    (h0 : newparent ≠ INVALID_NODE)
    (h1 : (NODE_LOOKUP nodes self).left_parent = INVALID_NODE)
    (h2 : (NODE_LOOKUP nodes self).right_parent ≠ newparent) :
    bh_grap_node_add_parent mem nodes self newparent
      = (BH_SUCCESS, NODE_UPDATE nodes self (fun x => { x with left_parent := newparent })) := by
  unfold bh_grap_node_add_parent
  rw [if_neg (by rw [h1]; rintro (e | e | e)
                 · exact h0 e.symm
                 · exact h2 e
                 · exact h0 e), if_pos h1]

/-- `add_parent` into the free right slot. -/
theorem add_parent_second (mem : Option Nat) (nodes : List bh_graph_node) (self newparent : Int)
    (h0 : newparent ≠ INVALID_NODE)
    (h1 : (NODE_LOOKUP nodes self).left_parent ≠ INVALID_NODE)
    (h2 : (NODE_LOOKUP nodes self).left_parent ≠ newparent)
    (h3 : (NODE_LOOKUP nodes self).right_parent = INVALID_NODE) :
    bh_grap_node_add_parent mem nodes self newparent
      = (BH_SUCCESS, NODE_UPDATE nodes self (fun x => { x with right_parent := newparent })) := by
  unfold bh_grap_node_add_parent
  rw [if_neg (by rw [h3]; rintro (e | e | e)
                 · exact h2 e
                 · exact h0 e.symm
                 · exact h0 e), if_neg h1, if_pos h3]

/-- `add_parent` with both slots taken and no room for the collection node. -/
theorem add_parent_third_fail (c : Nat) (nodes : List bh_graph_node) (self newparent : Int)
    (h0 : newparent ≠ INVALID_NODE)
    (h1 : (NODE_LOOKUP nodes self).left_parent ≠ INVALID_NODE)
    (h2 : (NODE_LOOKUP nodes self).left_parent ≠ newparent)
    (h3 : (NODE_LOOKUP nodes self).right_parent ≠ INVALID_NODE)
    (h4 : (NODE_LOOKUP nodes self).right_parent ≠ newparent)
    (hc : c ≤ nodes.length) :
    bh_grap_node_add_parent (some c) nodes self newparent = (BH_ERROR, nodes) := by
  unfold bh_grap_node_add_parent
  rw [if_neg (by rintro (e | e | e)
                 · exact h2 e
                 · exact h4 e
                 · exact h0 e), if_neg h1, if_neg h3, new_node_fail c nodes _ _ hc]
  rfl

theorem add_child_left (mem : Option Nat) (nodes : List bh_graph_node) (self newchild : Int)
    (h0 : self ≠ newchild) (h1 : (NODE_LOOKUP nodes self).left_child = INVALID_NODE) :
    bh_grap_node_add_child mem nodes self newchild
      = (BH_SUCCESS, (bh_grap_node_add_parent mem
          (NODE_UPDATE nodes self (fun x => { x with left_child := newchild })) newchild self).2) := by
  unfold bh_grap_node_add_child
  rw [if_neg h0, if_pos h1]

theorem add_child_right (mem : Option Nat) (nodes : List bh_graph_node) (self newchild : Int)
    (h0 : self ≠ newchild) (h1 : (NODE_LOOKUP nodes self).left_child ≠ INVALID_NODE)
    (h2 : (NODE_LOOKUP nodes self).right_child = INVALID_NODE) :
    bh_grap_node_add_child mem nodes self newchild
      = (BH_SUCCESS, (bh_grap_node_add_parent mem
          (NODE_UPDATE nodes self (fun x => { x with right_child := newchild })) newchild self).2) := by
  unfold bh_grap_node_add_child
  rw [if_neg h0, if_neg h1, if_pos h2]

theorem getIds_FILL (b : Nat) :
    bh_graph_getIds demo_opcodes (FILL b) = (BH_SUCCESS, ⟨2, some b, none, none⟩) := by
  simp [bh_graph_getIds, demo_opcodes, FILL, bh_get_basearray]

theorem getIds_ADD (a b c : Nat) :
    bh_graph_getIds demo_opcodes (ADD a b c) = (BH_SUCCESS, ⟨3, some a, some b, some c⟩) := by
  simp [bh_graph_getIds, demo_opcodes, ADD, bh_get_basearray]

/-- A `FILL` of a base that has no writer and no reader yet: the new node
becomes a child of the root. -/
theorem parse_FILL_fresh (mem : Option Nat) (root : Int) (st : parse_state) (i : Int) (b : Nat)
    (N : Int) (base n1 : List bh_graph_node)
    (hw : st.writemap (some b) = none) (hwn : st.writemap none = none)
    (hr : st.readmap (some b) = none)
    (hnew : bh_graph_new_node mem st.nodes BH_INSTRUCTION i = (N, base))
    (hN : N ≠ INVALID_NODE)
    (hp : (NODE_LOOKUP base N).left_parent = INVALID_NODE
      ∧ (NODE_LOOKUP base N).right_parent ≠ 0)
    (ha : bh_grap_node_add_child mem base root N = (BH_SUCCESS, n1)) :
    parse_instruction demo_opcodes mem root st i (FILL b)
      = some ⟨n1, map_set st.writemap (some b) N, st.readmap⟩ := by
  have hm : map_set st.writemap (some b) N none = none := by
    unfold map_set; rw [if_neg (by simp)]; exact hwn
  unfold parse_instruction
  simp only [getIds_FILL, hnew, hw, hr, hm, Option.getD_none, ne_eq, not_true_eq_false,
    false_and, if_false, hN, hp, ha, and_self, if_true, not_false_eq_true]

/-- A `FILL` of a base with a writer and no reader: the new node becomes a
child of the writer only. -/
theorem parse_FILL_waw (mem : Option Nat) (root : Int) (st : parse_state) (i : Int) (b : Nat)
    (t N : Int) (base n1 : List bh_graph_node)
    (hw : st.writemap (some b) = some t) (hwn : st.writemap none = none)
    (hr : st.readmap (some b) = none)
    (hnew : bh_graph_new_node mem st.nodes BH_INSTRUCTION i = (N, base))
    (hN : N ≠ INVALID_NODE)
    (ha : bh_grap_node_add_child mem base t N = (BH_SUCCESS, n1))
    (hp : (NODE_LOOKUP n1 N).left_parent ≠ INVALID_NODE) :
    parse_instruction demo_opcodes mem root st i (FILL b)
      = some ⟨n1, map_set st.writemap (some b) N, st.readmap⟩ := by
  have hm : map_set st.writemap (some b) N none = none := by
    unfold map_set; rw [if_neg (by simp)]; exact hwn
  unfold parse_instruction
  simp only [getIds_FILL, hnew, hw, hr, hm, Option.getD_none, ne_eq, not_true_eq_false,
    false_and, if_false, hN, hp, ha, and_self, if_true, not_false_eq_true]

/-- An `ADD(a, b, c)` on three different bases, each with a writer, base `a`
without readers: three `add_child` calls and no root attachment. -/
theorem parse_ADD (mem : Option Nat) (root : Int) (st : parse_state) (i : Int) (a b c : Nat)
    (ta tb tc N : Int) (base n1 n2 n3 : List bh_graph_node)
    (hab : a ≠ b) (hac : a ≠ c)
    (hwa : st.writemap (some a) = some ta) (hwb : st.writemap (some b) = some tb)
    (hwc : st.writemap (some c) = some tc)
    (hr : st.readmap (some a) = none)
    (hnew : bh_graph_new_node mem st.nodes BH_INSTRUCTION i = (N, base))
    (hN : N ≠ INVALID_NODE)
    (hb1 : tb ≠ INVALID_NODE) (hb2 : tb ≠ N)
    (hc1 : tc ≠ INVALID_NODE) (hc2 : tc ≠ tb) (hc3 : tc ≠ N)
    (ha1 : bh_grap_node_add_child mem base ta N = (BH_SUCCESS, n1))
    (ha2 : bh_grap_node_add_child mem n1 tb N = (BH_SUCCESS, n2))
    (ha3 : bh_grap_node_add_child mem n2 tc N = (BH_SUCCESS, n3))
    (hp : (NODE_LOOKUP n3 N).left_parent ≠ INVALID_NODE) :
    ∃ st', parse_instruction demo_opcodes mem root st i (ADD a b c) = some st'
      ∧ st'.nodes = n3 := by
  have hmb : map_set st.writemap (some a) N (some b) = some tb := by
    unfold map_set; rw [if_neg (by simpa using Ne.symm hab)]; exact hwb
  have hmc : map_set st.writemap (some a) N (some c) = some tc := by
    unfold map_set; rw [if_neg (by simpa using Ne.symm hac)]; exact hwc
  unfold parse_instruction
  simp only [getIds_ADD, hnew, hwa, hr, hmb, hmc, Option.getD_some, ne_eq, not_true_eq_false,
    false_and, if_false, hN, hp, ha1, ha2, ha3, and_self, if_true, not_false_eq_true,
    hb1, hb2, hc1, hc2, hc3]
  exact ⟨_, rfl, rfl⟩

theorem rep_child_left (mem : Option Nat) (nodes : List bh_graph_node) (len : Nat)
    (f : Int → bh_graph_node) (h : node_rep nodes len f) (self newchild : Int)
    (hne : self ≠ newchild) (h0 : 0 ≤ self) (h1 : self < (len : Int))
    (hl : (f self).left_child = INVALID_NODE) :
    ∃ u, bh_grap_node_add_child mem nodes self newchild
        = (BH_SUCCESS, (bh_grap_node_add_parent mem u newchild self).2)
      ∧ node_rep u len
          (fun x => if x = self then { f self with left_child := newchild } else f x) :=
  ⟨_, add_child_left mem nodes self newchild hne (by rw [h.2]; exact hl),
    rep_update nodes len f h self _ h0 h1⟩

theorem rep_child_right (mem : Option Nat) (nodes : List bh_graph_node) (len : Nat)
    (f : Int → bh_graph_node) (h : node_rep nodes len f) (self newchild : Int)
    (hne : self ≠ newchild) (h0 : 0 ≤ self) (h1 : self < (len : Int))
    (hl : (f self).left_child ≠ INVALID_NODE) (hr : (f self).right_child = INVALID_NODE) :
    ∃ u, bh_grap_node_add_child mem nodes self newchild
        = (BH_SUCCESS, (bh_grap_node_add_parent mem u newchild self).2)
      ∧ node_rep u len
          (fun x => if x = self then { f self with right_child := newchild } else f x) :=
  ⟨_, add_child_right mem nodes self newchild hne (by rw [h.2]; exact hl)
      (by rw [h.2]; exact hr),
    rep_update nodes len f h self _ h0 h1⟩

theorem rep_parent_first (mem : Option Nat) (nodes : List bh_graph_node) (len : Nat)
    (f : Int → bh_graph_node) (h : node_rep nodes len f) (self newparent : Int)
    (h0 : 0 ≤ self) (h1 : self < (len : Int)) (hp : newparent ≠ INVALID_NODE)
    (hl : (f self).left_parent = INVALID_NODE) (hr : (f self).right_parent ≠ newparent) :
    ∃ u, bh_grap_node_add_parent mem nodes self newparent = (BH_SUCCESS, u)
      ∧ node_rep u len
          (fun x => if x = self then { f self with left_parent := newparent } else f x) :=
  ⟨_, add_parent_first mem nodes self newparent hp (by rw [h.2]; exact hl)
      (by rw [h.2]; exact hr),
    rep_update nodes len f h self _ h0 h1⟩

theorem rep_parent_second (mem : Option Nat) (nodes : List bh_graph_node) (len : Nat)
    (f : Int → bh_graph_node) (h : node_rep nodes len f) (self newparent : Int)
    (h0 : 0 ≤ self) (h1 : self < (len : Int)) (hp : newparent ≠ INVALID_NODE)
    (hl : (f self).left_parent ≠ INVALID_NODE) (hl2 : (f self).left_parent ≠ newparent)
    (hr : (f self).right_parent = INVALID_NODE) :
    ∃ u, bh_grap_node_add_parent mem nodes self newparent = (BH_SUCCESS, u)
      ∧ node_rep u len
          (fun x => if x = self then { f self with right_parent := newparent } else f x) :=
  ⟨_, add_parent_second mem nodes self newparent hp (by rw [h.2]; exact hl)
      (by rw [h.2]; exact hl2) (by rw [h.2]; exact hr),
    rep_update nodes len f h self _ h0 h1⟩

theorem rep_parent_third_fail (c : Nat) (nodes : List bh_graph_node) (len : Nat)
    (f : Int → bh_graph_node) (h : node_rep nodes len f) (self newparent : Int)
    (hp : newparent ≠ INVALID_NODE)
    (hl : (f self).left_parent ≠ INVALID_NODE) (hl2 : (f self).left_parent ≠ newparent)
    (hr : (f self).right_parent ≠ INVALID_NODE) (hr2 : (f self).right_parent ≠ newparent)
    (hc : c ≤ len) :
    bh_grap_node_add_parent (some c) nodes self newparent = (BH_ERROR, nodes) :=
  add_parent_third_fail c nodes self newparent hp (by rw [h.2]; exact hl)
    (by rw [h.2]; exact hl2) (by rw [h.2]; exact hr) (by rw [h.2]; exact hr2)
    (by rw [h.1]; exact hc)

/-- The fan-out overflow of `add_child` for a child without parents, when the
displaced left child `d` has `self` as its left parent: the new collection
node takes `d` and `newchild`, and becomes the left child of `self`. -/
theorem rep_child_overflow (c : Nat) (nodes : List bh_graph_node) (len : Nat)
    (f : Int → bh_graph_node) (h : node_rep nodes len f) (self newchild d : Int)
    (hne : self ≠ newchild) (hs0 : 0 ≤ self) (hs1 : self < (len : Int))
    (hn0 : 0 ≤ newchild) (hn1 : newchild < (len : Int))
    (hd0 : 0 ≤ d) (hd1 : d < (len : Int)) (hds : d ≠ self) (hdn : d ≠ newchild)
    (hl : (f self).left_child = d) (hr : (f self).right_child ≠ INVALID_NODE)
    (hdp : (f d).left_parent = self)
    (hnl : (f newchild).left_parent = INVALID_NODE)
    (hnr : (f newchild).right_parent = INVALID_NODE)
    (hc : len < c) :
    ∃ u, bh_grap_node_add_child (some c) nodes self newchild = (BH_SUCCESS, u)
      ∧ node_rep u (len + 1) (fun x =>
          if x = (len : Int) then
            ⟨BH_COLLECTION, INVALID_INSTRUCTION, d, newchild, self, INVALID_NODE⟩
          else if x = self then { f self with left_child := (len : Int) }
          else if x = d then { f d with left_parent := (len : Int) }
          else if x = newchild then { f newchild with left_parent := (len : Int) }
          else f x) := by
  suffices H : ∀ g : Int → bh_graph_node, (∀ x, g x =
          if x = (len : Int) then
            ⟨BH_COLLECTION, INVALID_INSTRUCTION, d, newchild, self, INVALID_NODE⟩
          else if x = self then { f self with left_child := (len : Int) }
          else if x = d then { f d with left_parent := (len : Int) }
          else if x = newchild then { f newchild with left_parent := (len : Int) }
          else f x) →
      ∃ u, bh_grap_node_add_child (some c) nodes self newchild = (BH_SUCCESS, u)
        ∧ node_rep u (len + 1) g from H _ (fun _ => rfl)
  intro g hg
  have hdi : d ≠ INVALID_NODE := by unfold INVALID_NODE; omega
  have e0 : bh_grap_node_add_child (some c) nodes self newchild
      = add_child_overflow (some c) (nodes ++ [⟨BH_COLLECTION, INVALID_INSTRUCTION, INVALID_NODE,
          INVALID_NODE, INVALID_NODE, INVALID_NODE⟩]) self newchild (len : Int) := by
    unfold bh_grap_node_add_child
    rw [if_neg hne, if_neg (by rw [h.2, hl]; exact hdi), if_neg (by rw [h.2]; exact hr),
      new_node_ok c nodes _ _ (by rw [h.1]; exact hc), h.1]
    simp only
    rw [if_neg (by unfold INVALID_NODE; omega)]
  have r0 := rep_append nodes len f h ⟨BH_COLLECTION, INVALID_INSTRUCTION, INVALID_NODE,
          INVALID_NODE, INVALID_NODE, INVALID_NODE⟩
  rw [e0]
  unfold add_child_overflow
  lift_lets
  intro n1 n2 n3 dd n4 p n4b pb
  have hsl : self ≠ (len : Int) := by omega
  have hdl : d ≠ (len : Int) := by omega
  have hnl2 : newchild ≠ (len : Int) := by omega
  have es : (NODE_LOOKUP (nodes ++ [⟨BH_COLLECTION, INVALID_INSTRUCTION, INVALID_NODE,
          INVALID_NODE, INVALID_NODE, INVALID_NODE⟩]) self).left_child = d := by
    rw [r0.2]; simp only [if_neg hsl]; exact hl
  have r1 : node_rep n1 (len + 1) _ := rep_update _ _ _ r0 (len : Int) _ (by omega)
    (by push_cast; omega)
  have r2 : node_rep n2 (len + 1) _ := rep_update _ _ _ r1 (len : Int) _
    (by omega) (by push_cast; omega)
  have r3 : node_rep n3 (len + 1) _ := rep_update _ _ _ r2 self _
    hs0 (by push_cast; omega)
  have ed : dd = d := by
    show (NODE_LOOKUP n3 (len : Int)).left_child = d
    rw [r3.2]; simp [Ne.symm hsl, es]
  rw [ed]
  have edp : (NODE_LOOKUP n3 d).left_parent = self := by
    rw [r3.2]; simp only [if_neg hds, if_neg hdl]; exact hdp
  rw [if_pos edp]
  have r4 : node_rep n4 (len + 1) _ := rep_update _ _ _ r3 dd _ (by rw [ed]; exact hd0)
    (by rw [ed]; push_cast; omega)
  rw [ed] at r4
  obtain ⟨u, e5, r5⟩ := rep_parent_first (some c) _ _ _ r4 newchild (len : Int) hn0
    (by push_cast; omega) (by unfold INVALID_NODE; omega)
    (by simp only [if_neg hdn.symm, if_neg hne.symm, if_neg hnl2]; exact hnl)
    (by simp only [if_neg hdn.symm, if_neg hne.symm, if_neg hnl2]; rw [hnr]
        unfold INVALID_NODE; omega)
  have ep : p = (BH_SUCCESS, u) := e5
  rw [ep]
  simp only [ne_eq, not_true_eq_false, if_false]
  refine ⟨_, rfl, ?_⟩
  have r6 := rep_update _ _ _ r5 (len : Int) (fun x => { x with left_parent := self })
    (by omega) (by push_cast; omega)
  refine rep_congr _ _ _ _ r6 (fun x => ?_)
  rw [hg]
  by_cases x1 : x = (len : Int)
  · subst x1
    simp [Ne.symm hnl2, Ne.symm hdl, Ne.symm hsl, es]
  · by_cases x2 : x = self
    · subst x2
      simp [x1, hne, Ne.symm hds]
    · by_cases x3 : x = d
      · subst x3
        simp [x1, x2, hdn]
      · by_cases x4 : x = newchild
        · subst x4
          simp [x1, x2, x3]
        · simp [x1, x2, x3, x4]

theorem chain_state_zero :
    chain_state 0 ⟨[⟨BH_COLLECTION, INVALID_INSTRUCTION, INVALID_NODE, INVALID_NODE,
      INVALID_NODE, INVALID_NODE⟩], fun _ => none, fun _ => none⟩ := by
  refine ⟨⟨rfl, fun x => ?_⟩, rfl, fun _ _ => rfl, fun _ => rfl⟩
  have h := lookup_append [] ⟨BH_COLLECTION, INVALID_INSTRUCTION, INVALID_NODE, INVALID_NODE,
      INVALID_NODE, INVALID_NODE⟩ x
  simp only [List.nil_append, List.length_nil, Nat.cast_zero] at h
  rw [h]
  unfold chain_node
  by_cases hx : x = 0
  · simp [hx]
  · have hd : NODE_LOOKUP [] x = default := lookup_invalid [] x (by
      unfold valid_handle; simp only [List.length_nil, Nat.cast_zero]; omega)
    simp only [if_neg hx, hd]
    rw [if_neg (by push_cast; omega)]

theorem chain_node_root (j : Nat) :
    chain_node j 0 = ⟨BH_COLLECTION, INVALID_INSTRUCTION, if j = 0 then INVALID_NODE else 1,
      INVALID_NODE, INVALID_NODE, INVALID_NODE⟩ := by
  unfold chain_node; rw [if_pos rfl]

theorem chain_node_mid (j : Nat) (x : Int) (h1 : 1 ≤ x) (h2 : x < (j : Int)) :
    chain_node j x = ⟨BH_INSTRUCTION, x - 1, x + 1, INVALID_NODE, x - 1, INVALID_NODE⟩ := by
  unfold chain_node; rw [if_neg (by omega), if_pos (by omega), if_pos h2]

theorem chain_node_last (j : Nat) (x : Int) (h1 : 1 ≤ x) (h2 : x = (j : Int)) :
    chain_node j x
      = ⟨BH_INSTRUCTION, x - 1, INVALID_NODE, INVALID_NODE, x - 1, INVALID_NODE⟩ := by
  unfold chain_node; rw [if_neg (by omega), if_pos (by omega), if_neg (by omega)]

theorem chain_node_out (j : Nat) (x : Int) (h : x < 0 ∨ (j : Int) < x) :
    chain_node j x = default := by
  unfold chain_node; rw [if_neg (by omega), if_neg (by omega)]

/-- One more `FILL(b1)` extends the chain by one node. -/
theorem chain_step (c j : Nat) (st : parse_state) (hc : j + 1 < c) (h : chain_state j st) :
    ∃ st', parse_instruction demo_opcodes (some c) 0 st (j : Int) (FILL 1) = some st'
      ∧ chain_state (j + 1) st' := by
  have hnew := new_node_ok c st.nodes BH_INSTRUCTION (j : Int) (by rw [h.rep.1]; exact hc)
  rw [h.rep.1] at hnew
  have r0 := rep_append _ _ _ h.rep ⟨BH_INSTRUCTION, (j : Int), INVALID_NODE, INVALID_NODE,
    INVALID_NODE, INVALID_NODE⟩
  have hN : ((j + 1 : Nat) : Int) ≠ INVALID_NODE := by unfold INVALID_NODE; omega
  have hwn := h.no_writer none (by simp)
  have hNj : ¬ ((j + 1 : Nat) : Int) = (j : Int) := by push_cast; omega
  have hjN : ¬ (j : Int) = ((j + 1 : Nat) : Int) := by push_cast; omega
  have hfin : ∀ (u : List bh_graph_node) (g : Int → bh_graph_node),
      node_rep u (j + 1 + 1) g →
      (∀ x, g x = chain_node (j + 1) x) →
      chain_state (j + 1) ⟨u, map_set st.writemap (some 1) ((j + 1 : Nat) : Int), st.readmap⟩ := by
    intro u g r hg
    refine ⟨rep_congr _ _ _ _ r hg, ?_, ?_, h.no_reader⟩
    · simp [map_set]
    · intro b hb
      simp only [map_set, if_neg hb]
      exact h.no_writer b hb
  have hrest : ∀ x : Int, x ≠ ((j + 1 : Nat) : Int) → x ≠ (j : Int) → 0 < j →
      chain_node j x = chain_node (j + 1) x := by
    intro x x0 x1 hj
    push_cast at x0
    by_cases x2 : x = 0
    · subst x2
      rw [chain_node_root, chain_node_root, if_neg (by omega), if_neg (by omega)]
    · by_cases x3 : 1 ≤ x ∧ x < (j : Int)
      · rw [chain_node_mid j x x3.1 x3.2, chain_node_mid (j + 1) x x3.1 (by push_cast; omega)]
      · rw [chain_node_out j x (by omega), chain_node_out (j + 1) x (by push_cast; omega)]
  rcases Nat.eq_zero_or_pos j with hj | hj
  · subst hj
    obtain ⟨u1, e1, r1⟩ := rep_child_left (some c) _ _ _ r0 0 ((0 + 1 : Nat) : Int)
      (by simp) (by simp) (by simp) (by simp [chain_node])
    obtain ⟨u2, e2, r2⟩ := rep_parent_first (some c) _ _ _ r1 ((0 + 1 : Nat) : Int) 0
      (by simp) (by simp) (by simp [INVALID_NODE]) (by simp) (by simp [INVALID_NODE])
    rw [e2] at e1
    refine ⟨_, parse_FILL_fresh (some c) 0 st _ 1 _ _ u2 (by rw [h.writer]; rfl) hwn
      (h.no_reader _) hnew hN ?_ e1, hfin u2 _ r2 ?_⟩
    · rw [r0.2]; simp [INVALID_NODE]
    · intro x
      by_cases x0 : x = 0
      · subst x0; simp [chain_node]
      · by_cases x1 : x = 1
        · subst x1; simp [chain_node, INVALID_NODE]
        · simp only [chain_node, x0, x1, if_false, Nat.cast_zero, Nat.cast_one, zero_add,
            Nat.cast_ofNat]
          rw [if_neg (by omega), if_neg (by omega)]
  · have eL := chain_node_last j (j : Int) (by omega) rfl
    obtain ⟨u1, e1, r1⟩ := rep_child_left (some c) _ _ _ r0 (j : Int) ((j + 1 : Nat) : Int)
      hjN (by omega) (by push_cast; omega)
      (by simp only [if_neg hjN]; rw [eL])
    obtain ⟨u2, e2, r2⟩ := rep_parent_first (some c) _ _ _ r1 ((j + 1 : Nat) : Int) (j : Int)
      (by omega) (by push_cast; omega) (by unfold INVALID_NODE; omega)
      (by simp only [if_neg hNj, if_true])
      (by simp only [if_neg hNj, if_true]; unfold INVALID_NODE; omega)
    rw [e2] at e1
    refine ⟨_, parse_FILL_waw (some c) 0 st _ 1 (j : Int) _ _ u2
      (by rw [h.writer, if_neg (by omega)]) hwn
      (h.no_reader _) hnew hN e1 ?_, hfin u2 _ r2 ?_⟩
    · rw [r2.2]; simp only [if_true]; unfold INVALID_NODE; omega
    · intro x
      by_cases x0 : x = ((j + 1 : Nat) : Int)
      · rw [chain_node_last (j + 1) x (by rw [x0]; push_cast; omega) x0]
        simp only [if_pos x0, if_neg hNj, if_true]
        rw [x0]
        simp
      · by_cases x1 : x = (j : Int)
        · rw [chain_node_mid (j + 1) x (by omega) (by push_cast; omega)]
          simp only [if_neg x0, if_pos x1, if_true, if_neg hjN, eL]
          rw [x1]
          simp
        · simp only [if_neg x0, if_neg x1]
          exact hrest x x0 x1 hj

/-- The `FILL(b1)` prefix of `oom_list` builds the chain. -/
theorem chain_loop (c : Nat) (rest : List bh_instruction) :
    ∀ (m j : Nat) (st : parse_state), chain_state j st → j + m < c →
      ∃ st', chain_state (j + m) st'
        ∧ parse_loop demo_opcodes (some c) 0 st (j : Int) (List.replicate m (FILL 1) ++ rest)
          = parse_loop demo_opcodes (some c) 0 st' ((j + m : Nat) : Int) rest := by
  intro m
  induction m with
  | zero => exact fun j st h _ => ⟨st, h, rfl⟩
  | succ m ih =>
    intro j st h hc
    obtain ⟨st1, e1, h1⟩ := chain_step c j st (by omega) h
    obtain ⟨st2, h2, e2⟩ := ih (j + 1) st1 h1 (by omega)
    refine ⟨st2, by rw [show j + (m + 1) = j + 1 + m by omega]; exact h2, ?_⟩
    rw [List.replicate_succ, List.cons_append, parse_loop, e1]
    simp only
    rw [show (j : Int) + 1 = ((j + 1 : Nat) : Int) by push_cast; rfl, e2,
      show j + (m + 1) = j + 1 + m by omega]

/-- `FILL(b2)` after the chain: the new node becomes the right child of the
root. -/
theorem oom_fill2 (k : Nat) (st : parse_state) (h : chain_state (k + 1) st) :
    ∃ u, parse_instruction demo_opcodes (some (k + 6)) 0 st ((k + 1 : Nat) : Int) (FILL 2)
        = some ⟨u, map_set st.writemap (some 2) ((k : Int) + 2), st.readmap⟩
      ∧ node_rep u (k + 3) (oom_node2 k) := by
  have hnew := new_node_ok (k + 6) st.nodes BH_INSTRUCTION ((k + 1 : Nat) : Int)
    (by rw [h.rep.1]; omega)
  rw [h.rep.1] at hnew
  have r0 := rep_append _ _ _ h.rep ⟨BH_INSTRUCTION, ((k + 1 : Nat) : Int), INVALID_NODE,
    INVALID_NODE, INVALID_NODE, INVALID_NODE⟩
  have eN : ((k + 1 + 1 : Nat) : Int) = (k : Int) + 2 := by push_cast; omega
  rw [eN] at hnew r0
  have hN0 : ¬ (k : Int) + 2 = 0 := by omega
  have h0N : ¬ (0 : Int) = (k : Int) + 2 := by omega
  have eroot := chain_node_root (k + 1)
  rw [if_neg (by omega)] at eroot
  obtain ⟨u1, e1, r1⟩ := rep_child_right (some (k + 6)) _ _ _ r0 0 ((k : Int) + 2)
    h0N (le_refl _) (by push_cast; omega)
    (by simp only [if_neg h0N, eroot]; unfold INVALID_NODE; omega)
    (by simp only [if_neg h0N, eroot])
  obtain ⟨u2, e2, r2⟩ := rep_parent_first (some (k + 6)) _ _ _ r1 ((k : Int) + 2) 0
    (by omega) (by push_cast; omega) (by unfold INVALID_NODE; omega)
    (by simp only [if_neg hN0, if_true])
    (by simp only [if_neg hN0, if_true]; unfold INVALID_NODE; omega)
  rw [e2] at e1
  refine ⟨u2, parse_FILL_fresh (some (k + 6)) 0 st _ 2 _ _ u2 (h.no_writer _ (by simp))
    (h.no_writer none (by simp)) (h.no_reader _) hnew (by unfold INVALID_NODE; omega) ?_ e1,
    rep_congr _ _ _ _ r2 (fun x => ?_)⟩
  · rw [r0.2]; simp only [if_true]; unfold INVALID_NODE; exact ⟨trivial, by omega⟩
  · unfold oom_node2
    by_cases x0 : x = 0
    · subst x0
      simp only [if_neg h0N, if_true, eroot]
    · by_cases x1 : x = (k : Int) + 2
      · subst x1
        simp only [if_neg hN0, if_true]
        simp
      · simp only [if_neg x0, if_neg x1]

theorem chain_node_one (k : Nat) :
    chain_node (k + 1) 1 = ⟨BH_INSTRUCTION, 0, if (1 : Int) < (k : Int) + 1 then 2 else INVALID_NODE,
      INVALID_NODE, 0, INVALID_NODE⟩ := by
  unfold chain_node
  rw [if_neg (show ¬ (1 : Int) = 0 by omega),
    if_pos (show (1 : Int) ≤ 1 ∧ (1 : Int) ≤ ((k + 1 : Nat) : Int) from
      ⟨le_refl _, by omega⟩)]
  push_cast
  rfl

/-- `FILL(b3)`: the root has no free child slot, so a collection node is put
between the root and node 1. -/
theorem oom_fill3 (k : Nat) (st : parse_state) (hrep : node_rep st.nodes (k + 3) (oom_node2 k))
    (hw : st.writemap (some 3) = none) (hwn : st.writemap none = none)
    (hr : st.readmap (some 3) = none) :
    ∃ u, parse_instruction demo_opcodes (some (k + 6)) 0 st ((k : Int) + 2) (FILL 3)
        = some ⟨u, map_set st.writemap (some 3) ((k : Int) + 3), st.readmap⟩
      ∧ node_rep u (k + 5) (oom_node3 k) := by
  have hnew := new_node_ok (k + 6) st.nodes BH_INSTRUCTION ((k : Int) + 2)
    (by rw [hrep.1]; omega)
  rw [hrep.1] at hnew
  have r0 := rep_append _ _ _ hrep ⟨BH_INSTRUCTION, (k : Int) + 2, INVALID_NODE,
    INVALID_NODE, INVALID_NODE, INVALID_NODE⟩
  have eN : ((k + 3 : Nat) : Int) = (k : Int) + 3 := by push_cast; omega
  rw [eN] at hnew r0
  have eC : ((k + 3 + 1 : Nat) : Int) = (k : Int) + 4 := by push_cast; omega
  have hN0 : ¬ (k : Int) + 3 = 0 := by omega
  have h0N : ¬ (0 : Int) = (k : Int) + 3 := by omega
  have h1N : ¬ (1 : Int) = (k : Int) + 3 := by omega
  have h12 : ¬ (1 : Int) = (k : Int) + 2 := by omega
  have hN2 : ¬ (k : Int) + 3 = (k : Int) + 2 := by omega
  have e0 : oom_node2 k 0 = ⟨BH_COLLECTION, INVALID_INSTRUCTION, 1, (k : Int) + 2, INVALID_NODE,
      INVALID_NODE⟩ := by unfold oom_node2; rw [if_pos rfl]
  have e1 : oom_node2 k 1 = ⟨BH_INSTRUCTION, 0, if (1 : Int) < (k : Int) + 1 then 2 else
      INVALID_NODE, INVALID_NODE, 0, INVALID_NODE⟩ := by
    unfold oom_node2; rw [if_neg (by omega), if_neg h12, chain_node_one]
  obtain ⟨u, e, r⟩ := rep_child_overflow (k + 6) _ (k + 3 + 1) _ r0 0 ((k : Int) + 3) 1
    h0N (le_refl _) (by push_cast; omega) (by omega) (by push_cast; omega)
    (by omega) (by push_cast; omega) (by omega) h1N
    (by simp only [if_neg h0N, e0])
    (by simp only [if_neg h0N, e0]; unfold INVALID_NODE; omega)
    (by simp only [if_neg h1N, e1])
    (by simp only [if_true])
    (by simp only [if_true])
    (by omega)
  refine ⟨u, parse_FILL_fresh (some (k + 6)) 0 st _ 3 _ _ u hw hwn hr hnew
    (by unfold INVALID_NODE; omega) ?_ e, rep_congr _ _ _ _ r (fun x => ?_)⟩
  · rw [r0.2]; simp only [if_true]; unfold INVALID_NODE; exact ⟨trivial, by omega⟩
  · rw [eC]
    unfold oom_node3
    by_cases x0 : x = 0
    · subst x0
      simp only [if_neg h0N, if_true, e0, if_neg (show ¬ (0 : Int) = (k : Int) + 4 by omega)]
    · by_cases x4 : x = (k : Int) + 4
      · subst x4
        simp only [if_true, if_neg (show ¬ (k : Int) + 4 = 0 by omega),
          if_neg (show ¬ (k : Int) + 4 = (k : Int) + 2 by omega),
          if_neg (show ¬ (k : Int) + 4 = (k : Int) + 3 by omega)]
      · by_cases x3 : x = (k : Int) + 3
        · subst x3
          simp only [if_true, if_neg hN0, if_neg hN2, if_neg x4,
            if_neg (show ¬ (k : Int) + 3 = 1 by omega)]
        · by_cases x1 : x = 1
          · subst x1
            simp only [if_true, if_neg x0, if_neg x4, if_neg x3, if_neg h12, e1]
          · have x2 : oom_node2 k x = if x = (k : Int) + 2 then
                ⟨BH_INSTRUCTION, (k : Int) + 1, INVALID_NODE, INVALID_NODE, 0, INVALID_NODE⟩
                else chain_node (k + 1) x := by
              unfold oom_node2; rw [if_neg x0]
            simp only [if_neg x0, if_neg x4, if_neg x3, if_neg x1, x2]

theorem oom_node3_chain_end (k : Nat) :
    oom_node3 k ((k : Int) + 1) = ⟨BH_INSTRUCTION, (k : Int), INVALID_NODE, INVALID_NODE,
      if (k : Int) + 1 = 1 then (k : Int) + 4 else (k : Int), INVALID_NODE⟩ := by
  unfold oom_node3
  rw [if_neg (show ¬ (k : Int) + 1 = 0 by omega),
    if_neg (show ¬ (k : Int) + 1 = (k : Int) + 2 by omega),
    if_neg (show ¬ (k : Int) + 1 = (k : Int) + 3 by omega),
    if_neg (show ¬ (k : Int) + 1 = (k : Int) + 4 by omega)]
  by_cases hk : (k : Int) + 1 = 1
  · rw [if_pos hk, if_pos hk, if_neg (by omega)]
    simp only [bh_graph_node.mk.injEq, true_and, and_true]
    omega
  · rw [if_neg hk, if_neg hk,
      chain_node_last (k + 1) ((k : Int) + 1) (by omega) (by push_cast; rfl)]
    simp

/-- `ADD(b1, b2, b3)`: the node gets the writers of base 1 and base 2 as
parents; the collection node for its third parent does not fit into the
arena, `add_parent` fails, and `add_child` reports success. -/
theorem oom_add (k : Nat) (st : parse_state) (hrep : node_rep st.nodes (k + 5) (oom_node3 k))
    (hw1 : st.writemap (some 1) = some ((k : Int) + 1))
    (hw2 : st.writemap (some 2) = some ((k : Int) + 2))
    (hw3 : st.writemap (some 3) = some ((k : Int) + 3))
    (hr : st.readmap (some 1) = none) :
    ∃ st', parse_instruction demo_opcodes (some (k + 6)) 0 st ((k : Int) + 3) (ADD 1 2 3)
        = some st'
      ∧ node_rep st'.nodes (k + 6) (oom_node k) := by
  have hnew := new_node_ok (k + 6) st.nodes BH_INSTRUCTION ((k : Int) + 3)
    (by rw [hrep.1]; omega)
  rw [hrep.1] at hnew
  have r0 := rep_append _ _ _ hrep ⟨BH_INSTRUCTION, (k : Int) + 3, INVALID_NODE,
    INVALID_NODE, INVALID_NODE, INVALID_NODE⟩
  have eN : ((k + 5 : Nat) : Int) = (k : Int) + 5 := by push_cast; omega
  rw [eN] at hnew r0
  have e1 := oom_node3_chain_end k
  have e2 : oom_node3 k ((k : Int) + 2) = ⟨BH_INSTRUCTION, (k : Int) + 1, INVALID_NODE,
      INVALID_NODE, 0, INVALID_NODE⟩ := by
    unfold oom_node3
    rw [if_neg (show ¬ (k : Int) + 2 = 0 by omega), if_pos rfl]
  have e3 : oom_node3 k ((k : Int) + 3) = ⟨BH_INSTRUCTION, (k : Int) + 2, INVALID_NODE,
      INVALID_NODE, (k : Int) + 4, INVALID_NODE⟩ := by
    unfold oom_node3
    rw [if_neg (show ¬ (k : Int) + 3 = 0 by omega),
      if_neg (show ¬ (k : Int) + 3 = (k : Int) + 2 by omega), if_pos rfl]
  have d15 : ¬ (k : Int) + 1 = (k : Int) + 5 := by omega
  have d25 : ¬ (k : Int) + 2 = (k : Int) + 5 := by omega
  have d35 : ¬ (k : Int) + 3 = (k : Int) + 5 := by omega
  have d51 : ¬ (k : Int) + 5 = (k : Int) + 1 := by omega
  have d52 : ¬ (k : Int) + 5 = (k : Int) + 2 := by omega
  have d53 : ¬ (k : Int) + 5 = (k : Int) + 3 := by omega
  have d21 : ¬ (k : Int) + 2 = (k : Int) + 1 := by omega
  have d31 : ¬ (k : Int) + 3 = (k : Int) + 1 := by omega
  have d32 : ¬ (k : Int) + 3 = (k : Int) + 2 := by omega
  have d12 : ¬ (k : Int) + 1 = (k : Int) + 2 := by omega
  have d13 : ¬ (k : Int) + 1 = (k : Int) + 3 := by omega
  have d23 : ¬ (k : Int) + 2 = (k : Int) + 3 := by omega
  have i1 : (k : Int) + 1 ≠ INVALID_NODE := by unfold INVALID_NODE; omega
  have i2 : (k : Int) + 2 ≠ INVALID_NODE := by unfold INVALID_NODE; omega
  have i3 : (k : Int) + 3 ≠ INVALID_NODE := by unfold INVALID_NODE; omega
  have i5 : (k : Int) + 5 ≠ INVALID_NODE := by unfold INVALID_NODE; omega
  -- write after write: the last `FILL(b1)`
  obtain ⟨v1, f1, s1⟩ := rep_child_left (some (k + 6)) _ _ _ r0 ((k : Int) + 1) ((k : Int) + 5)
    d15 (by omega) (by push_cast; omega) (by simp only [if_neg d15, if_neg d25, if_neg d35, if_neg d51, if_neg d52, if_neg d53, if_neg d21, if_neg d31, if_neg d32, if_neg d12, if_neg d13, if_neg d23, if_true, e1, e2, e3])
  obtain ⟨v2, f2, s2⟩ := rep_parent_first (some (k + 6)) _ _ _ s1 ((k : Int) + 5)
    ((k : Int) + 1) (by omega) (by push_cast; omega) i1
    (by simp only [if_neg d15, if_neg d25, if_neg d35, if_neg d51, if_neg d52, if_neg d53, if_neg d21, if_neg d31, if_neg d32, if_neg d12, if_neg d13, if_neg d23, if_true, e1, e2, e3])
    (by simp only [if_neg d15, if_neg d25, if_neg d35, if_neg d51, if_neg d52, if_neg d53, if_neg d21, if_neg d31, if_neg d32, if_neg d12, if_neg d13, if_neg d23, if_true, e1, e2, e3]; exact i1.symm)
  rw [f2] at f1
  -- read after write: `FILL(b2)`
  obtain ⟨v3, f3, s3⟩ := rep_child_left (some (k + 6)) _ _ _ s2 ((k : Int) + 2) ((k : Int) + 5)
    d25 (by omega) (by push_cast; omega) (by simp only [if_neg d15, if_neg d25, if_neg d35, if_neg d51, if_neg d52, if_neg d53, if_neg d21, if_neg d31, if_neg d32, if_neg d12, if_neg d13, if_neg d23, if_true, e1, e2, e3])
  obtain ⟨v4, f4, s4⟩ := rep_parent_second (some (k + 6)) _ _ _ s3 ((k : Int) + 5)
    ((k : Int) + 2) (by omega) (by push_cast; omega) i2
    (by simp only [if_neg d15, if_neg d25, if_neg d35, if_neg d51, if_neg d52, if_neg d53, if_neg d21, if_neg d31, if_neg d32, if_neg d12, if_neg d13, if_neg d23, if_true, e1, e2, e3]; exact i1)
    (by simp only [if_neg d15, if_neg d25, if_neg d35, if_neg d51, if_neg d52, if_neg d53, if_neg d21, if_neg d31, if_neg d32, if_neg d12, if_neg d13, if_neg d23, if_true, e1, e2, e3]; omega)
    (by simp only [if_neg d15, if_neg d25, if_neg d35, if_neg d51, if_neg d52, if_neg d53, if_neg d21, if_neg d31, if_neg d32, if_neg d12, if_neg d13, if_neg d23, if_true, e1, e2, e3])
  rw [f4] at f3
  -- read after write: `FILL(b3)`
  obtain ⟨v5, f5, s5⟩ := rep_child_left (some (k + 6)) _ _ _ s4 ((k : Int) + 3) ((k : Int) + 5)
    d35 (by omega) (by push_cast; omega)
    (by simp only [if_neg d15, if_neg d25, if_neg d35, if_neg d51, if_neg d52, if_neg d53, if_neg d21, if_neg d31, if_neg d32, if_neg d12, if_neg d13, if_neg d23, if_true, e1, e2, e3])
  have f6 := rep_parent_third_fail (k + 6) _ _ _ s5 ((k : Int) + 5) ((k : Int) + 3) i3
    (by simp only [if_neg d15, if_neg d25, if_neg d35, if_neg d51, if_neg d52, if_neg d53, if_neg d21, if_neg d31, if_neg d32, if_neg d12, if_neg d13, if_neg d23, if_true, e1, e2, e3]; exact i1)
    (by simp only [if_neg d15, if_neg d25, if_neg d35, if_neg d51, if_neg d52, if_neg d53, if_neg d21, if_neg d31, if_neg d32, if_neg d12, if_neg d13, if_neg d23, if_true, e1, e2, e3]; omega)
    (by simp only [if_neg d15, if_neg d25, if_neg d35, if_neg d51, if_neg d52, if_neg d53, if_neg d21, if_neg d31, if_neg d32, if_neg d12, if_neg d13, if_neg d23, if_true, e1, e2, e3]; exact i2)
    (by simp only [if_neg d15, if_neg d25, if_neg d35, if_neg d51, if_neg d52, if_neg d53, if_neg d21, if_neg d31, if_neg d32, if_neg d12, if_neg d13, if_neg d23, if_true, e1, e2, e3]; omega)
    (by omega)
  rw [f6] at f5
  obtain ⟨st', p, hp⟩ := parse_ADD (some (k + 6)) 0 st ((k : Int) + 3) 1 2 3
    ((k : Int) + 1) ((k : Int) + 2) ((k : Int) + 3) ((k : Int) + 5) _ v2 v4 v5
    (by decide) (by decide) hw1 hw2 hw3 hr hnew i5 i2 d25 i3 d32 d35 f1 f3 f5
    (by rw [s5.2]; simp only [if_neg d15, if_neg d25, if_neg d35, if_neg d51, if_neg d52, if_neg d53, if_neg d21, if_neg d31, if_neg d32, if_neg d12, if_neg d13, if_neg d23, if_true, e1, e2, e3]; exact i1)
  refine ⟨st', p, ?_⟩
  rw [hp]
  refine rep_congr _ _ _ _ s5 (fun x => ?_)
  unfold oom_node
  by_cases x5 : x = (k : Int) + 5
  · subst x5
    simp only [if_neg d15, if_neg d25, if_neg d35, if_neg d51, if_neg d52, if_neg d53, if_neg d21, if_neg d31, if_neg d32, if_neg d12, if_neg d13, if_neg d23, if_true, e1, e2, e3, if_neg (show ¬ (k : Int) + 5 = 0 by omega),
      if_neg (show ¬ (k : Int) + 5 = (k : Int) + 4 by omega)]
  · by_cases x3 : x = (k : Int) + 3
    · subst x3
      simp only [if_neg d15, if_neg d25, if_neg d35, if_neg d51, if_neg d52, if_neg d53, if_neg d21, if_neg d31, if_neg d32, if_neg d12, if_neg d13, if_neg d23, if_true, e1, e2, e3, if_neg (show ¬ (k : Int) + 3 = 0 by omega)]
    · by_cases x2 : x = (k : Int) + 2
      · subst x2
        simp only [if_neg d15, if_neg d25, if_neg d35, if_neg d51, if_neg d52, if_neg d53, if_neg d21, if_neg d31, if_neg d32, if_neg d12, if_neg d13, if_neg d23, if_true, e1, e2, e3, if_neg (show ¬ (k : Int) + 2 = 0 by omega)]
      · by_cases x1 : x = (k : Int) + 1
        · subst x1
          simp only [if_neg d15, if_neg d25, if_neg d35, if_neg d51, if_neg d52, if_neg d53, if_neg d21, if_neg d31, if_neg d32, if_neg d12, if_neg d13, if_neg d23, if_true, e1, e2, e3,
            if_neg (show ¬ (k : Int) + 1 = 0 by omega),
            if_neg (show ¬ (k : Int) + 1 = (k : Int) + 2 by omega),
            if_neg (show ¬ (k : Int) + 1 = (k : Int) + 3 by omega),
            if_neg (show ¬ (k : Int) + 1 = (k : Int) + 4 by omega),
            if_pos (show (1 : Int) ≤ (k : Int) + 1 ∧ (k : Int) + 1 ≤ (k : Int) + 1 from
              ⟨by omega, le_refl _⟩),
            if_neg (show ¬ (k : Int) + 1 < (k : Int) + 1 by omega)]
          simp
        · simp only [if_neg x5, if_neg x3, if_neg x2, if_neg x1]
          unfold oom_node3
          by_cases x0 : x = 0
          · simp only [if_pos x0]
          · by_cases x4 : x = (k : Int) + 4
            · simp only [if_neg x0, if_neg x2, if_neg x3, if_pos x4]
            · simp only [if_neg x0, if_neg x2, if_neg x3, if_neg x4, if_neg x5]
              by_cases y1 : x = 1
              · subst y1
                simp only [if_true]
                rw [if_pos (show (1 : Int) ≤ 1 ∧ (1 : Int) ≤ (k : Int) + 1 from
                  ⟨le_refl _, by omega⟩)]
                have hk : (1 : Int) < (k : Int) + 1 := by omega
                simp [hk]
              · simp only [if_neg y1]
                by_cases y2 : 1 ≤ x ∧ x < (k : Int) + 1
                · rw [chain_node_mid (k + 1) x y2.1 (by push_cast; exact y2.2),
                    if_pos ⟨y2.1, by omega⟩, if_pos y2.2]
                · rw [chain_node_out (k + 1) x (by push_cast; omega),
                    if_neg (by omega)]

/-- The build of `oom_list k` in an arena of `k + 6` slots returns
`BH_SUCCESS` and leaves the graph `oom_node k`. -/
theorem oom_parse (k : Nat) :
    ∃ ir, bh_graph_parse demo_opcodes (some (k + 6)) (fresh_ir (oom_list k)) = (BH_SUCCESS, ir)
      ∧ ir.root = 0 ∧ node_rep ir.nodes (k + 6) (oom_node k) := by
  obtain ⟨st1, h1, e1⟩ := chain_loop (k + 6) [FILL 2, FILL 3, ADD 1 2 3] (k + 1) 0 _
    chain_state_zero (by omega)
  obtain ⟨u2, p2, r2⟩ := oom_fill2 k st1 (by rw [show k + 1 = 0 + (k + 1) by omega]; exact h1)
  have h1' : chain_state (k + 1) st1 := by
    rw [show k + 1 = 0 + (k + 1) by omega]; exact h1
  have hw1 : st1.writemap (some 1) = some ((k : Int) + 1) := by
    rw [h1'.writer, if_neg (by omega)]; push_cast; rfl
  obtain ⟨u3, p3, r3⟩ := oom_fill3 k ⟨u2, map_set st1.writemap (some 2) ((k : Int) + 2),
    st1.readmap⟩ r2 (by simp only [map_set]; rw [if_neg (by simp)]; exact h1'.no_writer _ (by simp))
    (by simp only [map_set]; rw [if_neg (by simp)]; exact h1'.no_writer _ (by simp))
    (h1'.no_reader _)
  obtain ⟨st4, p4, r4⟩ := oom_add k ⟨u3, map_set (map_set st1.writemap (some 2) ((k : Int) + 2))
    (some 3) ((k : Int) + 3), st1.readmap⟩ r3
    (by simp only [map_set]; rw [if_neg (by simp), if_neg (by simp)]; exact hw1)
    (by simp only [map_set]; rw [if_neg (by simp), if_pos trivial])
    (by simp only [map_set]; rw [if_pos trivial])
    (h1'.no_reader _)
  refine ⟨⟨st4.nodes, oom_list k, 0⟩, ?_, rfl, r4⟩
  unfold bh_graph_parse fresh_ir
  simp only
  rw [if_neg (by unfold INVALID_NODE; omega)]
  have hroot : bh_graph_new_node (some (k + 6)) [] BH_COLLECTION INVALID_INSTRUCTION
      = (0, [⟨BH_COLLECTION, INVALID_INSTRUCTION, INVALID_NODE, INVALID_NODE, INVALID_NODE,
          INVALID_NODE⟩]) := new_node_ok (k + 6) [] _ _ (by simp)
  simp only [hroot]
  unfold oom_list
  have e1' := e1
  simp only [Nat.cast_zero] at e1'
  rw [e1', parse_loop, show ((0 + (k + 1) : Nat) : Int) = ((k + 1 : Nat) : Int) by
    rw [Nat.zero_add], p2]
  simp only
  rw [parse_loop, show ((k + 1 : Nat) : Int) + 1 = (k : Int) + 2 by push_cast; omega, p3]
  simp only
  rw [parse_loop, show (k : Int) + 2 + 1 = (k : Int) + 3 by omega, p4]
  simp only
  rw [parse_loop]

theorem mem_oom_sched (k : Nat) (x : Int) :
    ∀ i, x ∈ oom_sched k i ↔ x = 0 ∨ x = (k : Int) + 4 ∨ (1 ≤ x ∧ x ≤ (i : Int)) := by
  intro i
  induction i with
  | zero =>
    simp only [oom_sched, List.mem_cons, List.mem_singleton, List.not_mem_nil, or_false,
      Nat.cast_zero]
    omega
  | succ i ih =>
    simp only [oom_sched, List.mem_cons, ih]
    push_cast
    omega

/-- One call of `next_node` whose queue head can be emitted right away. -/
theorem next_node_emit (it : bh_graph_iterator) (n : Int) (rest : List Int)
    (hb : it.blocked = n :: rest) (hc : n ≠ INVALID_NODE ∧ n ∉ it.scheduled)
    (hr : ready it.bhir.nodes it.scheduled n) :
    bh_graph_iterator_next_node it = some ⟨BH_SUCCESS, some n,
      { it with last_blocked := INVALID_NODE, scheduled := n :: it.scheduled,
                blocked := queue_after_emit it.bhir.nodes n rest }⟩ := by
  unfold bh_graph_iterator_next_node
  exact loop_emit _ it n rest hb hc hr

theorem drain_cons (fuel : Nat) (it it' : bh_graph_iterator) (n : Int)
    (d : drain_result next_node_result)
    (h : bh_graph_iterator_next_node it = some ⟨BH_SUCCESS, some n, it'⟩)
    (hd : drain_nodes_loop fuel it' = some d) :
    drain_nodes_loop (fuel + 1) it = some ⟨n :: d.emitted, d.last⟩ := by
  rw [drain_nodes_loop, h]
  simp only [if_true, hd, Option.getD_some]

theorem drain_end (fuel : Nat) (it : bh_graph_iterator) (r : next_node_result)
    (h : bh_graph_iterator_next_node it = some r) (hs : r.status = BH_ERROR) :
    drain_nodes_loop (fuel + 1) it = some ⟨[], r⟩ := by
  rw [drain_nodes_loop, h]
  simp only [hs]
  rfl

theorem oom_node_root (k : Nat) :
    oom_node k 0 = ⟨BH_COLLECTION, INVALID_INSTRUCTION, (k : Int) + 4, (k : Int) + 2,
      INVALID_NODE, INVALID_NODE⟩ := by
  unfold oom_node; rw [if_pos rfl]

theorem oom_node_fill2 (k : Nat) :
    oom_node k ((k : Int) + 2) = ⟨BH_INSTRUCTION, (k : Int) + 1, (k : Int) + 5, INVALID_NODE, 0,
      INVALID_NODE⟩ := by
  unfold oom_node
  rw [if_neg (show ¬ (k : Int) + 2 = 0 by omega), if_pos rfl]

theorem oom_node_fill3 (k : Nat) :
    oom_node k ((k : Int) + 3) = ⟨BH_INSTRUCTION, (k : Int) + 2, (k : Int) + 5, INVALID_NODE,
      (k : Int) + 4, INVALID_NODE⟩ := by
  unfold oom_node
  rw [if_neg (show ¬ (k : Int) + 3 = 0 by omega),
    if_neg (show ¬ (k : Int) + 3 = (k : Int) + 2 by omega), if_pos rfl]

theorem oom_node_collection (k : Nat) :
    oom_node k ((k : Int) + 4) = ⟨BH_COLLECTION, INVALID_INSTRUCTION, 1, (k : Int) + 3, 0,
      INVALID_NODE⟩ := by
  unfold oom_node
  rw [if_neg (show ¬ (k : Int) + 4 = 0 by omega),
    if_neg (show ¬ (k : Int) + 4 = (k : Int) + 2 by omega),
    if_neg (show ¬ (k : Int) + 4 = (k : Int) + 3 by omega), if_pos rfl]

theorem oom_node_add (k : Nat) :
    oom_node k ((k : Int) + 5) = ⟨BH_INSTRUCTION, (k : Int) + 3, INVALID_NODE, INVALID_NODE,
      (k : Int) + 1, (k : Int) + 2⟩ := by
  unfold oom_node
  rw [if_neg (show ¬ (k : Int) + 5 = 0 by omega),
    if_neg (show ¬ (k : Int) + 5 = (k : Int) + 2 by omega),
    if_neg (show ¬ (k : Int) + 5 = (k : Int) + 3 by omega),
    if_neg (show ¬ (k : Int) + 5 = (k : Int) + 4 by omega), if_pos rfl]

theorem oom_node_chain (k : Nat) (x : Int) (h1 : 1 ≤ x) (h2 : x ≤ (k : Int) + 1) :
    oom_node k x = ⟨BH_INSTRUCTION, x - 1, if x < (k : Int) + 1 then x + 1 else (k : Int) + 5,
      INVALID_NODE, if x = 1 then (k : Int) + 4 else x - 1, INVALID_NODE⟩ := by
  unfold oom_node
  rw [if_neg (show ¬ x = 0 by omega), if_neg (show ¬ x = (k : Int) + 2 by omega),
    if_neg (show ¬ x = (k : Int) + 3 by omega), if_neg (show ¬ x = (k : Int) + 4 by omega),
    if_neg (show ¬ x = (k : Int) + 5 by omega), if_pos ⟨h1, h2⟩]

/-- The chain is emitted node by node. -/
theorem oom_step (k : Nat) (ir : bh_ir) (hl : ∀ x, NODE_LOOKUP ir.nodes x = oom_node k x)
    (i : Nat) (hi : i < k + 1) :
    bh_graph_iterator_next_node (oom_state k ir i)
      = some ⟨BH_SUCCESS, some ((i : Int) + 1), oom_state k ir (i + 1)⟩ := by
  have hn := oom_node_chain k ((i : Int) + 1) (by omega) (by omega)
  have h := next_node_emit (oom_state k ir i) ((i : Int) + 1) [(k : Int) + 2, (k : Int) + 3]
    (by unfold oom_state; simp only [if_pos hi])
    ⟨by unfold INVALID_NODE; omega, by
      show (i : Int) + 1 ∉ oom_sched k i
      rw [mem_oom_sched]; omega⟩
    (by
      show ready ir.nodes (oom_sched k i) ((i : Int) + 1)
      unfold ready
      rw [hl, hn]
      refine ⟨Or.inr ?_, Or.inl rfl⟩
      simp only
      rw [mem_oom_sched]
      by_cases h1 : (i : Int) + 1 = 1
      · rw [if_pos h1]; omega
      · rw [if_neg h1]; omega)
  rw [h]
  have hq : queue_after_emit ir.nodes ((i : Int) + 1) [(k : Int) + 2, (k : Int) + 3]
      = [if i + 1 < k + 1 then ((i + 1 : Nat) : Int) + 1 else (k : Int) + 5, (k : Int) + 2,
          (k : Int) + 3] := by
    unfold queue_after_emit
    rw [hl, hn]
    simp only
    rw [if_neg (by simp [INVALID_NODE]), if_pos]
    · by_cases h1 : i + 1 < k + 1
      · rw [if_pos h1, if_pos (by omega)]; push_cast; rfl
      · rw [if_neg h1, if_neg (by omega)]
    · by_cases h1 : (i : Int) + 1 < (k : Int) + 1
      · rw [if_pos h1]; unfold INVALID_NODE; omega
      · rw [if_neg h1]; unfold INVALID_NODE; omega
  show some (next_node_result.mk BH_SUCCESS (some ((i : Int) + 1))
      ⟨((i : Int) + 1) :: oom_sched k i, queue_after_emit ir.nodes ((i : Int) + 1)
        [(k : Int) + 2, (k : Int) + 3], ir, 0, INVALID_NODE⟩) = _
  rw [hq]
  unfold oom_state
  rw [show oom_sched k (i + 1) = ((i + 1 : Nat) : Int) :: oom_sched k i from rfl]
  push_cast
  rfl

/-- The end of the drain: `ADD` (node `k + 5`) waits for `FILL(b2)` only, is
emitted right after it, and `FILL(b3)` (node `k + 3`) comes last. -/
theorem oom_drain_tail (k : Nat) (ir : bh_ir) (hl : ∀ x, NODE_LOOKUP ir.nodes x = oom_node k x)
    (fuel : Nat) :
    ∃ d, drain_nodes_loop (fuel + 4) (oom_state k ir (k + 1)) = some d
      ∧ d.emitted = [(k : Int) + 2, (k : Int) + 5, (k : Int) + 3]
      ∧ d.last.status = BH_ERROR ∧ d.last.node = some INVALID_NODE := by
  have hS := mem_oom_sched k
  have i2 : (k : Int) + 2 ≠ INVALID_NODE := by unfold INVALID_NODE; omega
  have i3 : (k : Int) + 3 ≠ INVALID_NODE := by unfold INVALID_NODE; omega
  have i5 : (k : Int) + 5 ≠ INVALID_NODE := by unfold INVALID_NODE; omega
  have e0 : oom_state k ir (k + 1) = ⟨oom_sched k (k + 1),
      [(k : Int) + 5, (k : Int) + 2, (k : Int) + 3], ir, 0, INVALID_NODE⟩ := by
    unfold oom_state; rw [if_neg (by omega)]
  -- first call: `ADD` is not ready and goes to the back, `FILL(b2)` is emitted
  have c1 : bh_graph_iterator_next_node (oom_state k ir (k + 1))
      = some ⟨BH_SUCCESS, some ((k : Int) + 2), ⟨((k : Int) + 2) :: oom_sched k (k + 1),
          [(k : Int) + 5, (k : Int) + 3, (k : Int) + 5], ir, 0, INVALID_NODE⟩⟩ := by
    rw [e0]
    unfold bh_graph_iterator_next_node
    rw [show 2 * [(k : Int) + 5, (k : Int) + 2, (k : Int) + 3].length + 2 = 6 + 1 + 1 from rfl,
      loop_mark _ _ ((k : Int) + 5) [(k : Int) + 2, (k : Int) + 3] rfl
        ⟨i5, by show (k : Int) + 5 ∉ oom_sched k (k + 1); rw [hS]; push_cast; omega⟩
        (by
          show ¬ ready ir.nodes (oom_sched k (k + 1)) ((k : Int) + 5)
          unfold ready
          rw [hl, oom_node_add]
          simp only
          rintro ⟨-, h | h⟩
          · exact i2 h
          · rw [hS] at h; push_cast at h; omega)
        (by show INVALID_NODE ≠ (k : Int) + 5; exact i5.symm) rfl,
      loop_emit _ _ ((k : Int) + 2) [(k : Int) + 3, (k : Int) + 5] rfl
        ⟨i2, by show (k : Int) + 2 ∉ oom_sched k (k + 1); rw [hS]; push_cast; omega⟩
        (by
          show ready ir.nodes (oom_sched k (k + 1)) ((k : Int) + 2)
          unfold ready
          rw [hl, oom_node_fill2]
          exact ⟨Or.inr (by rw [hS]; exact Or.inl rfl), Or.inl rfl⟩)]
    have hq : queue_after_emit ir.nodes ((k : Int) + 2) [(k : Int) + 3, (k : Int) + 5]
        = [(k : Int) + 5, (k : Int) + 3, (k : Int) + 5] := by
      unfold queue_after_emit
      rw [hl, oom_node_fill2]
      simp only
      rw [if_neg (by simp [INVALID_NODE]), if_pos i5]
    show some (next_node_result.mk BH_SUCCESS (some ((k : Int) + 2))
      ⟨((k : Int) + 2) :: oom_sched k (k + 1), queue_after_emit ir.nodes ((k : Int) + 2)
        [(k : Int) + 3, (k : Int) + 5], ir, 0, INVALID_NODE⟩) = _
    rw [hq]
  -- second call: `ADD` is emitted
  have c2 := next_node_emit ⟨((k : Int) + 2) :: oom_sched k (k + 1),
      [(k : Int) + 5, (k : Int) + 3, (k : Int) + 5], ir, 0, INVALID_NODE⟩ ((k : Int) + 5)
      [(k : Int) + 3, (k : Int) + 5] rfl
      ⟨i5, by
        show (k : Int) + 5 ∉ ((k : Int) + 2) :: oom_sched k (k + 1)
        rw [List.mem_cons, hS]; push_cast; omega⟩
      (by
        show ready ir.nodes (((k : Int) + 2) :: oom_sched k (k + 1)) ((k : Int) + 5)
        unfold ready
        rw [hl, oom_node_add]
        refine ⟨Or.inr ?_, Or.inr ?_⟩
        · simp only [List.mem_cons, hS]; push_cast; omega
        · exact List.mem_cons_self _ _)
  have hq2 : queue_after_emit ir.nodes ((k : Int) + 5) [(k : Int) + 3, (k : Int) + 5]
      = [(k : Int) + 3, (k : Int) + 5] := by
    unfold queue_after_emit
    rw [hl, oom_node_add]
    simp
  simp only [hq2] at c2
  -- third call: `FILL(b3)` is emitted
  have c3 := next_node_emit ⟨((k : Int) + 5) :: ((k : Int) + 2) :: oom_sched k (k + 1),
      [(k : Int) + 3, (k : Int) + 5], ir, 0, INVALID_NODE⟩ ((k : Int) + 3)
      [(k : Int) + 5] rfl
      ⟨i3, by
        show (k : Int) + 3 ∉ ((k : Int) + 5) :: ((k : Int) + 2) :: oom_sched k (k + 1)
        rw [List.mem_cons, List.mem_cons, hS]; push_cast; omega⟩
      (by
        show ready ir.nodes (((k : Int) + 5) :: ((k : Int) + 2) :: oom_sched k (k + 1))
          ((k : Int) + 3)
        unfold ready
        rw [hl, oom_node_fill3]
        refine ⟨Or.inr ?_, Or.inl rfl⟩
        show (k : Int) + 4 ∈ ((k : Int) + 5) :: ((k : Int) + 2) :: oom_sched k (k + 1)
        rw [List.mem_cons, List.mem_cons, hS]; omega)
  have hq3 : queue_after_emit ir.nodes ((k : Int) + 3) [(k : Int) + 5]
      = [(k : Int) + 5, (k : Int) + 5] := by
    unfold queue_after_emit
    rw [hl, oom_node_fill3]
    simp only
    rw [if_neg (by simp [INVALID_NODE]), if_pos i5]
  simp only [hq3] at c3
  -- fourth call: the two stale queue entries are dropped, the traversal ends
  have c4 : bh_graph_iterator_next_node ⟨((k : Int) + 3) :: ((k : Int) + 5) :: ((k : Int) + 2)
        :: oom_sched k (k + 1), [(k : Int) + 5, (k : Int) + 5], ir, 0, INVALID_NODE⟩
      = some ⟨BH_ERROR, some INVALID_NODE, ⟨((k : Int) + 3) :: ((k : Int) + 5) :: ((k : Int) + 2)
        :: oom_sched k (k + 1), [], ir, 0, INVALID_NODE⟩⟩ := by
    unfold bh_graph_iterator_next_node
    rw [show 2 * [(k : Int) + 5, (k : Int) + 5].length + 2 = 3 + 1 + 1 + 1 from rfl,
      loop_skip _ _ ((k : Int) + 5) [(k : Int) + 5] rfl (by
        rintro ⟨-, h⟩
        exact h (List.mem_cons_of_mem _ (List.mem_cons_self _ _))),
      loop_skip _ _ ((k : Int) + 5) [] rfl (by
        rintro ⟨-, h⟩
        exact h (List.mem_cons_of_mem _ (List.mem_cons_self _ _))),
      loop_nil _ _ rfl]
  have d4 := drain_end fuel _ _ c4 rfl
  have d3 := drain_cons (fuel + 1) _ _ _ _ c3 d4
  have d2 := drain_cons (fuel + 2) _ _ _ _ c2 d3
  have d1 := drain_cons (fuel + 3) _ _ _ _ c1 d2
  exact ⟨_, d1, rfl, rfl, rfl⟩

theorem oom_drain_chain (k : Nat) (ir : bh_ir)
    (hl : ∀ x, NODE_LOOKUP ir.nodes x = oom_node k x) :
    ∀ (m i fuel : Nat), i + m = k + 1 →
      ∃ d, drain_nodes_loop (fuel + m + 4) (oom_state k ir i) = some d
        ∧ d.emitted = (List.range' (i + 1) m).map (fun (j : Nat) => (j : Int))
            ++ [(k : Int) + 2, (k : Int) + 5, (k : Int) + 3]
        ∧ d.last.status = BH_ERROR ∧ d.last.node = some INVALID_NODE := by
  intro m
  induction m with
  | zero =>
    intro i fuel hi
    have e : i = k + 1 := by omega
    subst e
    exact oom_drain_tail k ir hl fuel
  | succ m ih =>
    intro i fuel hi
    obtain ⟨d, hd, he, hs, hn⟩ := ih (i + 1) fuel (by omega)
    have h := drain_cons (fuel + m + 4) _ _ _ _ (oom_step k ir hl i (by omega)) hd
    refine ⟨⟨((i : Int) + 1) :: d.emitted, d.last⟩,
      by rw [show fuel + (m + 1) + 4 = fuel + m + 4 + 1 by omega]; exact h, ?_, hs, hn⟩
    show ((i : Int) + 1) :: d.emitted = _
    rw [he, List.range'_succ, List.map_cons, List.cons_append]
    push_cast
    rfl

/-- The full drain of the graph `oom_node k`. -/
theorem oom_drain (k : Nat) (ir : bh_ir) (hl : ∀ x, NODE_LOOKUP ir.nodes x = oom_node k x)
    (hlen : ir.nodes.length = k + 6) :
    ∃ d, drain_nodes ⟨[], [0], ir, 0, INVALID_NODE⟩ = some d
      ∧ d.emitted = oom_order k
      ∧ d.last.status = BH_ERROR ∧ d.last.node = some INVALID_NODE := by
  have ca := next_node_emit ⟨[], [0], ir, 0, INVALID_NODE⟩ 0 [] rfl
    ⟨by unfold INVALID_NODE; omega, List.not_mem_nil _⟩
    (by
      show ready ir.nodes [] 0
      unfold ready
      rw [hl, oom_node_root]
      exact ⟨Or.inl rfl, Or.inl rfl⟩)
  have hqa : queue_after_emit ir.nodes 0 [] = [(k : Int) + 4, (k : Int) + 2] := by
    unfold queue_after_emit
    rw [hl, oom_node_root]
    simp only
    rw [if_pos ⟨by unfold INVALID_NODE; omega, by omega⟩, if_pos (by unfold INVALID_NODE; omega)]
    rfl
  simp only [hqa] at ca
  have cb := next_node_emit ⟨[0], [(k : Int) + 4, (k : Int) + 2], ir, 0, INVALID_NODE⟩
    ((k : Int) + 4) [(k : Int) + 2] rfl
    ⟨by unfold INVALID_NODE; omega, by
      show (k : Int) + 4 ∉ [0]
      rw [List.mem_singleton]; omega⟩
    (by
      show ready ir.nodes [0] ((k : Int) + 4)
      unfold ready
      rw [hl, oom_node_collection]
      exact ⟨Or.inr (List.mem_singleton.2 rfl), Or.inl rfl⟩)
  have hqb : queue_after_emit ir.nodes ((k : Int) + 4) [(k : Int) + 2]
      = [1, (k : Int) + 2, (k : Int) + 3] := by
    unfold queue_after_emit
    rw [hl, oom_node_collection]
    simp only
    rw [if_pos ⟨by unfold INVALID_NODE; omega, by omega⟩, if_pos (by unfold INVALID_NODE; omega)]
    rfl
  simp only [hqb] at cb
  have e0 : oom_state k ir 0 = ⟨[(k : Int) + 4, 0], [1, (k : Int) + 2, (k : Int) + 3], ir, 0,
      INVALID_NODE⟩ := by
    unfold oom_state
    rw [if_pos (by omega)]
    simp [oom_sched]
  obtain ⟨d, hd, he, hs, hn⟩ := oom_drain_chain k ir hl (k + 1) 0 (k + 8) (by omega)
  rw [e0] at hd
  have h1 := drain_cons _ _ _ _ _ cb hd
  have h2 := drain_cons _ _ _ _ _ ca h1
  refine ⟨⟨(0 : Int) :: ((k : Int) + 4) :: d.emitted, d.last⟩, ?_, ?_, hs, hn⟩
  · unfold drain_nodes
    rw [show 2 * (⟨[], [0], ir, 0, INVALID_NODE⟩ : bh_graph_iterator).bhir.nodes.length + 3
        = k + 8 + (k + 1) + 4 + 1 + 1 by
      show 2 * ir.nodes.length + 3 = _
      rw [hlen]; omega]
    exact h2
  · show (0 : Int) :: ((k : Int) + 4) :: d.emitted = oom_order k
    rw [he]
    rfl

theorem ancestor_of_closed (nodes : List bh_graph_node) (S : Int → Prop)
    (hS : ∀ x p, S x → is_parent nodes p x → S p) :
    ∀ a b, Ancestor nodes a b → S b → S a := by
  intro a b h
  induction h with
  | single h1 => exact fun hb => hS _ _ hb h1
  | tail _ h2 ih => exact fun hc => ih (hS _ _ hc h2)

/-- No parent slot of the graph `oom_node k` holds the node `k + 3`. -/
theorem oom_node_parents (k : Nat) (x : Int) :
    (oom_node k x).left_parent ≠ (k : Int) + 3 ∧ (oom_node k x).right_parent ≠ (k : Int) + 3 := by
  unfold oom_node
  split_ifs <;> refine ⟨fun h => ?_, fun h => ?_⟩ <;>
    simp only [INVALID_NODE, Inhabited.default] at h <;> omega

theorem oom_list_fill3 (k : Nat) : (oom_list k).getD (k + 2) (FREE 0) = FILL 3 := by
  unfold oom_list
  rw [List.getD_append_right _ _ _ _ (by rw [List.length_replicate]; omega),
    List.length_replicate, show k + 2 - (k + 1) = 1 by omega]
  rfl

theorem oom_list_add (k : Nat) : (oom_list k).getD (k + 3) (FREE 0) = ADD 1 2 3 := by
  unfold oom_list
  rw [List.getD_append_right _ _ _ _ (by rw [List.length_replicate]; omega),
    List.length_replicate, show k + 3 - (k + 1) = 2 by omega]
  rfl

theorem oom_fresh_iterator (k : Nat) (ir : bh_ir)
    (h : bh_graph_parse demo_opcodes (some (k + 6)) (fresh_ir (oom_list k)) = (BH_SUCCESS, ir))
    (hroot : ir.root = 0) :
    fresh_iterator demo_opcodes (some (k + 6)) (oom_list k)
      = some ⟨[], [0], ir, 0, INVALID_NODE⟩ := by
  unfold fresh_iterator bh_graph_iterator_create
  have hc : (fresh_ir (oom_list k)).root < 0 ∧ false = false :=
    ⟨by show INVALID_NODE < 0; decide, rfl⟩
  rw [if_neg (by decide : ¬ (true = false)), if_pos hc]
  simp only [h, ne_eq, not_true_eq_false, if_false, hroot, Option.map_some']
  rw [if_pos (by decide)]

/-- C4, failing run. For every `k`, with a node arena that cannot grow beyond
`k + 6` slots, the build of `oom_list k` returns `BH_SUCCESS`: the allocation
of the collection node for the third parent of `ADD` fails inside
`add_parent`, and `add_child` drops that status. Instruction `k + 2`
(`FILL(b3)`, node `k + 3`) writes base 3 and instruction `k + 3`
(`ADD(b1, b2, b3)`, node `k + 5`) reads it, but node `k + 3` is not an
ancestor of node `k + 5` along parent handles. `k = 3994` is the arena of
4000 slots that `bh_graph_create` allocates; `k = 0` is the list
`[FILL(b1); FILL(b2); FILL(b3); ADD(b1, b2, b3)]` with six slots. -/
theorem hazard_edge_lost_on_failed_allocation (k : Nat) :
    (bh_graph_parse demo_opcodes (some (k + 6)) (fresh_ir (oom_list k))).1 = BH_SUCCESS
    ∧ (NODE_LOOKUP (bh_graph_parse demo_opcodes (some (k + 6)) (fresh_ir (oom_list k))).2.nodes
        ((k : Int) + 3)).instruction = (k : Int) + 2
    ∧ (NODE_LOOKUP (bh_graph_parse demo_opcodes (some (k + 6)) (fresh_ir (oom_list k))).2.nodes
        ((k : Int) + 5)).instruction = (k : Int) + 3
    ∧ (bh_graph_getIds demo_opcodes ((oom_list k).getD (k + 2) (FREE 0))).2.selfId = some 3
    ∧ (bh_graph_getIds demo_opcodes ((oom_list k).getD (k + 3) (FREE 0))).2.rightId = some 3
    ∧ ¬ Ancestor (bh_graph_parse demo_opcodes (some (k + 6)) (fresh_ir (oom_list k))).2.nodes
        ((k : Int) + 3) ((k : Int) + 5) := by
  obtain ⟨ir, hp, -, hrep⟩ := oom_parse k
  rw [hp]
  refine ⟨rfl, ?_, ?_, ?_, ?_, ?_⟩
  · show (NODE_LOOKUP ir.nodes ((k : Int) + 3)).instruction = _
    rw [hrep.2, oom_node_fill3]
  · show (NODE_LOOKUP ir.nodes ((k : Int) + 5)).instruction = _
    rw [hrep.2, oom_node_add]
  · rw [oom_list_fill3, getIds_FILL]
  · rw [oom_list_add, getIds_ADD]
  · intro h
    refine ancestor_of_closed ir.nodes (fun x => x ≠ (k : Int) + 3) ?_ _ _ h (by omega) rfl
    intro x p _ hpx
    obtain ⟨-, e | e⟩ := hpx
    · rw [hrep.2] at e
      exact fun hp3 => (oom_node_parents k x).1 (e.trans hp3)
    · rw [hrep.2] at e
      exact fun hp3 => (oom_node_parents k x).2 (e.trans hp3)

/-- C9, failing run. For every `k`, with a node arena that cannot grow beyond
`k + 6` slots, the build of `oom_list k` succeeds and the full drain of
`bh_graph_iterator_next_node` emits the nodes in the order `oom_order k`,
which ends with `k + 2, k + 5, k + 3`: node `k + 5` comes before node `k + 3`
although node `k + 5` is the left child of node `k + 3`. `k = 3994` is the
arena of 4000 slots that `bh_graph_create` allocates; for `k = 0` the order
is `0, 4, 1, 2, 5, 3`. -/
theorem topological_order_broken_on_failed_allocation (k : Nat) :
    (bh_graph_parse demo_opcodes (some (k + 6)) (fresh_ir (oom_list k))).1 = BH_SUCCESS
    ∧ ((fresh_iterator demo_opcodes (some (k + 6)) (oom_list k)).bind drain_nodes).map
        (fun d => d.emitted) = some (oom_order k)
    ∧ ChildPath (bh_graph_parse demo_opcodes (some (k + 6)) (fresh_ir (oom_list k))).2.nodes
        ((k : Int) + 3) ((k : Int) + 5) := by
  obtain ⟨ir, hp, hroot, hrep⟩ := oom_parse k
  obtain ⟨d, hd, he, -, -⟩ := oom_drain k ir hrep.2 hrep.1
  rw [oom_fresh_iterator k ir hp hroot, hp]
  refine ⟨rfl, ?_, Relation.TransGen.single ⟨by unfold INVALID_NODE; omega, Or.inl ?_⟩⟩
  · rw [Option.some_bind, hd, Option.map_some', he]
  · show (NODE_LOOKUP ir.nodes ((k : Int) + 3)).left_child = _
    rw [hrep.2, oom_node_fill3]

/-- The copy loop of `bh_graph_append` with room for every instruction. -/
theorem append_loop_fits (imem : Option Nat) (instructions : List bh_instruction) :
    ∀ arena : List bh_instruction,
      (∀ c, imem = some c → arena.length + instructions.length ≤ c) →
      bh_graph_append_loop imem arena instructions = (BH_SUCCESS, arena ++ instructions) := by
  induction instructions with
  | nil => intro arena _; simp [bh_graph_append_loop]
  | cons x rest ih =>
    intro arena h
    have hix : ¬ bh_dynamic_list_append imem arena.length < 0 := by
      unfold bh_dynamic_list_append
      rcases imem with _ | c
      · simp
      · have := h c rfl
        simp only [List.length_cons] at this
        simp only
        rw [if_pos (by omega)]
        omega
    rw [bh_graph_append_loop]
    rw [if_neg hix, ih (arena ++ [x]) (fun c hc => by
      have := h c hc
      simp only [List.length_cons, List.length_append, List.length_nil] at this ⊢
      omega)]
    simp

/-- C13. `bh_graph_append` on an IR whose root is `>= 0` returns `BH_ERROR`
and the IR (instruction arena, node arena, root) is the one before the call.
On an IR with `root = INVALID_NODE` the call runs the copy loop instead: the
status and the instruction arena are the loop's, and when the arena has room
for the slice the call returns `BH_SUCCESS` with the slice appended. -/
theorem append_after_build_rejected (imem : Option Nat) (bhir : bh_ir)
    (instructions : List bh_instruction) :
    (0 ≤ bhir.root → bh_graph_append imem bhir instructions = (BH_ERROR, bhir))
    ∧ (bhir.root = INVALID_NODE →
        bh_graph_append imem bhir instructions
          = ((bh_graph_append_loop imem bhir.instructions instructions).1,
              { bhir with
                instructions := (bh_graph_append_loop imem bhir.instructions instructions).2 })
        ∧ ((∀ c, imem = some c → bhir.instructions.length + instructions.length ≤ c) →
            bh_graph_append imem bhir instructions
              = (BH_SUCCESS, { bhir with instructions := bhir.instructions ++ instructions }))) := by
  refine ⟨fun h => ?_, fun h => ?_⟩
  · unfold bh_graph_append
    rw [if_pos h]
  · have hn : ¬ bhir.root ≥ 0 := by rw [h]; decide
    refine ⟨?_, fun hfit => ?_⟩
    · unfold bh_graph_append
      rw [if_neg hn]
    · unfold bh_graph_append
      rw [if_neg hn]
      simp only [append_loop_fits imem instructions bhir.instructions hfit]

/-- C14. `bh_graph_parse` on an IR whose root is `>= 0` returns `BH_SUCCESS`
and the same IR; and whenever a call of `bh_graph_parse` returns `BH_SUCCESS`
with the IR `ir`, a second call on `ir` returns `BH_SUCCESS` and `ir`
again. -/
theorem parse_idempotent (T : bh_opcodes) (mem : Option Nat) (bhir : bh_ir) :
    (0 ≤ bhir.root → bh_graph_parse T mem bhir = (BH_SUCCESS, bhir))
    ∧ ∀ ir, bh_graph_parse T mem bhir = (BH_SUCCESS, ir) →
        bh_graph_parse T mem ir = (BH_SUCCESS, ir) := by
  have h0 : ∀ b : bh_ir, 0 ≤ b.root → bh_graph_parse T mem b = (BH_SUCCESS, b) := by
    intro b hb
    unfold bh_graph_parse
    rw [if_pos hb]
  refine ⟨h0 bhir, fun ir h => ?_⟩
  by_cases hb : 0 ≤ bhir.root
  · rw [h0 bhir hb] at h
    simp only [Prod.mk.injEq, true_and] at h
    rw [← h]
    exact h0 bhir hb
  · by_cases hr : 0 ≤ ir.root
    · exact h0 ir hr
    · -- the root allocation failed: the instruction arena is empty
      unfold bh_graph_parse at h
      rw [if_neg hb] at h
      simp only at h
      rcases hloop : parse_loop T mem
          (bh_graph_new_node mem bhir.nodes BH_COLLECTION INVALID_INSTRUCTION).1
          ⟨(bh_graph_new_node mem bhir.nodes BH_COLLECTION INVALID_INSTRUCTION).2,
            fun _ => none, fun _ => none⟩ 0 bhir.instructions with _ | st
      · rw [hloop] at h; simp at h
      · rw [hloop] at h
        simp only [Prod.mk.injEq, true_and] at h
        rcases new_node_cases mem bhir.nodes BH_COLLECTION INVALID_INSTRUCTION with e | e
        · rw [e] at hloop h
          have hfail : bh_dynamic_list_append mem bhir.nodes.length < 0 := by
            unfold bh_graph_new_node at e
            simp only at e
            by_contra hc
            rw [if_neg hc] at e
            have := congrArg Prod.snd e
            simp at this
          have hL : bhir.instructions = [] := by
            rcases hi : bhir.instructions with _ | ⟨instr, rest⟩
            · rfl
            · rw [hi, parse_loop,
                parse_instruction_alloc_fail T mem _ _ 0 instr hfail] at hloop
              cases hloop
          rw [hL, parse_loop] at hloop
          simp only [Option.some.injEq] at hloop
          subst hloop
          subst h
          unfold bh_graph_parse
          simp only
          rw [if_neg (by decide), e, hL, parse_loop]
        · rw [e] at h
          subst h
          exact absurd (by simp : (0 : Int) ≤ (bhir.nodes.length : Int)) hr

/-- C15. Whenever `bh_graph_parse` returns `BH_ERROR`, the IR it leaves has an
empty node arena, `root = INVALID_NODE` and the instruction arena it had
before the call. -/
theorem parse_failure_atomic (T : bh_opcodes) (mem : Option Nat) (bhir : bh_ir)
    (h : (bh_graph_parse T mem bhir).1 = BH_ERROR) :
    (bh_graph_parse T mem bhir).2.nodes = []
    ∧ (bh_graph_parse T mem bhir).2.root = INVALID_NODE
    ∧ (bh_graph_parse T mem bhir).2.instructions = bhir.instructions := by
  unfold bh_graph_parse at h ⊢
  by_cases hb : bhir.root ≥ 0
  · rw [if_pos hb] at h; cases h
  · rw [if_neg hb] at h ⊢
    simp only at h ⊢
    rcases hloop : parse_loop T mem
        (bh_graph_new_node mem bhir.nodes BH_COLLECTION INVALID_INSTRUCTION).1
        ⟨(bh_graph_new_node mem bhir.nodes BH_COLLECTION INVALID_INSTRUCTION).2,
          fun _ => none, fun _ => none⟩ 0 bhir.instructions with _ | st
    · exact ⟨rfl, rfl, rfl⟩
    · rw [hloop] at h; cases h

set_option maxRecDepth 100000 in
/-- C15 on a list whose third instruction is a malformed user function: the
build fails after two instructions produced nodes and edges. -/
theorem parse_failure_atomic_witness :
    (bh_graph_parse demo_opcodes none (fresh_ir [FILL 1, COPY 2 1, BAD_USERFUNC])).1 = BH_ERROR
    ∧ (bh_graph_parse demo_opcodes none (fresh_ir [FILL 1, COPY 2 1, BAD_USERFUNC])).2.nodes = []
    ∧ (bh_graph_parse demo_opcodes none (fresh_ir [FILL 1, COPY 2 1, BAD_USERFUNC])).2.root
        = INVALID_NODE
    ∧ (bh_graph_parse demo_opcodes none (fresh_ir [FILL 1, COPY 2 1, BAD_USERFUNC])).2.instructions
        = (fresh_ir [FILL 1, COPY 2 1, BAD_USERFUNC]).instructions :=
  ⟨by decide, parse_failure_atomic demo_opcodes none
    (fresh_ir [FILL 1, COPY 2 1, BAD_USERFUNC]) (by decide)⟩

/-- C16. For an instruction that carries a user function whenever its opcode
is `BH_USERFUNC`: `bh_graph_getIds` returns `BH_ERROR` exactly when the opcode
is `BH_USERFUNC` and `nout != 1` or `nin` is none of 0, 1, 2. Otherwise it
returns `BH_SUCCESS`, `nops` is `bh_operands(opcode)` (for a user function
`nout + nin`), the operands are the instruction's (for a user function the
user function's), `selfId` is the base of operand 0, `leftId` the base of
operand 1 when `nops >= 2` and null otherwise, `rightId` the base of operand 2
when `nops >= 3` and null otherwise. -/
theorem getIds_decoding (T : bh_opcodes) (instr : bh_instruction)
    (huf : instr.opcode = T.BH_USERFUNC → instr.userfunc ≠ none) :
    ((bh_graph_getIds T instr).1 = BH_ERROR ↔
      (instr.opcode = T.BH_USERFUNC ∧ ∃ uf, instr.userfunc = some uf
        ∧ (uf.nout ≠ 1 ∨ (uf.nin ≠ 0 ∧ uf.nin ≠ 1 ∧ uf.nin ≠ 2))))
    ∧ (instr.opcode ≠ T.BH_USERFUNC →
        bh_graph_getIds T instr = (BH_SUCCESS,
          ⟨T.bh_operands instr.opcode,
            bh_get_basearray instr.operand 0,
            if T.bh_operands instr.opcode ≥ 2 then bh_get_basearray instr.operand 1 else none,
            if T.bh_operands instr.opcode ≥ 3 then bh_get_basearray instr.operand 2 else none⟩))
    ∧ (∀ uf, instr.opcode = T.BH_USERFUNC → instr.userfunc = some uf →
        uf.nout = 1 → (uf.nin = 0 ∨ uf.nin = 1 ∨ uf.nin = 2) →
        bh_graph_getIds T instr = (BH_SUCCESS,
          ⟨uf.nout + uf.nin,
            bh_get_basearray uf.operand 0,
            if uf.nout + uf.nin ≥ 2 then bh_get_basearray uf.operand 1 else none,
            if uf.nout + uf.nin ≥ 3 then bh_get_basearray uf.operand 2 else none⟩)) := by
  by_cases hop : instr.opcode = T.BH_USERFUNC
  · rcases hu : instr.userfunc with _ | uf
    · exact absurd hu (huf hop)
    · by_cases hbad : uf.nout ≠ 1 ∨ (uf.nin ≠ 0 ∧ uf.nin ≠ 1 ∧ uf.nin ≠ 2)
      · have e : (bh_graph_getIds T instr).1 = BH_ERROR := by
          unfold bh_graph_getIds
          rw [if_neg (not_not.2 hop), hu]
          simp only
          rw [if_pos hbad]
        refine ⟨⟨fun _ => ⟨hop, uf, rfl, hbad⟩, fun _ => e⟩, fun h => absurd hop h, ?_⟩
        intro uf' _ h2 h3 h4
        simp only [Option.some.injEq] at h2
        subst h2
        rcases hbad with h5 | h5
        · exact absurd h3 h5
        · omega
      · have e : bh_graph_getIds T instr = (BH_SUCCESS,
            ⟨uf.nout + uf.nin, bh_get_basearray uf.operand 0,
              if uf.nout + uf.nin ≥ 2 then bh_get_basearray uf.operand 1 else none,
              if uf.nout + uf.nin ≥ 3 then bh_get_basearray uf.operand 2 else none⟩) := by
          unfold bh_graph_getIds
          rw [if_neg (not_not.2 hop), hu]
          simp only
          rw [if_neg hbad]
        refine ⟨⟨fun h => ?_, fun h => ?_⟩, fun h => absurd hop h, ?_⟩
        · rw [e] at h; cases h
        · obtain ⟨-, uf', h2, h3⟩ := h
          simp only [Option.some.injEq] at h2
          subst h2
          exact absurd h3 hbad
        · intro uf' _ h2 _ _
          simp only [Option.some.injEq] at h2
          subst h2
          exact e
  · have e : bh_graph_getIds T instr = (BH_SUCCESS,
          ⟨T.bh_operands instr.opcode,
            bh_get_basearray instr.operand 0,
            if T.bh_operands instr.opcode ≥ 2 then bh_get_basearray instr.operand 1 else none,
            if T.bh_operands instr.opcode ≥ 3 then bh_get_basearray instr.operand 2 else none⟩) := by
      unfold bh_graph_getIds
      rw [if_pos hop]
    refine ⟨⟨fun h => ?_, fun h => absurd h.1 hop⟩, fun _ => e, fun _ h => absurd h hop⟩
    rw [e] at h; cases h

/-- C16 on a well-formed user function with three operands and on a
malformed one. -/
theorem getIds_decoding_witness :
    bh_graph_getIds demo_opcodes (USERFUNC3 7 8 9) = (BH_SUCCESS, ⟨3, some 7, some 8, some 9⟩)
    ∧ ((bh_graph_getIds demo_opcodes BAD_USERFUNC).1 = BH_ERROR ↔
        (BAD_USERFUNC.opcode = demo_opcodes.BH_USERFUNC ∧ ∃ uf, BAD_USERFUNC.userfunc = some uf
          ∧ (uf.nout ≠ 1 ∨ (uf.nin ≠ 0 ∧ uf.nin ≠ 1 ∧ uf.nin ≠ 2)))) :=
  ⟨(getIds_decoding demo_opcodes (USERFUNC3 7 8 9) (fun _ => by decide)).2.2
      ⟨1, 2, [⟨some 7⟩, ⟨some 8⟩, ⟨some 9⟩]⟩ rfl rfl rfl (Or.inr (Or.inr rfl)),
    (getIds_decoding demo_opcodes BAD_USERFUNC (fun _ => by decide)).1⟩

/-- One call of `next_instruction` on an unbuilt IR: the cursor moves on by
one and the instruction under it is returned, if there is one. -/
theorem next_instruction_linear (it : bh_graph_iterator) (j : Nat)
    (hroot : it.bhir.root = INVALID_NODE) (hc : it.current = (j : Int) - 1) :
    bh_graph_iterator_next_instruction it
      = some (if j < it.bhir.instructions.length then
          ⟨BH_SUCCESS, some (j : Int), { it with current := (j : Int) }⟩
        else ⟨BH_ERROR, none, { it with current := (j : Int) }⟩) := by
  unfold bh_graph_iterator_next_instruction
  rw [if_pos hroot]
  have e : (if it.current = INVALID_NODE then -1 else it.current) + 1 = (j : Int) := by
    unfold INVALID_NODE
    split_ifs with h <;> omega
  simp only [e]
  by_cases hj : j < it.bhir.instructions.length
  · rw [if_pos (by omega), if_pos hj]
  · rw [if_neg (by omega), if_neg hj]

theorem next_instruction_calls_linear (n : Nat) :
    ∀ (it : bh_graph_iterator) (j : Nat), it.bhir.root = INVALID_NODE →
      it.current = (j : Int) - 1 →
      (next_instruction_calls n it).map (fun r => (r.status, r.instruction))
        = (List.range' j n).map (fun (i : Nat) =>
            if i < it.bhir.instructions.length then (BH_SUCCESS, some (i : Int))
            else (BH_ERROR, none)) := by
  induction n with
  | zero => intro it j _ _; rfl
  | succ n ih =>
    intro it j hroot hc
    have ih' := ih { it with current := (j : Int) } (j + 1) hroot
      (by show (j : Int) = ((j + 1 : Nat) : Int) - 1; push_cast; omega)
    rw [next_instruction_calls, next_instruction_linear it j hroot hc]
    simp only [List.range'_succ, List.map_cons]
    by_cases hj : j < it.bhir.instructions.length
    · simp only [if_pos hj]
      rw [ih']
    · simp only [if_neg hj]
      rw [ih']

/-- C20. On an iterator created on an IR whose root stays `INVALID_NODE`
(unbuilt, graph building disabled) with `k` instructions, the first `n` calls
of `bh_graph_iterator_next_instruction` all return, and call number `i`
(counted from 0) returns `BH_SUCCESS` with the instruction at arena index `i`
when `i < k`, and `BH_ERROR` with the null pointer when `i >= k`. -/
theorem legacy_linear_order (T : bh_opcodes) (mem : Option Nat) (alloc : Bool) (disable : Bool)
    (bhir ir : bh_ir) (it : bh_graph_iterator) (n : Nat)
    (h : bh_graph_iterator_create T mem alloc disable bhir = some (ir, it))
    (hroot : ir.root = INVALID_NODE) :
    (next_instruction_calls n it).map (fun r => (r.status, r.instruction))
      = (List.range n).map (fun (i : Nat) =>
          if i < ir.instructions.length then (BH_SUCCESS, some (i : Int))
          else (BH_ERROR, none)) := by
  obtain ⟨hir, -, -, -, hcur⟩ := iterator_create_spec T mem alloc disable bhir ir it h
  have := next_instruction_calls_linear n it 0 (by rw [hir]; exact hroot)
    (by rw [hcur, hroot]; rfl)
  rw [this, hir, List.range_eq_range']

/-- C20 on three instructions with graph building disabled: five calls yield
the arena indices 0, 1, 2 and then report the end twice. -/
theorem legacy_linear_order_witness :
    bh_graph_iterator_create demo_opcodes none true true (fresh_ir [FILL 1, COPY 2 1, ADD 3 1 2])
      = some (fresh_ir [FILL 1, COPY 2 1, ADD 3 1 2],
          ⟨[], [], fresh_ir [FILL 1, COPY 2 1, ADD 3 1 2], INVALID_NODE, INVALID_NODE⟩)
    ∧ (next_instruction_calls 5
          ⟨[], [], fresh_ir [FILL 1, COPY 2 1, ADD 3 1 2], INVALID_NODE, INVALID_NODE⟩).map
        (fun r => (r.status, r.instruction))
        = [(BH_SUCCESS, some 0), (BH_SUCCESS, some 1), (BH_SUCCESS, some 2),
            (BH_ERROR, none), (BH_ERROR, none)] :=
  ⟨by decide, legacy_linear_order demo_opcodes none true true
    (fresh_ir [FILL 1, COPY 2 1, ADD 3 1 2]) (fresh_ir [FILL 1, COPY 2 1, ADD 3 1 2])
    ⟨[], [], fresh_ir [FILL 1, COPY 2 1, ADD 3 1 2], INVALID_NODE, INVALID_NODE⟩ 5
    (by decide) rfl⟩

theorem typing_update (nodes : List bh_graph_node) (i : Int) (f : bh_graph_node → bh_graph_node)
    (hf : ∀ x, (f x).type = x.type ∧ (f x).instruction = x.instruction) :
    typing (NODE_UPDATE nodes i f) = typing nodes := by
  unfold NODE_UPDATE typing
  split_ifs with h
  · rfl
  · rw [List.map_set]
    by_cases hk : i.toNat < nodes.length
    · have e : NODE_LOOKUP nodes i = nodes[i.toNat] := by
        unfold NODE_LOOKUP
        rw [if_neg h, List.getD_eq_getElem?_getD, List.getElem?_eq_getElem hk]
        rfl
      rw [e, (hf _).1, (hf _).2]
      apply List.ext_getElem (by simp)
      intro n h1 h2
      rw [List.getElem_set]
      split_ifs with h3
      · subst h3; simp
      · rfl
    · rw [List.set_eq_of_length_le (by simp only [List.length_map]; omega)]

theorem typing_set_left_child (nodes : List bh_graph_node) (i v : Int) :
    typing (NODE_UPDATE nodes i (fun x => { x with left_child := v })) = typing nodes :=
  typing_update _ _ _ (fun _ => ⟨rfl, rfl⟩)

theorem typing_set_right_child (nodes : List bh_graph_node) (i v : Int) :
    typing (NODE_UPDATE nodes i (fun x => { x with right_child := v })) = typing nodes :=
  typing_update _ _ _ (fun _ => ⟨rfl, rfl⟩)

theorem typing_set_left_parent (nodes : List bh_graph_node) (i v : Int) :
    typing (NODE_UPDATE nodes i (fun x => { x with left_parent := v })) = typing nodes :=
  typing_update _ _ _ (fun _ => ⟨rfl, rfl⟩)

theorem typing_set_right_parent (nodes : List bh_graph_node) (i v : Int) :
    typing (NODE_UPDATE nodes i (fun x => { x with right_parent := v })) = typing nodes :=
  typing_update _ _ _ (fun _ => ⟨rfl, rfl⟩)

theorem typing_append (nodes : List bh_graph_node) (nd : bh_graph_node) :
    typing (nodes ++ [nd]) = typing nodes ++ [(nd.type, nd.instruction)] := by
  unfold typing; simp

theorem typing_rewire_child (nodes : List bh_graph_node) (parent target self cn : Int) :
    typing (rewire_child nodes parent target self cn) = typing nodes := by
  unfold rewire_child
  split_ifs
  · exact typing_set_left_child _ _ _
  · exact typing_set_right_child _ _ _
  · rfl

theorem typing_add_parent_overflow (nodes : List bh_graph_node) (self newparent cn : Int) :
    typing (add_parent_overflow nodes self newparent cn) = typing nodes := by
  unfold add_parent_overflow
  simp only [typing_set_left_child, typing_set_right_child, typing_set_left_parent,
    typing_set_right_parent, typing_rewire_child]

/-- `add_parent` leaves the type and instruction of every node as they are
and adds at most one node, a collection node without instruction. -/
theorem typing_add_parent (mem : Option Nat) (nodes : List bh_graph_node) (self newparent : Int) :
    ∃ j, typing (bh_grap_node_add_parent mem nodes self newparent).2
      = typing nodes ++ List.replicate j (BH_COLLECTION, INVALID_INSTRUCTION) := by
  rcases add_parent_cases mem nodes self newparent with
    ⟨-, e⟩ | ⟨-, -, e⟩ | ⟨-, -, -, e⟩ | ⟨-, -, -, -, e⟩ | ⟨-, -, -, -, -, -, e⟩
  · exact ⟨0, by rw [e]; simp⟩
  · exact ⟨0, by rw [e]; simp [typing_set_left_parent]⟩
  · exact ⟨0, by rw [e]; simp [typing_set_right_parent]⟩
  · exact ⟨0, by rw [e]; simp⟩
  · exact ⟨1, by rw [e]; simp only [typing_add_parent_overflow, typing_append]; rfl⟩

theorem typing_add_child_overflow (mem : Option Nat) (nodes : List bh_graph_node)
    (self newchild cn : Int) :
    ∃ j, typing (add_child_overflow mem nodes self newchild cn).2
      = typing nodes ++ List.replicate j (BH_COLLECTION, INVALID_INSTRUCTION) := by
  unfold add_child_overflow
  lift_lets
  intro n1 n2 n3 d n4 p n4b pb
  have t3 : typing n3 = typing nodes := by
    show typing (NODE_UPDATE (NODE_UPDATE (NODE_UPDATE nodes cn _) cn _) self _) = _
    simp only [typing_set_left_child, typing_set_right_child]
  have t4 : typing n4 = typing nodes := by
    show typing (NODE_UPDATE n3 d _) = _
    rw [typing_set_left_parent, t3]
  have t4b : typing n4b = typing nodes := by
    show typing (NODE_UPDATE n3 d _) = _
    rw [typing_set_right_parent, t3]
  obtain ⟨j, hj⟩ := typing_add_parent mem n4 newchild cn
  obtain ⟨jb, hjb⟩ := typing_add_parent mem n4b newchild cn
  rw [t4] at hj
  rw [t4b] at hjb
  split_ifs
  · exact ⟨j, hj⟩
  · exact ⟨j, by dsimp only; rw [typing_set_left_parent]; exact hj⟩
  · exact ⟨jb, hjb⟩
  · exact ⟨jb, by dsimp only; rw [typing_set_left_parent]; exact hjb⟩
  · exact ⟨0, by simpa using t3⟩

/-- `add_child` leaves the type and instruction of every node as they are and
only adds collection nodes without instruction. -/
theorem typing_add_child (mem : Option Nat) (nodes : List bh_graph_node) (self newchild : Int) :
    ∃ j, typing (bh_grap_node_add_child mem nodes self newchild).2
      = typing nodes ++ List.replicate j (BH_COLLECTION, INVALID_INSTRUCTION) := by
  rcases add_child_cases mem nodes self newchild with
    ⟨-, e⟩ | ⟨-, -, e⟩ | ⟨-, -, -, e⟩ | ⟨-, -, -, -, e⟩ | ⟨-, -, -, -, e⟩
  · exact ⟨0, by rw [e]; simp⟩
  · obtain ⟨j, hj⟩ := typing_add_parent mem
      (NODE_UPDATE nodes self (fun x => { x with left_child := newchild })) newchild self
    rw [typing_set_left_child] at hj
    exact ⟨j, by rw [e]; exact hj⟩
  · obtain ⟨j, hj⟩ := typing_add_parent mem
      (NODE_UPDATE nodes self (fun x => { x with right_child := newchild })) newchild self
    rw [typing_set_right_child] at hj
    exact ⟨j, by rw [e]; exact hj⟩
  · exact ⟨0, by rw [e]; simp⟩
  · obtain ⟨j, hj⟩ := typing_add_child_overflow mem (nodes ++ [⟨BH_COLLECTION,
      INVALID_INSTRUCTION, INVALID_NODE, INVALID_NODE, INVALID_NODE, INVALID_NODE⟩]) self newchild
      (nodes.length : Int)
    refine ⟨j + 1, ?_⟩
    rw [e, hj, typing_append, List.append_assoc, List.replicate_succ]
    rfl

/-- A relation between arenas that is reflexive, transitive and holds across
every `add_child` call also holds across the write-after-read loop. -/
theorem war_loop_steps (R : List bh_graph_node → List bh_graph_node → Prop)
    (hrefl : ∀ a, R a a) (htrans : ∀ a b c, R a b → R b c → R a c)
    (hchild : ∀ mem nodes s c, R nodes (bh_grap_node_add_child mem nodes s c).2)
    (mem : Option Nat) (selfNode leftDep rightDep : Int) (readers : List Int) :
    ∀ nodes : List bh_graph_node,
      R nodes (parse_war_loop mem selfNode leftDep rightDep nodes readers).2 := by
  induction readers with
  | nil => intro nodes; rw [parse_war_loop]; exact hrefl nodes
  | cons r rest ih =>
    intro nodes
    rw [parse_war_loop]
    by_cases c1 : r ≠ leftDep ∧ r ≠ rightDep
    · rw [if_pos c1]
      simp only
      by_cases c2 : (bh_grap_node_add_child mem nodes r selfNode).1 ≠ BH_SUCCESS
      · rw [if_pos c2]
        exact hchild mem nodes r selfNode
      · rw [if_neg c2]
        exact htrans _ _ _ (hchild mem nodes r selfNode) (ih _)
    · rw [if_neg c1]
      exact ih nodes

/-- One iteration of the main loop of `bh_graph_parse` that succeeds: the
arena first gets the node of the instruction and then goes through
`add_child` calls only. -/
theorem parse_instruction_steps (R : List bh_graph_node → List bh_graph_node → Prop)
    (hrefl : ∀ a, R a a) (htrans : ∀ a b c, R a b → R b c → R a c)
    (hchild : ∀ mem nodes s c, R nodes (bh_grap_node_add_child mem nodes s c).2)
    (T : bh_opcodes) (mem : Option Nat) (root : Int)
    (st st' : parse_state) (i : Int) (instr : bh_instruction)
    (h : parse_instruction T mem root st i instr = some st') :
    R (st.nodes ++ [⟨BH_INSTRUCTION, i, INVALID_NODE, INVALID_NODE, INVALID_NODE,
      INVALID_NODE⟩]) st'.nodes := by
  unfold parse_instruction at h
  lift_lets at h
  extract_lets ids selfId leftId rightId r selfNode a1 writemap leftDep rightDep a2
    readmap1 readmap2 readmap3 a3 a4 a5 at h
  by_cases c0 : ids.1 ≠ BH_SUCCESS
  · rw [if_pos c0] at h; cases h
  rw [if_neg c0] at h
  by_cases c1 : selfNode = INVALID_NODE
  · rw [if_pos c1] at h; cases h
  rw [if_neg c1] at h
  by_cases c2 : a1.1 ≠ BH_SUCCESS
  · rw [if_pos c2] at h; cases h
  rw [if_neg c2] at h
  by_cases c3 : a2.1 ≠ BH_SUCCESS
  · rw [if_pos c3] at h; cases h
  rw [if_neg c3] at h
  by_cases c4 : a3.1 ≠ BH_SUCCESS
  · rw [if_pos c4] at h; cases h
  rw [if_neg c4] at h
  by_cases c5 : a4.1 ≠ BH_SUCCESS
  · rw [if_pos c5] at h; cases h
  rw [if_neg c5] at h
  by_cases c6 : a5.1 ≠ BH_SUCCESS
  · rw [if_pos c6] at h; cases h
  rw [if_neg c6] at h
  simp only [Option.some.injEq] at h
  have hr : r = ((st.nodes.length : Int), st.nodes ++ [⟨BH_INSTRUCTION, i, INVALID_NODE,
      INVALID_NODE, INVALID_NODE, INVALID_NODE⟩]) := by
    rcases new_node_cases mem st.nodes BH_INSTRUCTION i with e | e
    · exact absurd (show selfNode = INVALID_NODE from congrArg Prod.fst e) c1
    · exact e
  have hbase : r.2 = st.nodes ++ [⟨BH_INSTRUCTION, i, INVALID_NODE,
      INVALID_NODE, INVALID_NODE, INVALID_NODE⟩] := congrArg Prod.snd hr
  rw [← hbase]
  have h1 : R r.2 a1.2 := by
    rcases hw : st.writemap selfId with _ | oldTarget
    · have : a1 = (BH_SUCCESS, r.2) := by simp only [a1, hw]
      rw [this]; exact hrefl _
    · have : a1 = bh_grap_node_add_child mem r.2 oldTarget selfNode := by simp only [a1, hw]
      rw [this]; exact hchild _ _ _ _
  have h2 : R a1.2 a2.2 := by
    rcases hrd : st.readmap selfId with _ | readers
    · have : a2 = (BH_SUCCESS, a1.2) := by simp only [a2, hrd]
      rw [this]; exact hrefl _
    · have : a2 = parse_war_loop mem selfNode leftDep rightDep a1.2 readers := by
        simp only [a2, hrd]
      rw [this]
      exact war_loop_steps R hrefl htrans hchild mem selfNode leftDep rightDep readers a1.2
  have h3 : R a2.2 a3.2 := by
    by_cases c : leftDep ≠ INVALID_NODE ∧ leftDep ≠ selfNode
    · have : a3 = bh_grap_node_add_child mem a2.2 leftDep selfNode := by
        simp only [a3]; rw [if_pos c]
      rw [this]; exact hchild _ _ _ _
    · have : a3 = (BH_SUCCESS, a2.2) := by simp only [a3]; rw [if_neg c]
      rw [this]; exact hrefl _
  have h4 : R a3.2 a4.2 := by
    by_cases c : rightDep ≠ INVALID_NODE ∧ rightDep ≠ leftDep ∧ rightDep ≠ selfNode
    · have : a4 = bh_grap_node_add_child mem a3.2 rightDep selfNode := by
        simp only [a4]; rw [if_pos c]
      rw [this]; exact hchild _ _ _ _
    · have : a4 = (BH_SUCCESS, a3.2) := by simp only [a4]; rw [if_neg c]
      rw [this]; exact hrefl _
  have h5 : R a4.2 a5.2 := by
    by_cases c : (NODE_LOOKUP a4.2 selfNode).left_parent = INVALID_NODE
        ∧ (NODE_LOOKUP a4.2 selfNode).right_parent ≠ 0
    · have : a5 = bh_grap_node_add_child mem a4.2 root selfNode := by
        simp only [a5]; rw [if_pos c]
      rw [this]; exact hchild _ _ _ _
    · have : a5 = (BH_SUCCESS, a4.2) := by simp only [a5]; rw [if_neg c]
      rw [this]; exact hrefl _
  rw [← h]
  exact htrans _ _ _ h1 (htrans _ _ _ h2 (htrans _ _ _ h3 (htrans _ _ _ h4 h5)))

theorem typing_ids_append (a b : List (bh_node_type × Int)) :
    typing_ids (a ++ b) = typing_ids a ++ typing_ids b := by
  unfold typing_ids; simp

theorem typing_ids_collections (j : Nat) :
    typing_ids (List.replicate j (BH_COLLECTION, INVALID_INSTRUCTION)) = [] := by
  unfold typing_ids
  rw [List.filter_replicate_of_neg (by decide)]
  rfl

theorem instruction_ids_typing (nodes : List bh_graph_node) :
    instruction_ids nodes = typing_ids (typing nodes) := by
  unfold instruction_ids typing_ids typing
  rw [List.filter_map, List.map_map]
  rfl

/-- The main loop of `bh_graph_parse` from arena index `i` on: behind the old
nodes there is one `BH_INSTRUCTION` node per instruction, with the indices
`i, i + 1, ...` in this order, and collection nodes without instruction. -/
theorem typing_parse_loop (T : bh_opcodes) (mem : Option Nat) (root : Int)
    (L : List bh_instruction) :
    ∀ (st st' : parse_state) (i : Int), parse_loop T mem root st i L = some st' →
      ∃ tail, typing st'.nodes = typing st.nodes ++ tail
        ∧ typing_ids tail = (List.range L.length).map (fun (k : Nat) => i + (k : Int))
        ∧ ∀ p ∈ tail, p.1 = BH_COLLECTION → p.2 = INVALID_INSTRUCTION := by
  induction L with
  | nil =>
    intro st st' i h
    simp only [parse_loop, Option.some.injEq] at h
    subst h
    exact ⟨[], by simp, rfl, fun p hp => by cases hp⟩
  | cons instr rest ih =>
    intro st st' i h
    rw [parse_loop] at h
    rcases hstep : parse_instruction T mem root st i instr with _ | st1
    · rw [hstep] at h; cases h
    · rw [hstep] at h
      simp only at h
      obtain ⟨j, hj⟩ := parse_instruction_steps
        (fun a b => ∃ j, typing b = typing a ++ List.replicate j (BH_COLLECTION, INVALID_INSTRUCTION))
        (fun a => ⟨0, by simp⟩)
        (fun a b c ⟨j1, h1⟩ ⟨j2, h2⟩ =>
          ⟨j1 + j2, by rw [h2, h1, List.append_assoc, List.replicate_add]⟩)
        typing_add_child T mem root st st1 i instr hstep
      rw [typing_append] at hj
      obtain ⟨tail, ht, hids, hcol⟩ := ih st1 st' (i + 1) h
      refine ⟨(BH_INSTRUCTION, i) :: List.replicate j (BH_COLLECTION, INVALID_INSTRUCTION) ++ tail,
        ?_, ?_, ?_⟩
      · rw [ht, hj]
        simp
      · rw [List.cons_append, show ((BH_INSTRUCTION, i) :: (List.replicate j
            (BH_COLLECTION, INVALID_INSTRUCTION) ++ tail) : List (bh_node_type × Int))
            = [(BH_INSTRUCTION, i)] ++ (List.replicate j (BH_COLLECTION, INVALID_INSTRUCTION)
              ++ tail) from rfl,
          typing_ids_append, typing_ids_append, typing_ids_collections, hids,
          List.length_cons, List.range_succ_eq_map, List.map_cons, List.map_map]
        simp only [List.nil_append]
        show i :: _ = _
        congr 1
        · simp
        · apply List.map_congr_left
          intro k _
          simp only [Function.comp, Nat.succ_eq_add_one]
          push_cast
          ring
      · intro p hp hc
        rcases List.mem_append.1 hp with h1 | h1
        · rcases List.mem_cons.1 h1 with h2 | h2
          · rw [h2] at hc; cases hc
          · rw [List.eq_of_mem_replicate h2]
        · exact hcol p h1 hc

/-- C19. After a successful `bh_graph_parse` of the IR created from a list of
`k` instructions (the arena having room for the root node): the
`BH_INSTRUCTION` nodes carry, in arena order, the instruction indices
`0, 1, ..., k - 1`, so they are `k` in number and each index occurs once;
every `BH_COLLECTION` node has the instruction index `INVALID_INSTRUCTION`;
and the root is a handle in range of a `BH_COLLECTION` node. -/
theorem node_typing (T : bh_opcodes) (mem : Option Nat) (L : List bh_instruction) (ir : bh_ir)
    (hm : ∀ c, mem = some c → 0 < c)
    (h : bh_graph_parse T mem (fresh_ir L) = (BH_SUCCESS, ir)) :
    instruction_ids ir.nodes = (List.range L.length).map (fun (k : Nat) => (k : Int))
    ∧ (∀ n ∈ ir.nodes, n.type = BH_COLLECTION → n.instruction = INVALID_INSTRUCTION)
    ∧ valid_handle ir.nodes ir.root
    ∧ (NODE_LOOKUP ir.nodes ir.root).type = BH_COLLECTION := by
  have hroot : bh_graph_new_node mem [] BH_COLLECTION INVALID_INSTRUCTION
      = (0, [⟨BH_COLLECTION, INVALID_INSTRUCTION, INVALID_NODE, INVALID_NODE, INVALID_NODE,
          INVALID_NODE⟩]) := by
    rcases mem with _ | c
    · rfl
    · exact new_node_ok c [] _ _ (hm c rfl)
  unfold bh_graph_parse fresh_ir at h
  simp only at h
  rw [if_neg (by decide), hroot] at h
  simp only at h
  rcases hloop : parse_loop T mem 0
      ⟨[⟨BH_COLLECTION, INVALID_INSTRUCTION, INVALID_NODE, INVALID_NODE, INVALID_NODE,
        INVALID_NODE⟩], fun _ => none, fun _ => none⟩ 0 L with _ | st
  · rw [hloop] at h; simp at h
  · rw [hloop] at h
    simp only [Prod.mk.injEq, true_and] at h
    subst h
    obtain ⟨tail, ht, hids, hcol⟩ := typing_parse_loop T mem 0 L _ st 0 hloop
    have ht' : typing st.nodes = (BH_COLLECTION, INVALID_INSTRUCTION) :: tail := ht
    refine ⟨?_, ?_, ?_, ?_⟩
    · show instruction_ids st.nodes = _
      rw [instruction_ids_typing, ht', show ((BH_COLLECTION, INVALID_INSTRUCTION) :: tail
          : List (bh_node_type × Int)) = List.replicate 1 (BH_COLLECTION, INVALID_INSTRUCTION)
            ++ tail from rfl, typing_ids_append, typing_ids_collections, hids]
      simp
    · intro n hn hc
      have hmem : (n.type, n.instruction) ∈ typing st.nodes :=
        List.mem_map.2 ⟨n, hn, rfl⟩
      rw [ht'] at hmem
      rcases List.mem_cons.1 hmem with h1 | h1
      · exact (Prod.mk.inj h1).2
      · exact hcol _ h1 hc
    · have hlen := congrArg List.length ht'
      simp only [typing, List.length_map, List.length_cons] at hlen
      show valid_handle st.nodes 0
      unfold valid_handle
      omega
    · show (NODE_LOOKUP st.nodes 0).type = BH_COLLECTION
      rcases hn : st.nodes with _ | ⟨n0, rest⟩
      · rw [hn] at ht'; cases ht'
      · rw [hn] at ht'
        have h0 : (n0.type, n0.instruction) = (BH_COLLECTION, INVALID_INSTRUCTION) :=
          List.head_eq_of_cons_eq ht'
        exact (Prod.mk.inj h0).1

set_option maxRecDepth 100000 in
/-- C19 on `fan_in_list`: four instruction nodes with the indices 0, 1, 2, 3
among seven nodes. -/
theorem node_typing_witness :
    bh_graph_parse demo_opcodes none (fresh_ir fan_in_list)
      = (BH_SUCCESS, (bh_graph_parse demo_opcodes none (fresh_ir fan_in_list)).2)
    ∧ instruction_ids (bh_graph_parse demo_opcodes none (fresh_ir fan_in_list)).2.nodes
      = [0, 1, 2, 3]
    ∧ (bh_graph_parse demo_opcodes none (fresh_ir fan_in_list)).2.nodes.length = 7 :=
  ⟨by decide,
    (node_typing demo_opcodes none fan_in_list
      (bh_graph_parse demo_opcodes none (fresh_ir fan_in_list)).2
      (fun c hc => by cases hc) (by decide)).1,
    by decide⟩

theorem handle_list_length (ir : bh_ir) : (handle_list ir).length = 2 * ir.nodes.length + 1 := by
  unfold handle_list
  have : ∀ l : List bh_graph_node,
      (l.flatMap (fun n => [n.left_child, n.right_child])).length = 2 * l.length := by
    intro l
    induction l with
    | nil => rfl
    | cons a l ih => simp only [List.flatMap_cons, List.length_append, ih, List.length_cons,
        List.length_nil]; omega
  rw [List.length_cons, this]

theorem lookup_mem (nodes : List bh_graph_node) (x : Int) (h : valid_handle nodes x) :
    NODE_LOOKUP nodes x ∈ nodes := by
  obtain ⟨h0, h1⟩ := h
  unfold NODE_LOOKUP
  rw [if_neg (by omega), List.getD_eq_getElem?_getD,
    List.getElem?_eq_getElem (by omega : x.toNat < nodes.length)]
  exact List.getElem_mem _

theorem child_mem_handle_list (ir : bh_ir) (p c : Int) (h : is_child ir.nodes p c) :
    c ∈ handle_list ir := by
  have hv := is_child_valid ir.nodes p c h
  have hm := lookup_mem ir.nodes p hv
  unfold handle_list
  refine List.mem_cons_of_mem _ (List.mem_flatMap.2 ⟨_, hm, ?_⟩)
  rcases h.2 with e | e
  · rw [e]; exact List.mem_cons_self _ _
  · rw [e]; exact List.mem_cons_of_mem _ (List.mem_singleton.2 rfl)

theorem bounded_length (it : bh_graph_iterator) (h : bounded_inv it) :
    it.scheduled.length ≤ 2 * it.bhir.nodes.length + 1 := by
  rw [← handle_list_length]
  exact (List.subperm_of_subset h.scheduled_nodup h.scheduled_mem).length_le

/-- The loop of `next_node` keeps the scheduled and the queued nodes among
the handles of the IR. -/
theorem loop_bounded (fuel : Nat) : ∀ (it : bh_graph_iterator) (r : next_node_result),
    next_node_loop fuel it = some r → bounded_inv it → bounded_inv r.it := by
  induction fuel with
  | zero => intro it r h; simp [next_node_loop] at h
  | succ fuel ih =>
    intro it r h hinv
    rcases hb : it.blocked with _ | ⟨n, rest⟩
    · rw [loop_nil fuel it hb] at h
      simp only [Option.some.injEq] at h
      subst h
      exact hinv
    · have hn : n ∈ handle_list it.bhir := hinv.blocked_mem n (by rw [hb]; exact List.mem_cons_self _ _)
      have hrest : ∀ x ∈ rest, x ∈ handle_list it.bhir :=
        fun x hx => hinv.blocked_mem x (by rw [hb]; exact List.mem_cons_of_mem _ hx)
      by_cases hc : n ≠ INVALID_NODE ∧ n ∉ it.scheduled
      · by_cases hr : ready it.bhir.nodes it.scheduled n
        · rw [loop_emit fuel it n rest hb hc hr] at h
          simp only [Option.some.injEq] at h
          subst h
          refine ⟨List.nodup_cons.2 ⟨hc.2, hinv.scheduled_nodup⟩, ?_, ?_⟩
          · intro x hx
            rcases List.mem_cons.1 hx with e | e
            · rw [e]; exact hn
            · exact hinv.scheduled_mem x e
          · intro x hx
            rcases (mem_queue_after_emit _ _ _ _).1 hx with e | e
            · exact hrest x e
            · exact child_mem_handle_list it.bhir n x e
        · have hrot : ∀ x ∈ rest ++ [n], x ∈ handle_list it.bhir := by
            intro x hx
            rcases List.mem_append.1 hx with e | e
            · exact hrest x e
            · rw [List.mem_singleton.1 e]; exact hn
          by_cases hl : it.last_blocked = n
          · rw [loop_cycle fuel it n rest hb hc hr hl] at h
            simp only [Option.some.injEq] at h
            subst h
            exact ⟨hinv.scheduled_nodup, hinv.scheduled_mem, fun x hx => by cases hx⟩
          · by_cases hi : it.last_blocked = INVALID_NODE
            · rw [loop_mark fuel it n rest hb hc hr hl hi] at h
              have h2 := ih _ _ h ⟨hinv.scheduled_nodup, hinv.scheduled_mem, hrot⟩
              exact h2
            · rw [loop_rotate fuel it n rest hb hc hr hl hi] at h
              have h2 := ih _ _ h ⟨hinv.scheduled_nodup, hinv.scheduled_mem, hrot⟩
              exact h2
      · rw [loop_skip fuel it n rest hb hc] at h
        have h2 := ih _ _ h ⟨hinv.scheduled_nodup, hinv.scheduled_mem, hrest⟩
        exact h2

/-- One call of `next_node` from a state with both invariants returns, keeps
the invariants and the IR, and either emits one new node or leaves the
scheduled set as it is. -/
theorem next_node_total (it : bh_graph_iterator) (hinv : iterator_inv it)
    (hb : bounded_inv it) :
    ∃ r, bh_graph_iterator_next_node it = some r ∧ iterator_inv r.it ∧ bounded_inv r.it
      ∧ r.it.bhir = it.bhir
      ∧ ((r.status = BH_SUCCESS ∧ ∃ n, r.node = some n ∧ r.it.scheduled = n :: it.scheduled)
        ∨ (r.status = BH_ERROR ∧ r.it.scheduled = it.scheduled)) := by
  obtain ⟨r, hr, -⟩ := loop_terminates it hinv (2 * it.blocked.length + 2) (by omega)
  refine ⟨r, hr, loop_inv _ it r hr hinv, loop_bounded _ it r hr hb, ?_⟩
  obtain ⟨h1, h2⟩ := next_node_spec it r hr
  refine ⟨h1, ?_⟩
  rcases h2 with ⟨hs, n, hn, -, -, -, hsch, -⟩ | ⟨hs, hsch⟩
  · exact Or.inl ⟨hs, n, hn, hsch⟩
  · exact Or.inr ⟨hs, hsch⟩

/-- A full drain of `next_node` from a state with both invariants ends within
one call per handle not yet scheduled, plus one. -/
theorem drain_nodes_total (fuel : Nat) : ∀ (it : bh_graph_iterator),
    iterator_inv it → bounded_inv it →
    (2 * it.bhir.nodes.length + 1 - it.scheduled.length) + 1 ≤ fuel →
    ∃ d, drain_nodes_loop fuel it = some d ∧ d.last.status = BH_ERROR
      ∧ d.last.it.bhir = it.bhir := by
  induction fuel with
  | zero => intro it _ _ hf; omega
  | succ fuel ih =>
    intro it hinv hb hf
    obtain ⟨r, hr, hrinv, hrb, hbhir, hout⟩ := next_node_total it hinv hb
    rw [drain_nodes_loop, hr]
    rcases hout with ⟨hs, n, hn, hsch⟩ | ⟨hs, -⟩
    · have hlen := bounded_length r.it hrb
      rw [hsch, hbhir, List.length_cons] at hlen
      obtain ⟨d, hd, hds, hdb⟩ := ih r.it hrinv hrb (by
        rw [hsch, hbhir, List.length_cons]; omega)
      simp only [hs, if_true, hd]
      exact ⟨_, rfl, hds, hdb.trans hbhir⟩
    · have hne : ¬ r.status = BH_SUCCESS := by rw [hs]; decide
      simp only [if_neg hne]
      exact ⟨_, rfl, hs, hbhir⟩

/-- The loop of `next_instruction` from a state with both invariants ends
within one call of `next_node` per handle not yet scheduled, plus one. -/
theorem next_instruction_loop_total (fuel : Nat) : ∀ (it : bh_graph_iterator),
    iterator_inv it → bounded_inv it →
    (2 * it.bhir.nodes.length + 1 - it.scheduled.length) + 1 ≤ fuel →
    ∃ r, next_instruction_loop fuel it = some r ∧ iterator_inv r.it ∧ bounded_inv r.it
      ∧ r.it.bhir = it.bhir
      ∧ ((r.status = BH_SUCCESS ∧ it.scheduled.length < r.it.scheduled.length)
        ∨ r.status = BH_ERROR) := by
  induction fuel with
  | zero => intro it _ _ hf; omega
  | succ fuel ih =>
    intro it hinv hb hf
    obtain ⟨rn, hr, hrinv, hrb, hbhir, hout⟩ := next_node_total it hinv hb
    rw [next_instruction_loop, hr]
    rcases hout with ⟨hs, n, hn, hsch⟩ | ⟨hs, -⟩
    · have hlen := bounded_length rn.it hrb
      rw [hsch, hbhir, List.length_cons] at hlen
      simp only [hs, if_true]
      by_cases ht : (NODE_LOOKUP rn.it.bhir.nodes (rn.node.getD INVALID_NODE)).type
          = BH_INSTRUCTION
      · rw [if_pos ht]
        exact ⟨_, rfl, hrinv, hrb, hbhir, Or.inl ⟨rfl, by rw [hsch, List.length_cons]; omega⟩⟩
      · rw [if_neg ht]
        obtain ⟨r, h1, h2, h3, h4, h5⟩ := ih rn.it hrinv hrb (by
          rw [hsch, hbhir, List.length_cons]; omega)
        refine ⟨r, h1, h2, h3, h4.trans hbhir, ?_⟩
        rcases h5 with ⟨h6, h7⟩ | h6
        · exact Or.inl ⟨h6, by rw [hsch, List.length_cons] at h7; omega⟩
        · exact Or.inr h6
    · have hne : ¬ rn.status = BH_SUCCESS := by rw [hs]; decide
      simp only [if_neg hne]
      exact ⟨_, rfl, hrinv, hrb, hbhir, Or.inr rfl⟩

/-- One call of `next_instruction` on a built IR from a state with both
invariants. -/
theorem next_instruction_total (it : bh_graph_iterator) (hroot : it.bhir.root ≠ INVALID_NODE)
    (hinv : iterator_inv it) (hb : bounded_inv it) :
    ∃ r, bh_graph_iterator_next_instruction it = some r ∧ iterator_inv r.it ∧ bounded_inv r.it
      ∧ r.it.bhir = it.bhir
      ∧ ((r.status = BH_SUCCESS ∧ it.scheduled.length < r.it.scheduled.length)
        ∨ r.status = BH_ERROR) := by
  unfold bh_graph_iterator_next_instruction
  rw [if_neg hroot]
  exact next_instruction_loop_total _ it hinv hb (by omega)

/-- A full drain of `next_instruction` on a built IR. -/
theorem drain_instructions_total (fuel : Nat) : ∀ (it : bh_graph_iterator),
    it.bhir.root ≠ INVALID_NODE → iterator_inv it → bounded_inv it →
    (2 * it.bhir.nodes.length + 1 - it.scheduled.length) + 1 ≤ fuel →
    ∃ d, drain_instructions_loop fuel it = some d ∧ d.last.status = BH_ERROR
      ∧ d.last.it.bhir = it.bhir := by
  induction fuel with
  | zero => intro it _ _ _ hf; omega
  | succ fuel ih =>
    intro it hroot hinv hb hf
    obtain ⟨r, hr, hrinv, hrb, hbhir, hout⟩ := next_instruction_total it hroot hinv hb
    rw [drain_instructions_loop, hr]
    rcases hout with ⟨hs, hlt⟩ | hs
    · have hlen := bounded_length r.it hrb
      rw [hbhir] at hlen
      obtain ⟨d, hd, hds, hdb⟩ := ih r.it (by rw [hbhir]; exact hroot) hrinv hrb (by
        rw [hbhir]; omega)
      simp only [hs, if_true, hd]
      exact ⟨_, rfl, hds, hdb.trans hbhir⟩
    · have hne : ¬ r.status = BH_SUCCESS := by rw [hs]; decide
      simp only [if_neg hne]
      exact ⟨_, rfl, hs, hbhir⟩

/-- A freshly created iterator has nothing scheduled and at most the root
queued. -/
theorem fresh_bounded (T : bh_opcodes) (mem : Option Nat) (alloc : Bool) (disable : Bool)
    (bhir ir : bh_ir) (it : bh_graph_iterator)
    (h : bh_graph_iterator_create T mem alloc disable bhir = some (ir, it)) : bounded_inv it := by
  obtain ⟨hir, hs, -, hb, -⟩ := iterator_create_spec T mem alloc disable bhir ir it h
  refine ⟨(by rw [hs]; exact List.nodup_nil), (fun x hx => by rw [hs] at hx; cases hx), ?_⟩
  intro x hx
  rw [hb] at hx
  split_ifs at hx
  · rw [List.mem_singleton.1 hx, hir]
    exact List.mem_cons_self _ _
  · cases hx

/-- `next_instruction` leaves the IR of the iterator as it is. -/
theorem next_instruction_loop_bhir (fuel : Nat) :
    ∀ (it : bh_graph_iterator) (r : next_instruction_result),
      next_instruction_loop fuel it = some r → r.it.bhir = it.bhir := by
  induction fuel with
  | zero => intro it r h; simp [next_instruction_loop] at h
  | succ fuel ih =>
    intro it r h
    rw [next_instruction_loop] at h
    rcases hcall : bh_graph_iterator_next_node it with _ | rn
    · rw [hcall] at h; cases h
    · rw [hcall] at h
      have hb := (next_node_spec it rn hcall).1
      simp only at h
      split_ifs at h with h1 h2
      · simp only [Option.some.injEq] at h
        subst h
        exact hb
      · exact (ih _ _ h).trans hb
      · simp only [Option.some.injEq] at h
        subst h
        exact hb

theorem next_instruction_bhir (it : bh_graph_iterator) (r : next_instruction_result)
    (h : bh_graph_iterator_next_instruction it = some r) : r.it.bhir = it.bhir := by
  by_cases hroot : it.bhir.root = INVALID_NODE
  · obtain ⟨c, hc⟩ := next_instruction_legacy it r hroot h
    rw [hc]
  · unfold bh_graph_iterator_next_instruction at h
    rw [if_neg hroot] at h
    exact next_instruction_loop_bhir _ it r h

/-- A full drain of `next_instruction` on an unbuilt IR whose cursor stands
before the arena index `j`: the indices `j, j + 1, ...` up to the end of the
instruction arena. -/
theorem drain_instructions_linear (fuel : Nat) : ∀ (it : bh_graph_iterator) (j : Nat),
    it.bhir.root = INVALID_NODE → it.current = (j : Int) - 1 →
    (it.bhir.instructions.length - j) + 1 ≤ fuel →
    ∃ d, drain_instructions_loop fuel it = some d ∧ d.last.status = BH_ERROR
      ∧ d.last.it.bhir = it.bhir
      ∧ d.emitted = (List.range' j (it.bhir.instructions.length - j)).map
          (fun (i : Nat) => (i : Int)) := by
  induction fuel with
  | zero => intro it j _ _ hf; omega
  | succ fuel ih =>
    intro it j hroot hc hf
    rw [drain_instructions_loop, next_instruction_linear it j hroot hc]
    by_cases hj : j < it.bhir.instructions.length
    · obtain ⟨d, hd, hds, hdb, hde⟩ := ih { it with current := (j : Int) } (j + 1) hroot
        (by show (j : Int) = ((j + 1 : Nat) : Int) - 1; push_cast; omega)
        (by show it.bhir.instructions.length - (j + 1) + 1 ≤ fuel; omega)
      simp only [if_pos hj, if_true, hd, Option.getD_some]
      refine ⟨_, rfl, hds, hdb, ?_⟩
      show (j : Int) :: d.emitted = _
      rw [hde, show it.bhir.instructions.length - j = (it.bhir.instructions.length - (j + 1)) + 1
        by omega, List.range'_succ, List.map_cons]
    · have hne : ¬ BH_ERROR = BH_SUCCESS := by decide
      simp only [if_neg hj, if_neg hne]
      refine ⟨_, rfl, rfl, rfl, ?_⟩
      rw [show it.bhir.instructions.length - j = 0 by omega]
      rfl

/-- A full drain of `next_instruction` on a freshly created iterator ends, for
every IR. -/
theorem drain_instructions_fresh (T : bh_opcodes) (mem : Option Nat) (alloc : Bool) (disable : Bool)
    (bhir ir : bh_ir) (it : bh_graph_iterator)
    (h : bh_graph_iterator_create T mem alloc disable bhir = some (ir, it)) :
    ∃ d, drain_instructions it = some d ∧ d.last.status = BH_ERROR
      ∧ d.last.it.bhir = it.bhir := by
  obtain ⟨hir, hs, -, -, hcur⟩ := iterator_create_spec T mem alloc disable bhir ir it h
  unfold drain_instructions
  by_cases hroot : it.bhir.root = INVALID_NODE
  · obtain ⟨d, hd, hds, hdb, -⟩ := drain_instructions_linear
      (2 * it.bhir.nodes.length + it.bhir.instructions.length + 3) it 0 hroot
      (by rw [hcur, ← hir, hroot]; rfl) (by omega)
    exact ⟨d, hd, hds, hdb⟩
  · exact drain_instructions_total _ it hroot
      (reachable_inv it (Reachable.fresh T mem alloc disable bhir ir it h))
      (fresh_bounded T mem alloc disable bhir ir it h) (by omega)

/-- A full drain of `next_node` on a freshly created iterator ends, for every
IR. -/
theorem drain_nodes_fresh (T : bh_opcodes) (mem : Option Nat) (alloc : Bool) (disable : Bool)
    (bhir ir : bh_ir) (it : bh_graph_iterator)
    (h : bh_graph_iterator_create T mem alloc disable bhir = some (ir, it)) :
    ∃ d, drain_nodes it = some d ∧ d.last.status = BH_ERROR ∧ d.last.it.bhir = it.bhir :=
  drain_nodes_total _ it (reachable_inv it (Reachable.fresh T mem alloc disable bhir ir it h))
    (fresh_bounded T mem alloc disable bhir ir it h) (by omega)

/-- The copy loop of `bh_graph_serialize` makes the calls of a full drain of
`next_instruction` and stores what they yield. -/
theorem serialize_loop_drain (cap : Int) (fuel : Nat) :
    ∀ (it : bh_graph_iterator) (buffer : List bh_instruction) (count : Int)
      (d : drain_result next_instruction_result),
      drain_instructions_loop fuel it = some d →
      serialize_loop cap fuel it buffer count
        = some (serialize_writes cap it.bhir.instructions buffer count d.emitted,
            count + (d.emitted.length : Int)) := by
  induction fuel with
  | zero => intro it buffer count d h; simp [drain_instructions_loop] at h
  | succ fuel ih =>
    intro it buffer count d h
    rw [drain_instructions_loop] at h
    rw [serialize_loop]
    rcases hcall : bh_graph_iterator_next_instruction it with _ | r
    · rw [hcall] at h; cases h
    · rw [hcall] at h
      have hb := next_instruction_bhir it r hcall
      simp only at h ⊢
      by_cases hs : r.status = BH_SUCCESS
      · rw [if_pos hs] at h
        rw [if_pos hs]
        rcases hd : drain_instructions_loop fuel r.it with _ | d'
        · rw [hd] at h; cases h
        · rw [hd] at h
          simp only [Option.some.injEq] at h
          subst h
          rw [ih r.it _ _ d' hd, hb]
          simp only [serialize_writes, List.length_cons]
          congr 2
          push_cast
          ring
      · rw [if_neg hs] at h
        rw [if_neg hs]
        simp only [Option.some.injEq] at h
        subst h
        simp [serialize_writes]

theorem serialize_writes_length (cap : Int) (arena : List bh_instruction) (em : List Int) :
    ∀ (buffer : List bh_instruction) (count : Int),
      (serialize_writes cap arena buffer count em).length = buffer.length := by
  induction em with
  | nil => intro buffer count; rfl
  | cons e rest ih =>
    intro buffer count
    rw [serialize_writes, ih]
    split_ifs <;> simp

/-- Slot `j` of the buffer after the copy loop: the instruction emitted as
number `j - k` when the loop wrote it, else what it held before. -/
theorem serialize_writes_get (cap : Int) (arena : List bh_instruction) (em : List Int) :
    ∀ (buffer : List bh_instruction) (k j : Nat),
      (serialize_writes cap arena buffer (k : Int) em)[j]?
        = if k ≤ j ∧ j < k + em.length ∧ (j : Int) < cap ∧ j < buffer.length then
            some (INSTRUCTION_LOOKUP arena (em.getD (j - k) INVALID_INSTRUCTION))
          else buffer[j]? := by
  induction em with
  | nil =>
    intro buffer k j
    rw [serialize_writes, if_neg (by simp only [List.length_nil]; omega)]
  | cons e rest ih =>
    intro buffer k j
    rw [serialize_writes, show (k : Int) + 1 = ((k + 1 : Nat) : Int) by push_cast; rfl, ih]
    have hlen : (if (k : Int) < cap then
        buffer.set (k : Int).toNat (INSTRUCTION_LOOKUP arena e) else buffer).length
        = buffer.length := by split_ifs <;> simp
    rw [hlen]
    by_cases hjk : j = k
    · subst hjk
      rw [if_neg (by omega)]
      by_cases hc : (j : Int) < cap
      · rw [if_pos hc, Int.toNat_ofNat, List.getElem?_set_self']
        by_cases hb : j < buffer.length
        · rw [if_pos ⟨le_refl _, by simp, hc, hb⟩, List.getElem?_eq_getElem hb]
          simp
        · rw [if_neg (by omega), List.getElem?_eq_none (by omega)]
          rfl
      · rw [if_neg hc, if_neg (fun h => hc h.2.2.1)]
    · have hset : (if (k : Int) < cap then
          buffer.set (k : Int).toNat (INSTRUCTION_LOOKUP arena e) else buffer)[j]?
          = buffer[j]? := by
        split_ifs
        · rw [Int.toNat_ofNat, List.getElem?_set_ne (Ne.symm hjk)]
        · rfl
      rw [hset]
      by_cases hcond : k + 1 ≤ j ∧ j < k + 1 + rest.length ∧ (j : Int) < cap ∧ j < buffer.length
      · rw [if_pos hcond, if_pos ⟨by omega, by simp only [List.length_cons]; omega,
          hcond.2.2.1, hcond.2.2.2⟩,
          show j - k = (j - (k + 1)) + 1 by omega, List.getD_cons_succ]
      · rw [if_neg hcond, if_neg (by simp only [List.length_cons]; omega)]

/-- C11. For every IR on which the iterator is created, every buffer and
every capacity `c` the buffer has room for: the traversal inside
`bh_graph_serialize` ends, it emits the `m` instructions of a full drain of
`next_instruction`, the status is `BH_ERROR` exactly when `m > c` (and
`BH_SUCCESS` exactly when `m <= c`), the output count is `m`, and slot `j` of
the buffer holds the instruction emitted as number `j` when
`j < min(c, m)` and is untouched otherwise. -/
theorem serialize_short_buffer (T : bh_opcodes) (mem : Option Nat) (alloc : Bool) (disable : Bool)
    (bhir ir : bh_ir) (it : bh_graph_iterator) (buffer : List bh_instruction) (c : Int)
    (h : bh_graph_iterator_create T mem alloc disable bhir = some (ir, it))
    (hbuf : c ≤ (buffer.length : Int)) :
    ∃ d res, drain_instructions it = some d
      ∧ bh_graph_serialize T mem alloc disable bhir buffer c = some res
      ∧ (res.status = BH_ERROR ↔ c < (d.emitted.length : Int))
      ∧ (res.status = BH_SUCCESS ↔ (d.emitted.length : Int) ≤ c)
      ∧ res.instruction_count = (d.emitted.length : Int)
      ∧ res.instructions.length = buffer.length
      ∧ ∀ j : Nat, res.instructions[j]?
          = if (j : Int) < c ∧ j < d.emitted.length then
              some (INSTRUCTION_LOOKUP ir.instructions (d.emitted.getD j INVALID_INSTRUCTION))
            else buffer[j]? := by
  obtain ⟨hir, -⟩ := iterator_create_spec T mem alloc disable bhir ir it h
  obtain ⟨d, hd, -, -⟩ := drain_instructions_fresh T mem alloc disable bhir ir it h
  have hloop := serialize_loop_drain c
    (2 * ir.nodes.length + ir.instructions.length + 3) it buffer 0 d
    (by unfold drain_instructions at hd; rw [hir] at hd; exact hd)
  rw [hir, Int.zero_add] at hloop
  have hget : ∀ j : Nat, (serialize_writes c ir.instructions buffer 0 d.emitted)[j]?
      = if (j : Int) < c ∧ j < d.emitted.length then
          some (INSTRUCTION_LOOKUP ir.instructions (d.emitted.getD j INVALID_INSTRUCTION))
        else buffer[j]? := by
    intro j
    have := serialize_writes_get c ir.instructions d.emitted buffer 0 j
    simp only [Nat.cast_zero, Nat.zero_le, true_and, Nat.zero_add, Nat.sub_zero] at this
    rw [this]
    by_cases h1 : (j : Int) < c ∧ j < d.emitted.length
    · rw [if_pos h1, if_pos ⟨h1.2, h1.1, by omega⟩]
    · rw [if_neg h1, if_neg (fun h2 => h1 ⟨h2.2.1, h2.1⟩)]
  unfold bh_graph_serialize
  rw [h]
  simp only [hloop]
  by_cases hgt : (d.emitted.length : Int) > c
  · rw [if_pos hgt]
    exact ⟨d, _, hd, rfl, ⟨fun _ => hgt, fun _ => rfl⟩,
      ⟨fun e => (by cases e), fun e => (by omega)⟩,
      rfl, serialize_writes_length _ _ _ _ _, hget⟩
  · rw [if_neg hgt]
    exact ⟨d, _, hd, rfl, ⟨fun e => (by cases e), fun e => (by omega)⟩,
      ⟨fun _ => (by omega), fun _ => rfl⟩,
      rfl, serialize_writes_length _ _ _ _ _, hget⟩

set_option maxRecDepth 100000 in
/-- C11 on `[FILL(b1); b2 = f(b1); ADD(b3, b1, b2)]` with a buffer of four
slots and the capacity 2: three instructions are emitted, the call returns
`BH_ERROR` with the count 3, and the slots 0 and 1 are written. -/
theorem serialize_short_buffer_witness :
    ∃ d res,
      drain_instructions ⟨[], [0],
          (bh_graph_parse demo_opcodes none (fresh_ir [FILL 1, COPY 2 1, ADD 3 1 2])).2, 0,
          INVALID_NODE⟩ = some d
      ∧ bh_graph_serialize demo_opcodes none true false (fresh_ir [FILL 1, COPY 2 1, ADD 3 1 2])
          (List.replicate 4 (FREE 0)) 2 = some res
      ∧ (res.status = BH_ERROR ↔ (2 : Int) < (d.emitted.length : Int))
      ∧ (res.status = BH_SUCCESS ↔ (d.emitted.length : Int) ≤ 2)
      ∧ res.instruction_count = (d.emitted.length : Int)
      ∧ res.instructions.length = (List.replicate 4 (FREE 0)).length
      ∧ ∀ j : Nat, res.instructions[j]?
          = if (j : Int) < 2 ∧ j < d.emitted.length then
              some (INSTRUCTION_LOOKUP
                (bh_graph_parse demo_opcodes none (fresh_ir [FILL 1, COPY 2 1, ADD 3 1 2])).2.instructions
                (d.emitted.getD j INVALID_INSTRUCTION))
            else (List.replicate 4 (FREE 0))[j]? :=
  serialize_short_buffer demo_opcodes none true false (fresh_ir [FILL 1, COPY 2 1, ADD 3 1 2])
    (bh_graph_parse demo_opcodes none (fresh_ir [FILL 1, COPY 2 1, ADD 3 1 2])).2
    ⟨[], [0], (bh_graph_parse demo_opcodes none (fresh_ir [FILL 1, COPY 2 1, ADD 3 1 2])).2, 0,
      INVALID_NODE⟩
    (List.replicate 4 (FREE 0)) 2 (by decide) (by decide)

theorem parse_instructions (T : bh_opcodes) (mem : Option Nat) (bhir : bh_ir) :
    (bh_graph_parse T mem bhir).2.instructions = bhir.instructions := by
  unfold bh_graph_parse
  split_ifs
  · rfl
  · simp only
    split <;> rfl

theorem iterator_create_ir (T : bh_opcodes) (mem : Option Nat) (alloc : Bool) (disable : Bool)
    (bhir ir : bh_ir) (it : bh_graph_iterator)
    (h : bh_graph_iterator_create T mem alloc disable bhir = some (ir, it)) :
    ir = if bhir.root < 0 ∧ disable = false then (bh_graph_parse T mem bhir).2 else bhir := by
  unfold bh_graph_iterator_create at h
  by_cases ha : alloc = false
  · rw [if_pos ha] at h
    cases h
  rw [if_neg ha] at h
  simp only at h
  generalize hp : (if bhir.root < 0 ∧ disable = false then bh_graph_parse T mem bhir
    else (BH_SUCCESS, bhir)) = p at h
  have h2 : p.2 = if bhir.root < 0 ∧ disable = false then (bh_graph_parse T mem bhir).2
      else bhir := by
    rw [← hp]; split_ifs <;> rfl
  by_cases h1 : p.1 ≠ BH_SUCCESS
  · rw [if_pos h1] at h
    exact absurd h (by simp)
  · rw [if_neg h1] at h
    simp only [Option.some.injEq, Prod.mk.injEq] at h
    rw [← h.1, h2]

set_option maxRecDepth 100000 in
/-- C12, counterexample. Serializing the unbuilt IR created from `[FILL(b1)]`
leaves an IR with root `0` and two nodes, where the IR had the root
`INVALID_NODE` and no node before the call. -/
theorem serialize_builds_unbuilt_ir :
    (fresh_ir [FILL 1]).root = INVALID_NODE
    ∧ (fresh_ir [FILL 1]).nodes = []
    ∧ (bh_graph_serialize demo_opcodes none true false (fresh_ir [FILL 1]) [FREE 0] 1).map
        (fun r => (r.status, r.bhir.root, r.bhir.nodes.length)) = some (BH_SUCCESS, 0, 2) := by
  decide

/-- C12, amended. For every IR whose user-function instructions carry their
user-function record whenever the call builds the graph, `bh_graph_serialize`
returns, and the IR it leaves has the instruction arena of before the call.
When the IR is already built (`root >= 0`), or graph building is disabled, or
the iterator record cannot be allocated, the whole IR (root, node arena,
instruction arena) is as before the call, and in the last case the call
returns `BH_ERROR` with the buffer and the count untouched. An unbuilt IR
with graph building enabled is left as `bh_graph_parse` leaves it when the
iterator record is allocated. -/
theorem serialize_frame (T : bh_opcodes) (mem : Option Nat) (alloc : Bool) (disable : Bool)
    (bhir : bh_ir) (buffer : List bh_instruction) (c : Int)
    (huf : (alloc = true ∧ bhir.root < 0 ∧ disable = false) →
      ∀ instr ∈ bhir.instructions, instr.opcode = T.BH_USERFUNC → instr.userfunc ≠ none) :
    ∃ res, bh_graph_serialize T mem alloc disable bhir buffer c = some res
      ∧ res.bhir.instructions = bhir.instructions
      ∧ ((0 ≤ bhir.root ∨ disable = true ∨ alloc = false) → res.bhir = bhir)
      ∧ (alloc = false →
          res.status = BH_ERROR ∧ res.instructions = buffer ∧ res.instruction_count = c)
      ∧ ((alloc = true ∧ bhir.root < 0 ∧ disable = false) →
          res.bhir = (bh_graph_parse T mem bhir).2) := by
  have key : ∃ res, bh_graph_serialize T mem alloc disable bhir buffer c = some res
      ∧ (alloc = false →
          res.status = BH_ERROR ∧ res.instructions = buffer ∧ res.instruction_count = c)
      ∧ res.bhir = if alloc = true ∧ bhir.root < 0 ∧ disable = false then
          (bh_graph_parse T mem bhir).2 else bhir := by
    rcases hcr : bh_graph_iterator_create T mem alloc disable bhir with _ | ⟨ir, it⟩
    · unfold bh_graph_serialize
      rw [hcr]
      exact ⟨_, rfl, fun _ => ⟨rfl, rfl, rfl⟩, rfl⟩
    · have ha : alloc = true := by
        cases alloc
        · unfold bh_graph_iterator_create at hcr
          rw [if_pos rfl] at hcr
          cases hcr
        · rfl
      obtain ⟨hir, -⟩ := iterator_create_spec T mem alloc disable bhir ir it hcr
      obtain ⟨d, hd, -, -⟩ := drain_instructions_fresh T mem alloc disable bhir ir it hcr
      have hloop := serialize_loop_drain c
        (2 * ir.nodes.length + ir.instructions.length + 3) it buffer 0 d
        (by unfold drain_instructions at hd; rw [hir] at hd; exact hd)
      have hirv := iterator_create_ir T mem alloc disable bhir ir it hcr
      have hres : ∃ res, bh_graph_serialize T mem alloc disable bhir buffer c = some res
          ∧ res.bhir = ir := by
        unfold bh_graph_serialize
        rw [hcr]
        simp only [hloop]
        split_ifs <;> exact ⟨_, rfl, rfl⟩
      obtain ⟨res, h1, h2⟩ := hres
      refine ⟨res, h1, fun hf => ?_, ?_⟩
      · rw [ha] at hf
        cases hf
      · rw [h2, hirv]
        by_cases hb : bhir.root < 0 ∧ disable = false
        · rw [if_pos hb, if_pos ⟨ha, hb⟩]
        · rw [if_neg hb, if_neg (fun hq => hb hq.2)]
  obtain ⟨res, h1, h3, h2⟩ := key
  refine ⟨res, h1, ?_, ?_, h3, ?_⟩
  · rw [h2]
    split_ifs
    · exact parse_instructions T mem bhir
    · rfl
  · intro hb
    rw [h2, if_neg]
    rintro ⟨h6, h4, h5⟩
    rcases hb with h7 | h7 | h7
    · omega
    · rw [h7] at h5; cases h5
    · rw [h7] at h6; cases h6
  · intro hb
    rw [h2, if_pos hb]

/-- Two iterators on the same built IR whose first call of `next_node` gives
the same result have the same full drains. -/
theorem drains_eq_of_first_call (X Y : bh_graph_iterator) (hb : Y.bhir = X.bhir)
    (hroot : X.bhir.root ≠ INVALID_NODE)
    (h : bh_graph_iterator_next_node Y = bh_graph_iterator_next_node X) :
    drain_nodes Y = drain_nodes X ∧ drain_instructions Y = drain_instructions X := by
  have hi : bh_graph_iterator_next_instruction Y = bh_graph_iterator_next_instruction X := by
    unfold bh_graph_iterator_next_instruction
    rw [hb, if_neg hroot, if_neg hroot,
      show 2 * X.bhir.nodes.length + 3 = (2 * X.bhir.nodes.length + 2) + 1 from rfl,
      next_instruction_loop, next_instruction_loop, h]
  constructor
  · unfold drain_nodes
    rw [hb, show 2 * X.bhir.nodes.length + 3 = (2 * X.bhir.nodes.length + 2) + 1 from rfl,
      drain_nodes_loop, drain_nodes_loop, h]
  · unfold drain_instructions
    rw [hb, show 2 * X.bhir.nodes.length + X.bhir.instructions.length + 3
        = (2 * X.bhir.nodes.length + X.bhir.instructions.length + 2) + 1 from rfl,
      drain_instructions_loop, drain_instructions_loop, hi]

/-- An iterator on a built IR whose first call of `next_node` fails emits
nothing in a full drain. -/
theorem drains_nil_of_first_call (X : bh_graph_iterator) (r : next_node_result)
    (hroot : X.bhir.root ≠ INVALID_NODE)
    (h : bh_graph_iterator_next_node X = some r) (hs : r.status = BH_ERROR) :
    (∃ d, drain_nodes X = some d ∧ d.emitted = [])
    ∧ ∃ e, drain_instructions X = some e ∧ e.emitted = [] := by
  have hne : ¬ r.status = BH_SUCCESS := by rw [hs]; decide
  have hi : bh_graph_iterator_next_instruction X = some ⟨BH_ERROR, none, r.it⟩ := by
    unfold bh_graph_iterator_next_instruction
    rw [if_neg hroot,
      show 2 * X.bhir.nodes.length + 3 = (2 * X.bhir.nodes.length + 2) + 1 from rfl,
      next_instruction_loop, h]
    simp only [if_neg hne]
  constructor
  · unfold drain_nodes
    rw [show 2 * X.bhir.nodes.length + 3 = (2 * X.bhir.nodes.length + 2) + 1 from rfl,
      drain_nodes_loop, h]
    simp only [if_neg hne]
    exact ⟨_, rfl, rfl⟩
  · unfold drain_instructions
    rw [show 2 * X.bhir.nodes.length + X.bhir.instructions.length + 3
        = (2 * X.bhir.nodes.length + X.bhir.instructions.length + 2) + 1 from rfl,
      drain_instructions_loop, hi]
    have hne2 : ¬ BH_ERROR = BH_SUCCESS := by decide
    simp only [if_neg hne2]
    exact ⟨_, rfl, rfl⟩

/-- C17. For every reachable iterator on a built IR (`root >= 0`), at any
point of its traversal: `bh_graph_iterator_reset` leaves the IR as it is, and
a full drain after the reset ends and emits exactly the nodes, and exactly the
instructions, that a full drain of a freshly created iterator on that IR
emits, in the same order; the freshly created iterator is the one
`bh_graph_iterator_create` returns when its record is allocated. -/
theorem reset_idempotent (it : bh_graph_iterator) (h : Reachable it)
    (hroot : 0 ≤ it.bhir.root) :
    (bh_graph_iterator_reset it).bhir = it.bhir
    ∧ (∀ T mem disable, bh_graph_iterator_create T mem true disable it.bhir
        = some (it.bhir, ⟨[], [it.bhir.root], it.bhir, it.bhir.root, INVALID_NODE⟩))
    ∧ (∃ d0 d1, drain_nodes ⟨[], [it.bhir.root], it.bhir, it.bhir.root, INVALID_NODE⟩ = some d0
        ∧ drain_nodes (bh_graph_iterator_reset it) = some d1 ∧ d1.emitted = d0.emitted)
    ∧ ∃ e0 e1, drain_instructions ⟨[], [it.bhir.root], it.bhir, it.bhir.root, INVALID_NODE⟩
          = some e0
        ∧ drain_instructions (bh_graph_iterator_reset it) = some e1
        ∧ e1.emitted = e0.emitted := by
  have hr1 : it.bhir.root ≠ INVALID_NODE := by unfold INVALID_NODE; omega
  have hcreate : ∀ T mem disable, bh_graph_iterator_create T mem true disable it.bhir
      = some (it.bhir, ⟨[], [it.bhir.root], it.bhir, it.bhir.root, INVALID_NODE⟩) := by
    intro T mem disable
    unfold bh_graph_iterator_create
    rw [if_neg (by decide : ¬ (true = false))]
    simp only
    rw [if_neg (by omega : ¬ (it.bhir.root < 0 ∧ disable = false))]
    simp only [ne_eq, not_true_eq_false, if_false, hr1, not_false_eq_true, if_true]
  have hR : bh_graph_iterator_reset it
      = ⟨[], [it.bhir.root], it.bhir, it.bhir.root, it.last_blocked⟩ := by
    unfold bh_graph_iterator_reset
    rw [if_pos hr1]
  refine ⟨rfl, hcreate, ?_⟩
  rw [hR]
  have hc : it.bhir.root ≠ INVALID_NODE ∧ it.bhir.root ∉ ([] : List Int) :=
    ⟨hr1, List.not_mem_nil _⟩
  by_cases hready : ready it.bhir.nodes [] it.bhir.root
  · -- the root is emitted by the first call, which clears `last_blocked`
    have hF := next_node_emit ⟨[], [it.bhir.root], it.bhir, it.bhir.root, INVALID_NODE⟩
      it.bhir.root [] rfl hc hready
    have hRn := next_node_emit ⟨[], [it.bhir.root], it.bhir, it.bhir.root, it.last_blocked⟩
      it.bhir.root [] rfl hc hready
    obtain ⟨h1, h2⟩ := drains_eq_of_first_call
      ⟨[], [it.bhir.root], it.bhir, it.bhir.root, INVALID_NODE⟩
      ⟨[], [it.bhir.root], it.bhir, it.bhir.root, it.last_blocked⟩ rfl hr1
      (by rw [hF, hRn])
    obtain ⟨d0, hd0, -⟩ := drain_nodes_fresh demo_opcodes none true true it.bhir it.bhir _
      (hcreate demo_opcodes none true)
    obtain ⟨e0, he0, -⟩ := drain_instructions_fresh demo_opcodes none true true it.bhir it.bhir _
      (hcreate demo_opcodes none true)
    exact ⟨⟨d0, d0, hd0, by rw [h1]; exact hd0, rfl⟩, ⟨e0, e0, he0, by rw [h2]; exact he0, rfl⟩⟩
  · -- the root has an unsatisfied parent: both drains stop at once
    have hFn : bh_graph_iterator_next_node
        ⟨[], [it.bhir.root], it.bhir, it.bhir.root, INVALID_NODE⟩
        = some ⟨BH_ERROR, none, ⟨[], [], it.bhir, it.bhir.root, it.bhir.root⟩⟩ := by
      unfold bh_graph_iterator_next_node
      rw [show 2 * ([it.bhir.root] : List Int).length + 2 = 2 + 1 + 1 from rfl,
        loop_mark _ _ it.bhir.root [] rfl hc hready hr1.symm rfl,
        loop_cycle _ _ it.bhir.root [] rfl hc hready rfl]
    obtain ⟨⟨d0, hd0, hd0e⟩, ⟨e0, he0, he0e⟩⟩ := drains_nil_of_first_call
      ⟨[], [it.bhir.root], it.bhir, it.bhir.root, INVALID_NODE⟩ _ hr1 hFn rfl
    rcases (reachable_inv it h).mark_root with hl | hl | hl
    · rw [hl]
      exact ⟨⟨d0, d0, hd0, hd0, rfl⟩, ⟨e0, e0, he0, he0, rfl⟩⟩
    · have hRn : bh_graph_iterator_next_node
          ⟨[], [it.bhir.root], it.bhir, it.bhir.root, it.last_blocked⟩
          = some ⟨BH_ERROR, none, ⟨[], [], it.bhir, it.bhir.root, it.last_blocked⟩⟩ := by
        unfold bh_graph_iterator_next_node
        rw [show 2 * ([it.bhir.root] : List Int).length + 2 = 3 + 1 from rfl,
          loop_cycle 3 ⟨[], [it.bhir.root], it.bhir, it.bhir.root, it.last_blocked⟩
            it.bhir.root [] rfl hc hready hl]
      obtain ⟨⟨d1, hd1, hd1e⟩, ⟨e1, he1, he1e⟩⟩ := drains_nil_of_first_call
        ⟨[], [it.bhir.root], it.bhir, it.bhir.root, it.last_blocked⟩ _ hr1 hRn rfl
      exact ⟨⟨d0, d1, hd0, hd1, by rw [hd1e, hd0e]⟩, ⟨e0, e1, he0, he1, by rw [he1e, he0e]⟩⟩
    · exact absurd hl hready

set_option maxRecDepth 100000 in
/-- C17 on the iterator of `raw_ir` in the middle of its traversal, after one
call of `next_node`. -/
theorem reset_idempotent_witness :
    Reachable raw_iterator_mid
    ∧ 0 ≤ raw_iterator_mid.bhir.root
    ∧ ∃ d0 d1, drain_nodes ⟨[], [raw_iterator_mid.bhir.root], raw_iterator_mid.bhir,
          raw_iterator_mid.bhir.root, INVALID_NODE⟩ = some d0
        ∧ drain_nodes (bh_graph_iterator_reset raw_iterator_mid) = some d1
        ∧ d1.emitted = d0.emitted :=
  have hreach : Reachable raw_iterator_mid :=
    Reachable.next_node raw_iterator
      ((bh_graph_iterator_next_node raw_iterator).getD ⟨BH_ERROR, none, raw_iterator⟩)
      (Reachable.fresh demo_opcodes none true true raw_ir raw_ir raw_iterator (by decide))
      (by decide)
  ⟨hreach, by decide, (reset_idempotent raw_iterator_mid hreach (by decide)).2.2.1⟩

set_option maxRecDepth 100000 in
/-- C13 on the built IR `raw_ir` and on the unbuilt IR of one instruction. -/
theorem append_after_build_rejected_witness :
    0 ≤ raw_ir.root
    ∧ bh_graph_append none raw_ir [FILL 1] = (BH_ERROR, raw_ir)
    ∧ (fresh_ir [FILL 1]).root = INVALID_NODE
    ∧ bh_graph_append none (fresh_ir [FILL 1]) [FILL 2]
        = (BH_SUCCESS, { fresh_ir [FILL 1] with
            instructions := (fresh_ir [FILL 1]).instructions ++ [FILL 2] }) :=
  ⟨by decide, (append_after_build_rejected none raw_ir [FILL 1]).1 (by decide), rfl,
    ((append_after_build_rejected none (fresh_ir [FILL 1]) [FILL 2]).2 rfl).2
      (fun c hc => by cases hc)⟩

set_option maxRecDepth 100000 in
/-- C14 on `raw_ir`, the result of a successful build. -/
theorem parse_idempotent_witness :
    bh_graph_parse demo_opcodes none (fresh_ir [ADD 1 2 3, MUL 4 1 1]) = (BH_SUCCESS, raw_ir)
    ∧ 0 ≤ raw_ir.root
    ∧ bh_graph_parse demo_opcodes none raw_ir = (BH_SUCCESS, raw_ir) :=
  ⟨by decide, by decide,
    (parse_idempotent demo_opcodes none (fresh_ir [ADD 1 2 3, MUL 4 1 1])).2 raw_ir
      (by decide)⟩

set_option maxRecDepth 100000 in
/-- C12, amended, on the built IR `raw_ir`, where the call returns and leaves
`raw_ir`, and on the unbuilt IR created from `[FILL(b1)]`: the call returns
and leaves the IR that `bh_graph_parse` builds when the iterator record is
allocated, and it returns `BH_ERROR` and leaves the IR as it was when the
record cannot be allocated. -/
theorem serialize_frame_witness :
    (0 ≤ raw_ir.root
      ∧ ∃ res, bh_graph_serialize demo_opcodes none true false raw_ir [FREE 0, FREE 0] 2
          = some res
        ∧ res.bhir = raw_ir)
    ∧ ((∀ instr ∈ (fresh_ir [FILL 1]).instructions,
          instr.opcode = demo_opcodes.BH_USERFUNC → instr.userfunc ≠ none)
      ∧ (fresh_ir [FILL 1]).root < 0
      ∧ ∃ res, bh_graph_serialize demo_opcodes none true false (fresh_ir [FILL 1]) [FREE 0] 1
          = some res
        ∧ res.bhir = (bh_graph_parse demo_opcodes none (fresh_ir [FILL 1])).2)
    ∧ ∃ res, bh_graph_serialize demo_opcodes none false false (fresh_ir [FILL 1]) [FREE 0] 1
          = some res
        ∧ res.bhir = fresh_ir [FILL 1] ∧ res.status = BH_ERROR :=
  ⟨⟨by decide,
    (serialize_frame demo_opcodes none true false raw_ir [FREE 0, FREE 0] 2
      (fun h => absurd h.2.1 (by decide))).elim
      (fun res hres => ⟨res, hres.1, hres.2.2.1 (Or.inl (by decide))⟩)⟩,
    ⟨by decide, by decide,
      (serialize_frame demo_opcodes none true false (fresh_ir [FILL 1]) [FREE 0] 1
        (fun _ => by decide)).elim
        (fun res hres => ⟨res, hres.1, hres.2.2.2.2 ⟨rfl, by decide, rfl⟩⟩)⟩,
    (serialize_frame demo_opcodes none false false (fresh_ir [FILL 1]) [FREE 0] 1
      (fun h => absurd h.1 (by decide))).elim
      (fun res hres => ⟨res, hres.1, hres.2.2.1 (Or.inr (Or.inr rfl)),
        (hres.2.2.2.1 rfl).1⟩)⟩

/-- C27. `bh_grap_node_add_child(n, n)` returns `BH_ERROR`, and the arena after
the call is the arena before it: no node is created and no field of any node
is written. -/
theorem self_edge_rejected (mem : Option Nat) (nodes : List bh_graph_node) (n : Int) :
    bh_grap_node_add_child mem nodes n n = (BH_ERROR, nodes)
    ∧ (bh_grap_node_add_child mem nodes n n).2.length = nodes.length
    ∧ ∀ x, NODE_LOOKUP (bh_grap_node_add_child mem nodes n n).2 x = NODE_LOOKUP nodes x := by
  have h : bh_grap_node_add_child mem nodes n n = (BH_ERROR, nodes) := by
    unfold bh_grap_node_add_child
    rw [if_pos rfl]
  rw [h]
  exact ⟨rfl, rfl, fun _ => rfl⟩

/-- Reading a slot after a store: the stored slot holds the rewritten node when
the handle is in the arena, every other read is as before. -/
theorem lookup_update_if (nodes : List bh_graph_node) (i : Int)
    (f : bh_graph_node → bh_graph_node) (x : Int) :
    NODE_LOOKUP (NODE_UPDATE nodes i f) x
      = if x = i ∧ valid_handle nodes i then f (NODE_LOOKUP nodes i) else NODE_LOOKUP nodes x := by
  by_cases hi : valid_handle nodes i
  · rw [lookup_update nodes i f x hi]
    by_cases hx : x = i
    · rw [if_pos hx, if_pos ⟨hx, hi⟩]
    · rw [if_neg hx, if_neg (fun h => hx h.1)]
  · rw [update_invalid nodes i f hi, if_neg (fun h => hi h.2)]

/-- A handle whose slot holds a parent is a handle of the arena. -/
theorem valid_of_left_parent (nodes : List bh_graph_node) (x : Int)
    (h : (NODE_LOOKUP nodes x).left_parent ≠ INVALID_NODE) : valid_handle nodes x := by
  by_contra hv
  rw [lookup_invalid nodes x hv] at h
  exact h rfl

/-- A store that rewrites no parent slot leaves every parent slot as it was. -/
theorem update_keeps_parents (nodes : List bh_graph_node) (i x : Int)
    (f : bh_graph_node → bh_graph_node)
    (hf : ∀ nd, (f nd).left_parent = nd.left_parent ∧ (f nd).right_parent = nd.right_parent) :
    (NODE_LOOKUP (NODE_UPDATE nodes i f) x).left_parent = (NODE_LOOKUP nodes x).left_parent
    ∧ (NODE_LOOKUP (NODE_UPDATE nodes i f) x).right_parent
        = (NODE_LOOKUP nodes x).right_parent := by
  rw [lookup_update_if]
  split_ifs with h
  · rw [h.1]; exact hf _
  · exact ⟨rfl, rfl⟩

/-- The rewiring step does not touch parent slots. -/
theorem rewire_child_parents (nodes : List bh_graph_node) (parent target self cn x : Int) :
    (NODE_LOOKUP (rewire_child nodes parent target self cn) x).left_parent
        = (NODE_LOOKUP nodes x).left_parent
    ∧ (NODE_LOOKUP (rewire_child nodes parent target self cn) x).right_parent
        = (NODE_LOOKUP nodes x).right_parent := by
  unfold rewire_child
  split_ifs
  · exact update_keeps_parents nodes target x _ (fun _ => ⟨rfl, rfl⟩)
  · exact update_keeps_parents nodes target x _ (fun _ => ⟨rfl, rfl⟩)
  · exact ⟨rfl, rfl⟩

/-- After the fan-in overflow block the node `self` lists `newparent` in its
right parent slot. -/
theorem add_parent_overflow_right (nodes : List bh_graph_node) (self newparent cn : Int)
    (hs : valid_handle nodes self) (hne : self ≠ cn) :
    (NODE_LOOKUP (add_parent_overflow nodes self newparent cn) self).right_parent = newparent := by
  unfold add_parent_overflow
  lift_lets
  intro n1 n2 n3 n4 n5 n6
  have h5 : valid_handle n5 self := by
    have : n5.length = nodes.length := by
      simp only [n5, n4, n3, n2, n1, length_update, length_rewire_child]
    unfold valid_handle at hs ⊢
    rw [this]; exact hs
  rw [lookup_update_ne _ _ _ _ hne]
  show (NODE_LOOKUP (NODE_UPDATE n5 self _) self).right_parent = newparent
  rw [lookup_update_same _ _ _ h5]

/-- C26. `bh_grap_node_add_parent(child, parent)` with `parent = INVALID_NODE`
or with `parent` already in a parent slot of `child` returns `BH_SUCCESS` and
the arena it was given. In every state a second call with the same arguments
returns what the first call returned, arena included. When `parent` is valid
and in neither slot, it is stored in the left slot if that is free, else in
the right slot if that is free, and nothing else is written. -/
theorem add_parent_noop_idempotent (mem : Option Nat) (nodes : List bh_graph_node)
    (child parent : Int) :
    ((parent = INVALID_NODE ∨ (NODE_LOOKUP nodes child).left_parent = parent
        ∨ (NODE_LOOKUP nodes child).right_parent = parent) →
      bh_grap_node_add_parent mem nodes child parent = (BH_SUCCESS, nodes))
    ∧ bh_grap_node_add_parent mem (bh_grap_node_add_parent mem nodes child parent).2 child parent
        = bh_grap_node_add_parent mem nodes child parent
    ∧ (parent ≠ INVALID_NODE → (NODE_LOOKUP nodes child).left_parent ≠ parent →
        (NODE_LOOKUP nodes child).right_parent ≠ parent →
        ((NODE_LOOKUP nodes child).left_parent = INVALID_NODE →
          bh_grap_node_add_parent mem nodes child parent
            = (BH_SUCCESS, NODE_UPDATE nodes child (fun x => { x with left_parent := parent })))
        ∧ ((NODE_LOOKUP nodes child).left_parent ≠ INVALID_NODE →
            (NODE_LOOKUP nodes child).right_parent = INVALID_NODE →
          bh_grap_node_add_parent mem nodes child parent
            = (BH_SUCCESS, NODE_UPDATE nodes child (fun x => { x with right_parent := parent })))) := by
  have hnoop : ∀ u : List bh_graph_node,
      (parent = INVALID_NODE ∨ (NODE_LOOKUP u child).left_parent = parent
        ∨ (NODE_LOOKUP u child).right_parent = parent) →
      bh_grap_node_add_parent mem u child parent = (BH_SUCCESS, u) := by
    intro u h
    unfold bh_grap_node_add_parent
    rw [if_pos (by tauto)]
  refine ⟨hnoop nodes, ?_, ?_⟩
  · rcases add_parent_cases mem nodes child parent with
      ⟨h, e⟩ | ⟨hp, hl, e⟩ | ⟨hp, hl, hr, e⟩ | ⟨hp, hl, hr, _, e⟩ | ⟨hp, hl, hr, hl2, hr2, _, e⟩
    · rw [e]; exact e
    · by_cases hv : valid_handle nodes child
      · rw [e]
        apply hnoop
        right; left
        rw [lookup_update_same _ _ _ hv]
      · rw [update_invalid _ _ _ hv] at e
        rw [e]; exact e
    · by_cases hv : valid_handle nodes child
      · rw [e]
        apply hnoop
        right; right
        rw [lookup_update_same _ _ _ hv]
      · rw [update_invalid _ _ _ hv] at e
        rw [e]; exact e
    · rw [e]; exact e
    · rw [e]
      apply hnoop
      right; right
      have hv : valid_handle nodes child := valid_of_left_parent nodes child hl
      dsimp only
      apply add_parent_overflow_right
      · exact (valid_append nodes _ child).2 (Or.inl hv)
      · intro hc
        unfold valid_handle at hv
        omega
  · intro hp hl hr
    exact ⟨fun h => add_parent_first mem nodes child parent hp h hr,
      fun h1 h2 => add_parent_second mem nodes child parent hp h1 hl h2⟩

set_option maxRecDepth 100000 in
/-- C26 on the graph built from `[ADD(b1,b2,b3); MUL(b4,b1,b1)]`: node 2 has
the parent 1 already, and node 1 gets the second parent 2 in its free right
slot. -/
theorem add_parent_noop_idempotent_witness :
    (NODE_LOOKUP raw_ir.nodes 2).left_parent = 1
    ∧ bh_grap_node_add_parent none raw_ir.nodes 2 1 = (BH_SUCCESS, raw_ir.nodes)
    ∧ bh_grap_node_add_parent none raw_ir.nodes 1 2
        = (BH_SUCCESS, NODE_UPDATE raw_ir.nodes 1 (fun x => { x with right_parent := 2 })) :=
  ⟨by decide,
    (add_parent_noop_idempotent none raw_ir.nodes 2 1).1 (Or.inr (Or.inl (by decide))),
    ((add_parent_noop_idempotent none raw_ir.nodes 1 2).2.2 (by decide) (by decide)
      (by decide)).2 (by decide) (by decide)⟩

/-- The loop of `next_node`, when it emits `n`: `n` is the first entry of the
queue that can be emitted; the entries in front of it are dropped (invalid or
scheduled ones) or moved behind the rest in their order (the waiting ones),
and the children of `n` are queued around that. -/
theorem loop_queue_discipline (fuel : Nat) :
    ∀ (it : bh_graph_iterator) (r : next_node_result) (n : Int),
      next_node_loop fuel it = some r → r.status = BH_SUCCESS → r.node = some n →
      ∃ pre rest, it.blocked = pre ++ n :: rest
        ∧ (∀ x ∈ pre, ¬ schedulable it x)
        ∧ r.it.blocked = queue_after_emit it.bhir.nodes n
            (rest ++ pre.filter (fun x => decide (x ≠ INVALID_NODE ∧ x ∉ it.scheduled))) := by
  induction fuel with
  | zero => intro it r n h; simp [next_node_loop] at h
  | succ fuel ih =>
    intro it r n h hs hn
    cases hb : it.blocked with
    | nil =>
      rw [loop_nil fuel it hb] at h
      simp only [Option.some.injEq] at h
      rw [← h] at hs
      cases hs
    | cons x rest0 =>
      by_cases hc : x ≠ INVALID_NODE ∧ x ∉ it.scheduled
      · by_cases hr : ready it.bhir.nodes it.scheduled x
        · rw [loop_emit fuel it x rest0 hb hc hr] at h
          simp only [Option.some.injEq] at h
          rw [← h] at hn ⊢
          simp only [Option.some.injEq] at hn
          subst hn
          exact ⟨[], rest0, rfl, (fun _ hx => by cases hx), by simp⟩
        · have hrec : ∀ it' : bh_graph_iterator, it'.bhir = it.bhir →
              it'.scheduled = it.scheduled → it'.blocked = rest0 ++ [x] →
              next_node_loop fuel it' = some r →
              ∃ pre rest, x :: rest0 = pre ++ n :: rest
                ∧ (∀ y ∈ pre, ¬ schedulable it y)
                ∧ r.it.blocked = queue_after_emit it.bhir.nodes n
                    (rest ++ pre.filter
                      (fun y => decide (y ≠ INVALID_NODE ∧ y ∉ it.scheduled))) := by
            intro it' hbh hsc hbl h'
            obtain ⟨pre, rest, e, hpre, hq⟩ := ih it' r n h' hs hn
            obtain ⟨-, hspec⟩ := next_node_loop_spec fuel it' r h'
            have hnx : n ≠ x := by
              rcases hspec with ⟨-, m, hm, -, -, hrm, -⟩ | ⟨he, -⟩
              · rw [hn] at hm
                simp only [Option.some.injEq] at hm
                subst hm
                intro hnx
                rw [hnx, hbh, hsc] at hrm
                exact hr hrm
              · rw [hs] at he; cases he
            rw [hbl] at e
            rw [hbh, hsc] at hq
            rcases List.eq_nil_or_concat rest with hnil | ⟨rest2, b, hcat⟩
            · subst hnil
              have := List.append_inj_right' e (by simp)
              simp only [List.cons.injEq, and_true] at this
              exact absurd this.symm hnx
            · subst hcat
              have e2 : rest0 ++ [x] = (pre ++ n :: rest2) ++ [b] := by
                rw [e]; simp
              have e3 := List.append_inj_left' e2 (by simp)
              have e4 := List.append_inj_right' e2 (by simp)
              simp only [List.cons.injEq, and_true] at e4
              subst e4
              refine ⟨x :: pre, rest2, by rw [e3]; simp, ?_, ?_⟩
              · intro y hy
                rcases List.mem_cons.1 hy with hy | hy
                · subst hy
                  exact fun hsx => hr hsx.2.2
                · intro hsy
                  apply hpre y hy
                  unfold schedulable at hsy ⊢
                  rw [hbh, hsc]
                  exact hsy
              · rw [hq]
                congr 1
                rw [List.filter_cons_of_pos (by simpa using hc)]
                simp
          by_cases hl : it.last_blocked = x
          · rw [loop_cycle fuel it x rest0 hb hc hr hl] at h
            simp only [Option.some.injEq] at h
            rw [← h] at hs
            cases hs
          · by_cases hi : it.last_blocked = INVALID_NODE
            · rw [loop_mark fuel it x rest0 hb hc hr hl hi] at h
              exact hrec { it with blocked := rest0 ++ [x], last_blocked := x } rfl rfl rfl h
            · rw [loop_rotate fuel it x rest0 hb hc hr hl hi] at h
              exact hrec { it with blocked := rest0 ++ [x] } rfl rfl rfl h
      · rw [loop_skip fuel it x rest0 hb hc] at h
        obtain ⟨pre, rest, e, hpre, hq⟩ := ih _ r n h hs hn
        dsimp only at e hq
        refine ⟨x :: pre, rest, by rw [e]; simp, ?_, ?_⟩
        · intro y hy
          rcases List.mem_cons.1 hy with hy | hy
          · subst hy
            exact fun hsx => hc ⟨hsx.1, hsx.2.1⟩
          · intro hsy
            exact hpre y hy hsy
        · rw [hq]
          congr 1
          rw [List.filter_cons_of_neg (by simpa using hc)]

/-- C29. When `bh_graph_iterator_next_node` emits `n`: `n` is added to the
scheduled set and `last_blocked` is cleared; `n` was the first queue entry
that could be emitted, and the queue afterwards is the left child of `n` (if
it is not `INVALID_NODE`), then the entries that were behind `n`, then the
waiting entries that were in front of `n`, in their order, then the right
child of `n` (if it is not `INVALID_NODE` and differs from the left child).
Hence, if the left child of `n` is valid, unscheduled and has its parents
scheduled, the next call emits it. -/
theorem queue_discipline_on_emission (it : bh_graph_iterator) (r : next_node_result) (n : Int)
    (h : bh_graph_iterator_next_node it = some r) (hs : r.status = BH_SUCCESS)
    (hn : r.node = some n) :
    r.it.scheduled = n :: it.scheduled
    ∧ r.it.last_blocked = INVALID_NODE
    ∧ (∃ pre rest, it.blocked = pre ++ n :: rest
        ∧ (∀ x ∈ pre, ¬ schedulable it x)
        ∧ r.it.blocked
          = (if (NODE_LOOKUP it.bhir.nodes n).left_child ≠ INVALID_NODE then
              [(NODE_LOOKUP it.bhir.nodes n).left_child] else [])
            ++ (rest ++ pre.filter (fun x => decide (x ≠ INVALID_NODE ∧ x ∉ it.scheduled)))
            ++ (if (NODE_LOOKUP it.bhir.nodes n).right_child ≠ INVALID_NODE
                  ∧ (NODE_LOOKUP it.bhir.nodes n).right_child
                    ≠ (NODE_LOOKUP it.bhir.nodes n).left_child then
                [(NODE_LOOKUP it.bhir.nodes n).right_child] else []))
    ∧ ((NODE_LOOKUP it.bhir.nodes n).left_child ≠ INVALID_NODE →
        (NODE_LOOKUP it.bhir.nodes n).left_child ∉ r.it.scheduled →
        ready it.bhir.nodes r.it.scheduled (NODE_LOOKUP it.bhir.nodes n).left_child →
        ∃ r2, bh_graph_iterator_next_node r.it = some r2 ∧ r2.status = BH_SUCCESS
          ∧ r2.node = some (NODE_LOOKUP it.bhir.nodes n).left_child) := by
  obtain ⟨hbhir, hspec⟩ := next_node_spec it r h
  obtain ⟨pre, rest, e, hpre, hq⟩ := loop_queue_discipline _ it r n h hs hn
  have hq2 : r.it.blocked
      = (if (NODE_LOOKUP it.bhir.nodes n).left_child ≠ INVALID_NODE then
          [(NODE_LOOKUP it.bhir.nodes n).left_child] else [])
        ++ (rest ++ pre.filter (fun x => decide (x ≠ INVALID_NODE ∧ x ∉ it.scheduled)))
        ++ (if (NODE_LOOKUP it.bhir.nodes n).right_child ≠ INVALID_NODE
              ∧ (NODE_LOOKUP it.bhir.nodes n).right_child
                ≠ (NODE_LOOKUP it.bhir.nodes n).left_child then
            [(NODE_LOOKUP it.bhir.nodes n).right_child] else []) := by
    rw [hq]
    unfold queue_after_emit
    split_ifs <;> simp
  rcases hspec with ⟨-, m, hm, -, -, -, hsch, hlb⟩ | ⟨he, -⟩
  · rw [hn] at hm
    simp only [Option.some.injEq] at hm
    subst hm
    refine ⟨hsch, hlb, ⟨pre, rest, e, hpre, hq2⟩, ?_⟩
    intro hlc hns hrd
    rw [if_pos hlc] at hq2
    refine ⟨_, next_node_emit r.it (NODE_LOOKUP it.bhir.nodes n).left_child _ hq2
      ⟨hlc, hns⟩ (by rw [hbhir]; exact hrd), rfl, rfl⟩
  · rw [hs] at he; cases he

set_option maxRecDepth 100000 in
/-- C29 on the graph built from `[ADD(b1,b2,b3); MUL(b4,b1,b1)]`: the first
call emits the root 0. -/
theorem queue_discipline_on_emission_witness :
    ∃ r, bh_graph_iterator_next_node raw_iterator = some r
      ∧ r.it.scheduled = [0] ∧ r.it.last_blocked = INVALID_NODE :=
  ⟨(bh_graph_iterator_next_node raw_iterator).getD ⟨BH_ERROR, none, raw_iterator⟩, by decide,
    (queue_discipline_on_emission raw_iterator
      ((bh_graph_iterator_next_node raw_iterator).getD ⟨BH_ERROR, none, raw_iterator⟩) 0
      (by decide) (by decide) (by decide)).1,
    (queue_discipline_on_emission raw_iterator
      ((bh_graph_iterator_next_node raw_iterator).getD ⟨BH_ERROR, none, raw_iterator⟩) 0
      (by decide) (by decide) (by decide)).2.1⟩

/-- More fuel does not change what the loop of `next_instruction` returns. -/
theorem next_instruction_loop_mono (f : Nat) :
    ∀ (it : bh_graph_iterator) (r : next_instruction_result),
      next_instruction_loop f it = some r → ∀ k, next_instruction_loop (f + k) it = some r := by
  induction f with
  | zero => intro it r h; simp [next_instruction_loop] at h
  | succ f ih =>
    intro it r h k
    have e : f + 1 + k = (f + k) + 1 := by omega
    rw [e]
    rw [next_instruction_loop] at h ⊢
    cases hn : bh_graph_iterator_next_node it with
    | none => rw [hn] at h; cases h
    | some x =>
      rw [hn] at h
      simp only at h ⊢
      by_cases hs : x.status = BH_SUCCESS
      · simp only [hs, if_true] at h ⊢
        by_cases ht : (NODE_LOOKUP x.it.bhir.nodes (x.node.getD INVALID_NODE)).type
            = BH_INSTRUCTION
        · simp only [if_pos ht] at h ⊢
          exact h
        · simp only [if_neg ht] at h ⊢
          exact ih _ _ h k
      · simp only [if_neg hs] at h ⊢
        exact h

/-- A call of `next_instruction` whose first `next_node` emits a collection
node returns what the call on the iterator after that emission returns. -/
theorem next_instruction_skips_collection (it : bh_graph_iterator) (r : next_node_result)
    (hroot : it.bhir.root ≠ INVALID_NODE)
    (hr : bh_graph_iterator_next_node it = some r) (hs : r.status = BH_SUCCESS)
    (hbhir : r.it.bhir = it.bhir) (hinv : iterator_inv r.it) (hb : bounded_inv r.it)
    (hlen : 1 ≤ r.it.scheduled.length)
    (ht : (NODE_LOOKUP r.it.bhir.nodes (r.node.getD INVALID_NODE)).type ≠ BH_INSTRUCTION) :
    bh_graph_iterator_next_instruction it = bh_graph_iterator_next_instruction r.it := by
  unfold bh_graph_iterator_next_instruction
  rw [if_neg hroot, if_neg (by rw [hbhir]; exact hroot), hbhir]
  have e : 2 * it.bhir.nodes.length + 3 = (2 * it.bhir.nodes.length + 2) + 1 := by omega
  rw [e]
  conv_lhs => rw [next_instruction_loop, hr]
  simp only [hs, if_true, if_neg ht]
  obtain ⟨x, hx, -⟩ := next_instruction_loop_total (2 * it.bhir.nodes.length + 2) r.it hinv hb
    (by rw [hbhir]; omega)
  rw [hx]
  exact (next_instruction_loop_mono _ r.it x hx 1).symm

/-- From a state with both invariants, on a built IR, the drain of
`next_instruction` yields the instruction indices of the instruction nodes
the drain of `next_node` emits, in the same order. -/
theorem drains_agree (m : Nat) : ∀ (it : bh_graph_iterator),
    it.bhir.root ≠ INVALID_NODE → iterator_inv it → bounded_inv it →
    2 * it.bhir.nodes.length + 1 - it.scheduled.length ≤ m →
    ∀ f1 f2, m + 1 ≤ f1 → m + 1 ≤ f2 →
    ∃ dn di, drain_nodes_loop f1 it = some dn ∧ drain_instructions_loop f2 it = some di
      ∧ di.emitted
        = (dn.emitted.filter
            (fun x => decide ((NODE_LOOKUP it.bhir.nodes x).type = BH_INSTRUCTION))).map
            (fun x => (NODE_LOOKUP it.bhir.nodes x).instruction) := by
  induction m with
  | zero =>
    intro it hroot hinv hb hm f1 f2 h1 h2
    obtain ⟨r, hr, hrinv, hrb, hbhir, hout⟩ := next_node_total it hinv hb
    obtain ⟨g1, rfl⟩ : ∃ g, f1 = g + 1 := ⟨f1 - 1, by omega⟩
    obtain ⟨g2, rfl⟩ : ∃ g, f2 = g + 1 := ⟨f2 - 1, by omega⟩
    rcases hout with ⟨hs, n, hn, hsch⟩ | ⟨hs, -⟩
    · have hlen := bounded_length r.it hrb
      rw [hsch, hbhir, List.length_cons] at hlen
      omega
    · have hne : ¬ r.status = BH_SUCCESS := by rw [hs]; decide
      refine ⟨⟨[], r⟩, ⟨[], ⟨BH_ERROR, none, r.it⟩⟩, drain_end g1 it r hr hs, ?_, rfl⟩
      rw [drain_instructions_loop]
      unfold bh_graph_iterator_next_instruction
      rw [if_neg hroot]
      have e : 2 * it.bhir.nodes.length + 3 = (2 * it.bhir.nodes.length + 2) + 1 := by omega
      rw [e, next_instruction_loop, hr]
      simp only [if_neg hne]
      simp
  | succ m ih =>
    intro it hroot hinv hb hm f1 f2 h1 h2
    obtain ⟨r, hr, hrinv, hrb, hbhir, hout⟩ := next_node_total it hinv hb
    obtain ⟨g1, rfl⟩ : ∃ g, f1 = g + 1 := ⟨f1 - 1, by omega⟩
    obtain ⟨g2, rfl⟩ : ∃ g, f2 = g + 1 := ⟨f2 - 1, by omega⟩
    rcases hout with ⟨hs, n, hn, hsch⟩ | ⟨hs, -⟩
    · have hlen := bounded_length r.it hrb
      rw [hsch, hbhir, List.length_cons] at hlen
      have hroot2 : r.it.bhir.root ≠ INVALID_NODE := by rw [hbhir]; exact hroot
      have hm2 : 2 * r.it.bhir.nodes.length + 1 - r.it.scheduled.length ≤ m := by
        rw [hsch, hbhir, List.length_cons]; omega
      have hdn : ∀ dn, drain_nodes_loop g1 r.it = some dn →
          drain_nodes_loop (g1 + 1) it = some ⟨n :: dn.emitted, dn.last⟩ := by
        intro dn hd
        rw [drain_nodes_loop, hr]
        simp only [hs, if_true, hd, hn, Option.getD_some]
      by_cases ht : (NODE_LOOKUP r.it.bhir.nodes (r.node.getD INVALID_NODE)).type
          = BH_INSTRUCTION
      · obtain ⟨dn, di, e1, e2, e3⟩ := ih r.it hroot2 hrinv hrb hm2 g1 g2 (by omega) (by omega)
        have ht2 : (NODE_LOOKUP it.bhir.nodes n).type = BH_INSTRUCTION := by
          rw [hn, Option.getD_some, hbhir] at ht; exact ht
        refine ⟨_, ⟨(NODE_LOOKUP it.bhir.nodes n).instruction :: di.emitted, di.last⟩,
          hdn dn e1, ?_, ?_⟩
        · rw [drain_instructions_loop]
          unfold bh_graph_iterator_next_instruction
          rw [if_neg hroot]
          have e : 2 * it.bhir.nodes.length + 3 = (2 * it.bhir.nodes.length + 2) + 1 := by omega
          rw [e, next_instruction_loop, hr]
          simp only [hs, if_true, hn, Option.getD_some, hbhir, if_pos ht2, e2]
        · rw [hn, Option.getD_some, hbhir] at ht
          dsimp only
          rw [List.filter_cons_of_pos (by simpa using ht), List.map_cons, e3, hbhir]
      · obtain ⟨dn, di, e1, e2, e3⟩ := ih r.it hroot2 hrinv hrb hm2 g1 (g2 + 1) (by omega)
          (by omega)
        refine ⟨_, di, hdn dn e1, ?_, ?_⟩
        · rw [← e2, drain_instructions_loop, drain_instructions_loop,
            next_instruction_skips_collection it r hroot hr hs hbhir hrinv hrb
              (by rw [hsch, List.length_cons]; omega) ht]
        · rw [hn, Option.getD_some, hbhir] at ht
          dsimp only
          rw [List.filter_cons_of_neg (by simpa using ht), e3, hbhir]
    · have hne : ¬ r.status = BH_SUCCESS := by rw [hs]; decide
      refine ⟨⟨[], r⟩, ⟨[], ⟨BH_ERROR, none, r.it⟩⟩, drain_end g1 it r hr hs, ?_, rfl⟩
      rw [drain_instructions_loop]
      unfold bh_graph_iterator_next_instruction
      rw [if_neg hroot]
      have e : 2 * it.bhir.nodes.length + 3 = (2 * it.bhir.nodes.length + 2) + 1 := by omega
      rw [e, next_instruction_loop, hr]
      simp only [if_neg hne]
      simp

/-- C28. On a built IR (`root >= 0`), a full drain of
`bh_graph_iterator_next_instruction` on a fresh iterator and a full drain of
`bh_graph_iterator_next_node` on a fresh iterator both end, and the
instructions the first one yields are those of the nodes the second one
emits, in the same order, with the collection nodes left out and every other
node replaced by the instruction at its instruction index. -/
theorem next_instruction_filters_next_node (T : bh_opcodes) (mem : Option Nat)
    (alloc : Bool) (disable : Bool) (bhir ir : bh_ir) (it : bh_graph_iterator)
    (h : bh_graph_iterator_create T mem alloc disable bhir = some (ir, it))
    (hroot : 0 ≤ ir.root) :
    ∃ dn di, drain_nodes it = some dn ∧ drain_instructions it = some di
      ∧ di.emitted
        = (dn.emitted.filter
            (fun x => decide ((NODE_LOOKUP ir.nodes x).type = BH_INSTRUCTION))).map
            (fun x => (NODE_LOOKUP ir.nodes x).instruction)
      ∧ di.emitted.map (INSTRUCTION_LOOKUP ir.instructions)
        = (dn.emitted.filter
            (fun x => decide ((NODE_LOOKUP ir.nodes x).type = BH_INSTRUCTION))).map
            (fun x => INSTRUCTION_LOOKUP ir.instructions (NODE_LOOKUP ir.nodes x).instruction) := by
  obtain ⟨hir, hsch, -⟩ := iterator_create_spec T mem alloc disable bhir ir it h
  have hinv := reachable_inv it (Reachable.fresh T mem alloc disable bhir ir it h)
  have hb := fresh_bounded T mem alloc disable bhir ir it h
  have hr : it.bhir.root ≠ INVALID_NODE := by
    rw [hir]; intro hc; rw [hc] at hroot; exact absurd hroot (by decide)
  obtain ⟨dn, di, e1, e2, e3⟩ := drains_agree (2 * it.bhir.nodes.length + 1) it hr hinv hb
    (by omega) (2 * it.bhir.nodes.length + 3)
    (2 * it.bhir.nodes.length + it.bhir.instructions.length + 3) (by omega) (by omega)
  rw [hir] at e3
  refine ⟨dn, di, e1, e2, e3, ?_⟩
  rw [e3, List.map_map]
  rfl

set_option maxRecDepth 100000 in
/-- C28 on the graph built from `[ADD(b1,b2,b3); MUL(b4,b1,b1)]`. -/
theorem next_instruction_filters_next_node_witness :
    bh_graph_iterator_create demo_opcodes none true false raw_ir = some (raw_ir, raw_iterator)
    ∧ 0 ≤ raw_ir.root
    ∧ ∃ dn di, drain_nodes raw_iterator = some dn ∧ drain_instructions raw_iterator = some di
      ∧ di.emitted
        = (dn.emitted.filter
            (fun x => decide ((NODE_LOOKUP raw_ir.nodes x).type = BH_INSTRUCTION))).map
            (fun x => (NODE_LOOKUP raw_ir.nodes x).instruction) :=
  ⟨by decide, by decide,
    (next_instruction_filters_next_node demo_opcodes none true false raw_ir raw_ir
      raw_iterator (by decide) (by decide)).imp
      (fun _ hdn => hdn.imp (fun _ hdi => ⟨hdi.1, hdi.2.1, hdi.2.2.1⟩))⟩

/-- One iteration of the main loop is the edge part followed by the
root-attachment step. -/
theorem parse_instruction_split (T : bh_opcodes) (mem : Option Nat) (root : Int)
    (st : parse_state) (i : Int) (instr : bh_instruction) :
    parse_instruction T mem root st i instr
      = (parse_edges T mem st i instr).bind (parse_root_attach mem root) := by
  unfold parse_instruction parse_edges
  lift_lets
  intro ids selfId leftId rightId r selfNode a1 writemap leftDep rightDep a2
    readmap1 readmap2 readmap3 a3 a4 a5
  by_cases c0 : ids.1 ≠ BH_SUCCESS
  · rw [if_pos c0, if_pos c0]; rfl
  rw [if_neg c0, if_neg c0]
  by_cases c1 : selfNode = INVALID_NODE
  · rw [if_pos c1, if_pos c1]; rfl
  rw [if_neg c1, if_neg c1]
  by_cases c2 : a1.1 ≠ BH_SUCCESS
  · rw [if_pos c2, if_pos c2]; rfl
  rw [if_neg c2, if_neg c2]
  by_cases c3 : a2.1 ≠ BH_SUCCESS
  · rw [if_pos c3, if_pos c3]; rfl
  rw [if_neg c3, if_neg c3]
  by_cases c4 : a3.1 ≠ BH_SUCCESS
  · rw [if_pos c4, if_pos c4]; rfl
  rw [if_neg c4, if_neg c4]
  by_cases c5 : a4.1 ≠ BH_SUCCESS
  · rw [if_pos c5, if_pos c5]; rfl
  rw [if_neg c5, if_neg c5]
  rfl

/-- A store keeps the parent slots ordered when the rewritten node has its
parent slots ordered. -/
theorem ordered_update (nodes : List bh_graph_node) (i : Int)
    (f : bh_graph_node → bh_graph_node) (h : parents_ordered nodes)
    (hf : valid_handle nodes i → (f (NODE_LOOKUP nodes i)).left_parent = INVALID_NODE →
      (f (NODE_LOOKUP nodes i)).right_parent = INVALID_NODE) :
    parents_ordered (NODE_UPDATE nodes i f) := by
  intro x
  rw [lookup_update_if]
  split_ifs with hx
  · exact hf hx.2
  · exact h x

/-- A store into a child slot keeps the parent slots ordered. -/
theorem ordered_update_child (nodes : List bh_graph_node) (i : Int)
    (f : bh_graph_node → bh_graph_node) (h : parents_ordered nodes)
    (hf : ∀ nd, (f nd).left_parent = nd.left_parent ∧ (f nd).right_parent = nd.right_parent) :
    parents_ordered (NODE_UPDATE nodes i f) := by
  apply ordered_update nodes i f h
  intro _ hl
  rw [(hf _).1] at hl
  rw [(hf _).2]
  exact h i hl

/-- A fresh node keeps the parent slots ordered. -/
theorem ordered_append (nodes : List bh_graph_node) (t : bh_node_type) (ins : Int)
    (h : parents_ordered nodes) :
    parents_ordered
      (nodes ++ [⟨t, ins, INVALID_NODE, INVALID_NODE, INVALID_NODE, INVALID_NODE⟩]) := by
  intro x
  rw [lookup_append]
  split_ifs
  · intro _; rfl
  · exact h x

/-- The rewiring step keeps the parent slots ordered. -/
theorem ordered_rewire_child (nodes : List bh_graph_node) (parent target self cn : Int)
    (h : parents_ordered nodes) :
    parents_ordered (rewire_child nodes parent target self cn) := by
  intro x hl
  rw [(rewire_child_parents nodes parent target self cn x).1] at hl
  rw [(rewire_child_parents nodes parent target self cn x).2]
  exact h x hl

/-- The fan-in overflow block keeps the parent slots ordered. -/
theorem ordered_add_parent_overflow (nodes : List bh_graph_node) (self newparent cn : Int)
    (h : parents_ordered nodes)
    (hs : (NODE_LOOKUP nodes self).left_parent ≠ INVALID_NODE) (hcn : cn ≠ INVALID_NODE) :
    parents_ordered (add_parent_overflow nodes self newparent cn) := by
  unfold add_parent_overflow
  lift_lets
  intro n1 n2 n3 n4 n5 n6
  have h1 : parents_ordered n1 := ordered_update nodes cn _ h (fun _ hl => absurd hl hs)
  have h2 : parents_ordered n2 := by
    apply ordered_update n1 cn _ h1
    intro hv hl
    exfalso
    apply hs
    have hv0 : valid_handle nodes cn := (valid_update nodes cn _ cn).1 hv
    have : (NODE_LOOKUP n1 cn).left_parent = (NODE_LOOKUP nodes self).left_parent := by
      show (NODE_LOOKUP (NODE_UPDATE nodes cn _) cn).left_parent = _
      rw [lookup_update_same _ _ _ hv0]
    rw [← this]
    exact hl
  have h3 : parents_ordered n3 := ordered_rewire_child _ _ _ _ _ h2
  have h4 : parents_ordered n4 := ordered_rewire_child _ _ _ _ _ h3
  have h5 : parents_ordered n5 := ordered_update n4 self _ h4 (fun _ hl => absurd hl hcn)
  have h6 : parents_ordered n6 := by
    apply ordered_update n5 self _ h5
    intro hv hl
    exfalso
    apply hcn
    have hv0 : valid_handle n4 self := (valid_update n4 self _ self).1 hv
    have : (NODE_LOOKUP n5 self).left_parent = cn := by
      show (NODE_LOOKUP (NODE_UPDATE n4 self _) self).left_parent = _
      rw [lookup_update_same _ _ _ hv0]
    rw [← this]
    exact hl
  exact ordered_update_child n6 cn _ h6 (fun _ => ⟨rfl, rfl⟩)

/-- The call `bh_grap_node_add_parent` keeps the parent slots ordered. -/
theorem ordered_add_parent (mem : Option Nat) (nodes : List bh_graph_node)
    (self newparent : Int) (h : parents_ordered nodes) :
    parents_ordered (bh_grap_node_add_parent mem nodes self newparent).2 := by
  rcases add_parent_cases mem nodes self newparent with
    ⟨-, e⟩ | ⟨hp, hl, e⟩ | ⟨hp, hl, hr, e⟩ | ⟨hp, hl, hr, _, e⟩ | ⟨hp, hl, hr, hl2, hr2, _, e⟩
  · rw [e]; exact h
  · rw [e]; try dsimp only
    exact ordered_update nodes self _ h (fun _ hc => absurd hc hp)
  · rw [e]; try dsimp only
    exact ordered_update nodes self _ h (fun _ hc => absurd hc hl)
  · rw [e]; exact h
  · rw [e]; try dsimp only
    have hv : valid_handle nodes self := valid_of_left_parent nodes self hl
    have hne : self ≠ (nodes.length : Int) := by
      unfold valid_handle at hv; omega
    apply ordered_add_parent_overflow _ _ _ _ (ordered_append nodes _ _ h)
    · rw [lookup_append_old nodes _ self hne]; exact hl
    · unfold INVALID_NODE; omega

/-- The fan-out overflow block keeps the parent slots ordered. -/
theorem ordered_add_child_overflow (mem : Option Nat) (nodes : List bh_graph_node)
    (self newchild cn : Int) (h : parents_ordered nodes)
    (hs : self ≠ INVALID_NODE) (hcn : cn ≠ INVALID_NODE) :
    parents_ordered (add_child_overflow mem nodes self newchild cn).2 := by
  unfold add_child_overflow
  lift_lets
  intro n1 n2 n3 d n4 p n4b pb
  have h1 : parents_ordered n1 := ordered_update_child nodes cn _ h (fun _ => ⟨rfl, rfl⟩)
  have h2 : parents_ordered n2 := ordered_update_child n1 cn _ h1 (fun _ => ⟨rfl, rfl⟩)
  have h3 : parents_ordered n3 := ordered_update_child n2 self _ h2 (fun _ => ⟨rfl, rfl⟩)
  by_cases c1 : (NODE_LOOKUP n3 d).left_parent = self
  · rw [if_pos c1]
    have h4 : parents_ordered n4 := ordered_update n3 d _ h3 (fun _ hc => absurd hc hcn)
    have hp : parents_ordered p.2 := ordered_add_parent mem n4 newchild cn h4
    by_cases c2 : p.1 ≠ BH_SUCCESS
    · rw [if_pos c2]; exact hp
    · rw [if_neg c2]
      dsimp only
      exact ordered_update p.2 cn _ hp (fun _ hc => absurd hc hs)
  · rw [if_neg c1]
    by_cases c3 : (NODE_LOOKUP n3 d).right_parent = self
    · rw [if_pos c3]
      have h4 : parents_ordered n4b := by
        apply ordered_update n3 d _ h3
        intro _ hl
        have := h3 d hl
        rw [c3] at this
        exact absurd this hs
      have hp : parents_ordered pb.2 := ordered_add_parent mem n4b newchild cn h4
      by_cases c2 : pb.1 ≠ BH_SUCCESS
      · rw [if_pos c2]; exact hp
      · rw [if_neg c2]
        dsimp only
        exact ordered_update pb.2 cn _ hp (fun _ hc => absurd hc hs)
    · rw [if_neg c3]; exact h3

/-- A handle whose slot holds a child is a handle of the arena. -/
theorem valid_of_left_child (nodes : List bh_graph_node) (x : Int)
    (h : (NODE_LOOKUP nodes x).left_child ≠ INVALID_NODE) : valid_handle nodes x := by
  by_contra hv
  rw [lookup_invalid nodes x hv] at h
  exact h rfl

/-- The call `bh_grap_node_add_child` keeps the parent slots ordered. -/
theorem ordered_add_child (mem : Option Nat) (nodes : List bh_graph_node)
    (self newchild : Int) (h : parents_ordered nodes) :
    parents_ordered (bh_grap_node_add_child mem nodes self newchild).2 := by
  rcases add_child_cases mem nodes self newchild with
    ⟨-, e⟩ | ⟨-, -, e⟩ | ⟨-, -, -, e⟩ | ⟨-, -, -, -, e⟩ | ⟨-, hl, -, -, e⟩
  · rw [e]; exact h
  · rw [e]; try dsimp only
    exact ordered_add_parent mem _ _ _ (ordered_update_child nodes self _ h (fun _ => ⟨rfl, rfl⟩))
  · rw [e]; try dsimp only
    exact ordered_add_parent mem _ _ _ (ordered_update_child nodes self _ h (fun _ => ⟨rfl, rfl⟩))
  · rw [e]; exact h
  · rw [e]; try dsimp only
    have hv : valid_handle nodes self := valid_of_left_child nodes self hl
    apply ordered_add_child_overflow mem _ _ _ _ (ordered_append nodes _ _ h)
    · unfold valid_handle at hv; unfold INVALID_NODE; omega
    · unfold INVALID_NODE; omega

/-- The edge part of one iteration, when it succeeds: the instruction decodes,
the new node is the next arena slot, the arena goes through `add_child` calls
only, the new node is the writer of the output base, and it is the only new
reader. -/
theorem parse_edges_spec (R : List bh_graph_node → List bh_graph_node → Prop)
    (hrefl : ∀ a, R a a) (htrans : ∀ a b c, R a b → R b c → R a c)
    (hchild : ∀ mem nodes s c, R nodes (bh_grap_node_add_child mem nodes s c).2)
    (T : bh_opcodes) (mem : Option Nat) (st : parse_state) (e : Int × parse_state)
    (i : Int) (instr : bh_instruction) (h : parse_edges T mem st i instr = some e) :
    (bh_graph_getIds T instr).1 = BH_SUCCESS
    ∧ e.1 = (st.nodes.length : Int)
    ∧ R (st.nodes ++ [⟨BH_INSTRUCTION, i, INVALID_NODE, INVALID_NODE, INVALID_NODE,
        INVALID_NODE⟩]) e.2.nodes
    ∧ e.2.writemap = map_set st.writemap (bh_graph_getIds T instr).2.selfId e.1
    ∧ (∀ b l, e.2.readmap b = some l → ∀ v ∈ l,
        v = e.1 ∨ ∃ l0, st.readmap b = some l0 ∧ v ∈ l0) := by
  unfold parse_edges at h
  lift_lets at h
  extract_lets ids selfId leftId rightId r selfNode a1 writemap leftDep rightDep a2
    readmap1 readmap2 readmap3 a3 a4 at h
  by_cases c0 : ids.1 ≠ BH_SUCCESS
  · rw [if_pos c0] at h; cases h
  rw [if_neg c0] at h
  by_cases c1 : selfNode = INVALID_NODE
  · rw [if_pos c1] at h; cases h
  rw [if_neg c1] at h
  by_cases c2 : a1.1 ≠ BH_SUCCESS
  · rw [if_pos c2] at h; cases h
  rw [if_neg c2] at h
  by_cases c3 : a2.1 ≠ BH_SUCCESS
  · rw [if_pos c3] at h; cases h
  rw [if_neg c3] at h
  by_cases c4 : a3.1 ≠ BH_SUCCESS
  · rw [if_pos c4] at h; cases h
  rw [if_neg c4] at h
  by_cases c5 : a4.1 ≠ BH_SUCCESS
  · rw [if_pos c5] at h; cases h
  rw [if_neg c5] at h
  simp only [Option.some.injEq] at h
  have hr : r = ((st.nodes.length : Int), st.nodes ++ [⟨BH_INSTRUCTION, i, INVALID_NODE,
      INVALID_NODE, INVALID_NODE, INVALID_NODE⟩]) := by
    rcases new_node_cases mem st.nodes BH_INSTRUCTION i with e | e
    · exact absurd (show selfNode = INVALID_NODE from congrArg Prod.fst e) c1
    · exact e
  have hbase : r.2 = st.nodes ++ [⟨BH_INSTRUCTION, i, INVALID_NODE,
      INVALID_NODE, INVALID_NODE, INVALID_NODE⟩] := congrArg Prod.snd hr
  have hself : selfNode = (st.nodes.length : Int) := congrArg Prod.fst hr
  have h1 : R r.2 a1.2 := by
    rcases hw : st.writemap selfId with _ | oldTarget
    · have : a1 = (BH_SUCCESS, r.2) := by simp only [a1, hw]
      rw [this]; exact hrefl _
    · have : a1 = bh_grap_node_add_child mem r.2 oldTarget selfNode := by simp only [a1, hw]
      rw [this]; exact hchild _ _ _ _
  have h2 : R a1.2 a2.2 := by
    rcases hrd : st.readmap selfId with _ | readers
    · have : a2 = (BH_SUCCESS, a1.2) := by simp only [a2, hrd]
      rw [this]; exact hrefl _
    · have : a2 = parse_war_loop mem selfNode leftDep rightDep a1.2 readers := by
        simp only [a2, hrd]
      rw [this]
      exact war_loop_steps R hrefl htrans hchild mem selfNode leftDep rightDep readers a1.2
  have h3 : R a2.2 a3.2 := by
    by_cases c : leftDep ≠ INVALID_NODE ∧ leftDep ≠ selfNode
    · have : a3 = bh_grap_node_add_child mem a2.2 leftDep selfNode := by
        simp only [a3]; rw [if_pos c]
      rw [this]; exact hchild _ _ _ _
    · have : a3 = (BH_SUCCESS, a2.2) := by simp only [a3]; rw [if_neg c]
      rw [this]; exact hrefl _
  have h4 : R a3.2 a4.2 := by
    by_cases c : rightDep ≠ INVALID_NODE ∧ rightDep ≠ leftDep ∧ rightDep ≠ selfNode
    · have : a4 = bh_grap_node_add_child mem a3.2 rightDep selfNode := by
        simp only [a4]; rw [if_pos c]
      rw [this]; exact hchild _ _ _ _
    · have : a4 = (BH_SUCCESS, a3.2) := by simp only [a4]; rw [if_neg c]
      rw [this]; exact hrefl _
  have hrm1 : ∀ b l, readmap1 b = some l → st.readmap b = some l := by
    intro b l hb
    rcases hrd : st.readmap selfId with _ | readers
    · have : readmap1 = st.readmap := by simp only [readmap1, hrd]
      rw [this] at hb; exact hb
    · have : readmap1 = map_erase st.readmap selfId := by simp only [readmap1, hrd]
      rw [this] at hb
      unfold map_erase at hb
      by_cases hbk : b = selfId
      · rw [if_pos hbk] at hb; cases hb
      · rw [if_neg hbk] at hb; exact hb
  have hrm2 : ∀ b l, readmap2 b = some l → ∀ v ∈ l,
      v = selfNode ∨ ∃ l0, st.readmap b = some l0 ∧ v ∈ l0 := by
    intro b l hb v hv
    by_cases c : leftId ≠ none
    · have : readmap2 = readmap_add readmap1 leftId selfNode := by
        simp only [readmap2]; rw [if_pos c]
      rw [this] at hb
      rcases readmap_add_mem readmap1 leftId selfNode b l hb v hv with hx | ⟨l0, h0, hv0⟩
      · exact Or.inl hx
      · exact Or.inr ⟨l0, hrm1 b l0 h0, hv0⟩
    · have : readmap2 = readmap1 := by simp only [readmap2]; rw [if_neg c]
      rw [this] at hb
      exact Or.inr ⟨l, hrm1 b l hb, hv⟩
  have hrm3 : ∀ b l, readmap3 b = some l → ∀ v ∈ l,
      v = selfNode ∨ ∃ l0, st.readmap b = some l0 ∧ v ∈ l0 := by
    intro b l hb v hv
    by_cases c : rightId ≠ none ∧ rightId ≠ leftId
    · have : readmap3 = readmap_add readmap2 rightId selfNode := by
        simp only [readmap3]; rw [if_pos c]
      rw [this] at hb
      rcases readmap_add_mem readmap2 rightId selfNode b l hb v hv with hx | ⟨l0, h0, hv0⟩
      · exact Or.inl hx
      · exact hrm2 b l0 h0 v hv0
    · have : readmap3 = readmap2 := by simp only [readmap3]; rw [if_neg c]
      rw [this] at hb
      exact hrm2 b l hb v hv
  rw [← h]
  refine ⟨not_not.1 c0, hself, ?_, rfl, hrm3⟩
  rw [← hbase]
  exact htrans _ _ _ (htrans _ _ _ (htrans _ _ _ h1 h2) h3) h4

/-- The main loop keeps `attach_inv` across one instruction. -/
theorem attach_inv_step (T : bh_opcodes) (mem : Option Nat) (root : Int)
    (st st' : parse_state) (i : Int) (instr : bh_instruction) (hinv : attach_inv st)
    (h : parse_instruction T mem root st i instr = some st') : attach_inv st' := by
  rw [parse_instruction_split] at h
  cases he : parse_edges T mem st i instr with
  | none => rw [he] at h; cases h
  | some e =>
    rw [he] at h
    obtain ⟨-, hself, hR, hw, hrd⟩ := parse_edges_spec (fun a b => parents_ordered a →
      parents_ordered b) (fun _ hx => hx) (fun _ _ _ h1 h2 hx => h2 (h1 hx))
      (fun mem nodes s c hx => ordered_add_child mem nodes s c hx) T mem st e i instr he
    have hord : parents_ordered e.2.nodes := hR (ordered_append st.nodes _ _ hinv.ordered)
    have hne : e.1 ≠ INVALID_NODE := by
      rw [hself]; unfold INVALID_NODE; omega
    change parse_root_attach mem root e = some st' at h
    unfold parse_root_attach at h
    have hmaps : (∀ b v, e.2.writemap b = some v → v ≠ INVALID_NODE)
        ∧ (∀ b l, e.2.readmap b = some l → ∀ v ∈ l, v ≠ INVALID_NODE) := by
      constructor
      · intro b v hb
        rw [hw] at hb
        unfold map_set at hb
        split_ifs at hb with hk
        · simp only [Option.some.injEq] at hb
          rw [← hb]; exact hne
        · exact hinv.writers b v hb
      · intro b l hb v hv
        rcases hrd b l hb v hv with hx | ⟨l0, h0, hv0⟩
        · rw [hx]; exact hne
        · exact hinv.readers b l0 h0 v hv0
    by_cases c : root_attach_test e.2.nodes e.1
    · rw [if_pos c] at h
      by_cases c2 : (bh_grap_node_add_child mem e.2.nodes root e.1).1 ≠ BH_SUCCESS
      · rw [if_pos c2] at h; cases h
      · rw [if_neg c2] at h
        simp only [Option.some.injEq] at h
        rw [← h]
        exact ⟨ordered_add_child mem _ _ _ hord, hmaps.1, hmaps.2⟩
    · rw [if_neg c] at h
      simp only [ne_eq, not_true_eq_false, if_false, Option.some.injEq] at h
      rw [← h]
      exact ⟨hord, hmaps.1, hmaps.2⟩

/-- The main loop keeps `attach_inv`. -/
theorem attach_inv_loop (T : bh_opcodes) (mem : Option Nat) (root : Int)
    (L : List bh_instruction) :
    ∀ (st st' : parse_state) (i : Int), attach_inv st →
      parse_loop T mem root st i L = some st' → attach_inv st' := by
  induction L with
  | nil =>
    intro st st' i hinv h
    rw [parse_loop] at h
    simp only [Option.some.injEq] at h
    rw [← h]; exact hinv
  | cons instr rest ih =>
    intro st st' i hinv h
    rw [parse_loop] at h
    cases hp : parse_instruction T mem root st i instr with
    | none => rw [hp] at h; cases h
    | some st1 =>
      rw [hp] at h
      exact ih st1 st' (i + 1) (attach_inv_step T mem root st st1 i instr hinv hp) h

/-- The state the main loop starts from satisfies `attach_inv`. -/
theorem attach_inv_init (mem : Option Nat) :
    attach_inv ⟨(bh_graph_new_node mem [] BH_COLLECTION INVALID_INSTRUCTION).2,
      fun _ => none, fun _ => none⟩ := by
  refine ⟨?_, (fun _ _ h => by cases h), (fun _ _ h => by cases h)⟩
  have hnil : parents_ordered [] := by
    intro x _
    rw [lookup_invalid [] x (by unfold valid_handle; simp only [List.length_nil]; omega)]
    rfl
  rcases new_node_cases mem [] BH_COLLECTION INVALID_INSTRUCTION with e | e
  · rw [e]; exact hnil
  · rw [e]
    exact ordered_append [] _ _ hnil

/-- C21. In `bh_graph_parse` on the list `pre ++ instr :: post`, at the
iteration of `instr` (the loop has gone through `pre` and reached the state
`st`; `e` is the new node and the state after the write-after-write,
write-after-read and read-after-write edges of this iteration): the test of
line 391 holds if and only if both parent slots of the new node are
`INVALID_NODE`, and the iteration ends with `add_child(root, n)` exactly in
that case and with the arena as it is otherwise. -/
theorem root_attachment_iff_no_parent (T : bh_opcodes) (mem : Option Nat)
    (pre : List bh_instruction) (instr : bh_instruction) (st : parse_state)
    (e : Int × parse_state)
    (hst : parse_loop T mem (bh_graph_new_node mem [] BH_COLLECTION INVALID_INSTRUCTION).1
      ⟨(bh_graph_new_node mem [] BH_COLLECTION INVALID_INSTRUCTION).2,
        fun _ => none, fun _ => none⟩ 0 pre = some st)
    (he : parse_edges T mem st (pre.length : Int) instr = some e) :
    (root_attach_test e.2.nodes e.1
      ↔ (NODE_LOOKUP e.2.nodes e.1).left_parent = INVALID_NODE
        ∧ (NODE_LOOKUP e.2.nodes e.1).right_parent = INVALID_NODE)
    ∧ parse_instruction T mem (bh_graph_new_node mem [] BH_COLLECTION INVALID_INSTRUCTION).1
        st (pre.length : Int) instr
      = if (NODE_LOOKUP e.2.nodes e.1).left_parent = INVALID_NODE
          ∧ (NODE_LOOKUP e.2.nodes e.1).right_parent = INVALID_NODE then
          (if (bh_grap_node_add_child mem e.2.nodes
                (bh_graph_new_node mem [] BH_COLLECTION INVALID_INSTRUCTION).1 e.1).1
              ≠ BH_SUCCESS then none
            else some ⟨(bh_grap_node_add_child mem e.2.nodes
                (bh_graph_new_node mem [] BH_COLLECTION INVALID_INSTRUCTION).1 e.1).2,
              e.2.writemap, e.2.readmap⟩)
        else some e.2 := by
  have hinv := attach_inv_loop T mem _ pre _ st 0 (attach_inv_init mem) hst
  obtain ⟨-, -, hR, -⟩ := parse_edges_spec (fun a b => parents_ordered a →
    parents_ordered b) (fun _ hx => hx) (fun _ _ _ h1 h2 hx => h2 (h1 hx))
    (fun mem nodes s c hx => ordered_add_child mem nodes s c hx) T mem st e _ instr he
  have hord : parents_ordered e.2.nodes := hR (ordered_append st.nodes _ _ hinv.ordered)
  have hiff : root_attach_test e.2.nodes e.1
      ↔ (NODE_LOOKUP e.2.nodes e.1).left_parent = INVALID_NODE
        ∧ (NODE_LOOKUP e.2.nodes e.1).right_parent = INVALID_NODE := by
    unfold root_attach_test
    constructor
    · intro h; exact ⟨h.1, hord e.1 h.1⟩
    · intro h
      refine ⟨h.1, ?_⟩
      rw [h.2]; decide
  refine ⟨hiff, ?_⟩
  rw [parse_instruction_split, he]
  change parse_root_attach mem _ e = _
  unfold parse_root_attach
  by_cases c : root_attach_test e.2.nodes e.1
  · rw [if_pos c, if_pos (hiff.1 c)]
  · rw [if_neg c, if_neg (fun hc => c (hiff.2 hc))]
    simp

set_option maxRecDepth 100000 in
/-- C21 at the second instruction of `[FILL(b1); ADD(b1, b1, b2)]`: the new
node 2 has the parent 1, and the test of line 391 fails. -/
theorem root_attachment_iff_no_parent_witness :
    attach_demo_edges.1 = 2
    ∧ (NODE_LOOKUP attach_demo_edges.2.nodes attach_demo_edges.1).left_parent = 1
    ∧ (root_attach_test attach_demo_edges.2.nodes attach_demo_edges.1
      ↔ (NODE_LOOKUP attach_demo_edges.2.nodes attach_demo_edges.1).left_parent = INVALID_NODE
        ∧ (NODE_LOOKUP attach_demo_edges.2.nodes attach_demo_edges.1).right_parent
          = INVALID_NODE) :=
  ⟨by decide, by decide,
    (root_attachment_iff_no_parent demo_opcodes none [FILL 1] (ADD 1 1 2) attach_demo_state
      attach_demo_edges rfl rfl).1⟩

/-- Comparing a reader with a dependency: as an optional handle or as a handle
with the sentinel, when neither is `INVALID_NODE`. -/
theorem some_ne_dep (x : Int) (dep : Option Int) (hx : x ≠ INVALID_NODE)
    (hd : ∀ d, dep = some d → d ≠ INVALID_NODE) :
    some x ≠ dep ↔ x ≠ dep.getD INVALID_NODE := by
  cases dep with
  | none => simp only [Option.getD_none]; exact ⟨fun _ => hx, fun _ h => by cases h⟩
  | some d => simp only [Option.getD_some, ne_eq, Option.some.injEq]

/-- Step 5 of the reference builder is the write-after-read loop of the
source. -/
theorem reference_war_eq (mem : Option Nat) (n : Int) (leftDep rightDep : Option Int)
    (hl : ∀ d, leftDep = some d → d ≠ INVALID_NODE)
    (hr : ∀ d, rightDep = some d → d ≠ INVALID_NODE) (readers : List Int) :
    ∀ nodes : List bh_graph_node, (∀ v ∈ readers, v ≠ INVALID_NODE) →
      reference_war mem n leftDep rightDep nodes readers
        = if (parse_war_loop mem n (leftDep.getD INVALID_NODE) (rightDep.getD INVALID_NODE)
              nodes readers).1 = BH_SUCCESS then
            some (parse_war_loop mem n (leftDep.getD INVALID_NODE)
              (rightDep.getD INVALID_NODE) nodes readers).2
          else none := by
  induction readers with
  | nil =>
    intro nodes _
    rw [reference_war, parse_war_loop, if_pos rfl]
  | cons x rest ih =>
    intro nodes hv
    have hx : x ≠ INVALID_NODE := hv x (List.mem_cons_self _ _)
    have hrest : ∀ v ∈ rest, v ≠ INVALID_NODE := fun v h => hv v (List.mem_cons_of_mem _ h)
    rw [reference_war, parse_war_loop]
    by_cases c : x ≠ leftDep.getD INVALID_NODE ∧ x ≠ rightDep.getD INVALID_NODE
    · have c' : some x ≠ leftDep ∧ some x ≠ rightDep :=
        ⟨(some_ne_dep x leftDep hx hl).2 c.1, (some_ne_dep x rightDep hx hr).2 c.2⟩
      rw [if_pos c, if_pos c']
      unfold reference_edge
      by_cases c2 : (bh_grap_node_add_child mem nodes x n).1 = BH_SUCCESS
      · rw [if_pos c2]
        simp only [Option.some_bind, ne_eq, c2, not_true_eq_false, if_false]
        exact ih _ hrest
      · rw [if_neg c2]
        simp only [Option.none_bind, ne_eq, c2, not_false_eq_true, if_true, if_false]
        rw [if_neg (by decide)]
    · have c' : ¬ (some x ≠ leftDep ∧ some x ≠ rightDep) := fun h =>
        c ⟨(some_ne_dep x leftDep hx hl).1 h.1, (some_ne_dep x rightDep hx hr).1 h.2⟩
      rw [if_neg c, if_neg c']
      exact ih _ hrest

/-- On a state that satisfies `attach_inv`, one iteration of the main loop of
the source is one pass of the reference steps with step 8 run right after
step 3. -/
theorem reference_instruction_eq (T : bh_opcodes) (mem : Option Nat) (root : Int)
    (st : parse_state) (i : Int) (instr : bh_instruction) (hinv : attach_inv st) :
    parse_instruction T mem root st i instr
      = reference_instruction true T mem root st i instr := by
  rw [parse_instruction_split]
  unfold parse_edges
  lift_lets
  intro ids selfId leftId rightId r selfNode a1 writemap leftDep rightDep a2
    readmap1 readmap2 readmap3 a3 a4
  have hids : bh_graph_getIds T instr = ids := rfl
  have hsid : ids.2.selfId = selfId := rfl
  have hlid : ids.2.leftId = leftId := rfl
  have hrid : ids.2.rightId = rightId := rfl
  have hr : bh_graph_new_node mem st.nodes BH_INSTRUCTION i = r := rfl
  have hsn : r.1 = selfNode := rfl
  have hwm : map_set st.writemap selfId selfNode = writemap := rfl
  have hld : (writemap leftId).getD INVALID_NODE = leftDep := rfl
  have hrd : (writemap rightId).getD INVALID_NODE = rightDep := rfl
  have ha1n : st.writemap selfId = none → a1 = (BH_SUCCESS, r.2) := fun hw => by
    simp only [a1, hw]
  have ha1s : ∀ w, st.writemap selfId = some w →
      bh_grap_node_add_child mem r.2 w selfNode = a1 := fun w hw => by simp only [a1, hw]
  have ha2n : st.readmap selfId = none → a2 = (BH_SUCCESS, a1.2) := fun hw => by
    simp only [a2, hw]
  have ha2s : ∀ l, st.readmap selfId = some l →
      parse_war_loop mem selfNode leftDep rightDep a1.2 l = a2 := fun l hw => by
    simp only [a2, hw]
  have hrm1 : map_erase st.readmap selfId = readmap1 := by
    rcases hrdm : st.readmap selfId with _ | l
    · have : readmap1 = st.readmap := by simp only [readmap1, hrdm]
      rw [this]
      funext b
      unfold map_erase
      by_cases hb : b = selfId
      · rw [if_pos hb, hb, hrdm]
      · rw [if_neg hb]
    · simp only [readmap1, hrdm]
  have hrm2 : (if leftId ≠ none then readmap_add readmap1 leftId selfNode else readmap1)
      = readmap2 := rfl
  have hrm3 : (if rightId ≠ none ∧ rightId ≠ leftId then readmap_add readmap2 rightId selfNode
      else readmap2) = readmap3 := rfl
  have ha3 : a3 = if leftDep ≠ INVALID_NODE ∧ leftDep ≠ selfNode then
      bh_grap_node_add_child mem a2.2 leftDep selfNode else (BH_SUCCESS, a2.2) := rfl
  have ha4 : a4 = if rightDep ≠ INVALID_NODE ∧ rightDep ≠ leftDep ∧ rightDep ≠ selfNode then
      bh_grap_node_add_child mem a3.2 rightDep selfNode else (BH_SUCCESS, a3.2) := rfl
  have ho0 : parents_ordered r.2 := by
    rcases new_node_cases mem st.nodes BH_INSTRUCTION i with e | e
    · have : r = (INVALID_NODE, st.nodes) := e
      rw [this]; exact hinv.ordered
    · have : r = ((st.nodes.length : Int), st.nodes ++ [⟨BH_INSTRUCTION, i, INVALID_NODE,
        INVALID_NODE, INVALID_NODE, INVALID_NODE⟩]) := e
      rw [this]; exact ordered_append _ _ _ hinv.ordered
  have ho1 : parents_ordered a1.2 := by
    rcases hw : st.writemap selfId with _ | w
    · rw [ha1n hw]; exact ho0
    · rw [← ha1s w hw]; exact ordered_add_child mem _ _ _ ho0
  have ho2 : parents_ordered a2.2 := by
    rcases hw : st.readmap selfId with _ | l
    · rw [ha2n hw]; exact ho1
    · rw [← ha2s l hw]
      exact war_loop_steps (fun a b => parents_ordered a → parents_ordered b) (fun _ hx => hx)
        (fun _ _ _ h1 h2 hx => h2 (h1 hx))
        (fun mem nodes s c hx => ordered_add_child mem nodes s c hx)
        mem selfNode leftDep rightDep l a1.2 ho1
  have ho3 : parents_ordered a3.2 := by
    rw [ha3]
    split_ifs
    · exact ordered_add_child mem _ _ _ ho2
    · exact ho2
  have ho4 : parents_ordered a4.2 := by
    rw [ha4]
    split_ifs
    · exact ordered_add_child mem _ _ _ ho3
    · exact ho3
  clear_value a4 a3 readmap3 readmap2 readmap1 a2 rightDep leftDep writemap a1 selfNode r
    rightId leftId selfId ids
  unfold reference_instruction
  simp only [hids, hsid, hlid, hrid, hr, hsn, if_true, hwm, hrm1, hrm2, hrm3]
  by_cases c0 : ids.1 ≠ BH_SUCCESS
  · simp only [if_pos c0, Option.none_bind]
  simp only [if_neg c0]
  by_cases c1 : selfNode = INVALID_NODE
  · simp only [if_pos c1, Option.none_bind]
  simp only [if_neg c1]
  have hwv : ∀ b d, writemap b = some d → d ≠ INVALID_NODE := by
    intro b d hb
    rw [← hwm] at hb
    unfold map_set at hb
    split_ifs at hb
    · simp only [Option.some.injEq] at hb
      rw [← hb]; exact c1
    · exact hinv.writers b d hb
  -- step 3
  have hW : (match st.writemap selfId with
      | some w => reference_edge mem r.2 w selfNode
      | none => some r.2) = if a1.1 = BH_SUCCESS then some a1.2 else none := by
    rcases hw : st.writemap selfId with _ | w
    · rw [ha1n hw]; rfl
    · simp only
      unfold reference_edge
      rw [ha1s w hw]
  rw [hW]
  by_cases c2 : a1.1 = BH_SUCCESS
  swap
  · simp only [ne_eq, c2, not_false_eq_true, not_true_eq_false, if_true, if_false, Option.none_bind]
  simp only [ne_eq, c2, not_false_eq_true, not_true_eq_false, if_true, if_false, Option.some_bind]
  -- step 5
  have hR : reference_war mem selfNode (writemap leftId) (writemap rightId) a1.2
      ((st.readmap selfId).getD []) = if a2.1 = BH_SUCCESS then some a2.2 else none := by
    rw [reference_war_eq mem selfNode _ _ (hwv leftId) (hwv rightId), hld, hrd]
    · rcases hw : st.readmap selfId with _ | l
      · rw [ha2n hw]
        simp only [Option.getD_none, parse_war_loop]
      · simp only [Option.getD_some]
        rw [ha2s l hw]
    · intro v hv
      rcases hw : st.readmap selfId with _ | l
      · rw [hw] at hv
        simp only [Option.getD_none, List.not_mem_nil] at hv
      · rw [hw] at hv
        exact hinv.readers selfId l hw v hv
  rw [hR]
  by_cases c3 : a2.1 = BH_SUCCESS
  swap
  · simp only [ne_eq, c3, not_false_eq_true, not_true_eq_false, if_true, if_false, Option.none_bind]
  simp only [ne_eq, c3, not_false_eq_true, not_true_eq_false, if_true, if_false, Option.some_bind]
  -- step 7, left dependency
  have hL : (match writemap leftId with
      | some d => if ¬ d = selfNode then reference_edge mem a2.2 d selfNode else some a2.2
      | none => some a2.2) = if a3.1 = BH_SUCCESS then some a3.2 else none := by
    rcases hk : writemap leftId with _ | d
    · rw [hk] at hld
      simp only [Option.getD_none] at hld
      have ea3 : a3 = (BH_SUCCESS, a2.2) := by
        rw [ha3, ← hld, if_neg (fun h => h.1 rfl)]
      rw [ea3]
      rfl
    · simp only
      rw [hk] at hld
      simp only [Option.getD_some] at hld
      have hd : d ≠ INVALID_NODE := hwv leftId d hk
      by_cases hds : d = selfNode
      · have ea3 : a3 = (BH_SUCCESS, a2.2) := by
          rw [ha3, ← hld, if_neg (fun h => h.2 hds)]
        rw [ea3, if_neg (fun h => h hds)]
        rfl
      · have ea3 : a3 = bh_grap_node_add_child mem a2.2 d selfNode := by
          rw [ha3, ← hld, if_pos ⟨hd, hds⟩]
        rw [ea3, if_pos hds]
        rfl
  rw [hL]
  by_cases c4 : a3.1 = BH_SUCCESS
  swap
  · simp only [ne_eq, c4, not_false_eq_true, not_true_eq_false, if_true, if_false, Option.none_bind]
  simp only [ne_eq, c4, not_false_eq_true, not_true_eq_false, if_true, if_false, Option.some_bind]
  -- step 7, right dependency
  have hRt : (match writemap rightId with
      | some d =>
        if ¬ d = selfNode ∧ ¬ writemap rightId = writemap leftId then
          reference_edge mem a3.2 d selfNode
        else some a3.2
      | none => some a3.2) = if a4.1 = BH_SUCCESS then some a4.2 else none := by
    rcases hk : writemap rightId with _ | d
    · rw [hk] at hrd
      simp only [Option.getD_none] at hrd
      have ea4 : a4 = (BH_SUCCESS, a3.2) := by
        rw [ha4, ← hrd, if_neg (fun h => h.1 rfl)]
      rw [ea4]
      rfl
    · simp only
      rw [hk] at hrd
      simp only [Option.getD_some] at hrd
      have hd : d ≠ INVALID_NODE := hwv rightId d hk
      have hcmp : ¬ some d = writemap leftId ↔ d ≠ leftDep := by
        rw [← hld]
        exact some_ne_dep d (writemap leftId) hd (hwv leftId)
      by_cases hc : ¬ d = selfNode ∧ ¬ some d = writemap leftId
      · have ea4 : a4 = bh_grap_node_add_child mem a3.2 d selfNode := by
          rw [ha4, ← hrd, if_pos ⟨hd, hcmp.1 hc.2, hc.1⟩]
        rw [ea4, if_pos hc]
        rfl
      · have ea4 : a4 = (BH_SUCCESS, a3.2) := by
          rw [ha4, ← hrd, if_neg (fun h => hc ⟨h.2.2, hcmp.2 h.2.1⟩)]
        rw [ea4, if_neg hc]
        rfl
  rw [hRt]
  by_cases c5 : a4.1 = BH_SUCCESS
  swap
  · simp only [ne_eq, c5, not_false_eq_true, not_true_eq_false, if_true, if_false, Option.none_bind]
  simp only [ne_eq, c5, not_false_eq_true, not_true_eq_false, if_true, if_false, Option.some_bind]
  -- step 9
  have hiff : root_attach_test a4.2 selfNode
      ↔ (NODE_LOOKUP a4.2 selfNode).left_parent = INVALID_NODE
        ∧ (NODE_LOOKUP a4.2 selfNode).right_parent = INVALID_NODE := by
    unfold root_attach_test
    constructor
    · intro h; exact ⟨h.1, ho4 selfNode h.1⟩
    · intro h
      refine ⟨h.1, ?_⟩
      rw [h.2]; decide
  unfold parse_root_attach reference_edge
  by_cases c6 : root_attach_test a4.2 selfNode
  · simp only [if_pos c6, if_pos (hiff.1 c6)]
    by_cases c7 : (bh_grap_node_add_child mem a4.2 root selfNode).1 = BH_SUCCESS
    · simp only [ne_eq, c7, not_false_eq_true, not_true_eq_false, if_true, if_false,
        Option.some_bind]
    · simp only [ne_eq, c7, not_false_eq_true, not_true_eq_false, if_true, if_false,
        Option.none_bind]
  · simp only [if_neg c6, if_neg (fun h => c6 (hiff.2 h)), ne_eq, not_true_eq_false, if_false,
      Option.some_bind]

/-- The main loop of the source is the loop of the reference builder with
step 8 run right after step 3. -/
theorem reference_loop_eq (T : bh_opcodes) (mem : Option Nat) (root : Int)
    (L : List bh_instruction) :
    ∀ (st : parse_state) (i : Int), attach_inv st →
      parse_loop T mem root st i L = reference_loop true T mem root st i L := by
  induction L with
  | nil => intro st i _; rw [parse_loop, reference_loop]
  | cons instr rest ih =>
    intro st i hinv
    rw [parse_loop, reference_loop, ← reference_instruction_eq T mem root st i instr hinv]
    cases hp : parse_instruction T mem root st i instr with
    | none => rfl
    | some st1 =>
      simp only [Option.some_bind]
      exact ih st1 (i + 1) (attach_inv_step T mem root st st1 i instr hinv hp)

/-- C23, the order of the steps as the specification writes them, on
`[FILL(b1); ADD(b1, b1, b2)]`: both builds succeed with root 0, but the
reference builder reads `writemap` before it records the new writer, finds the
node 1 of `FILL` as the writer of the left input of `ADD` and adds the node 2
of `ADD` as a child of node 1 a second time; `bh_graph_parse` has recorded
node 2 as the writer by then and adds the edge once. -/
theorem reference_order_differs :
    (bh_graph_parse demo_opcodes none (fresh_ir [FILL 1, ADD 1 1 2])).1 = BH_SUCCESS
    ∧ (reference_parse false demo_opcodes none (fresh_ir [FILL 1, ADD 1 1 2])).1 = BH_SUCCESS
    ∧ (bh_graph_parse demo_opcodes none (fresh_ir [FILL 1, ADD 1 1 2])).2.root = 0
    ∧ (reference_parse false demo_opcodes none (fresh_ir [FILL 1, ADD 1 1 2])).2.root = 0
    ∧ (NODE_LOOKUP (bh_graph_parse demo_opcodes none
        (fresh_ir [FILL 1, ADD 1 1 2])).2.nodes 1).right_child = INVALID_NODE
    ∧ (NODE_LOOKUP (reference_parse false demo_opcodes none
        (fresh_ir [FILL 1, ADD 1 1 2])).2.nodes 1).right_child = 2
    ∧ (bh_graph_parse demo_opcodes none (fresh_ir [FILL 1, ADD 1 1 2])).2.nodes
      ≠ (reference_parse false demo_opcodes none (fresh_ir [FILL 1, ADD 1 1 2])).2.nodes := by
  decide

/-- C23, amended. For every instruction list and every memory bound,
`bh_graph_parse` returns what the reference builder returns that runs the
steps of the specification in the order 1, 2, 3, 8, 4, 5, 6, 7, 9
(`writemap[self]` is set to the new node right after the write-after-write
step, before `leftDep` and `rightDep` are read): the same status, node arena,
root and instruction arena. -/
theorem parse_refines_reference_write_first (T : bh_opcodes) (mem : Option Nat)
    (L : List bh_instruction) :
    bh_graph_parse T mem (fresh_ir L) = reference_parse true T mem (fresh_ir L) := by
  unfold bh_graph_parse reference_parse
  by_cases h : (fresh_ir L).root ≥ 0
  · rw [if_pos h, if_pos h]
  · rw [if_neg h, if_neg h]
    have hinit : attach_inv
        ⟨(bh_graph_new_node mem (fresh_ir L).nodes BH_COLLECTION INVALID_INSTRUCTION).2,
          fun _ => none, fun _ => none⟩ := attach_inv_init mem
    simp only
    rw [reference_loop_eq T mem _ (fresh_ir L).instructions _ 0 hinit]

/-- The rewiring step, read slot by slot. -/
theorem rewire_child_lookup (nodes : List bh_graph_node) (p self cn x : Int)
    (hs : self ≠ INVALID_NODE) :
    NODE_LOOKUP (rewire_child nodes p p self cn) x
      = if x = p then rewire_node self cn (NODE_LOOKUP nodes x) else NODE_LOOKUP nodes x := by
  unfold rewire_child rewire_node
  by_cases hv : valid_handle nodes p
  · by_cases h1 : (NODE_LOOKUP nodes p).left_child = self
    · rw [if_pos h1, lookup_update nodes p _ x hv]
      by_cases hx : x = p
      · rw [if_pos hx, if_pos hx, hx, if_pos h1]
      · rw [if_neg hx, if_neg hx]
    · rw [if_neg h1]
      by_cases h2 : (NODE_LOOKUP nodes p).right_child = self
      · rw [if_pos h2, lookup_update nodes p _ x hv]
        by_cases hx : x = p
        · rw [if_pos hx, if_pos hx, hx, if_neg h1, if_pos h2]
        · rw [if_neg hx, if_neg hx]
      · rw [if_neg h2]
        by_cases hx : x = p
        · rw [if_pos hx, hx, if_neg h1, if_neg h2]
        · rw [if_neg hx]
  · have hd : NODE_LOOKUP nodes p = default := lookup_invalid nodes p hv
    have h1 : ¬ (NODE_LOOKUP nodes p).left_child = self := by
      rw [hd]; exact fun h => hs h.symm
    have h2 : ¬ (NODE_LOOKUP nodes p).right_child = self := by
      rw [hd]; exact fun h => hs h.symm
    rw [if_neg h1, if_neg h2]
    by_cases hx : x = p
    · rw [if_pos hx, hx, if_neg h1, if_neg h2]
    · rw [if_neg hx]

/-- The node a rewiring step leaves has the type, instruction and parent slots
it had. -/
theorem rewire_node_frame (self cn : Int) (nd : bh_graph_node) :
    (rewire_node self cn nd).type = nd.type
    ∧ (rewire_node self cn nd).instruction = nd.instruction
    ∧ (rewire_node self cn nd).left_parent = nd.left_parent
    ∧ (rewire_node self cn nd).right_parent = nd.right_parent := by
  unfold rewire_node
  split_ifs <;> exact ⟨rfl, rfl, rfl, rfl⟩

/-- A node without children is not changed by a rewiring step. -/
theorem rewire_node_childless (self cn : Int) (nd : bh_graph_node) (hs : self ≠ INVALID_NODE)
    (h1 : nd.left_child = INVALID_NODE) (h2 : nd.right_child = INVALID_NODE) :
    rewire_node self cn nd = nd := by
  unfold rewire_node
  rw [if_neg (by rw [h1]; exact fun h => hs h.symm),
    if_neg (by rw [h2]; exact fun h => hs h.symm)]

/-- The fan-in overflow block, read slot by slot: the new node `cn` gets the
two parents of `self` and `self` as left child, `self` gets the parents `cn`
and `newparent`, and the child slots of the old parents are rewired. -/
theorem add_parent_overflow_lookup (nodes : List bh_graph_node) (self newparent cn : Int)
    (hs : valid_handle nodes self) (hcn : valid_handle nodes cn) (hne : self ≠ cn)
    (hcl : (NODE_LOOKUP nodes cn).left_child = INVALID_NODE)
    (hcr : (NODE_LOOKUP nodes cn).right_child = INVALID_NODE) (x : Int) :
    NODE_LOOKUP (add_parent_overflow nodes self newparent cn) x
      = if x = cn then
          ⟨(NODE_LOOKUP nodes cn).type, (NODE_LOOKUP nodes cn).instruction, self,
            (NODE_LOOKUP nodes cn).right_child, (NODE_LOOKUP nodes self).left_parent,
            (NODE_LOOKUP nodes self).right_parent⟩
        else if x = self then
          ⟨(rewired self cn (NODE_LOOKUP nodes self).left_parent
              (NODE_LOOKUP nodes self).right_parent x (NODE_LOOKUP nodes x)).type,
            (rewired self cn (NODE_LOOKUP nodes self).left_parent
              (NODE_LOOKUP nodes self).right_parent x (NODE_LOOKUP nodes x)).instruction,
            (rewired self cn (NODE_LOOKUP nodes self).left_parent
              (NODE_LOOKUP nodes self).right_parent x (NODE_LOOKUP nodes x)).left_child,
            (rewired self cn (NODE_LOOKUP nodes self).left_parent
              (NODE_LOOKUP nodes self).right_parent x (NODE_LOOKUP nodes x)).right_child,
            cn, newparent⟩
        else rewired self cn (NODE_LOOKUP nodes self).left_parent
              (NODE_LOOKUP nodes self).right_parent x (NODE_LOOKUP nodes x) := by
  have hs0 : self ≠ INVALID_NODE := by
    unfold valid_handle at hs; unfold INVALID_NODE; omega
  have hcs : ¬ cn = self := fun h => hne h.symm
  unfold add_parent_overflow
  lift_lets
  intro n1 n2 n3 n4 n5 n6
  have v1 : valid_handle n1 cn := (valid_update nodes cn _ cn).2 hcn
  have e1 : ∀ y, NODE_LOOKUP n1 y = if y = cn then
      ⟨(NODE_LOOKUP nodes cn).type, (NODE_LOOKUP nodes cn).instruction,
        (NODE_LOOKUP nodes cn).left_child, (NODE_LOOKUP nodes cn).right_child,
        (NODE_LOOKUP nodes self).left_parent, (NODE_LOOKUP nodes cn).right_parent⟩
      else NODE_LOOKUP nodes y := fun y => lookup_update nodes cn _ y hcn
  have e1s : NODE_LOOKUP n1 self = NODE_LOOKUP nodes self := by rw [e1, if_neg hne]
  have e2 : ∀ y, NODE_LOOKUP n2 y = if y = cn then
      ⟨(NODE_LOOKUP nodes cn).type, (NODE_LOOKUP nodes cn).instruction,
        (NODE_LOOKUP nodes cn).left_child, (NODE_LOOKUP nodes cn).right_child,
        (NODE_LOOKUP nodes self).left_parent, (NODE_LOOKUP nodes self).right_parent⟩
      else NODE_LOOKUP nodes y := by
    intro y
    have h2 : NODE_LOOKUP n2 y = if y = cn then
        ⟨(NODE_LOOKUP n1 cn).type, (NODE_LOOKUP n1 cn).instruction,
          (NODE_LOOKUP n1 cn).left_child, (NODE_LOOKUP n1 cn).right_child,
          (NODE_LOOKUP n1 cn).left_parent, (NODE_LOOKUP n1 self).right_parent⟩
        else NODE_LOOKUP n1 y := lookup_update n1 cn _ y v1
    rw [h2, e1s]
    by_cases hy : y = cn
    · simp only [if_pos hy, e1, if_true]
    · simp only [if_neg hy, e1]
  have e2s : NODE_LOOKUP n2 self = NODE_LOOKUP nodes self := by rw [e2, if_neg hne]
  have e2c : (NODE_LOOKUP n2 cn).left_parent = (NODE_LOOKUP nodes self).left_parent := by
    rw [e2, if_pos rfl]
  have e3 : ∀ y, NODE_LOOKUP n3 y = if y = (NODE_LOOKUP nodes self).left_parent then
      rewire_node self cn (NODE_LOOKUP n2 y) else NODE_LOOKUP n2 y := by
    intro y
    have : n3 = rewire_child n2 (NODE_LOOKUP nodes self).left_parent
        (NODE_LOOKUP nodes self).left_parent self cn := by
      show rewire_child n2 (NODE_LOOKUP n2 self).left_parent (NODE_LOOKUP n2 cn).left_parent
        self cn = _
      rw [e2c, e2s]
    rw [this]
    exact rewire_child_lookup n2 _ self cn y hs0
  have e3p : ∀ y, (NODE_LOOKUP n3 y).left_parent = (NODE_LOOKUP n2 y).left_parent
      ∧ (NODE_LOOKUP n3 y).right_parent = (NODE_LOOKUP n2 y).right_parent :=
    fun y => rewire_child_parents n2 _ _ self cn y
  have e3s : (NODE_LOOKUP n3 self).right_parent = (NODE_LOOKUP nodes self).right_parent := by
    rw [(e3p self).2, e2s]
  have e3c : (NODE_LOOKUP n3 cn).right_parent = (NODE_LOOKUP nodes self).right_parent := by
    rw [(e3p cn).2, e2, if_pos rfl]
  have e4 : ∀ y, NODE_LOOKUP n4 y = if y = (NODE_LOOKUP nodes self).right_parent then
      rewire_node self cn (NODE_LOOKUP n3 y) else NODE_LOOKUP n3 y := by
    intro y
    have : n4 = rewire_child n3 (NODE_LOOKUP nodes self).right_parent
        (NODE_LOOKUP nodes self).right_parent self cn := by
      show rewire_child n3 (NODE_LOOKUP n3 self).right_parent (NODE_LOOKUP n3 cn).right_parent
        self cn = _
      rw [e3c, e3s]
    rw [this]
    exact rewire_child_lookup n3 _ self cn y hs0
  have hk : rewire_node self cn
      ⟨(NODE_LOOKUP nodes cn).type, (NODE_LOOKUP nodes cn).instruction,
        (NODE_LOOKUP nodes cn).left_child, (NODE_LOOKUP nodes cn).right_child,
        (NODE_LOOKUP nodes self).left_parent, (NODE_LOOKUP nodes self).right_parent⟩
      = ⟨(NODE_LOOKUP nodes cn).type, (NODE_LOOKUP nodes cn).instruction,
        (NODE_LOOKUP nodes cn).left_child, (NODE_LOOKUP nodes cn).right_child,
        (NODE_LOOKUP nodes self).left_parent, (NODE_LOOKUP nodes self).right_parent⟩ :=
    rewire_node_childless self cn _ hs0 hcl hcr
  have e4x : ∀ y, NODE_LOOKUP n4 y = if y = cn then
      ⟨(NODE_LOOKUP nodes cn).type, (NODE_LOOKUP nodes cn).instruction,
        (NODE_LOOKUP nodes cn).left_child, (NODE_LOOKUP nodes cn).right_child,
        (NODE_LOOKUP nodes self).left_parent, (NODE_LOOKUP nodes self).right_parent⟩
      else rewired self cn (NODE_LOOKUP nodes self).left_parent
        (NODE_LOOKUP nodes self).right_parent y (NODE_LOOKUP nodes y) := by
    intro y
    rw [e4, e3]
    by_cases hy : y = cn
    · simp only [if_pos hy, e2, if_true]
      split_ifs <;> simp only [hk]
    · simp only [if_neg hy, e2]
      unfold rewired
      rfl
  have v4 : valid_handle n4 self := by
    have : n4.length = nodes.length := by
      simp only [n4, n3, n2, n1, length_update, length_rewire_child]
    unfold valid_handle at hs ⊢
    rw [this]; exact hs
  have e5 : ∀ y, NODE_LOOKUP n5 y = if y = self then
      ⟨(NODE_LOOKUP n4 self).type, (NODE_LOOKUP n4 self).instruction,
        (NODE_LOOKUP n4 self).left_child, (NODE_LOOKUP n4 self).right_child,
        cn, (NODE_LOOKUP n4 self).right_parent⟩ else NODE_LOOKUP n4 y :=
    fun y => lookup_update n4 self _ y v4
  have v5 : valid_handle n5 self := (valid_update n4 self _ self).2 v4
  have e6 : ∀ y, NODE_LOOKUP n6 y = if y = self then
      ⟨(NODE_LOOKUP n5 self).type, (NODE_LOOKUP n5 self).instruction,
        (NODE_LOOKUP n5 self).left_child, (NODE_LOOKUP n5 self).right_child,
        (NODE_LOOKUP n5 self).left_parent, newparent⟩ else NODE_LOOKUP n5 y :=
    fun y => lookup_update n5 self _ y v5
  have v6 : valid_handle n6 cn := by
    have : n6.length = nodes.length := by
      simp only [n6, n5, n4, n3, n2, n1, length_update, length_rewire_child]
    unfold valid_handle at hcn ⊢
    rw [this]; exact hcn
  have e7 : NODE_LOOKUP (NODE_UPDATE n6 cn (fun x => { x with left_child := self })) x
      = if x = cn then
        ⟨(NODE_LOOKUP n6 cn).type, (NODE_LOOKUP n6 cn).instruction, self,
          (NODE_LOOKUP n6 cn).right_child, (NODE_LOOKUP n6 cn).left_parent,
          (NODE_LOOKUP n6 cn).right_parent⟩ else NODE_LOOKUP n6 x :=
    lookup_update n6 cn _ x v6
  rw [e7]
  by_cases hx : x = cn
  · simp only [if_pos hx, e6, e5, if_neg hcs, e4x, if_true]
  · by_cases hxs : x = self
    · subst hxs
      simp only [if_neg hx, e6, e5, e4x, if_true]
    · simp only [if_neg hx, if_neg hxs, e6, e5, e4x]

/-- The rewiring of the two parents keeps type, instruction and parent
slots. -/
theorem rewired_frame (self cn p1 p2 x : Int) (nd : bh_graph_node) :
    (rewired self cn p1 p2 x nd).type = nd.type
    ∧ (rewired self cn p1 p2 x nd).instruction = nd.instruction
    ∧ (rewired self cn p1 p2 x nd).left_parent = nd.left_parent
    ∧ (rewired self cn p1 p2 x nd).right_parent = nd.right_parent := by
  unfold rewired
  simp only
  split_ifs
  · obtain ⟨a1, a2, a3, a4⟩ := rewire_node_frame self cn (rewire_node self cn nd)
    obtain ⟨b1, b2, b3, b4⟩ := rewire_node_frame self cn nd
    exact ⟨a1.trans b1, a2.trans b2, a3.trans b3, a4.trans b4⟩
  · exact rewire_node_frame self cn nd
  · exact rewire_node_frame self cn nd
  · exact ⟨rfl, rfl, rfl, rfl⟩

/-- One rewiring step changes a child slot only from `self` to `cn`. -/
theorem rewire_node_children (self cn : Int) (nd : bh_graph_node) :
    ((rewire_node self cn nd).left_child = nd.left_child
      ∨ (nd.left_child = self ∧ (rewire_node self cn nd).left_child = cn))
    ∧ ((rewire_node self cn nd).right_child = nd.right_child
      ∨ (nd.right_child = self ∧ (rewire_node self cn nd).right_child = cn)) := by
  unfold rewire_node
  split_ifs with h1 h2
  · exact ⟨Or.inr ⟨h1, rfl⟩, Or.inl rfl⟩
  · exact ⟨Or.inl rfl, Or.inr ⟨h2, rfl⟩⟩
  · exact ⟨Or.inl rfl, Or.inl rfl⟩

/-- One rewiring step redirects a left child slot that holds `self`. -/
theorem rewire_node_left (self cn : Int) (nd : bh_graph_node) (h : nd.left_child = self) :
    (rewire_node self cn nd).left_child = cn := by
  unfold rewire_node
  rw [if_pos h]

/-- The rewiring of the two parents changes a child slot only at one of the
two parents, and only from `self` to `cn`. -/
theorem rewired_children (self cn p1 p2 x : Int) (nd : bh_graph_node) :
    ((rewired self cn p1 p2 x nd).left_child = nd.left_child
      ∨ (nd.left_child = self ∧ (rewired self cn p1 p2 x nd).left_child = cn
          ∧ (x = p1 ∨ x = p2)))
    ∧ ((rewired self cn p1 p2 x nd).right_child = nd.right_child
      ∨ (nd.right_child = self ∧ (rewired self cn p1 p2 x nd).right_child = cn
          ∧ (x = p1 ∨ x = p2))) := by
  unfold rewired
  simp only
  by_cases h1 : x = p1
  · by_cases h2 : x = p2
    · rw [if_pos h1, if_pos h2]
      obtain ⟨a, b⟩ := rewire_node_children self cn nd
      obtain ⟨c, d⟩ := rewire_node_children self cn (rewire_node self cn nd)
      constructor
      · rcases c with c | ⟨c1, c2⟩
        · rcases a with a | ⟨a1, a2⟩
          · exact Or.inl (c.trans a)
          · exact Or.inr ⟨a1, c.trans a2, Or.inl h1⟩
        · rcases a with a | ⟨a1, a2⟩
          · exact Or.inr ⟨a ▸ c1, c2, Or.inl h1⟩
          · exact Or.inr ⟨a1, c2, Or.inl h1⟩
      · rcases d with d | ⟨d1, d2⟩
        · rcases b with b | ⟨b1, b2⟩
          · exact Or.inl (d.trans b)
          · exact Or.inr ⟨b1, d.trans b2, Or.inl h1⟩
        · rcases b with b | ⟨b1, b2⟩
          · exact Or.inr ⟨b ▸ d1, d2, Or.inl h1⟩
          · exact Or.inr ⟨b1, d2, Or.inl h1⟩
    · rw [if_pos h1, if_neg h2]
      obtain ⟨a, b⟩ := rewire_node_children self cn nd
      exact ⟨a.imp id (fun h => ⟨h.1, h.2, Or.inl h1⟩), b.imp id (fun h => ⟨h.1, h.2, Or.inl h1⟩)⟩
  · by_cases h2 : x = p2
    · rw [if_neg h1, if_pos h2]
      obtain ⟨a, b⟩ := rewire_node_children self cn nd
      exact ⟨a.imp id (fun h => ⟨h.1, h.2, Or.inr h2⟩), b.imp id (fun h => ⟨h.1, h.2, Or.inr h2⟩)⟩
    · rw [if_neg h1, if_neg h2]
      exact ⟨Or.inl rfl, Or.inl rfl⟩

/-- The rewiring of the two parents redirects the left child slot of a parent
that holds `self`. -/
theorem rewired_left (self cn p1 p2 x : Int) (nd : bh_graph_node)
    (hx : x = p1 ∨ x = p2) (h : nd.left_child = self) :
    (rewired self cn p1 p2 x nd).left_child = cn := by
  unfold rewired
  simp only
  by_cases h1 : x = p1
  · rw [if_pos h1]
    have e1 := rewire_node_left self cn nd h
    by_cases h2 : x = p2
    · rw [if_pos h2]
      obtain ⟨c, -⟩ := rewire_node_children self cn (rewire_node self cn nd)
      rcases c with c | ⟨c1, c2⟩
      · exact c.trans e1
      · exact c2
    · rw [if_neg h2]; exact e1
  · rw [if_neg h1]
    have h2 : x = p2 := hx.resolve_left h1
    rw [if_pos h2]
    exact rewire_node_left self cn nd h

/-- The arena after a successful `bh_grap_node_add_parent(self, newparent)`
with valid arguments, compared with the arena before. -/
theorem add_parent_effect (mem : Option Nat) (nodes : List bh_graph_node)
    (self newparent : Int) (hs : valid_handle nodes self) (hnp : newparent ≠ INVALID_NODE)
    (hok : (bh_grap_node_add_parent mem nodes self newparent).1 = BH_SUCCESS) :
    parent_added nodes (bh_grap_node_add_parent mem nodes self newparent).2 self newparent := by
  have hslen : self ≠ (nodes.length : Int) := by
    unfold valid_handle at hs; omega
  rcases add_parent_cases mem nodes self newparent with
    ⟨h, e⟩ | ⟨hp, hl, e⟩ | ⟨hp, hl, hr, e⟩ | ⟨hp, hl, hr, _, e⟩ | ⟨hp, hl, hr, hl2, hr2, _, e⟩
  · rw [e]
    have hnf : ¬ fan_in_full nodes self newparent := by
      intro hf
      rcases h with h | h | h
      · exact hf.2.2.1 h
      · exact hf.2.2.2 h
      · exact hnp h
    refine ⟨?_, fun _ _ _ => ⟨rfl, rfl⟩, fun _ _ => ⟨rfl, rfl⟩, fun _ _ => Or.inl rfl,
      fun _ _ => Or.inl rfl, fun hf => absurd hf hnf, fun hf => absurd hf hnf,
      fun _ => ⟨rfl, fun _ => rfl, fun _ => rfl⟩⟩
    rcases h with h | h | h
    · exact Or.inl h
    · exact Or.inr h
    · exact absurd h hnp
  · rw [e]
    dsimp only
    have hnf : ¬ fan_in_full nodes self newparent := fun hf => hf.1 hl
    have hU : ∀ x, NODE_LOOKUP (NODE_UPDATE nodes self
        (fun x => { x with left_parent := newparent })) x
        = if x = self then ⟨(NODE_LOOKUP nodes self).type, (NODE_LOOKUP nodes self).instruction,
            (NODE_LOOKUP nodes self).left_child, (NODE_LOOKUP nodes self).right_child,
            newparent, (NODE_LOOKUP nodes self).right_parent⟩
          else NODE_LOOKUP nodes x := fun x => lookup_update nodes self _ x hs
    refine ⟨?_, ?_, ?_, ?_, ?_, fun hf => absurd hf hnf, fun hf => absurd hf hnf, ?_⟩
    · left; rw [hU, if_pos rfl]
    · intro x hx _; rw [hU, if_neg hx]; exact ⟨rfl, rfl⟩
    · intro x _; rw [hU]; split_ifs with hx
      · rw [hx]; exact ⟨rfl, rfl⟩
      · exact ⟨rfl, rfl⟩
    · intro x _; left; rw [hU]; split_ifs with hx
      · rw [hx]
      · rfl
    · intro x _; left; rw [hU]; split_ifs with hx
      · rw [hx]
      · rfl
    · intro _
      refine ⟨length_update _ _ _, fun h => absurd hl h, fun _ => ?_⟩
      rw [hU, if_pos rfl]
  · rw [e]
    dsimp only
    have hnf : ¬ fan_in_full nodes self newparent := fun hf => hf.2.1 hr
    have hU : ∀ x, NODE_LOOKUP (NODE_UPDATE nodes self
        (fun x => { x with right_parent := newparent })) x
        = if x = self then ⟨(NODE_LOOKUP nodes self).type, (NODE_LOOKUP nodes self).instruction,
            (NODE_LOOKUP nodes self).left_child, (NODE_LOOKUP nodes self).right_child,
            (NODE_LOOKUP nodes self).left_parent, newparent⟩
          else NODE_LOOKUP nodes x := fun x => lookup_update nodes self _ x hs
    refine ⟨?_, ?_, ?_, ?_, ?_, fun hf => absurd hf hnf, fun hf => absurd hf hnf, ?_⟩
    · right; rw [hU, if_pos rfl]
    · intro x hx _; rw [hU, if_neg hx]; exact ⟨rfl, rfl⟩
    · intro x _; rw [hU]; split_ifs with hx
      · rw [hx]; exact ⟨rfl, rfl⟩
      · exact ⟨rfl, rfl⟩
    · intro x _; left; rw [hU]; split_ifs with hx
      · rw [hx]
      · rfl
    · intro x _; left; rw [hU]; split_ifs with hx
      · rw [hx]
      · rfl
    · intro _
      refine ⟨length_update _ _ _, fun _ => ?_, fun h => absurd hr h⟩
      rw [hU, if_pos rfl]
  · rw [e] at hok
    cases hok
  · rw [e]
    dsimp only
    have hf : fan_in_full nodes self newparent := ⟨hl, hr, hl2, hr2⟩
    have hv0 : valid_handle (nodes ++ [⟨BH_COLLECTION, INVALID_INSTRUCTION, INVALID_NODE,
        INVALID_NODE, INVALID_NODE, INVALID_NODE⟩]) self :=
      (valid_append nodes _ self).2 (Or.inl hs)
    have hc0 : valid_handle (nodes ++ [⟨BH_COLLECTION, INVALID_INSTRUCTION, INVALID_NODE,
        INVALID_NODE, INVALID_NODE, INVALID_NODE⟩]) (nodes.length : Int) :=
      (valid_append nodes _ _).2 (Or.inr rfl)
    have hnew : NODE_LOOKUP (nodes ++ [⟨BH_COLLECTION, INVALID_INSTRUCTION, INVALID_NODE,
        INVALID_NODE, INVALID_NODE, INVALID_NODE⟩]) (nodes.length : Int)
        = ⟨BH_COLLECTION, INVALID_INSTRUCTION, INVALID_NODE, INVALID_NODE, INVALID_NODE,
          INVALID_NODE⟩ := lookup_append_new nodes _
    have hold : ∀ y, y ≠ (nodes.length : Int) →
        NODE_LOOKUP (nodes ++ [⟨BH_COLLECTION, INVALID_INSTRUCTION, INVALID_NODE,
        INVALID_NODE, INVALID_NODE, INVALID_NODE⟩]) y = NODE_LOOKUP nodes y :=
      fun y hy => lookup_append_old nodes _ y hy
    have hU := fun x => add_parent_overflow_lookup _ self newparent (nodes.length : Int)
      hv0 hc0 hslen (by rw [hnew]) (by rw [hnew]) x
    simp only [hnew, hold self hslen] at hU
    have hvx : ∀ x, valid_handle nodes x → x ≠ (nodes.length : Int) := by
      intro x hx; unfold valid_handle at hx; omega
    refine ⟨?_, ?_, ?_, ?_, ?_, ?_, ?_, fun h => absurd hf h⟩
    · right; rw [hU, if_neg hslen, if_pos rfl]
    · intro x hx hv
      rw [hU, if_neg (hvx x hv), if_neg hx, hold x (hvx x hv)]
      exact ⟨(rewired_frame _ _ _ _ _ _).2.2.1, (rewired_frame _ _ _ _ _ _).2.2.2⟩
    · intro x hv
      rw [hU, if_neg (hvx x hv), hold x (hvx x hv)]
      split_ifs
      · exact ⟨(rewired_frame _ _ _ _ _ _).1, (rewired_frame _ _ _ _ _ _).2.1⟩
      · exact ⟨(rewired_frame _ _ _ _ _ _).1, (rewired_frame _ _ _ _ _ _).2.1⟩
    · intro x hv
      have hc := (rewired_children self (nodes.length : Int)
        (NODE_LOOKUP nodes self).left_parent (NODE_LOOKUP nodes self).right_parent x
        (NODE_LOOKUP nodes x)).1
      rw [hU, if_neg (hvx x hv), hold x (hvx x hv)]
      split_ifs
      · exact hc.imp id (fun h => ⟨hf, h.1, h.2.1, h.2.2⟩)
      · exact hc.imp id (fun h => ⟨hf, h.1, h.2.1, h.2.2⟩)
    · intro x hv
      have hc := (rewired_children self (nodes.length : Int)
        (NODE_LOOKUP nodes self).left_parent (NODE_LOOKUP nodes self).right_parent x
        (NODE_LOOKUP nodes x)).2
      rw [hU, if_neg (hvx x hv), hold x (hvx x hv)]
      split_ifs
      · exact hc.imp id (fun h => ⟨hf, h.1, h.2.1, h.2.2⟩)
      · exact hc.imp id (fun h => ⟨hf, h.1, h.2.1, h.2.2⟩)
    · intro _ x hx hlc
      have hxv : valid_handle nodes x := by
        by_contra hv
        rw [lookup_invalid nodes x hv] at hlc
        unfold valid_handle at hs
        have : (default : bh_graph_node).left_child = INVALID_NODE := rfl
        rw [this] at hlc
        unfold INVALID_NODE at hlc
        omega
      have hc := rewired_left self (nodes.length : Int)
        (NODE_LOOKUP nodes self).left_parent (NODE_LOOKUP nodes self).right_parent x
        (NODE_LOOKUP nodes x) hx hlc
      rw [hU, if_neg (hvx x hxv), hold x (hvx x hxv)]
      split_ifs
      · exact hc
      · exact hc
    · intro _
      refine ⟨?_, ?_, ?_, ?_⟩
      · rw [length_add_parent_overflow, List.length_append]; rfl
      · rw [hU, if_pos rfl]
      · rw [hU, if_neg hslen, if_pos rfl]
      · rw [hU, if_neg hslen, if_pos rfl]

/-- With unbounded memory `bh_grap_node_add_parent` succeeds. -/
theorem add_parent_none_ok (nodes : List bh_graph_node) (self newparent : Int) :
    (bh_grap_node_add_parent none nodes self newparent).1 = BH_SUCCESS := by
  rcases add_parent_cases none nodes self newparent with
    ⟨-, e⟩ | ⟨-, -, e⟩ | ⟨-, -, -, e⟩ | ⟨-, -, -, hn, -⟩ | ⟨-, -, -, -, -, -, e⟩
  · rw [e]
  · rw [e]
  · rw [e]
  · exfalso
    have : (bh_graph_new_node none nodes BH_COLLECTION INVALID_INSTRUCTION).1
        = (nodes.length : Int) := by
      unfold bh_graph_new_node bh_dynamic_list_append
      simp only
      rw [if_neg (by omega)]
    rw [hn] at this
    unfold INVALID_NODE at this
    simp only at this
    omega
  · rw [e]

/-- A handle that is not in the arena has no left child, so it is linked. -/
theorem linked_at_invalid (nodes : List bh_graph_node) (q : Int)
    (h : ¬ valid_handle nodes q) : linked_at nodes q := by
  left
  rw [lookup_invalid nodes q h]
  rfl

/-- A successful `bh_grap_node_add_parent(self, newparent)` keeps every node
linked that was linked before, links `newparent` when its left child is
`self`, and says nothing about the nodes in `E`. -/
theorem linked_add_parent (mem : Option Nat) (nodes : List bh_graph_node)
    (self newparent : Int) (E : Int → Prop) (hs : valid_handle nodes self)
    (hnp : newparent ≠ INVALID_NODE)
    (hok : (bh_grap_node_add_parent mem nodes self newparent).1 = BH_SUCCESS)
    (hL : ∀ q, ¬ E q → linked_at nodes q
      ∨ (q = newparent ∧ (NODE_LOOKUP nodes q).left_child = self)) :
    ∀ q, ¬ E q → linked_at (bh_grap_node_add_parent mem nodes self newparent).2 q := by
  have A := add_parent_effect mem nodes self newparent hs hnp hok
  intro q hE
  have hslen : self ≠ (nodes.length : Int) := by
    unfold valid_handle at hs; omega
  by_cases hq : valid_handle nodes q
  · have hq0 : q ≠ INVALID_NODE := by
      unfold valid_handle at hq; unfold INVALID_NODE; omega
    rcases A.left_child q hq with h | ⟨hf, -, h2, h3⟩
    · rcases hL q hE with hl | ⟨hqn, hc⟩
      · have key : ∀ c, (NODE_LOOKUP nodes q).left_child = c →
            ((NODE_LOOKUP nodes c).left_parent = q ∨ (NODE_LOOKUP nodes c).right_parent = q) →
            ((NODE_LOOKUP (bh_grap_node_add_parent mem nodes self newparent).2 c).left_parent = q
            ∨ (NODE_LOOKUP (bh_grap_node_add_parent mem nodes self newparent).2 c).right_parent
              = q) := by
          intro c hc hlist
          have hcv : valid_handle nodes c := by
            by_contra hv
            rw [lookup_invalid nodes c hv] at hlist
            rcases hlist with h1 | h1 <;> exact hq0 h1.symm
          by_cases hcs : c = self
          · subst hcs
            by_cases hf : fan_in_full nodes c newparent
            · exfalso
              have := A.rewires hf q (hlist.imp Eq.symm Eq.symm) hc
              rw [h, hc] at this
              exact hslen this
            · obtain ⟨-, k1, k2⟩ := A.no_node hf
              rcases hlist with h1 | h1
              · left; rw [k1 (by rw [h1]; exact hq0)]; exact h1
              · right; rw [k2 (by rw [h1]; exact hq0)]; exact h1
          · obtain ⟨k1, k2⟩ := A.parents c hcs hcv
            rw [k1, k2]; exact hlist
        rcases hl with h0 | h1
        · left; rw [h]; exact h0
        · right
          rw [h]
          exact key _ rfl h1
      · right
        rw [h, hc, ← hqn]
        rw [hqn]
        exact A.lists
    · obtain ⟨-, k, -, -⟩ := A.new_node hf
      right
      rw [h2, k]
      exact h3.imp Eq.symm Eq.symm
  · by_cases hf : fan_in_full nodes self newparent
    · obtain ⟨k0, k, k1, -⟩ := A.new_node hf
      by_cases hql : q = (nodes.length : Int)
      · right; left
        rw [hql, k]
        exact k1
      · apply linked_at_invalid
        unfold valid_handle at hq ⊢
        rw [k0]
        push_cast
        omega
    · obtain ⟨k0, -, -⟩ := A.no_node hf
      apply linked_at_invalid
      unfold valid_handle at hq ⊢
      rw [k0]
      exact hq

/-- The fan-out overflow block up to the nested `add_parent`: when the
displaced child lists `self` as a parent, the block does not reach "Bad
graph"; it prepares the arena as `fan_out_prepared` says, calls
`add_parent(newchild, cn)` and, when that call succeeds, stores `self` in the
left parent slot of `cn`. -/
theorem add_child_overflow_prepare (mem : Option Nat) (nodes : List bh_graph_node)
    (self newchild cn d : Int) (hs : valid_handle nodes self) (hcn : valid_handle nodes cn)
    (hne : self ≠ cn) (hd : (NODE_LOOKUP nodes self).left_child = d)
    (hdv : valid_handle nodes d) (hdc : d ≠ cn)
    (hlist : (NODE_LOOKUP nodes d).left_parent = self
      ∨ (NODE_LOOKUP nodes d).right_parent = self) :
    ∃ n4, fan_out_prepared nodes n4 self newchild cn d
      ∧ add_child_overflow mem nodes self newchild cn
        = if (bh_grap_node_add_parent mem n4 newchild cn).1 ≠ BH_SUCCESS then
            (BH_ERROR, (bh_grap_node_add_parent mem n4 newchild cn).2)
          else (BH_SUCCESS, NODE_UPDATE (bh_grap_node_add_parent mem n4 newchild cn).2 cn
            (fun x => { x with left_parent := self })) := by
  have hcs : ¬ cn = self := fun h => hne h.symm
  unfold add_child_overflow
  lift_lets
  intro n1 n2 n3 dd n4 p n4b pb
  have v1 : valid_handle n1 cn := (valid_update nodes cn _ cn).2 hcn
  have e1 : ∀ y, NODE_LOOKUP n1 y = if y = cn then
      ⟨(NODE_LOOKUP nodes cn).type, (NODE_LOOKUP nodes cn).instruction,
        d, (NODE_LOOKUP nodes cn).right_child,
        (NODE_LOOKUP nodes cn).left_parent, (NODE_LOOKUP nodes cn).right_parent⟩
      else NODE_LOOKUP nodes y := by
    intro y
    have h1 : NODE_LOOKUP n1 y = if y = cn then
        ⟨(NODE_LOOKUP nodes cn).type, (NODE_LOOKUP nodes cn).instruction,
          (NODE_LOOKUP nodes self).left_child, (NODE_LOOKUP nodes cn).right_child,
          (NODE_LOOKUP nodes cn).left_parent, (NODE_LOOKUP nodes cn).right_parent⟩
        else NODE_LOOKUP nodes y := lookup_update nodes cn _ y hcn
    rw [h1, hd]
  have v2 : valid_handle n2 self := by
    apply (valid_update n1 cn _ self).2
    exact (valid_update nodes cn _ self).2 hs
  have e2 : ∀ y, NODE_LOOKUP n2 y = if y = cn then
      ⟨(NODE_LOOKUP nodes cn).type, (NODE_LOOKUP nodes cn).instruction, d, newchild,
        (NODE_LOOKUP nodes cn).left_parent, (NODE_LOOKUP nodes cn).right_parent⟩
      else NODE_LOOKUP nodes y := by
    intro y
    have h2 : NODE_LOOKUP n2 y = if y = cn then
        ⟨(NODE_LOOKUP n1 cn).type, (NODE_LOOKUP n1 cn).instruction,
          (NODE_LOOKUP n1 cn).left_child, newchild,
          (NODE_LOOKUP n1 cn).left_parent, (NODE_LOOKUP n1 cn).right_parent⟩
        else NODE_LOOKUP n1 y := lookup_update n1 cn _ y v1
    rw [h2]
    by_cases hy : y = cn
    · simp only [if_pos hy, e1, if_true]
    · simp only [if_neg hy, e1]
  have e3 : ∀ y, NODE_LOOKUP n3 y = if y = self then
      ⟨(NODE_LOOKUP nodes self).type, (NODE_LOOKUP nodes self).instruction, cn,
        (NODE_LOOKUP nodes self).right_child,
        (NODE_LOOKUP nodes self).left_parent, (NODE_LOOKUP nodes self).right_parent⟩
      else NODE_LOOKUP n2 y := by
    intro y
    have h3 : NODE_LOOKUP n3 y = if y = self then
        ⟨(NODE_LOOKUP n2 self).type, (NODE_LOOKUP n2 self).instruction, cn,
          (NODE_LOOKUP n2 self).right_child,
          (NODE_LOOKUP n2 self).left_parent, (NODE_LOOKUP n2 self).right_parent⟩
        else NODE_LOOKUP n2 y := lookup_update n2 self _ y v2
    rw [h3]
    by_cases hy : y = self
    · simp only [if_pos hy, e2, if_neg hne]
    · simp only [if_neg hy]
  have l3 : n3.length = nodes.length := by
    simp only [n3, n2, n1, length_update]
  have v3 : valid_handle n3 d := by
    unfold valid_handle at hdv ⊢
    rw [l3]; exact hdv
  have hdd : dd = d := by
    show (NODE_LOOKUP n3 cn).left_child = d
    rw [e3, if_neg hcs, e2, if_pos rfl]
  have e3p : ∀ y, (NODE_LOOKUP n3 y).left_parent = (NODE_LOOKUP nodes y).left_parent
      ∧ (NODE_LOOKUP n3 y).right_parent = (NODE_LOOKUP nodes y).right_parent := by
    intro y
    rw [e3]
    by_cases hy : y = self
    · rw [if_pos hy, hy]; exact ⟨rfl, rfl⟩
    · rw [if_neg hy, e2]
      by_cases hy2 : y = cn
      · rw [if_pos hy2, hy2]; exact ⟨rfl, rfl⟩
      · rw [if_neg hy2]; exact ⟨rfl, rfl⟩
  have e3k : ∀ y, (NODE_LOOKUP n3 y).type = (NODE_LOOKUP nodes y).type
      ∧ (NODE_LOOKUP n3 y).instruction = (NODE_LOOKUP nodes y).instruction := by
    intro y
    rw [e3]
    by_cases hy : y = self
    · rw [if_pos hy, hy]; exact ⟨rfl, rfl⟩
    · rw [if_neg hy, e2]
      by_cases hy2 : y = cn
      · rw [if_pos hy2, hy2]; exact ⟨rfl, rfl⟩
      · rw [if_neg hy2]; exact ⟨rfl, rfl⟩
  have e3c : ∀ y, y ≠ cn → y ≠ self →
      (NODE_LOOKUP n3 y).left_child = (NODE_LOOKUP nodes y).left_child
      ∧ (NODE_LOOKUP n3 y).right_child = (NODE_LOOKUP nodes y).right_child := by
    intro y h1 h2
    rw [e3, if_neg h2, e2, if_neg h1]
    exact ⟨rfl, rfl⟩
  have e3n : NODE_LOOKUP n3 cn
      = ⟨(NODE_LOOKUP nodes cn).type, (NODE_LOOKUP nodes cn).instruction, d, newchild,
        (NODE_LOOKUP nodes cn).left_parent, (NODE_LOOKUP nodes cn).right_parent⟩ := by
    rw [e3, if_neg hcs, e2, if_pos rfl]
  have e3s : (NODE_LOOKUP n3 self).left_child = cn
      ∧ (NODE_LOOKUP n3 self).right_child = (NODE_LOOKUP nodes self).right_child := by
    rw [e3, if_pos rfl]; exact ⟨rfl, rfl⟩
  by_cases c1 : (NODE_LOOKUP n3 dd).left_parent = self
  · rw [if_pos c1]
    rw [hdd] at c1
    have c1' : (NODE_LOOKUP nodes d).left_parent = self := by rw [← (e3p d).1]; exact c1
    have e4 : ∀ y, NODE_LOOKUP n4 y = if y = d then
        ⟨(NODE_LOOKUP n3 d).type, (NODE_LOOKUP n3 d).instruction, (NODE_LOOKUP n3 d).left_child,
          (NODE_LOOKUP n3 d).right_child, cn, (NODE_LOOKUP n3 d).right_parent⟩
        else NODE_LOOKUP n3 y := by
      intro y
      show NODE_LOOKUP (NODE_UPDATE n3 dd _) y = _
      rw [hdd]
      exact lookup_update n3 d _ y v3
    refine ⟨n4, ⟨?_, ?_, ?_, ?_, ?_, ?_, ?_, ?_⟩, rfl⟩
    · show (NODE_UPDATE n3 dd _).length = _
      rw [length_update, l3]
    · rw [e4, if_neg (fun h => hdc h.symm), e3n]
    · intro y
      rw [e4]
      by_cases hy : y = d
      · rw [if_pos hy, hy]; exact e3k d
      · rw [if_neg hy]; exact e3k y
    · intro y h1 h2
      rw [e4]
      by_cases hy : y = d
      · rw [if_pos hy, hy]
        rw [hy] at h1 h2
        exact e3c d h1 h2
      · rw [if_neg hy]; exact e3c y h1 h2
    · rw [e4]
      by_cases hy : self = d
      · rw [if_pos hy, ← hy]; exact e3s
      · rw [if_neg hy]; exact e3s
    · intro y hy
      rw [e4, if_neg hy]
      exact e3p y
    · intro _
      rw [e4, if_pos rfl]
      exact ⟨rfl, (e3p d).2⟩
    · intro h
      exact absurd c1' h
  · rw [if_neg c1]
    rw [hdd] at c1
    have c1' : (NODE_LOOKUP nodes d).left_parent ≠ self := by rw [← (e3p d).1]; exact c1
    have c2 : (NODE_LOOKUP n3 dd).right_parent = self := by
      rw [hdd, (e3p d).2]
      exact hlist.resolve_left c1'
    rw [if_pos c2]
    have e4 : ∀ y, NODE_LOOKUP n4b y = if y = d then
        ⟨(NODE_LOOKUP n3 d).type, (NODE_LOOKUP n3 d).instruction, (NODE_LOOKUP n3 d).left_child,
          (NODE_LOOKUP n3 d).right_child, (NODE_LOOKUP n3 d).left_parent, cn⟩
        else NODE_LOOKUP n3 y := by
      intro y
      show NODE_LOOKUP (NODE_UPDATE n3 dd _) y = _
      rw [hdd]
      exact lookup_update n3 d _ y v3
    refine ⟨n4b, ⟨?_, ?_, ?_, ?_, ?_, ?_, ?_, ?_⟩, rfl⟩
    · show (NODE_UPDATE n3 dd _).length = _
      rw [length_update, l3]
    · rw [e4, if_neg (fun h => hdc h.symm), e3n]
    · intro y
      rw [e4]
      by_cases hy : y = d
      · rw [if_pos hy, hy]; exact e3k d
      · rw [if_neg hy]; exact e3k y
    · intro y h1 h2
      rw [e4]
      by_cases hy : y = d
      · rw [if_pos hy, hy]
        rw [hy] at h1 h2
        exact e3c d h1 h2
      · rw [if_neg hy]; exact e3c y h1 h2
    · rw [e4]
      by_cases hy : self = d
      · rw [if_pos hy, ← hy]; exact e3s
      · rw [if_neg hy]; exact e3s
    · intro y hy
      rw [e4, if_neg hy]
      exact e3p y
    · intro h
      exact absurd h c1'
    · intro _
      rw [e4, if_pos rfl]
      exact ⟨(e3p d).1, rfl⟩

/-- The arena after a successful `add_parent` is at least as long as before. -/
theorem parent_added_length (nodes u : List bh_graph_node) (child parent : Int)
    (A : parent_added nodes u child parent) : nodes.length ≤ u.length := by
  by_cases hf : fan_in_full nodes child parent
  · rw [(A.new_node hf).1]; omega
  · rw [(A.no_node hf).1]

/-- With unbounded memory and every left child listing its parent,
`bh_grap_node_add_child(self, newchild)` on two different handles of the arena
succeeds ("Bad graph" is not reached), every left child still lists its
parent afterwards, and the arena does not shrink. -/
theorem linked_add_child (nodes : List bh_graph_node) (self newchild : Int)
    (hL : left_linked nodes) (hs : valid_handle nodes self)
    (hnc : valid_handle nodes newchild) (hne : self ≠ newchild) :
    (bh_grap_node_add_child none nodes self newchild).1 = BH_SUCCESS
    ∧ left_linked (bh_grap_node_add_child none nodes self newchild).2
    ∧ nodes.length ≤ (bh_grap_node_add_child none nodes self newchild).2.length := by
  have hs0 : self ≠ INVALID_NODE := by
    unfold valid_handle at hs; unfold INVALID_NODE; omega
  rcases add_child_cases none nodes self newchild with
    ⟨h, -⟩ | ⟨-, hl, e⟩ | ⟨-, hl, hr, e⟩ | ⟨-, -, -, hn, -⟩ | ⟨-, hl, hr, -, e⟩
  · exact absurd h hne
  · rw [e]
    dsimp only
    have hU : ∀ x, NODE_LOOKUP (NODE_UPDATE nodes self
        (fun x => { x with left_child := newchild })) x
        = if x = self then ⟨(NODE_LOOKUP nodes self).type, (NODE_LOOKUP nodes self).instruction,
            newchild, (NODE_LOOKUP nodes self).right_child,
            (NODE_LOOKUP nodes self).left_parent, (NODE_LOOKUP nodes self).right_parent⟩
          else NODE_LOOKUP nodes x := fun x => lookup_update nodes self _ x hs
    have hP : ∀ x, (NODE_LOOKUP (NODE_UPDATE nodes self
        (fun x => { x with left_child := newchild })) x).left_parent
          = (NODE_LOOKUP nodes x).left_parent
        ∧ (NODE_LOOKUP (NODE_UPDATE nodes self
        (fun x => { x with left_child := newchild })) x).right_parent
          = (NODE_LOOKUP nodes x).right_parent :=
      fun x => update_keeps_parents nodes self x _ (fun _ => ⟨rfl, rfl⟩)
    have hv : valid_handle (NODE_UPDATE nodes self
        (fun x => { x with left_child := newchild })) newchild :=
      (valid_update nodes self _ newchild).2 hnc
    have hok := add_parent_none_ok (NODE_UPDATE nodes self
        (fun x => { x with left_child := newchild })) newchild self
    have A := add_parent_effect none _ newchild self hv hs0 hok
    refine ⟨rfl, ?_, ?_⟩
    · intro q
      apply linked_add_parent none _ newchild self (fun _ => False) hv hs0 hok _ q (fun h => h)
      intro q _
      by_cases hq : q = self
      · right
        refine ⟨hq, ?_⟩
        rw [hU, if_pos hq]
      · left
        unfold linked_at
        rw [hU q, if_neg hq, (hP _).1, (hP _).2]
        exact hL q
    · have := parent_added_length _ _ _ _ A
      rw [length_update] at this
      exact this
  · rw [e]
    dsimp only
    have hU : ∀ x, NODE_LOOKUP (NODE_UPDATE nodes self
        (fun x => { x with right_child := newchild })) x
        = if x = self then ⟨(NODE_LOOKUP nodes self).type, (NODE_LOOKUP nodes self).instruction,
            (NODE_LOOKUP nodes self).left_child, newchild,
            (NODE_LOOKUP nodes self).left_parent, (NODE_LOOKUP nodes self).right_parent⟩
          else NODE_LOOKUP nodes x := fun x => lookup_update nodes self _ x hs
    have hP : ∀ x, (NODE_LOOKUP (NODE_UPDATE nodes self
        (fun x => { x with right_child := newchild })) x).left_parent
          = (NODE_LOOKUP nodes x).left_parent
        ∧ (NODE_LOOKUP (NODE_UPDATE nodes self
        (fun x => { x with right_child := newchild })) x).right_parent
          = (NODE_LOOKUP nodes x).right_parent :=
      fun x => update_keeps_parents nodes self x _ (fun _ => ⟨rfl, rfl⟩)
    have hC : ∀ x, (NODE_LOOKUP (NODE_UPDATE nodes self
        (fun x => { x with right_child := newchild })) x).left_child
          = (NODE_LOOKUP nodes x).left_child := by
      intro x
      rw [hU]
      split_ifs with hx
      · rw [hx]
      · rfl
    have hv : valid_handle (NODE_UPDATE nodes self
        (fun x => { x with right_child := newchild })) newchild :=
      (valid_update nodes self _ newchild).2 hnc
    have hok := add_parent_none_ok (NODE_UPDATE nodes self
        (fun x => { x with right_child := newchild })) newchild self
    have A := add_parent_effect none _ newchild self hv hs0 hok
    refine ⟨rfl, ?_, ?_⟩
    · intro q
      apply linked_add_parent none _ newchild self (fun _ => False) hv hs0 hok _ q (fun h => h)
      intro q _
      left
      unfold linked_at
      rw [hC q, (hP _).1, (hP _).2]
      exact hL q
    · have := parent_added_length _ _ _ _ A
      rw [length_update] at this
      exact this
  · exfalso
    have : (bh_graph_new_node none nodes BH_COLLECTION INVALID_INSTRUCTION).1
        = (nodes.length : Int) := by
      unfold bh_graph_new_node bh_dynamic_list_append
      simp only
      rw [if_neg (by omega)]
    rw [hn] at this
    unfold INVALID_NODE at this
    simp only at this
    omega
  · rw [e]
    -- the arena right after the allocation of the collection node
    generalize hn0 : nodes ++ [(⟨BH_COLLECTION, INVALID_INSTRUCTION, INVALID_NODE,
      INVALID_NODE, INVALID_NODE, INVALID_NODE⟩ : bh_graph_node)] = n0
    have hlen0 : n0.length = nodes.length + 1 := by
      rw [← hn0, List.length_append]; rfl
    have hnew : NODE_LOOKUP n0 (nodes.length : Int)
        = ⟨BH_COLLECTION, INVALID_INSTRUCTION, INVALID_NODE, INVALID_NODE, INVALID_NODE,
          INVALID_NODE⟩ := by rw [← hn0]; exact lookup_append_new nodes _
    have hold : ∀ y, y ≠ (nodes.length : Int) → NODE_LOOKUP n0 y = NODE_LOOKUP nodes y := by
      intro y hy; rw [← hn0]; exact lookup_append_old nodes _ y hy
    have hvx : ∀ x, valid_handle nodes x → x ≠ (nodes.length : Int) := by
      intro x hx; unfold valid_handle at hx; omega
    have hv0 : ∀ x, valid_handle nodes x → valid_handle n0 x := by
      intro x hx; unfold valid_handle at hx ⊢; rw [hlen0]; push_cast; omega
    have hc0 : valid_handle n0 (nodes.length : Int) := by
      unfold valid_handle; rw [hlen0]; push_cast; omega
    -- the displaced child
    have hlist : (NODE_LOOKUP nodes (NODE_LOOKUP nodes self).left_child).left_parent = self
        ∨ (NODE_LOOKUP nodes (NODE_LOOKUP nodes self).left_child).right_parent = self :=
      (hL self).resolve_left hl
    have hdv : valid_handle nodes (NODE_LOOKUP nodes self).left_child := by
      by_contra hv
      rw [lookup_invalid nodes _ hv] at hlist
      rcases hlist with h1 | h1 <;> exact hs0 h1.symm
    generalize hd : (NODE_LOOKUP nodes self).left_child = d at hlist hdv hl
    have hd0 : (NODE_LOOKUP n0 self).left_child = d := by rw [hold self (hvx self hs)]; exact hd
    have hlist0 : (NODE_LOOKUP n0 d).left_parent = self ∨ (NODE_LOOKUP n0 d).right_parent = self := by
      rw [hold d (hvx d hdv)]; exact hlist
    obtain ⟨n4, F, e4⟩ := add_child_overflow_prepare none n0 self newchild (nodes.length : Int) d
      (hv0 self hs) hc0 (hvx self hs) hd0 (hv0 d hdv) (hvx d hdv) hlist0
    have hcn0 : ((nodes.length : Int)) ≠ INVALID_NODE := by unfold INVALID_NODE; omega
    have hv4 : valid_handle n4 newchild := by
      have := hv0 newchild hnc
      unfold valid_handle at this ⊢; rw [F.length]; exact this
    have hok := add_parent_none_ok n4 newchild (nodes.length : Int)
    have A := add_parent_effect none n4 newchild (nodes.length : Int) hv4 hcn0 hok
    rw [e4, if_neg (not_not.2 hok)]
    dsimp only
    generalize hu : (bh_grap_node_add_parent none n4 newchild (nodes.length : Int)).2 = u at A
    have hlenu : n4.length ≤ u.length := parent_added_length _ _ _ _ A
    have hvu : valid_handle u (nodes.length : Int) := by
      unfold valid_handle; rw [F.length, hlen0] at hlenu; omega
    have hR : ∀ x, NODE_LOOKUP (NODE_UPDATE u (nodes.length : Int)
        (fun x => { x with left_parent := self })) x
        = if x = (nodes.length : Int) then
            ⟨(NODE_LOOKUP u (nodes.length : Int)).type, (NODE_LOOKUP u (nodes.length : Int)).instruction,
             (NODE_LOOKUP u (nodes.length : Int)).left_child,
             (NODE_LOOKUP u (nodes.length : Int)).right_child, self,
             (NODE_LOOKUP u (nodes.length : Int)).right_parent⟩
          else NODE_LOOKUP u x := fun x => lookup_update u _ _ x hvu
    have hv4c : valid_handle n4 (nodes.length : Int) := by
      unfold valid_handle at hc0 ⊢; rw [F.length]; exact hc0
    have hv4s : valid_handle n4 self := by
      have := hv0 self hs
      unfold valid_handle at this ⊢; rw [F.length]; exact this
    -- the parents of the collection node before the last store
    have hcp : (NODE_LOOKUP u (nodes.length : Int)).left_parent = INVALID_NODE
        ∧ (NODE_LOOKUP u (nodes.length : Int)).right_parent = INVALID_NODE := by
      obtain ⟨k1, k2⟩ := A.parents (nodes.length : Int) (fun h => hvx newchild hnc h.symm) hv4c
      obtain ⟨j1, j2⟩ := F.parents (nodes.length : Int) (fun h => hvx d hdv h.symm)
      rw [k1, k2, j1, j2, hnew]
      exact ⟨rfl, rfl⟩
    have hsc : (NODE_LOOKUP u self).left_child = (nodes.length : Int) := by
      rcases A.left_child self hv4s with h | ⟨-, h, -⟩
      · rw [h]; exact F.parent_children.1
      · rw [F.parent_children.1] at h
        exact absurd h.symm (hvx newchild hnc)
    have hlink4 : ∀ q, ¬ q = self → linked_at n4 q
        ∨ (q = (nodes.length : Int) ∧ (NODE_LOOKUP n4 q).left_child = newchild) := by
      intro q hq
      left
      by_cases hqc : q = (nodes.length : Int)
      · right
        rw [hqc, F.new_node]
        dsimp only
        by_cases hdl : (NODE_LOOKUP n0 d).left_parent = self
        · left; exact (F.displaced_left hdl).1
        · right; exact (F.displaced_right hdl).2
      · unfold linked_at
        rw [(F.children q hqc hq).1, hold q hqc]
        by_cases hl0 : (NODE_LOOKUP nodes q).left_child = INVALID_NODE
        · left; exact hl0
        · have h1 := (hL q).resolve_left hl0
          right
          by_cases hcd : (NODE_LOOKUP nodes q).left_child = d
          · rw [hcd] at h1 ⊢
            by_cases hdl : (NODE_LOOKUP n0 d).left_parent = self
            · right
              rw [(F.displaced_left hdl).2, hold d (hvx d hdv)]
              rw [hold d (hvx d hdv)] at hdl
              rcases h1 with h1 | h1
              · exact absurd (h1.symm.trans hdl) hq
              · exact h1
            · left
              rw [(F.displaced_right hdl).1, hold d (hvx d hdv)]
              rw [hold d (hvx d hdv)] at hdl
              rcases h1 with h1 | h1
              · exact h1
              · exact absurd (h1.symm.trans (hlist.resolve_left hdl)) hq
          · have hq0 : q ≠ INVALID_NODE := by
              intro hq0
              rw [hq0, lookup_invalid nodes INVALID_NODE
                (by unfold valid_handle INVALID_NODE; omega)] at hl0
              exact hl0 rfl
            have hcv : valid_handle nodes (NODE_LOOKUP nodes q).left_child := by
              by_contra hv
              rw [lookup_invalid nodes _ hv] at h1
              rcases h1 with h1 | h1 <;> exact hq0 h1.symm
            obtain ⟨j1, j2⟩ := F.parents _ hcd
            rw [j1, j2, hold _ (hvx _ hcv)]
            exact h1
    have hlinku := linked_add_parent none n4 newchild (nodes.length : Int) (fun q => q = self)
      hv4 hcn0 hok hlink4
    rw [hu] at hlinku
    refine ⟨rfl, ?_, ?_⟩
    · intro q
      by_cases hq : q = self
      · right; left
        rw [hq, hR self, if_neg (hvx self hs), hsc, hR, if_pos rfl]
      · have hqu := hlinku q hq
        by_cases hqc : q = (nodes.length : Int)
        · unfold linked_at at hqu ⊢
          have hlc : (NODE_LOOKUP (NODE_UPDATE u (nodes.length : Int)
              (fun x => { x with left_parent := self })) q).left_child
              = (NODE_LOOKUP u q).left_child := by
            rw [hR, if_pos hqc, hqc]
          rw [hlc]
          rcases hqu with h0 | h1
          · left; exact h0
          · right
            have hcc : (NODE_LOOKUP u q).left_child ≠ (nodes.length : Int) := by
              intro hcc
              rw [hcc] at h1
              rcases h1 with h1 | h1
              · rw [hcp.1] at h1; exact hcn0 (hqc ▸ h1.symm)
              · rw [hcp.2] at h1; exact hcn0 (hqc ▸ h1.symm)
            rw [hR, if_neg hcc]
            exact h1
        · unfold linked_at at hqu ⊢
          rw [hR q, if_neg hqc]
          rcases hqu with h0 | h1
          · left; exact h0
          · right
            have hcc : (NODE_LOOKUP u q).left_child ≠ (nodes.length : Int) := by
              intro hcc
              rw [hcc] at h1
              have hq0 : q = INVALID_NODE := by
                rcases h1 with h1 | h1
                · rw [hcp.1] at h1; exact h1.symm
                · rw [hcp.2] at h1; exact h1.symm
              rw [hq0, lookup_invalid u INVALID_NODE
                (by unfold valid_handle INVALID_NODE; omega)] at hcc
              exact hcn0 hcc.symm
            rw [hR, if_neg hcc]
            exact h1
    · rw [length_update]
      rw [F.length, hlen0] at hlenu
      omega

/-- With unbounded memory the write-after-read loop succeeds on readers that
are handles of the arena other than `selfNode`, and keeps every left child
listing its parent. -/
theorem linked_war_loop (selfNode leftDep rightDep : Int) (readers : List Int) :
    ∀ nodes : List bh_graph_node, left_linked nodes → valid_handle nodes selfNode →
      (∀ v ∈ readers, valid_handle nodes v ∧ v ≠ selfNode) →
      (parse_war_loop none selfNode leftDep rightDep nodes readers).1 = BH_SUCCESS
      ∧ left_linked (parse_war_loop none selfNode leftDep rightDep nodes readers).2
      ∧ nodes.length ≤ (parse_war_loop none selfNode leftDep rightDep nodes readers).2.length := by
  induction readers with
  | nil =>
    intro nodes hL _ _
    rw [parse_war_loop]
    exact ⟨rfl, hL, le_refl _⟩
  | cons r rest ih =>
    intro nodes hL hs hr
    rw [parse_war_loop]
    by_cases c : r ≠ leftDep ∧ r ≠ rightDep
    · rw [if_pos c]
      dsimp only
      obtain ⟨k1, k2, k3⟩ := linked_add_child nodes r selfNode hL
        (hr r (List.mem_cons_self _ _)).1 hs (hr r (List.mem_cons_self _ _)).2
      rw [if_neg (not_not.2 k1)]
      obtain ⟨j1, j2, j3⟩ := ih _ k2 (valid_mono _ _ k3 _ hs)
        (fun v hv => ⟨valid_mono _ _ k3 _ (hr v (List.mem_cons_of_mem _ hv)).1,
          (hr v (List.mem_cons_of_mem _ hv)).2⟩)
      exact ⟨j1, j2, le_trans k3 j3⟩
    · rw [if_neg c]
      exact ih nodes hL hs (fun v hv => hr v (List.mem_cons_of_mem _ hv))

/-- With unbounded memory the edge part of one iteration succeeds on every
instruction that decodes, and keeps every left child listing its parent. -/
theorem parse_edges_total (T : bh_opcodes) (root : Int) (st : parse_state) (i : Int)
    (instr : bh_instruction) (hinv : build_inv root st)
    (hids : (bh_graph_getIds T instr).1 = BH_SUCCESS) :
    ∃ e, parse_edges T none st i instr = some e
      ∧ left_linked e.2.nodes ∧ st.nodes.length + 1 ≤ e.2.nodes.length := by
  unfold parse_edges
  lift_lets
  intro ids selfId leftId rightId r selfNode a1 writemap leftDep rightDep a2
    readmap1 readmap2 readmap3 a3 a4
  rw [if_neg (not_not.2 hids)]
  have hr : r = ((st.nodes.length : Int), st.nodes ++ [⟨BH_INSTRUCTION, i, INVALID_NODE,
      INVALID_NODE, INVALID_NODE, INVALID_NODE⟩]) := by
    show bh_graph_new_node none st.nodes BH_INSTRUCTION i = _
    unfold bh_graph_new_node bh_dynamic_list_append
    simp only
    rw [if_neg (by omega)]
  have hself : selfNode = (st.nodes.length : Int) := congrArg Prod.fst hr
  have hbase : r.2 = st.nodes ++ [⟨BH_INSTRUCTION, i, INVALID_NODE,
      INVALID_NODE, INVALID_NODE, INVALID_NODE⟩] := congrArg Prod.snd hr
  rw [if_neg (by rw [hself]; unfold INVALID_NODE; omega)]
  have hlen0 : r.2.length = st.nodes.length + 1 := by
    rw [hbase, List.length_append]; rfl
  -- the arena after the allocation is linked: the new node has no child
  have hL0 : left_linked r.2 := by
    intro q
    rw [hbase]
    by_cases hq : q = (st.nodes.length : Int)
    · left
      rw [hq, lookup_append_new]
    · unfold linked_at
      rw [lookup_append_old _ _ q hq]
      by_cases hl0 : (NODE_LOOKUP st.nodes q).left_child = INVALID_NODE
      · left; exact hl0
      · right
        have h1 := (hinv.linked q).resolve_left hl0
        have hq0 : q ≠ INVALID_NODE := by
          intro hq0
          rw [hq0, lookup_invalid st.nodes INVALID_NODE
            (by unfold valid_handle INVALID_NODE; omega)] at hl0
          exact hl0 rfl
        have hcv : valid_handle st.nodes (NODE_LOOKUP st.nodes q).left_child := by
          by_contra hv
          rw [lookup_invalid st.nodes _ hv] at h1
          rcases h1 with h1 | h1 <;> exact hq0 h1.symm
        rw [lookup_append_old _ _ _ (by unfold valid_handle at hcv; omega)]
        exact h1
  -- one edge towards the new node
  have hstep : ∀ (nodes : List bh_graph_node) (s : Int), left_linked nodes →
      st.nodes.length + 1 ≤ nodes.length → valid_handle st.nodes s →
      (bh_grap_node_add_child none nodes s selfNode).1 = BH_SUCCESS
      ∧ left_linked (bh_grap_node_add_child none nodes s selfNode).2
      ∧ st.nodes.length + 1 ≤ (bh_grap_node_add_child none nodes s selfNode).2.length := by
    intro nodes s hL hlen hs
    obtain ⟨k1, k2, k3⟩ := linked_add_child nodes s selfNode hL
      (by unfold valid_handle at hs ⊢; omega)
      (by rw [hself]; unfold valid_handle; omega)
      (by rw [hself]; unfold valid_handle at hs; omega)
    exact ⟨k1, k2, le_trans hlen k3⟩
  have hdep : ∀ b, (writemap b).getD INVALID_NODE = INVALID_NODE
      ∨ (writemap b).getD INVALID_NODE = selfNode
      ∨ valid_handle st.nodes ((writemap b).getD INVALID_NODE) := by
    intro b
    show (map_set st.writemap selfId selfNode b).getD INVALID_NODE = INVALID_NODE
      ∨ (map_set st.writemap selfId selfNode b).getD INVALID_NODE = selfNode
      ∨ valid_handle st.nodes ((map_set st.writemap selfId selfNode b).getD INVALID_NODE)
    unfold map_set
    by_cases hb : b = selfId
    · rw [if_pos hb]; right; left; rfl
    · rw [if_neg hb]
      rcases hw : st.writemap b with _ | v
      · left; rfl
      · right; right
        exact hinv.writers b v hw
  have h1 : a1.1 = BH_SUCCESS ∧ left_linked a1.2 ∧ st.nodes.length + 1 ≤ a1.2.length := by
    rcases hw : st.writemap selfId with _ | oldTarget
    · have : a1 = (BH_SUCCESS, r.2) := by simp only [a1, hw]
      rw [this]; exact ⟨rfl, hL0, le_of_eq hlen0.symm⟩
    · have : a1 = bh_grap_node_add_child none r.2 oldTarget selfNode := by simp only [a1, hw]
      rw [this]
      exact hstep r.2 oldTarget hL0 (le_of_eq hlen0.symm) (hinv.writers _ _ hw)
  rw [if_neg (not_not.2 h1.1)]
  have h2 : a2.1 = BH_SUCCESS ∧ left_linked a2.2 ∧ st.nodes.length + 1 ≤ a2.2.length := by
    rcases hrd : st.readmap selfId with _ | readers
    · have : a2 = (BH_SUCCESS, a1.2) := by simp only [a2, hrd]
      rw [this]; exact ⟨rfl, h1.2.1, h1.2.2⟩
    · have : a2 = parse_war_loop none selfNode leftDep rightDep a1.2 readers := by
        simp only [a2, hrd]
      rw [this]
      obtain ⟨k1, k2, k3⟩ := linked_war_loop selfNode leftDep rightDep readers a1.2 h1.2.1
        (by rw [hself]; unfold valid_handle; have := h1.2.2; omega)
        (fun v hv => by
          have hvv := hinv.readers _ _ hrd v hv
          have := h1.2.2
          refine ⟨?_, ?_⟩
          · unfold valid_handle at hvv ⊢; omega
          · rw [hself]; unfold valid_handle at hvv; omega)
      exact ⟨k1, k2, le_trans h1.2.2 k3⟩
  rw [if_neg (not_not.2 h2.1)]
  have h3 : a3.1 = BH_SUCCESS ∧ left_linked a3.2 ∧ st.nodes.length + 1 ≤ a3.2.length := by
    by_cases c : leftDep ≠ INVALID_NODE ∧ leftDep ≠ selfNode
    · have : a3 = bh_grap_node_add_child none a2.2 leftDep selfNode := by
        simp only [a3]; rw [if_pos c]
      rw [this]
      exact hstep a2.2 leftDep h2.2.1 h2.2.2
        (((hdep leftId).resolve_left c.1).resolve_left c.2)
    · have : a3 = (BH_SUCCESS, a2.2) := by simp only [a3]; rw [if_neg c]
      rw [this]; exact ⟨rfl, h2.2.1, h2.2.2⟩
  rw [if_neg (not_not.2 h3.1)]
  have h4 : a4.1 = BH_SUCCESS ∧ left_linked a4.2 ∧ st.nodes.length + 1 ≤ a4.2.length := by
    by_cases c : rightDep ≠ INVALID_NODE ∧ rightDep ≠ leftDep ∧ rightDep ≠ selfNode
    · have : a4 = bh_grap_node_add_child none a3.2 rightDep selfNode := by
        simp only [a4]; rw [if_pos c]
      rw [this]
      exact hstep a3.2 rightDep h3.2.1 h3.2.2
        (((hdep rightId).resolve_left c.1).resolve_left c.2.2)
    · have : a4 = (BH_SUCCESS, a3.2) := by simp only [a4]; rw [if_neg c]
      rw [this]; exact ⟨rfl, h3.2.1, h3.2.2⟩
  rw [if_neg (not_not.2 h4.1)]
  exact ⟨_, rfl, h4.2.1, h4.2.2⟩

/-- With unbounded memory one iteration of the main loop succeeds on every
instruction that decodes, and keeps `build_inv`. -/
theorem parse_instruction_total (T : bh_opcodes) (root : Int) (st : parse_state) (i : Int)
    (instr : bh_instruction) (hinv : build_inv root st)
    (hids : (bh_graph_getIds T instr).1 = BH_SUCCESS) :
    ∃ st', parse_instruction T none root st i instr = some st' ∧ build_inv root st' := by
  obtain ⟨e, he, hL, hlen⟩ := parse_edges_total T root st i instr hinv hids
  obtain ⟨-, hself, -, hw, hrd⟩ := parse_edges_spec (fun _ _ => True) (fun _ => trivial)
    (fun _ _ _ _ _ => trivial) (fun _ _ _ _ => trivial) T none st e i instr he
  rw [parse_instruction_split, he]
  change ∃ st', parse_root_attach none root e = some st' ∧ build_inv root st'
  have hroot := hinv.root_valid
  have hwv : ∀ b v, e.2.writemap b = some v → valid_handle e.2.nodes v := by
    intro b v hb
    rw [hw] at hb
    unfold map_set at hb
    split_ifs at hb with hk
    · simp only [Option.some.injEq] at hb
      rw [← hb, hself]; unfold valid_handle; omega
    · have := hinv.writers b v hb
      unfold valid_handle at this ⊢; omega
  have hrv : ∀ b l, e.2.readmap b = some l → ∀ v ∈ l, valid_handle e.2.nodes v := by
    intro b l hb v hv
    rcases hrd b l hb v hv with hx | ⟨l0, h0, hv0⟩
    · rw [hx, hself]; unfold valid_handle; omega
    · have := hinv.readers b l0 h0 v hv0
      unfold valid_handle at this ⊢; omega
  unfold parse_root_attach
  by_cases c : root_attach_test e.2.nodes e.1
  · rw [if_pos c]
    obtain ⟨k1, k2, k3⟩ := linked_add_child e.2.nodes root e.1 hL
      (by unfold valid_handle at hroot ⊢; omega)
      (by rw [hself]; unfold valid_handle; omega)
      (by rw [hself]; unfold valid_handle at hroot; omega)
    dsimp only
    rw [if_neg (not_not.2 k1)]
    refine ⟨_, rfl, k2, ?_, ?_, ?_⟩
    · unfold valid_handle at hroot ⊢; dsimp only; omega
    · intro b v hb
      exact valid_mono _ _ k3 _ (hwv b v hb)
    · intro b l hb v hv
      exact valid_mono _ _ k3 _ (hrv b l hb v hv)
  · rw [if_neg c]
    dsimp only
    rw [if_neg (by decide)]
    refine ⟨_, rfl, hL, ?_, hwv, hrv⟩
    unfold valid_handle at hroot ⊢; dsimp only; omega

/-- With unbounded memory the main loop succeeds on a list of instructions
that all decode. -/
theorem parse_loop_total (T : bh_opcodes) (root : Int) (L : List bh_instruction) :
    ∀ (st : parse_state) (i : Int), build_inv root st →
      (∀ instr ∈ L, (bh_graph_getIds T instr).1 = BH_SUCCESS) →
      ∃ st', parse_loop T none root st i L = some st' ∧ build_inv root st' := by
  induction L with
  | nil =>
    intro st i hinv _
    exact ⟨st, by rw [parse_loop], hinv⟩
  | cons instr rest ih =>
    intro st i hinv hall
    obtain ⟨st1, h1, hinv1⟩ := parse_instruction_total T root st i instr hinv
      (hall instr (List.mem_cons_self _ _))
    rw [parse_loop, h1]
    exact ih st1 (i + 1) hinv1 (fun x hx => hall x (List.mem_cons_of_mem _ hx))

/-- The main loop fails on a list that holds an instruction that does not
decode, whatever the memory bound. -/
theorem parse_loop_malformed (T : bh_opcodes) (mem : Option Nat) (root : Int)
    (L : List bh_instruction) :
    ∀ (st : parse_state) (i : Int),
      (∃ instr ∈ L, (bh_graph_getIds T instr).1 = BH_ERROR) →
      parse_loop T mem root st i L = none := by
  induction L with
  | nil =>
    intro st i h
    obtain ⟨x, hx, -⟩ := h
    cases hx
  | cons instr rest ih =>
    intro st i h
    rw [parse_loop]
    cases hp : parse_instruction T mem root st i instr with
    | none => rfl
    | some st1 =>
      dsimp only
      obtain ⟨x, hx, hbad⟩ := h
      rcases List.mem_cons.1 hx with hx | hx
      · exfalso
        rw [hx] at hbad
        unfold parse_instruction at hp
        simp only [hbad, ne_eq, reduceCtorEq, not_false_eq_true, if_true] at hp
      · exact ih st1 (i + 1) ⟨x, hx, hbad⟩

/-- For an instruction that carries its user-function record when its opcode
is `BH_USERFUNC`, the decoder fails exactly on a user function whose arity is
not `nout = 1`, `nin` one of 0, 1, 2. -/
theorem getIds_error_iff (T : bh_opcodes) (instr : bh_instruction)
    (huf : instr.opcode = T.BH_USERFUNC → instr.userfunc ≠ none) :
    (bh_graph_getIds T instr).1 = BH_ERROR ↔
      (instr.opcode = T.BH_USERFUNC ∧ ∃ uf, instr.userfunc = some uf
        ∧ (uf.nout ≠ 1 ∨ (uf.nin ≠ 0 ∧ uf.nin ≠ 1 ∧ uf.nin ≠ 2))) := by
  by_cases hop : instr.opcode = T.BH_USERFUNC
  · rcases hu : instr.userfunc with _ | uf
    · exact absurd hu (huf hop)
    · unfold bh_graph_getIds
      rw [if_neg (not_not.2 hop), hu]
      simp only
      by_cases hbad : uf.nout ≠ 1 ∨ (uf.nin ≠ 0 ∧ uf.nin ≠ 1 ∧ uf.nin ≠ 2)
      · rw [if_pos hbad]
        exact ⟨fun _ => ⟨hop, uf, rfl, hbad⟩, fun _ => rfl⟩
      · rw [if_neg hbad]
        refine ⟨fun h => (by cases h), fun h => ?_⟩
        obtain ⟨-, uf', h2, h3⟩ := h
        simp only [Option.some.injEq] at h2
        subst h2
        exact absurd h3 hbad
  · unfold bh_graph_getIds
    rw [if_pos hop]
    exact ⟨fun h => (by cases h), fun h => absurd h.1 hop⟩

/-- C30. Assuming node allocation never fails (no bound on the node arena)
and every instruction with opcode `BH_USERFUNC` carries its user-function
record (the decoder dereferences the pointer), `bh_graph_parse` on the
unbuilt IR holding the instruction list `L` returns `BH_ERROR` if and only if
`bh_graph_getIds` returns `BH_ERROR` for some instruction of `L`, which it
does exactly for a user function with `nout != 1` or `nin` none of 0, 1, 2:
since the build checks the status of every `add_child` call, no call is made
with `parent = child` ("Self appending") and none reaches "Bad graph". -/
theorem build_fails_only_on_malformed (T : bh_opcodes) (L : List bh_instruction)
    (huf : ∀ instr ∈ L, instr.opcode = T.BH_USERFUNC → instr.userfunc ≠ none) :
    ((bh_graph_parse T none (fresh_ir L)).1 = BH_ERROR
      ↔ ∃ instr ∈ L, (bh_graph_getIds T instr).1 = BH_ERROR)
    ∧ (∀ instr ∈ L, ((bh_graph_getIds T instr).1 = BH_ERROR ↔
        (instr.opcode = T.BH_USERFUNC ∧ ∃ uf, instr.userfunc = some uf
          ∧ (uf.nout ≠ 1 ∨ (uf.nin ≠ 0 ∧ uf.nin ≠ 1 ∧ uf.nin ≠ 2))))) := by
  refine ⟨?_, fun instr hi => getIds_error_iff T instr (huf instr hi)⟩
  have hinit : build_inv (0 : Int) ⟨[⟨BH_COLLECTION, INVALID_INSTRUCTION, INVALID_NODE,
      INVALID_NODE, INVALID_NODE, INVALID_NODE⟩], fun _ => none, fun _ => none⟩ := by
    refine ⟨fun q => ?_, by decide, (fun _ _ h => by cases h), (fun _ _ h => by cases h)⟩
    left
    by_cases hq : q = 0
    · rw [hq]; rfl
    · rw [lookup_invalid _ q (by unfold valid_handle; simp only [List.length_singleton]; omega)]
      rfl
  have hpar : bh_graph_parse T none (fresh_ir L)
      = match parse_loop T none 0 ⟨[⟨BH_COLLECTION, INVALID_INSTRUCTION, INVALID_NODE,
          INVALID_NODE, INVALID_NODE, INVALID_NODE⟩], fun _ => none, fun _ => none⟩ 0 L with
        | none => (BH_ERROR, bh_graph_delete_all_nodes (fresh_ir L))
        | some st => (BH_SUCCESS, { fresh_ir L with nodes := st.nodes, root := 0 }) := rfl
  rw [hpar]
  constructor
  · intro h
    by_contra hno
    have hall : ∀ instr ∈ L, (bh_graph_getIds T instr).1 = BH_SUCCESS := by
      intro x hx
      cases hg : (bh_graph_getIds T x).1 with
      | BH_SUCCESS => rfl
      | BH_ERROR => exact absurd ⟨x, hx, hg⟩ hno
    obtain ⟨st', hst, -⟩ := parse_loop_total T 0 L _ 0 hinit hall
    rw [hst] at h
    cases h
  · intro h
    rw [parse_loop_malformed T none 0 L _ 0 h]

set_option maxRecDepth 100000 in
/-- C30 on `[FILL(b1); BAD_USERFUNC]`, where the user function has two
outputs and the build fails, and on `fan_in_list`, where no instruction is a
user function and the build does not fail. -/
theorem build_fails_only_on_malformed_witness :
    ((∀ instr ∈ [FILL 1, BAD_USERFUNC],
        instr.opcode = demo_opcodes.BH_USERFUNC → instr.userfunc ≠ none)
      ∧ (bh_graph_getIds demo_opcodes BAD_USERFUNC).1 = BH_ERROR
      ∧ (bh_graph_parse demo_opcodes none (fresh_ir [FILL 1, BAD_USERFUNC])).1 = BH_ERROR)
    ∧ ((∀ instr ∈ fan_in_list,
        instr.opcode = demo_opcodes.BH_USERFUNC → instr.userfunc ≠ none)
      ∧ (bh_graph_parse demo_opcodes none (fresh_ir fan_in_list)).1 = BH_SUCCESS
      ∧ ¬ ∃ instr ∈ fan_in_list, (bh_graph_getIds demo_opcodes instr).1 = BH_ERROR) :=
  ⟨⟨by decide, by decide,
    (build_fails_only_on_malformed demo_opcodes [FILL 1, BAD_USERFUNC] (by decide)).1.2
      ⟨BAD_USERFUNC, by decide, by decide⟩⟩,
    by decide, by decide,
    fun h => absurd
      ((build_fails_only_on_malformed demo_opcodes fan_in_list (by decide)).1.2 h)
      (by decide)⟩

/-- A node arena with room for one more node grows. -/
theorem new_node_room (mem : Option Nat) (nodes : List bh_graph_node) (t : bh_node_type)
    (i : Int) (hmem : ∀ c, mem = some c → nodes.length + 1 ≤ c) :
    bh_graph_new_node mem nodes t i = ((nodes.length : Int),
      nodes ++ [⟨t, i, INVALID_NODE, INVALID_NODE, INVALID_NODE, INVALID_NODE⟩]) := by
  rcases new_node_cases mem nodes t i with e | e
  · exfalso
    cases mem with
    | none =>
      have : (bh_graph_new_node none nodes t i).1 = (nodes.length : Int) := by
        unfold bh_graph_new_node bh_dynamic_list_append
        simp only
        rw [if_neg (by omega)]
      rw [e] at this
      unfold INVALID_NODE at this
      simp only at this
      omega
    | some c =>
      rw [new_node_ok c nodes t i (hmem c rfl)] at e
      have := congrArg Prod.fst e
      unfold INVALID_NODE at this
      simp only at this
      omega
  · exact e

/-- With room for one more node `bh_grap_node_add_parent` succeeds. -/
theorem add_parent_room_ok (mem : Option Nat) (nodes : List bh_graph_node)
    (self newparent : Int) (hmem : ∀ c, mem = some c → nodes.length + 1 ≤ c) :
    (bh_grap_node_add_parent mem nodes self newparent).1 = BH_SUCCESS := by
  rcases add_parent_cases mem nodes self newparent with
    ⟨-, e⟩ | ⟨-, -, e⟩ | ⟨-, -, -, e⟩ | ⟨-, -, -, hn, -⟩ | ⟨-, -, -, -, -, -, e⟩
  · rw [e]
  · rw [e]
  · rw [e]
  · exfalso
    rw [new_node_room mem nodes _ _ hmem] at hn
    have := congrArg Prod.fst hn
    unfold INVALID_NODE at this
    simp only at this
    omega
  · rw [e]

/-- The rewiring of the two parents redirects the right child slot of a
parent that holds `self` there and not in its left child slot. -/
theorem rewired_right (self cn p1 p2 x : Int) (nd : bh_graph_node)
    (hx : x = p1 ∨ x = p2) (hl : nd.left_child ≠ self) (h : nd.right_child = self) :
    (rewired self cn p1 p2 x nd).right_child = cn := by
  have e1 : (rewire_node self cn nd).right_child = cn := by
    unfold rewire_node
    rw [if_neg hl, if_pos h]
  unfold rewired
  simp only
  by_cases h1 : x = p1
  · rw [if_pos h1]
    by_cases h2 : x = p2
    · rw [if_pos h2]
      obtain ⟨-, c⟩ := rewire_node_children self cn (rewire_node self cn nd)
      rcases c with c | ⟨-, c2⟩
      · exact c.trans e1
      · exact c2
    · rw [if_neg h2]; exact e1
  · rw [if_neg h1]
    have h2 : x = p2 := hx.resolve_left h1
    rw [if_pos h2]
    exact e1

/-- The fan-in overflow redirects the right child slot of an old parent of
`self` that holds `self` in its right child slot only. -/
theorem add_parent_rewires_right (mem : Option Nat) (nodes : List bh_graph_node)
    (self newparent : Int) (hs : valid_handle nodes self) (hnp : newparent ≠ INVALID_NODE)
    (hok : (bh_grap_node_add_parent mem nodes self newparent).1 = BH_SUCCESS)
    (hf : fan_in_full nodes self newparent) (x : Int)
    (hx : x = (NODE_LOOKUP nodes self).left_parent ∨ x = (NODE_LOOKUP nodes self).right_parent)
    (hlc : (NODE_LOOKUP nodes x).left_child ≠ self)
    (hrc : (NODE_LOOKUP nodes x).right_child = self) :
    (NODE_LOOKUP (bh_grap_node_add_parent mem nodes self newparent).2 x).right_child
      = (nodes.length : Int) := by
  have hslen : self ≠ (nodes.length : Int) := by
    unfold valid_handle at hs; omega
  rcases add_parent_cases mem nodes self newparent with
    ⟨h, -⟩ | ⟨-, hl, -⟩ | ⟨-, -, hr, -⟩ | ⟨-, -, -, -, e⟩ | ⟨-, hl, hr, hl2, hr2, -, e⟩
  · rcases h with h | h | h
    · exact absurd h hf.2.2.1
    · exact absurd h hf.2.2.2
    · exact absurd h hnp
  · exact absurd hl hf.1
  · exact absurd hr hf.2.1
  · rw [e] at hok
    cases hok
  · rw [e]
    dsimp only
    have hv0 : valid_handle (nodes ++ [⟨BH_COLLECTION, INVALID_INSTRUCTION, INVALID_NODE,
        INVALID_NODE, INVALID_NODE, INVALID_NODE⟩]) self :=
      (valid_append nodes _ self).2 (Or.inl hs)
    have hc0 : valid_handle (nodes ++ [⟨BH_COLLECTION, INVALID_INSTRUCTION, INVALID_NODE,
        INVALID_NODE, INVALID_NODE, INVALID_NODE⟩]) (nodes.length : Int) :=
      (valid_append nodes _ _).2 (Or.inr rfl)
    have hnew : NODE_LOOKUP (nodes ++ [⟨BH_COLLECTION, INVALID_INSTRUCTION, INVALID_NODE,
        INVALID_NODE, INVALID_NODE, INVALID_NODE⟩]) (nodes.length : Int)
        = ⟨BH_COLLECTION, INVALID_INSTRUCTION, INVALID_NODE, INVALID_NODE, INVALID_NODE,
          INVALID_NODE⟩ := lookup_append_new nodes _
    have hold : ∀ y, y ≠ (nodes.length : Int) →
        NODE_LOOKUP (nodes ++ [⟨BH_COLLECTION, INVALID_INSTRUCTION, INVALID_NODE,
        INVALID_NODE, INVALID_NODE, INVALID_NODE⟩]) y = NODE_LOOKUP nodes y :=
      fun y hy => lookup_append_old nodes _ y hy
    have hU := fun x => add_parent_overflow_lookup _ self newparent (nodes.length : Int)
      hv0 hc0 hslen (by rw [hnew]) (by rw [hnew]) x
    simp only [hnew, hold self hslen] at hU
    have hxv : valid_handle nodes x := by
      by_contra hv
      rw [lookup_invalid nodes x hv] at hrc
      unfold valid_handle at hs
      have : (default : bh_graph_node).right_child = INVALID_NODE := rfl
      rw [this] at hrc
      unfold INVALID_NODE at hrc
      omega
    have hxl : x ≠ (nodes.length : Int) := by
      unfold valid_handle at hxv; omega
    have hc := rewired_right self (nodes.length : Int)
      (NODE_LOOKUP nodes self).left_parent (NODE_LOOKUP nodes self).right_parent x
      (NODE_LOOKUP nodes x) hx hlc hrc
    rw [hU, if_neg hxl, hold x hxl]
    split_ifs
    · exact hc
    · exact hc

/-- C24, amended. Fan-out overflow of `bh_grap_node_add_child(parent, child)`
on arena handles: in every arena in which `parent != child`, both child slots
of `parent` are taken, its left child `d` lists `parent` in one of its parent
slots, and the arena can take two more nodes, the call returns `BH_SUCCESS`
with an arena `u` in which the node at the next handle `cn = nodes.length` is
a `BH_COLLECTION` node with `left_child = d`, `right_child = child`,
`left_parent = parent` and no right parent, `parent.left_child = cn`, the
parent slot of `d` that held `parent` (the left one being tested first) holds
`cn` and its other slot is as before, and `child` lists `cn`. The nested
`add_parent(child, cn)` creates a second node exactly when `child` is not `d`
and both parent slots of `child` are taken; `parent.right_child` is as before
unless it held `child` and `parent` was one of the two parents taken over by
that second node, in which case it holds the second node. -/
theorem fan_out_overflow_effect (mem : Option Nat) (nodes : List bh_graph_node)
    (parent child d : Int) (hne : parent ≠ child)
    (hd : (NODE_LOOKUP nodes parent).left_child = d) (hd0 : d ≠ INVALID_NODE)
    (hr : (NODE_LOOKUP nodes parent).right_child ≠ INVALID_NODE)
    (hlist : (NODE_LOOKUP nodes d).left_parent = parent
      ∨ (NODE_LOOKUP nodes d).right_parent = parent)
    (hc : valid_handle nodes child)
    (hmem : ∀ c, mem = some c → nodes.length + 2 ≤ c) :
    ∃ u, bh_grap_node_add_child mem nodes parent child = (BH_SUCCESS, u)
      ∧ ((child ≠ d ∧ fan_in_full nodes child (nodes.length : Int)) →
          u.length = nodes.length + 2)
      ∧ (¬ (child ≠ d ∧ fan_in_full nodes child (nodes.length : Int)) →
          u.length = nodes.length + 1)
      ∧ NODE_LOOKUP u (nodes.length : Int)
          = ⟨BH_COLLECTION, INVALID_INSTRUCTION, d, child, parent, INVALID_NODE⟩
      ∧ (NODE_LOOKUP u parent).left_child = (nodes.length : Int)
      ∧ ((child ≠ d ∧ fan_in_full nodes child (nodes.length : Int)
            ∧ (NODE_LOOKUP nodes parent).right_child = child
            ∧ (parent = (NODE_LOOKUP nodes child).left_parent
                ∨ parent = (NODE_LOOKUP nodes child).right_parent)) →
          (NODE_LOOKUP u parent).right_child = (nodes.length : Int) + 1)
      ∧ (¬ (child ≠ d ∧ fan_in_full nodes child (nodes.length : Int)
            ∧ (NODE_LOOKUP nodes parent).right_child = child
            ∧ (parent = (NODE_LOOKUP nodes child).left_parent
                ∨ parent = (NODE_LOOKUP nodes child).right_parent)) →
          (NODE_LOOKUP u parent).right_child = (NODE_LOOKUP nodes parent).right_child)
      ∧ ((NODE_LOOKUP nodes d).left_parent = parent →
          (NODE_LOOKUP u d).left_parent = (nodes.length : Int)
          ∧ (NODE_LOOKUP u d).right_parent = (NODE_LOOKUP nodes d).right_parent)
      ∧ ((NODE_LOOKUP nodes d).left_parent ≠ parent →
          (NODE_LOOKUP u d).left_parent = (NODE_LOOKUP nodes d).left_parent
          ∧ (NODE_LOOKUP u d).right_parent = (nodes.length : Int))
      ∧ ((NODE_LOOKUP u child).left_parent = (nodes.length : Int)
          ∨ (NODE_LOOKUP u child).right_parent = (nodes.length : Int)) := by
  have hl : (NODE_LOOKUP nodes parent).left_child ≠ INVALID_NODE := by rw [hd]; exact hd0
  have hs : valid_handle nodes parent := valid_of_left_child nodes parent hl
  have hs0 : parent ≠ INVALID_NODE := by
    unfold valid_handle at hs; unfold INVALID_NODE; omega
  have hdv : valid_handle nodes d := by
    by_contra hv
    rw [lookup_invalid nodes _ hv] at hlist
    rcases hlist with h1 | h1 <;> exact hs0 h1.symm
  have hroom : ∀ c, mem = some c → nodes.length + 1 ≤ c := fun c hc => by
    have := hmem c hc; omega
  rcases add_child_cases mem nodes parent child with
    ⟨h, -⟩ | ⟨-, h, -⟩ | ⟨-, -, h, -⟩ | ⟨-, -, -, hn, -⟩ | ⟨-, -, -, -, e⟩
  · exact absurd h hne
  · exact absurd h hl
  · exact absurd h hr
  · exfalso
    rw [new_node_room mem nodes _ _ hroom] at hn
    have := congrArg Prod.fst hn
    unfold INVALID_NODE at this
    simp only at this
    omega
  rw [e]
  -- the arena right after the allocation of the collection node
  generalize hn0 : nodes ++ [(⟨BH_COLLECTION, INVALID_INSTRUCTION, INVALID_NODE,
    INVALID_NODE, INVALID_NODE, INVALID_NODE⟩ : bh_graph_node)] = n0
  have hlen0 : n0.length = nodes.length + 1 := by
    rw [← hn0, List.length_append]; rfl
  have hnew : NODE_LOOKUP n0 (nodes.length : Int)
      = ⟨BH_COLLECTION, INVALID_INSTRUCTION, INVALID_NODE, INVALID_NODE, INVALID_NODE,
        INVALID_NODE⟩ := by rw [← hn0]; exact lookup_append_new nodes _
  have hold : ∀ y, y ≠ (nodes.length : Int) → NODE_LOOKUP n0 y = NODE_LOOKUP nodes y := by
    intro y hy; rw [← hn0]; exact lookup_append_old nodes _ y hy
  have hvx : ∀ x, valid_handle nodes x → x ≠ (nodes.length : Int) := by
    intro x hx; unfold valid_handle at hx; omega
  have hv0 : ∀ x, valid_handle nodes x → valid_handle n0 x := by
    intro x hx; unfold valid_handle at hx ⊢; rw [hlen0]; push_cast; omega
  have hc0 : valid_handle n0 (nodes.length : Int) := by
    unfold valid_handle; rw [hlen0]; push_cast; omega
  have hd0' : (NODE_LOOKUP n0 parent).left_child = d := by
    rw [hold parent (hvx parent hs)]; exact hd
  have hlist0 : (NODE_LOOKUP n0 d).left_parent = parent
      ∨ (NODE_LOOKUP n0 d).right_parent = parent := by
    rw [hold d (hvx d hdv)]; exact hlist
  obtain ⟨n4, F, e4⟩ := add_child_overflow_prepare mem n0 parent child (nodes.length : Int) d
    (hv0 parent hs) hc0 (hvx parent hs) hd0' (hv0 d hdv) (hvx d hdv) hlist0
  have hcn0 : ((nodes.length : Int)) ≠ INVALID_NODE := by unfold INVALID_NODE; omega
  have hv4 : valid_handle n4 child := by
    have := hv0 child hc
    unfold valid_handle at this ⊢; rw [F.length]; exact this
  have hok : (bh_grap_node_add_parent mem n4 child (nodes.length : Int)).1 = BH_SUCCESS :=
    add_parent_room_ok mem n4 child _ (fun c hc => by
      have := hmem c hc
      rw [F.length, hlen0]; omega)
  have A := add_parent_effect mem n4 child (nodes.length : Int) hv4 hcn0 hok
  have Rr := add_parent_rewires_right mem n4 child (nodes.length : Int) hv4 hcn0 hok
  -- the nested call does nothing when `child` is the displaced child
  have hsame : child = d → (bh_grap_node_add_parent mem n4 child (nodes.length : Int)).2 = n4 := by
    intro hcd
    have hl4 : (NODE_LOOKUP n4 child).left_parent = (nodes.length : Int)
        ∨ (NODE_LOOKUP n4 child).right_parent = (nodes.length : Int)
        ∨ (nodes.length : Int) = INVALID_NODE := by
      rw [hcd]
      by_cases hdl : (NODE_LOOKUP n0 d).left_parent = parent
      · left; exact (F.displaced_left hdl).1
      · right; left; exact (F.displaced_right hdl).2
    unfold bh_grap_node_add_parent
    rw [if_pos hl4]
  rw [e4, if_neg (not_not.2 hok)]
  generalize hw : (bh_grap_node_add_parent mem n4 child (nodes.length : Int)).2 = w
    at A Rr hsame
  have hlenw : n4.length ≤ w.length := parent_added_length _ _ _ _ A
  have hvw : valid_handle w (nodes.length : Int) := by
    unfold valid_handle; rw [F.length, hlen0] at hlenw; omega
  have hR : ∀ x, NODE_LOOKUP (NODE_UPDATE w (nodes.length : Int)
      (fun x => { x with left_parent := parent })) x
      = if x = (nodes.length : Int) then
          ⟨(NODE_LOOKUP w (nodes.length : Int)).type, (NODE_LOOKUP w (nodes.length : Int)).instruction,
           (NODE_LOOKUP w (nodes.length : Int)).left_child,
           (NODE_LOOKUP w (nodes.length : Int)).right_child, parent,
           (NODE_LOOKUP w (nodes.length : Int)).right_parent⟩
        else NODE_LOOKUP w x := fun x => lookup_update w _ _ x hvw
  have hv4c : valid_handle n4 (nodes.length : Int) := by
    unfold valid_handle at hc0 ⊢; rw [F.length]; exact hc0
  have hv4s : valid_handle n4 parent := by
    have := hv0 parent hs
    unfold valid_handle at this ⊢; rw [F.length]; exact this
  have hv4d : valid_handle n4 d := by
    have := hv0 d hdv
    unfold valid_handle at this ⊢; rw [F.length]; exact this
  -- the nested call creates a node exactly when `child` is not `d` and is full
  have hff : fan_in_full n4 child (nodes.length : Int)
      ↔ (child ≠ d ∧ fan_in_full nodes child (nodes.length : Int)) := by
    constructor
    · intro hf
      have hcd : child ≠ d := by
        intro hcd
        rw [hcd] at hf
        by_cases hdl : (NODE_LOOKUP n0 d).left_parent = parent
        · exact hf.2.2.1 (F.displaced_left hdl).1
        · exact hf.2.2.2 (F.displaced_right hdl).2
      refine ⟨hcd, ?_⟩
      obtain ⟨j1, j2⟩ := F.parents child hcd
      unfold fan_in_full at hf ⊢
      rw [j1, j2, hold child (hvx child hc)] at hf
      exact hf
    · rintro ⟨hcd, hf⟩
      obtain ⟨j1, j2⟩ := F.parents child hcd
      unfold fan_in_full at hf ⊢
      rw [j1, j2, hold child (hvx child hc)]
      exact hf
  have hpar4 : child ≠ d →
      (NODE_LOOKUP n4 child).left_parent = (NODE_LOOKUP nodes child).left_parent
      ∧ (NODE_LOOKUP n4 child).right_parent = (NODE_LOOKUP nodes child).right_parent := by
    intro hcd
    obtain ⟨j1, j2⟩ := F.parents child hcd
    rw [j1, j2, hold child (hvx child hc)]
    exact ⟨rfl, rfl⟩
  have hwl : (NODE_LOOKUP w (nodes.length : Int)).left_child = d := by
    rcases A.left_child _ hv4c with h | ⟨hf, -, -, h⟩
    · rw [h, F.new_node]
    · rcases h with h | h
      · exact absurd h.symm hf.2.2.1
      · exact absurd h.symm hf.2.2.2
  have hwr : (NODE_LOOKUP w (nodes.length : Int)).right_child = child := by
    rcases A.right_child _ hv4c with h | ⟨hf, -, -, h⟩
    · rw [h, F.new_node]
    · rcases h with h | h
      · exact absurd h.symm hf.2.2.1
      · exact absurd h.symm hf.2.2.2
  have hwk := A.kind _ hv4c
  rw [(F.kind _).1, (F.kind _).2, hnew] at hwk
  have hwp := A.parents (nodes.length : Int) (fun h => hvx child hc h.symm) hv4c
  rw [(F.parents _ (fun h => hvx d hdv h.symm)).2, hnew] at hwp
  refine ⟨_, rfl, ?_, ?_, ?_, ?_, ?_, ?_, ?_, ?_, ?_⟩
  · intro hcond
    rw [length_update, (A.new_node (hff.2 hcond)).1, F.length, hlen0]
  · intro hcond
    rw [length_update, (A.no_node (fun hf => hcond (hff.1 hf))).1, F.length, hlen0]
  · rw [hR, if_pos rfl, hwl, hwr, hwk.1, hwk.2, hwp.2]
  · rw [hR, if_neg (hvx parent hs)]
    rcases A.left_child parent hv4s with h | ⟨-, h, -⟩
    · rw [h]; exact F.parent_children.1
    · rw [F.parent_children.1] at h
      exact absurd h.symm (hvx child hc)
  · rintro ⟨hcd, hf, hrc, hp⟩
    rw [hR, if_neg (hvx parent hs)]
    have := Rr (hff.2 ⟨hcd, hf⟩) parent
      (by rw [(hpar4 hcd).1, (hpar4 hcd).2]; exact hp)
      (by rw [F.parent_children.1]; exact fun h => hvx child hc h.symm)
      (by rw [F.parent_children.2, hold parent (hvx parent hs)]; exact hrc)
    rw [this, F.length, hlen0]
    push_cast
    rfl
  · intro hcond
    rw [hR, if_neg (hvx parent hs)]
    rcases A.right_child parent hv4s with h | ⟨hf, h1, -, h2⟩
    · rw [h, F.parent_children.2, hold parent (hvx parent hs)]
    · exfalso
      obtain ⟨hcd, hf'⟩ := hff.1 hf
      rw [F.parent_children.2, hold parent (hvx parent hs)] at h1
      rw [(hpar4 hcd).1, (hpar4 hcd).2] at h2
      exact hcond ⟨hcd, hf', h1, h2⟩
  · intro hdl
    rw [hR, if_neg (hvx d hdv)]
    have hdl0 : (NODE_LOOKUP n0 d).left_parent = parent := by
      rw [hold d (hvx d hdv)]; exact hdl
    by_cases hcd : child = d
    · rw [hsame hcd, (F.displaced_left hdl0).1, (F.displaced_left hdl0).2, hold d (hvx d hdv)]
      exact ⟨rfl, rfl⟩
    · obtain ⟨k1, k2⟩ := A.parents d (fun h => hcd h.symm) hv4d
      rw [k1, k2, (F.displaced_left hdl0).1, (F.displaced_left hdl0).2, hold d (hvx d hdv)]
      exact ⟨rfl, rfl⟩
  · intro hdl
    rw [hR, if_neg (hvx d hdv)]
    have hdl0 : (NODE_LOOKUP n0 d).left_parent ≠ parent := by
      rw [hold d (hvx d hdv)]; exact hdl
    by_cases hcd : child = d
    · rw [hsame hcd, (F.displaced_right hdl0).1, (F.displaced_right hdl0).2, hold d (hvx d hdv)]
      exact ⟨rfl, rfl⟩
    · obtain ⟨k1, k2⟩ := A.parents d (fun h => hcd h.symm) hv4d
      rw [k1, k2, (F.displaced_right hdl0).1, (F.displaced_right hdl0).2, hold d (hvx d hdv)]
      exact ⟨rfl, rfl⟩
  · rw [hR, if_neg (hvx child hc)]
    exact A.lists

/-- C24, amended, on `fan_out_plain_state` with `parent = 0`, `child = 3`: the
displaced child is node 1, the collection node is node 4. -/
theorem fan_out_overflow_effect_witness :
    ∃ u, bh_grap_node_add_child none fan_out_plain_state 0 3 = (BH_SUCCESS, u)
      ∧ (((3 : Int) ≠ 1 ∧ fan_in_full fan_out_plain_state 3 (fan_out_plain_state.length : Int)) →
          u.length = fan_out_plain_state.length + 2)
      ∧ (¬ ((3 : Int) ≠ 1 ∧ fan_in_full fan_out_plain_state 3 (fan_out_plain_state.length : Int)) →
          u.length = fan_out_plain_state.length + 1)
      ∧ NODE_LOOKUP u (fan_out_plain_state.length : Int)
          = ⟨BH_COLLECTION, INVALID_INSTRUCTION, 1, 3, 0, INVALID_NODE⟩
      ∧ (NODE_LOOKUP u 0).left_child = (fan_out_plain_state.length : Int)
      ∧ (((3 : Int) ≠ 1 ∧ fan_in_full fan_out_plain_state 3 (fan_out_plain_state.length : Int)
            ∧ (NODE_LOOKUP fan_out_plain_state 0).right_child = 3
            ∧ (0 = (NODE_LOOKUP fan_out_plain_state 3).left_parent
                ∨ 0 = (NODE_LOOKUP fan_out_plain_state 3).right_parent)) →
          (NODE_LOOKUP u 0).right_child = (fan_out_plain_state.length : Int) + 1)
      ∧ (¬ ((3 : Int) ≠ 1 ∧ fan_in_full fan_out_plain_state 3 (fan_out_plain_state.length : Int)
            ∧ (NODE_LOOKUP fan_out_plain_state 0).right_child = 3
            ∧ (0 = (NODE_LOOKUP fan_out_plain_state 3).left_parent
                ∨ 0 = (NODE_LOOKUP fan_out_plain_state 3).right_parent)) →
          (NODE_LOOKUP u 0).right_child = (NODE_LOOKUP fan_out_plain_state 0).right_child)
      ∧ ((NODE_LOOKUP fan_out_plain_state 1).left_parent = 0 →
          (NODE_LOOKUP u 1).left_parent = (fan_out_plain_state.length : Int)
          ∧ (NODE_LOOKUP u 1).right_parent = (NODE_LOOKUP fan_out_plain_state 1).right_parent)
      ∧ ((NODE_LOOKUP fan_out_plain_state 1).left_parent ≠ 0 →
          (NODE_LOOKUP u 1).left_parent = (NODE_LOOKUP fan_out_plain_state 1).left_parent
          ∧ (NODE_LOOKUP u 1).right_parent = (fan_out_plain_state.length : Int))
      ∧ ((NODE_LOOKUP u 3).left_parent = (fan_out_plain_state.length : Int)
          ∨ (NODE_LOOKUP u 3).right_parent = (fan_out_plain_state.length : Int)) :=
  fan_out_overflow_effect none fan_out_plain_state 0 3 1 (by decide) (by decide) (by decide)
    (by decide) (by decide) (by decide) (fun c h => by cases h)

/-- C24, counterexample. On `fan_out_demo_state` node 0
has the children 1 and 2 and node 1 lists node 0, so `add_child(0, 2)` is a
fan-out overflow; it succeeds, but `right_child` of node 0 goes from 2 to 5:
node 2 already had the two parents 0 and 3, the nested `add_parent(2, 4)`
creates the collection node 5 and redirects the child slot of node 0 that
held node 2. With an arena that cannot grow the same call returns
`BH_ERROR`. -/
theorem fan_out_overflow_moves_right_child :
    (0 : Int) ≠ 2
    ∧ (NODE_LOOKUP fan_out_demo_state 0).left_child = 1
    ∧ (NODE_LOOKUP fan_out_demo_state 0).right_child = 2
    ∧ (NODE_LOOKUP fan_out_demo_state 1).left_parent = 0
    ∧ (bh_grap_node_add_child none fan_out_demo_state 0 2).1 = BH_SUCCESS
    ∧ (NODE_LOOKUP (bh_grap_node_add_child none fan_out_demo_state 0 2).2 0).right_child = 5
    ∧ (bh_grap_node_add_child (some 4) fan_out_demo_state 0 2).1 = BH_ERROR := by
  decide

set_option maxRecDepth 100000 in
/-- C25, failing run. In `fan_in_state` node 5 has the two parents 3 and 1,
both different from the valid handle 2, and node 3 holds node 5 in both child
slots. `bh_grap_node_add_parent(5, 2)` creates the collection node 6 with the
parents 3 and 1 and the left child 5 and gives node 5 the parents 6 and 2,
but of the two child slots of node 3 it redirects the left one only:
`right_child` of node 3 still equals 5 after the call. The arena after the
call is the one the build of `fan_in_list` ends with. -/
theorem fan_in_rewire_leaves_stale_slot :
    (NODE_LOOKUP fan_in_state 5).left_parent = 3
    ∧ (NODE_LOOKUP fan_in_state 5).right_parent = 1
    ∧ valid_handle fan_in_state 2
    ∧ (NODE_LOOKUP fan_in_state 3).left_child = 5
    ∧ (NODE_LOOKUP fan_in_state 3).right_child = 5
    ∧ (bh_grap_node_add_parent none fan_in_state 5 2).1 = BH_SUCCESS
    ∧ NODE_LOOKUP (bh_grap_node_add_parent none fan_in_state 5 2).2 6
        = ⟨BH_COLLECTION, INVALID_INSTRUCTION, 5, INVALID_NODE, 3, 1⟩
    ∧ (NODE_LOOKUP (bh_grap_node_add_parent none fan_in_state 5 2).2 5).left_parent = 6
    ∧ (NODE_LOOKUP (bh_grap_node_add_parent none fan_in_state 5 2).2 5).right_parent = 2
    ∧ (NODE_LOOKUP (bh_grap_node_add_parent none fan_in_state 5 2).2 3).left_child = 6
    ∧ (NODE_LOOKUP (bh_grap_node_add_parent none fan_in_state 5 2).2 3).right_child = 5
    ∧ (NODE_LOOKUP (bh_grap_node_add_parent none fan_in_state 5 2).2 1).left_child = 6
    ∧ (bh_graph_parse demo_opcodes none (fresh_ir fan_in_list)).2.nodes
        = (bh_grap_node_add_parent none fan_in_state 5 2).2 := by
  decide

/-- A successful `bh_graph_parse` of an unbuilt IR is the main loop run from
the state that holds the root node only. -/
theorem parse_fresh_loop (T : bh_opcodes) (mem : Option Nat) (L : List bh_instruction)
    (ir : bh_ir) (h : bh_graph_parse T mem (fresh_ir L) = (BH_SUCCESS, ir)) :
    ∃ st, parse_loop T mem (bh_graph_new_node mem [] BH_COLLECTION INVALID_INSTRUCTION).1
        ⟨(bh_graph_new_node mem [] BH_COLLECTION INVALID_INSTRUCTION).2,
          fun _ => none, fun _ => none⟩ 0 L = some st
      ∧ ir.nodes = st.nodes
      ∧ ir.root = (bh_graph_new_node mem [] BH_COLLECTION INVALID_INSTRUCTION).1
      ∧ ir.instructions = L := by
  unfold bh_graph_parse at h
  rw [if_neg (by simp [fresh_ir, INVALID_NODE])] at h
  simp only at h
  change (match parse_loop T mem (bh_graph_new_node mem [] BH_COLLECTION INVALID_INSTRUCTION).1
      ⟨(bh_graph_new_node mem [] BH_COLLECTION INVALID_INSTRUCTION).2,
        fun _ => none, fun _ => none⟩ 0 L with
    | none => (BH_ERROR, bh_graph_delete_all_nodes (fresh_ir L))
    | some st => (BH_SUCCESS, { fresh_ir L with nodes := st.nodes, root :=
        (bh_graph_new_node mem [] BH_COLLECTION INVALID_INSTRUCTION).1 })) = (BH_SUCCESS, ir) at h
  rcases hloop : parse_loop T mem (bh_graph_new_node mem [] BH_COLLECTION INVALID_INSTRUCTION).1
      ⟨(bh_graph_new_node mem [] BH_COLLECTION INVALID_INSTRUCTION).2,
        fun _ => none, fun _ => none⟩ 0 L with _ | st
  · rw [hloop] at h
    simp only [Prod.mk.injEq] at h
    exact absurd h.1 (by decide)
  · rw [hloop] at h
    simp only [Prod.mk.injEq, true_and] at h
    subst h
    exact ⟨st, rfl, rfl, rfl, rfl⟩

/-- Every arena a build can go through keeps the parent slots ordered. -/
theorem ordered_build_reachable (nodes : List bh_graph_node)
    (h : build_reachable nodes) : parents_ordered nodes := by
  induction h with
  | empty =>
    intro x _
    rw [lookup_invalid [] x (by unfold valid_handle; simp only [List.length_nil]; omega)]
    rfl
  | node mem nodes t i _ ih =>
    rcases new_node_cases mem nodes t i with e | e
    · rw [e]; exact ih
    · rw [e]; exact ordered_append nodes t i ih
  | child mem nodes p c _ ih => exact ordered_add_child mem nodes p c ih
  | parent mem nodes c p _ ih => exact ordered_add_parent mem nodes c p ih

/-- A successful iteration of the main loop has allocated its node. -/
theorem parse_instruction_alloc (T : bh_opcodes) (mem : Option Nat) (root : Int)
    (st st' : parse_state) (i : Int) (instr : bh_instruction)
    (h : parse_instruction T mem root st i instr = some st') :
    bh_graph_new_node mem st.nodes BH_INSTRUCTION i
      = ((st.nodes.length : Int), st.nodes ++ [⟨BH_INSTRUCTION, i, INVALID_NODE, INVALID_NODE,
          INVALID_NODE, INVALID_NODE⟩]) := by
  rcases new_node_cases mem st.nodes BH_INSTRUCTION i with e | e
  · exfalso
    rw [parse_instruction_alloc_fail T mem root st i instr ?_] at h
    · cases h
    · unfold bh_graph_new_node at e
      by_contra hc
      simp only at e
      rw [if_neg hc] at e
      have := congrArg (fun q => q.2.length) e
      simp only [List.length_append, List.length_singleton] at this
      omega
  · exact e

/-- One iteration of the main loop of `bh_graph_parse` leads from an arena a
build can go through to an arena a build can go through. -/
theorem parse_instruction_build_reachable (T : bh_opcodes) (mem : Option Nat) (root : Int)
    (st st' : parse_state) (i : Int) (instr : bh_instruction)
    (hr : build_reachable st.nodes)
    (h : parse_instruction T mem root st i instr = some st') : build_reachable st'.nodes := by
  have hR := parse_instruction_steps (fun a b => build_reachable a → build_reachable b)
    (fun _ hx => hx) (fun _ _ _ h1 h2 hx => h2 (h1 hx))
    (fun m nodes s c hx => build_reachable.child m nodes s c hx) T mem root st st' i instr h
  apply hR
  have hnew := build_reachable.node mem st.nodes BH_INSTRUCTION i hr
  rw [parse_instruction_alloc T mem root st st' i instr h] at hnew
  exact hnew

/-- The main loop of `bh_graph_parse` leads from an arena a build can go
through to an arena a build can go through. -/
theorem parse_loop_build_reachable (T : bh_opcodes) (mem : Option Nat) (root : Int)
    (L : List bh_instruction) :
    ∀ (st st' : parse_state) (i : Int), build_reachable st.nodes →
      parse_loop T mem root st i L = some st' → build_reachable st'.nodes := by
  induction L with
  | nil =>
    intro st st' i hr h
    rw [parse_loop] at h
    simp only [Option.some.injEq] at h
    rw [← h]; exact hr
  | cons instr rest ih =>
    intro st st' i hr h
    rw [parse_loop] at h
    cases hp : parse_instruction T mem root st i instr with
    | none => rw [hp] at h; cases h
    | some st1 =>
      rw [hp] at h
      exact ih st1 st' (i + 1) (parse_instruction_build_reachable T mem root st st1 i instr hr hp) h

/-- C33. Parent slots fill left first. In every node arena reachable from the
empty arena by `bh_graph_new_node`, `bh_grap_node_add_child` and
`bh_grap_node_add_parent` calls (`build_reachable`), every node with
`right_parent != INVALID_NODE` has `left_parent != INVALID_NODE`, so that the
test on `left_parent` alone, and the test of line 391, hold exactly when both
parent slots are `INVALID_NODE`. The arenas `bh_graph_parse` goes through are
of this kind: the arena between two instructions of the main loop, the arena
at the root-attachment test of an iteration, and the arena of a successful
build. -/
theorem parent_slots_fill_left_first (T : bh_opcodes) (mem : Option Nat) :
    (∀ nodes, build_reachable nodes → ∀ x,
      ((NODE_LOOKUP nodes x).right_parent ≠ INVALID_NODE →
        (NODE_LOOKUP nodes x).left_parent ≠ INVALID_NODE)
      ∧ ((NODE_LOOKUP nodes x).left_parent = INVALID_NODE
          ↔ (NODE_LOOKUP nodes x).left_parent = INVALID_NODE
            ∧ (NODE_LOOKUP nodes x).right_parent = INVALID_NODE)
      ∧ (root_attach_test nodes x
          ↔ (NODE_LOOKUP nodes x).left_parent = INVALID_NODE
            ∧ (NODE_LOOKUP nodes x).right_parent = INVALID_NODE))
    ∧ (∀ (pre : List bh_instruction) (st : parse_state),
        parse_loop T mem (bh_graph_new_node mem [] BH_COLLECTION INVALID_INSTRUCTION).1
          ⟨(bh_graph_new_node mem [] BH_COLLECTION INVALID_INSTRUCTION).2,
            fun _ => none, fun _ => none⟩ 0 pre = some st →
        build_reachable st.nodes
        ∧ ∀ (instr : bh_instruction) (e : Int × parse_state),
            parse_edges T mem st (pre.length : Int) instr = some e →
            build_reachable e.2.nodes)
    ∧ (∀ (L : List bh_instruction) (ir : bh_ir),
        bh_graph_parse T mem (fresh_ir L) = (BH_SUCCESS, ir) → build_reachable ir.nodes) := by
  have hroot : build_reachable (bh_graph_new_node mem [] BH_COLLECTION INVALID_INSTRUCTION).2 :=
    build_reachable.node mem [] _ _ build_reachable.empty
  refine ⟨fun nodes h x => ?_, fun pre st hst => ?_, fun L ir h => ?_⟩
  · have hord := ordered_build_reachable nodes h x
    refine ⟨fun hr hl => hr (hord hl), ⟨fun hl => ⟨hl, hord hl⟩, fun hl => hl.1⟩, ?_⟩
    unfold root_attach_test
    constructor
    · intro ht; exact ⟨ht.1, hord ht.1⟩
    · intro ht
      refine ⟨ht.1, ?_⟩
      rw [ht.2]; decide
  · have hst' := parse_loop_build_reachable T mem _ pre _ st 0 hroot hst
    refine ⟨hst', fun instr e he => ?_⟩
    obtain ⟨-, -, hR, -⟩ := parse_edges_spec (fun a b => build_reachable a → build_reachable b)
      (fun _ hx => hx) (fun _ _ _ h1 h2 hx => h2 (h1 hx))
      (fun m nodes s c hx => build_reachable.child m nodes s c hx) T mem st e _ instr he
    apply hR
    have hnew := build_reachable.node mem st.nodes BH_INSTRUCTION (pre.length : Int) hst'
    rcases new_node_cases mem st.nodes BH_INSTRUCTION (pre.length : Int) with e0 | e0
    · exfalso
      unfold parse_edges at he
      simp only [e0] at he
      split_ifs at he
    · rw [e0] at hnew; exact hnew
  · obtain ⟨st, hst, hn, -, -⟩ := parse_fresh_loop T mem L ir h
    rw [hn]
    exact parse_loop_build_reachable T mem _ L _ st 0 hroot hst

set_option maxRecDepth 100000 in
/-- C33 on the arena built from `fan_in_list`: node 5 has the right parent 2
and a left parent. -/
theorem parent_slots_fill_left_first_witness :
    build_reachable (bh_graph_parse demo_opcodes none (fresh_ir fan_in_list)).2.nodes
    ∧ (NODE_LOOKUP (bh_graph_parse demo_opcodes none (fresh_ir fan_in_list)).2.nodes 5).right_parent
        = 2
    ∧ (NODE_LOOKUP (bh_graph_parse demo_opcodes none (fresh_ir fan_in_list)).2.nodes 5).left_parent
        ≠ INVALID_NODE :=
  ⟨(parent_slots_fill_left_first demo_opcodes none).2.2 fan_in_list _ (by decide :
      bh_graph_parse demo_opcodes none (fresh_ir fan_in_list)
        = (BH_SUCCESS, (bh_graph_parse demo_opcodes none (fresh_ir fan_in_list)).2)),
    by decide,
    ((parent_slots_fill_left_first demo_opcodes none).1 _
      ((parent_slots_fill_left_first demo_opcodes none).2.2 fan_in_list _ (by decide :
        bh_graph_parse demo_opcodes none (fresh_ir fan_in_list)
          = (BH_SUCCESS, (bh_graph_parse demo_opcodes none (fresh_ir fan_in_list)).2))) 5).1
      (by decide)⟩

/-- The base of an operand slot is one of the bases of the operand array. -/
theorem basearray_mem (operands : List bh_view) (k : Nat) (a : Nat)
    (h : bh_get_basearray operands k = some a) :
    a ∈ operands.filterMap (fun v => v.base) := by
  unfold bh_get_basearray at h
  rw [List.getD_eq_getElem?_getD] at h
  rw [List.mem_filterMap]
  cases hk : operands[k]? with
  | none =>
    rw [hk] at h
    cases h
  | some v =>
    rw [hk] at h
    exact ⟨v, List.getElem?_mem hk, h⟩

/-- Renaming commutes with reading the base of an operand slot. -/
theorem basearray_rename (ρ : Nat → Nat) (operands : List bh_view) (k : Nat) :
    bh_get_basearray (operands.map (rename_view ρ)) k = (bh_get_basearray operands k).map ρ := by
  unfold bh_get_basearray
  rw [List.getD_eq_getElem?_getD, List.getD_eq_getElem?_getD, List.getElem?_map]
  cases operands[k]? with
  | none => rfl
  | some v => rfl

/-- Renaming commutes with `bh_graph_getIds`: same status and operand count,
renamed bases. -/
theorem getIds_rename (T : bh_opcodes) (ρ : Nat → Nat) (instr : bh_instruction) :
    (bh_graph_getIds T (rename_instruction ρ instr)).1 = (bh_graph_getIds T instr).1
    ∧ (bh_graph_getIds T (rename_instruction ρ instr)).2.selfId
        = (bh_graph_getIds T instr).2.selfId.map ρ
    ∧ (bh_graph_getIds T (rename_instruction ρ instr)).2.leftId
        = (bh_graph_getIds T instr).2.leftId.map ρ
    ∧ (bh_graph_getIds T (rename_instruction ρ instr)).2.rightId
        = (bh_graph_getIds T instr).2.rightId.map ρ := by
  unfold bh_graph_getIds rename_instruction
  by_cases h : instr.opcode ≠ T.BH_USERFUNC
  · refine ⟨?_, ?_, ?_, ?_⟩ <;> simp only [if_pos h, basearray_rename] <;> split_ifs <;> rfl
  · cases instr.userfunc with
    | none => refine ⟨?_, ?_, ?_, ?_⟩ <;> simp only [if_neg h, Option.map_none']
    | some uf =>
      by_cases h2 : uf.nout ≠ 1 ∨ (uf.nin ≠ 0 ∧ uf.nin ≠ 1 ∧ uf.nin ≠ 2)
      · refine ⟨?_, ?_, ?_, ?_⟩ <;> simp only [if_neg h, Option.map_some', if_pos h2] <;> rfl
      · refine ⟨?_, ?_, ?_, ?_⟩ <;>
          simp only [if_neg h, Option.map_some', if_neg h2, basearray_rename] <;>
          split_ifs <;> rfl

/-- The bases `bh_graph_getIds` returns are bases of the instruction. -/
theorem getIds_keys (T : bh_opcodes) (instr : bh_instruction) (S : Nat → Prop)
    (hS : ∀ a ∈ instruction_bases instr, S a) :
    key_in S (bh_graph_getIds T instr).2.selfId
    ∧ key_in S (bh_graph_getIds T instr).2.leftId
    ∧ key_in S (bh_graph_getIds T instr).2.rightId := by
  have hop : ∀ k a, bh_get_basearray instr.operand k = some a → S a := by
    intro k a h
    apply hS
    unfold instruction_bases
    exact List.mem_append_left _ (basearray_mem _ k a h)
  unfold bh_graph_getIds
  by_cases h : instr.opcode ≠ T.BH_USERFUNC
  · rw [if_pos h]
    refine ⟨fun a ha => hop 0 a ha, fun a ha => ?_, fun a ha => ?_⟩
    · dsimp only at ha
      split_ifs at ha
      exact hop 1 a ha
    · dsimp only at ha
      split_ifs at ha
      exact hop 2 a ha
  · rw [if_neg h]
    cases huf : instr.userfunc with
    | none =>
      exact ⟨(fun a ha => by cases ha), (fun a ha => by cases ha), (fun a ha => by cases ha)⟩
    | some uf =>
      have hopu : ∀ k a, bh_get_basearray uf.operand k = some a → S a := by
        intro k a h
        apply hS
        unfold instruction_bases
        rw [huf]
        exact List.mem_append_right _ (basearray_mem _ k a h)
      dsimp only
      by_cases h2 : uf.nout ≠ 1 ∨ (uf.nin ≠ 0 ∧ uf.nin ≠ 1 ∧ uf.nin ≠ 2)
      · rw [if_pos h2]
        exact ⟨(fun a ha => by cases ha), (fun a ha => by cases ha), (fun a ha => by cases ha)⟩
      · rw [if_neg h2]
        refine ⟨fun a ha => hopu 0 a ha, fun a ha => ?_, fun a ha => ?_⟩
        · dsimp only at ha
          split_ifs at ha
          exact hopu 1 a ha
        · dsimp only at ha
          split_ifs at ha
          exact hopu 2 a ha

/-- A renaming that is injective on `S` tells the keys in `S` apart. -/
theorem key_rename_inj (ρ : Nat → Nat) (S : Nat → Prop)
    (hinj : ∀ a b, S a → S b → ρ a = ρ b → a = b) (k k0 : Option Nat)
    (hk : key_in S k) (hk0 : key_in S k0) : k.map ρ = k0.map ρ ↔ k = k0 := by
  constructor
  · intro h
    cases k with
    | none =>
      cases k0 with
      | none => rfl
      | some b => cases h
    | some a =>
      cases k0 with
      | none => cases h
      | some b =>
        simp only [Option.map_some', Option.some.injEq] at h
        rw [hinj a b (hk a rfl) (hk0 b rfl) h]
  · intro h; rw [h]

/-- Renaming commutes with a map assignment. -/
theorem map_set_rename {β : Type} (ρ : Nat → Nat) (S : Nat → Prop)
    (hinj : ∀ a b, S a → S b → ρ a = ρ b → a = b) (m m' : Option Nat → Option β)
    (h : ∀ k, key_in S k → m' (k.map ρ) = m k) (k0 : Option Nat) (hk0 : key_in S k0) (v : β) :
    ∀ k, key_in S k → map_set m' (k0.map ρ) v (k.map ρ) = map_set m k0 v k := by
  intro k hk
  unfold map_set
  by_cases c : k = k0
  · rw [if_pos c, if_pos (by rw [c])]
  · rw [if_neg c, if_neg (fun hc => c ((key_rename_inj ρ S hinj k k0 hk hk0).1 hc))]
    exact h k hk

/-- Renaming commutes with a map erase. -/
theorem map_erase_rename {β : Type} (ρ : Nat → Nat) (S : Nat → Prop)
    (hinj : ∀ a b, S a → S b → ρ a = ρ b → a = b) (m m' : Option Nat → Option β)
    (h : ∀ k, key_in S k → m' (k.map ρ) = m k) (k0 : Option Nat) (hk0 : key_in S k0) :
    ∀ k, key_in S k → map_erase m' (k0.map ρ) (k.map ρ) = map_erase m k0 k := by
  intro k hk
  unfold map_erase
  by_cases c : k = k0
  · rw [if_pos c, if_pos (by rw [c])]
  · rw [if_neg c, if_neg (fun hc => c ((key_rename_inj ρ S hinj k k0 hk hk0).1 hc))]
    exact h k hk

/-- Renaming commutes with recording a reader. -/
theorem readmap_add_rename (ρ : Nat → Nat) (S : Nat → Prop)
    (hinj : ∀ a b, S a → S b → ρ a = ρ b → a = b) (m m' : Option Nat → Option (List Int))
    (h : ∀ k, key_in S k → m' (k.map ρ) = m k) (k0 : Option Nat) (hk0 : key_in S k0)
    (v : Int) :
    ∀ k, key_in S k → readmap_add m' (k0.map ρ) v (k.map ρ) = readmap_add m k0 v k := by
  intro k hk
  unfold readmap_add
  rw [h k0 hk0]
  cases m k0 with
  | none => exact map_set_rename ρ S hinj m m' h k0 hk0 _ k hk
  | some l => exact map_set_rename ρ S hinj m m' h k0 hk0 _ k hk

/-- The edge part of one iteration commutes with a renaming of the bases that
is injective on the bases in play: both runs fail, or both succeed with the
same new node, the same arena and maps that differ by the renaming. -/
theorem parse_edges_rename (T : bh_opcodes) (mem : Option Nat) (ρ : Nat → Nat) (S : Nat → Prop)
    (hinj : ∀ a b, S a → S b → ρ a = ρ b → a = b) (st st' : parse_state) (i : Int)
    (instr : bh_instruction) (hR : renamed ρ S st st')
    (hS : ∀ a ∈ instruction_bases instr, S a) :
    Option.Rel (fun e e' => e'.1 = e.1 ∧ renamed ρ S e.2 e'.2)
      (parse_edges T mem st i instr) (parse_edges T mem st' i (rename_instruction ρ instr)) := by
  obtain ⟨hid, hself, hleft, hright⟩ := getIds_rename T ρ instr
  obtain ⟨ks, kl, kr⟩ := getIds_keys T instr S hS
  obtain ⟨n, w, rd⟩ := st
  obtain ⟨n', w', rd'⟩ := st'
  have hn : n' = n := hR.nodes
  subst hn
  have hw : ∀ k, key_in S k → w' (k.map ρ) = w k := hR.writemap
  have hrd : ∀ k, key_in S k → rd' (k.map ρ) = rd k := hR.readmap
  clear hR
  unfold parse_edges
  lift_lets
  intro ids selfId leftId rightId r selfNode a1 writemap leftDep rightDep a2
    readmap1 readmap2 readmap3 a3 a4 ids' selfId' leftId' rightId' r' selfNode' a1' writemap'
    leftDep' rightDep' a2' readmap1' readmap2' readmap3' a3' a4'
  have e_self : selfId' = selfId.map ρ := hself
  have e_left : leftId' = leftId.map ρ := hleft
  have e_right : rightId' = rightId.map ρ := hright
  have e_sn : selfNode' = selfNode := rfl
  have e_r : r'.2 = r.2 := rfl
  have hk1 : w' selfId' = w selfId := by rw [e_self]; exact hw _ ks
  have hk2 : rd' selfId' = rd selfId := by rw [e_self]; exact hrd _ ks
  have e_a1 : a1' = a1 := by
    simp only [a1', a1, hk1, e_sn, e_r]
  have hwm : ∀ k, key_in S k → writemap' (k.map ρ) = writemap k := by
    intro k hk
    show map_set w' selfId' selfNode (k.map ρ) = map_set w selfId selfNode k
    rw [e_self]
    exact map_set_rename ρ S hinj w w' hw selfId ks selfNode k hk
  have e_ld : leftDep' = leftDep := by
    show (writemap' leftId').getD INVALID_NODE = (writemap leftId).getD INVALID_NODE
    rw [e_left, hwm _ kl]
  have e_rdp : rightDep' = rightDep := by
    show (writemap' rightId').getD INVALID_NODE = (writemap rightId).getD INVALID_NODE
    rw [e_right, hwm _ kr]
  have e_a2 : a2' = a2 := by
    simp only [a2', a2, hk2, e_sn, e_a1, e_ld, e_rdp]
  have hr1 : ∀ k, key_in S k → readmap1' (k.map ρ) = readmap1 k := by
    intro k hk
    cases hc : rd selfId with
    | none =>
      have h1 : readmap1' = rd' := by simp only [readmap1', hk2, hc]
      have h2 : readmap1 = rd := by simp only [readmap1, hc]
      rw [h1, h2]; exact hrd k hk
    | some l =>
      have h1 : readmap1' = map_erase rd' selfId' := by simp only [readmap1', hk2, hc]
      have h2 : readmap1 = map_erase rd selfId := by simp only [readmap1, hc]
      rw [h1, h2, e_self]
      exact map_erase_rename ρ S hinj rd rd' hrd selfId ks k hk
  have hnone : ∀ k : Option Nat, k.map ρ ≠ none ↔ k ≠ none := by
    intro k; cases k <;> simp
  have hr2 : ∀ k, key_in S k → readmap2' (k.map ρ) = readmap2 k := by
    intro k hk
    by_cases c : leftId ≠ none
    · have h1 : readmap2' = readmap_add readmap1' leftId' selfNode := by
        simp only [readmap2']; rw [if_pos (by rw [e_left]; exact (hnone _).2 c)]
      have h2 : readmap2 = readmap_add readmap1 leftId selfNode := by
        simp only [readmap2]; rw [if_pos c]
      rw [h1, h2, e_left]
      exact readmap_add_rename ρ S hinj readmap1 readmap1' hr1 leftId kl selfNode k hk
    · have h1 : readmap2' = readmap1' := by
        simp only [readmap2']; rw [if_neg (by rw [e_left]; exact fun h => c ((hnone _).1 h))]
      have h2 : readmap2 = readmap1 := by
        simp only [readmap2]; rw [if_neg c]
      rw [h1, h2]; exact hr1 k hk
  have hr3 : ∀ k, key_in S k → readmap3' (k.map ρ) = readmap3 k := by
    intro k hk
    have hiff : (rightId' ≠ none ∧ rightId' ≠ leftId') ↔ (rightId ≠ none ∧ rightId ≠ leftId) := by
      rw [e_right, e_left, hnone, Ne, Ne, key_rename_inj ρ S hinj rightId leftId kr kl]
    by_cases c : rightId ≠ none ∧ rightId ≠ leftId
    · have h1 : readmap3' = readmap_add readmap2' rightId' selfNode := by
        simp only [readmap3']; rw [if_pos (hiff.2 c)]
      have h2 : readmap3 = readmap_add readmap2 rightId selfNode := by
        simp only [readmap3]; rw [if_pos c]
      rw [h1, h2, e_right]
      exact readmap_add_rename ρ S hinj readmap2 readmap2' hr2 rightId kr selfNode k hk
    · have h1 : readmap3' = readmap2' := by
        simp only [readmap3']; rw [if_neg (fun h => c (hiff.1 h))]
      have h2 : readmap3 = readmap2 := by
        simp only [readmap3]; rw [if_neg c]
      rw [h1, h2]; exact hr2 k hk
  have e_a3 : a3' = a3 := by
    simp only [a3', a3, e_sn, e_a2, e_ld]
  have e_a4 : a4' = a4 := by
    simp only [a4', a4, e_sn, e_a3, e_ld, e_rdp]
  have e_id : ids'.1 = ids.1 := hid
  rw [e_id, e_sn, e_a1, e_a2, e_a3, e_a4]
  by_cases c0 : ids.1 ≠ BH_SUCCESS
  · rw [if_pos c0, if_pos c0]; exact Option.Rel.none
  rw [if_neg c0, if_neg c0]
  by_cases c1 : selfNode = INVALID_NODE
  · rw [if_pos c1, if_pos c1]; exact Option.Rel.none
  rw [if_neg c1, if_neg c1]
  by_cases c2 : a1.1 ≠ BH_SUCCESS
  · rw [if_pos c2, if_pos c2]; exact Option.Rel.none
  rw [if_neg c2, if_neg c2]
  by_cases c3 : a2.1 ≠ BH_SUCCESS
  · rw [if_pos c3, if_pos c3]; exact Option.Rel.none
  rw [if_neg c3, if_neg c3]
  by_cases c4 : a3.1 ≠ BH_SUCCESS
  · rw [if_pos c4, if_pos c4]; exact Option.Rel.none
  rw [if_neg c4, if_neg c4]
  by_cases c5 : a4.1 ≠ BH_SUCCESS
  · rw [if_pos c5, if_pos c5]; exact Option.Rel.none
  rw [if_neg c5, if_neg c5]
  exact Option.Rel.some ⟨rfl, rfl, hwm, hr3⟩

/-- The two shapes of related optional values. -/
theorem option_rel_cases {α β : Type} {r : α → β → Prop} {a : Option α} {b : Option β}
    (h : Option.Rel r a b) :
    (a = none ∧ b = none) ∨ ∃ x y, a = some x ∧ b = some y ∧ r x y := by
  cases h with
  | none => exact Or.inl ⟨rfl, rfl⟩
  | some h1 => exact Or.inr ⟨_, _, rfl, rfl, h1⟩

/-- One iteration of the main loop commutes with a renaming of the bases that
is injective on the bases in play. -/
theorem parse_instruction_rename (T : bh_opcodes) (mem : Option Nat) (root : Int)
    (ρ : Nat → Nat) (S : Nat → Prop)
    (hinj : ∀ a b, S a → S b → ρ a = ρ b → a = b) (st st' : parse_state) (i : Int)
    (instr : bh_instruction) (hR : renamed ρ S st st')
    (hS : ∀ a ∈ instruction_bases instr, S a) :
    Option.Rel (renamed ρ S)
      (parse_instruction T mem root st i instr)
      (parse_instruction T mem root st' i (rename_instruction ρ instr)) := by
  rw [parse_instruction_split, parse_instruction_split]
  rcases option_rel_cases (parse_edges_rename T mem ρ S hinj st st' i instr hR hS) with
    ⟨h1, h2⟩ | ⟨e, e', h1, h2, h3, h4⟩
  · rw [h1, h2]; exact Option.Rel.none
  · rw [h1, h2]
    change Option.Rel (renamed ρ S) (parse_root_attach mem root e) (parse_root_attach mem root e')
    unfold parse_root_attach
    rw [h3, h4.nodes]
    dsimp only
    split_ifs
    · exact Option.Rel.none
    · exact Option.Rel.some ⟨rfl, h4.writemap, h4.readmap⟩
    · exact Option.Rel.none
    · exact Option.Rel.some ⟨rfl, h4.writemap, h4.readmap⟩

/-- The main loop commutes with a renaming of the bases that is injective on
the bases of the list. -/
theorem parse_loop_rename (T : bh_opcodes) (mem : Option Nat) (root : Int)
    (ρ : Nat → Nat) (S : Nat → Prop)
    (hinj : ∀ a b, S a → S b → ρ a = ρ b → a = b) (L : List bh_instruction) :
    ∀ (st st' : parse_state) (i : Int), renamed ρ S st st' →
      (∀ instr ∈ L, ∀ a ∈ instruction_bases instr, S a) →
      Option.Rel (renamed ρ S)
        (parse_loop T mem root st i L)
        (parse_loop T mem root st' i (L.map (rename_instruction ρ))) := by
  induction L with
  | nil =>
    intro st st' i hR _
    rw [List.map_nil, parse_loop, parse_loop]
    exact Option.Rel.some hR
  | cons instr rest ih =>
    intro st st' i hR hS
    rw [List.map_cons, parse_loop, parse_loop]
    rcases option_rel_cases (parse_instruction_rename T mem root ρ S hinj st st' i instr hR
      (hS instr (List.mem_cons_self _ _))) with ⟨h1, h2⟩ | ⟨x, y, h1, h2, h3⟩
    · rw [h1, h2]; exact Option.Rel.none
    · rw [h1, h2]
      exact ih x y (i + 1) h3 (fun z hz => hS z (List.mem_cons_of_mem _ hz))

/-- The build commutes with a renaming of the bases that is injective on the
bases of the list: same status, same arena, same root. -/
theorem parse_rename (T : bh_opcodes) (mem : Option Nat) (ρ : Nat → Nat)
    (L : List bh_instruction)
    (hinj : ∀ i ∈ L, ∀ j ∈ L, ∀ a ∈ instruction_bases i, ∀ b ∈ instruction_bases j,
      ρ a = ρ b → a = b) :
    (bh_graph_parse T mem (fresh_ir (L.map (rename_instruction ρ)))).1
      = (bh_graph_parse T mem (fresh_ir L)).1
    ∧ (bh_graph_parse T mem (fresh_ir (L.map (rename_instruction ρ)))).2.nodes
      = (bh_graph_parse T mem (fresh_ir L)).2.nodes
    ∧ (bh_graph_parse T mem (fresh_ir (L.map (rename_instruction ρ)))).2.root
      = (bh_graph_parse T mem (fresh_ir L)).2.root := by
  have hpar : ∀ M : List bh_instruction, bh_graph_parse T mem (fresh_ir M)
      = match parse_loop T mem (bh_graph_new_node mem [] BH_COLLECTION INVALID_INSTRUCTION).1
          ⟨(bh_graph_new_node mem [] BH_COLLECTION INVALID_INSTRUCTION).2,
            fun _ => none, fun _ => none⟩ 0 M with
        | none => (BH_ERROR, bh_graph_delete_all_nodes (fresh_ir M))
        | some st => (BH_SUCCESS, { fresh_ir M with nodes := st.nodes, root :=
            (bh_graph_new_node mem [] BH_COLLECTION INVALID_INSTRUCTION).1 }) := fun M => rfl
  rw [hpar, hpar]
  have h := parse_loop_rename T mem
    (bh_graph_new_node mem [] BH_COLLECTION INVALID_INSTRUCTION).1 ρ
    (fun a => ∃ i ∈ L, a ∈ instruction_bases i)
    (fun a b ⟨i, hi, ha⟩ ⟨j, hj, hb⟩ hab => hinj i hi j hj a ha b hb hab) L
    ⟨(bh_graph_new_node mem [] BH_COLLECTION INVALID_INSTRUCTION).2,
      fun _ => none, fun _ => none⟩
    ⟨(bh_graph_new_node mem [] BH_COLLECTION INVALID_INSTRUCTION).2,
      fun _ => none, fun _ => none⟩ 0
    ⟨rfl, fun _ _ => rfl, fun _ _ => rfl⟩
    (fun instr hi a ha => ⟨instr, hi, ha⟩)
  rcases option_rel_cases h with ⟨h1, h2⟩ | ⟨x, y, h1, h2, h3⟩
  · rw [h1, h2]; exact ⟨rfl, rfl, rfl⟩
  · rw [h1, h2]; exact ⟨rfl, h3.nodes, rfl⟩

/-- The loop of `bh_graph_iterator_next_node` does not look at the
instruction arena. -/
theorem next_node_loop_with (I : List bh_instruction) (fuel : Nat) :
    ∀ it, next_node_loop fuel (with_instructions I it)
      = (next_node_loop fuel it).map
          (fun r => ⟨r.status, r.node, with_instructions I r.it⟩) := by
  induction fuel with
  | zero => intro it; rfl
  | succ fuel ih =>
    intro it
    obtain ⟨sch, bl, ir, cur, lb⟩ := it
    cases bl with
    | nil => rfl
    | cons n rest =>
      rw [next_node_loop, next_node_loop]
      simp only [with_instructions]
      split_ifs <;> first | rfl | exact ih ⟨_, _, ir, _, _⟩

/-- One call of `bh_graph_iterator_next_node` does not look at the
instruction arena. -/
theorem next_node_with (I : List bh_instruction) (it : bh_graph_iterator) :
    bh_graph_iterator_next_node (with_instructions I it)
      = (bh_graph_iterator_next_node it).map
          (fun r => ⟨r.status, r.node, with_instructions I r.it⟩) :=
  next_node_loop_with I _ it

/-- A full drain of `bh_graph_iterator_next_node` emits the same nodes
whatever the instruction arena holds. -/
theorem drain_nodes_loop_with (I : List bh_instruction) (fuel : Nat) :
    ∀ it, (drain_nodes_loop fuel (with_instructions I it)).map (fun d => d.emitted)
      = (drain_nodes_loop fuel it).map (fun d => d.emitted) := by
  induction fuel with
  | zero => intro it; rfl
  | succ fuel ih =>
    intro it
    rw [drain_nodes_loop, drain_nodes_loop, next_node_with]
    cases h : bh_graph_iterator_next_node it with
    | none => rfl
    | some r =>
      simp only [Option.map_some']
      by_cases hs : r.status = BH_SUCCESS
      · rw [if_pos hs, if_pos hs]
        have := ih r.it
        cases h1 : drain_nodes_loop fuel (with_instructions I r.it) with
        | none =>
          rw [h1] at this
          cases h2 : drain_nodes_loop fuel r.it with
          | none => rfl
          | some d => rw [h2] at this; cases this
        | some d1 =>
          rw [h1] at this
          cases h2 : drain_nodes_loop fuel r.it with
          | none => rw [h2] at this; cases this
          | some d =>
            rw [h2] at this
            simp only [Option.map_some', Option.some.injEq] at this ⊢
            rw [this]
      · rw [if_neg hs, if_neg hs]
        rfl

/-- The loop of `bh_graph_iterator_next_instruction` does not look at the
instruction arena. -/
theorem next_instruction_loop_with (I : List bh_instruction) (fuel : Nat) :
    ∀ it, next_instruction_loop fuel (with_instructions I it)
      = (next_instruction_loop fuel it).map
          (fun r => ⟨r.status, r.instruction, with_instructions I r.it⟩) := by
  induction fuel with
  | zero => intro it; rfl
  | succ fuel ih =>
    intro it
    rw [next_instruction_loop, next_instruction_loop, next_node_with]
    cases h : bh_graph_iterator_next_node it with
    | none => rfl
    | some r =>
      simp only [Option.map_some']
      by_cases hs : r.status = BH_SUCCESS
      · rw [if_pos hs, if_pos hs]
        by_cases ht : (NODE_LOOKUP r.it.bhir.nodes (r.node.getD INVALID_NODE)).type
            = BH_INSTRUCTION
        · have ht2 : (NODE_LOOKUP (with_instructions I r.it).bhir.nodes
              (r.node.getD INVALID_NODE)).type = BH_INSTRUCTION := ht
          simp only [if_pos ht, if_pos ht2]
          rfl
        · have ht2 : ¬ (NODE_LOOKUP (with_instructions I r.it).bhir.nodes
              (r.node.getD INVALID_NODE)).type = BH_INSTRUCTION := ht
          simp only [if_neg ht, if_neg ht2]
          exact ih r.it
      · rw [if_neg hs, if_neg hs]
        rfl

/-- One call of `bh_graph_iterator_next_instruction` looks at the length of
the instruction arena only. -/
theorem next_instruction_with (I : List bh_instruction) (it : bh_graph_iterator)
    (hlen : I.length = it.bhir.instructions.length) :
    bh_graph_iterator_next_instruction (with_instructions I it)
      = (bh_graph_iterator_next_instruction it).map
          (fun r => ⟨r.status, r.instruction, with_instructions I r.it⟩) := by
  unfold bh_graph_iterator_next_instruction
  have hroot : (with_instructions I it).bhir.root = it.bhir.root := rfl
  have hcur : (with_instructions I it).current = it.current := rfl
  have hl : (with_instructions I it).bhir.instructions.length
      = it.bhir.instructions.length := hlen
  have hn : (with_instructions I it).bhir.nodes = it.bhir.nodes := rfl
  rw [hroot, hcur, hl, hn]
  by_cases h : it.bhir.root = INVALID_NODE
  · rw [if_pos h, if_pos h]
    dsimp only
    split_ifs <;> rfl
  · rw [if_neg h, if_neg h]
    exact next_instruction_loop_with I _ it

/-- A full drain of `bh_graph_iterator_next_instruction` yields the same
instruction indices whatever the instruction arena of that length holds. -/
theorem drain_instructions_loop_with (I : List bh_instruction) (fuel : Nat) :
    ∀ it, I.length = it.bhir.instructions.length →
      (drain_instructions_loop fuel (with_instructions I it)).map (fun d => d.emitted)
        = (drain_instructions_loop fuel it).map (fun d => d.emitted) := by
  induction fuel with
  | zero => intro it _; rfl
  | succ fuel ih =>
    intro it hlen
    rw [drain_instructions_loop, drain_instructions_loop, next_instruction_with I it hlen]
    cases h : bh_graph_iterator_next_instruction it with
    | none => rfl
    | some r =>
      simp only [Option.map_some']
      have hlen2 : I.length = r.it.bhir.instructions.length := by
        rw [hlen]
        exact congrArg (fun b => b.instructions.length) (next_instruction_bhir it r h).symm
      by_cases hs : r.status = BH_SUCCESS
      · rw [if_pos hs, if_pos hs]
        have := ih r.it hlen2
        cases h1 : drain_instructions_loop fuel (with_instructions I r.it) with
        | none =>
          rw [h1] at this
          cases h2 : drain_instructions_loop fuel r.it with
          | none => rfl
          | some d => rw [h2] at this; cases this
        | some d1 =>
          rw [h1] at this
          cases h2 : drain_instructions_loop fuel r.it with
          | none => rw [h2] at this; cases this
          | some d =>
            rw [h2] at this
            simp only [Option.map_some', Option.some.injEq] at this ⊢
            rw [this]
      · rw [if_neg hs, if_neg hs]
        rfl

/-- The fresh iterator on the IR created from a list, spelled out. -/
theorem fresh_iterator_eq (T : bh_opcodes) (mem : Option Nat) (M : List bh_instruction) :
    fresh_iterator T mem M
      = if (bh_graph_parse T mem (fresh_ir M)).1 ≠ BH_SUCCESS then none
        else some ⟨[],
          if (bh_graph_parse T mem (fresh_ir M)).2.root ≠ INVALID_NODE then
            [(bh_graph_parse T mem (fresh_ir M)).2.root] else [],
          (bh_graph_parse T mem (fresh_ir M)).2,
          (bh_graph_parse T mem (fresh_ir M)).2.root, INVALID_NODE⟩ := by
  unfold fresh_iterator bh_graph_iterator_create
  have hroot : (fresh_ir M).root < 0 ∧ false = false :=
    ⟨by show (-1 : Int) < 0; decide, rfl⟩
  rw [if_neg (by decide : ¬ (true = false)), if_pos hroot]
  dsimp only
  split_ifs <;> rfl

/-- The fresh iterator on a renamed list is the fresh iterator on the list,
with the renamed instruction arena. -/
theorem fresh_iterator_rename (T : bh_opcodes) (mem : Option Nat) (ρ : Nat → Nat)
    (L : List bh_instruction)
    (hinj : ∀ i ∈ L, ∀ j ∈ L, ∀ a ∈ instruction_bases i, ∀ b ∈ instruction_bases j,
      ρ a = ρ b → a = b) :
    fresh_iterator T mem (L.map (rename_instruction ρ))
      = (fresh_iterator T mem L).map (with_instructions (L.map (rename_instruction ρ))) := by
  obtain ⟨h1, h2, h3⟩ := parse_rename T mem ρ L hinj
  have h4 := parse_instructions T mem (fresh_ir (L.map (rename_instruction ρ)))
  have hir : (bh_graph_parse T mem (fresh_ir (L.map (rename_instruction ρ)))).2
      = ⟨(bh_graph_parse T mem (fresh_ir L)).2.nodes, L.map (rename_instruction ρ),
          (bh_graph_parse T mem (fresh_ir L)).2.root⟩ := by
    generalize (bh_graph_parse T mem (fresh_ir (L.map (rename_instruction ρ)))).2 = a at h2 h3 h4
    obtain ⟨an, ai, ar⟩ := a
    simp only at h2 h3 h4
    rw [h2, h3, h4]
    rfl
  rw [fresh_iterator_eq, fresh_iterator_eq, h1, hir]
  by_cases hs : (bh_graph_parse T mem (fresh_ir L)).1 ≠ BH_SUCCESS
  · rw [if_pos hs, if_pos hs]; rfl
  · rw [if_neg hs, if_neg hs]; rfl

/-- C34. The built graph depends only on which operands share a base. For
every opcode table, memory bound and instruction list `L`, and every renaming
`ρ` of base handles that is injective on the non-null bases of `L` (null
bases stay null; opcodes and operand counts are kept): `bh_graph_parse` on
the renamed list returns the same status, the same node arena and the same
root as on `L`, and a fresh iterator emits the same nodes and the same
instruction indices in the same order. -/
theorem graph_depends_on_base_sharing_only (T : bh_opcodes) (mem : Option Nat) (ρ : Nat → Nat)
    (L : List bh_instruction)
    (hinj : ∀ i ∈ L, ∀ j ∈ L, ∀ a ∈ instruction_bases i, ∀ b ∈ instruction_bases j,
      ρ a = ρ b → a = b) :
    (bh_graph_parse T mem (fresh_ir (L.map (rename_instruction ρ)))).1
      = (bh_graph_parse T mem (fresh_ir L)).1
    ∧ (bh_graph_parse T mem (fresh_ir (L.map (rename_instruction ρ)))).2.nodes
      = (bh_graph_parse T mem (fresh_ir L)).2.nodes
    ∧ (bh_graph_parse T mem (fresh_ir (L.map (rename_instruction ρ)))).2.root
      = (bh_graph_parse T mem (fresh_ir L)).2.root
    ∧ ((fresh_iterator T mem (L.map (rename_instruction ρ))).bind drain_nodes).map
        (fun d => d.emitted)
      = ((fresh_iterator T mem L).bind drain_nodes).map (fun d => d.emitted)
    ∧ ((fresh_iterator T mem (L.map (rename_instruction ρ))).bind drain_instructions).map
        (fun d => d.emitted)
      = ((fresh_iterator T mem L).bind drain_instructions).map (fun d => d.emitted) := by
  obtain ⟨h1, h2, h3⟩ := parse_rename T mem ρ L hinj
  refine ⟨h1, h2, h3, ?_, ?_⟩
  · rw [fresh_iterator_rename T mem ρ L hinj]
    cases hit : fresh_iterator T mem L with
    | none => rfl
    | some it =>
      simp only [Option.map_some', Option.some_bind]
      exact drain_nodes_loop_with _ _ it
  · rw [fresh_iterator_rename T mem ρ L hinj]
    cases hit : fresh_iterator T mem L with
    | none => rfl
    | some it =>
      simp only [Option.map_some', Option.some_bind]
      have hlen : (L.map (rename_instruction ρ)).length = it.bhir.instructions.length := by
        rw [List.length_map]
        rw [fresh_iterator_eq] at hit
        by_cases hs : (bh_graph_parse T mem (fresh_ir L)).1 ≠ BH_SUCCESS
        · rw [if_pos hs] at hit; cases hit
        · rw [if_neg hs] at hit
          simp only [Option.some.injEq] at hit
          rw [← hit]
          exact (congrArg List.length (parse_instructions T mem (fresh_ir L))).symm
      unfold drain_instructions
      have hfuel : 2 * (with_instructions (L.map (rename_instruction ρ)) it).bhir.nodes.length
          + (with_instructions (L.map (rename_instruction ρ)) it).bhir.instructions.length + 3
          = 2 * it.bhir.nodes.length + it.bhir.instructions.length + 3 := by
        show 2 * it.bhir.nodes.length + (L.map (rename_instruction ρ)).length + 3 = _
        rw [hlen]
      rw [hfuel]
      exact drain_instructions_loop_with _ _ it hlen

set_option maxRecDepth 100000 in
/-- C34 on `fan_in_list` with every base handle `b` renamed to `2 * b + 7`. -/
theorem graph_depends_on_base_sharing_only_witness :
    fan_in_list.map (rename_instruction (fun b => 2 * b + 7))
      = [FILL 13, FILL 15, ADD 9 9 25, ADD 9 13 15]
    ∧ (bh_graph_parse demo_opcodes none
          (fresh_ir (fan_in_list.map (rename_instruction (fun b => 2 * b + 7))))).2.nodes
        = (bh_graph_parse demo_opcodes none (fresh_ir fan_in_list)).2.nodes
    ∧ ((fresh_iterator demo_opcodes none
          (fan_in_list.map (rename_instruction (fun b => 2 * b + 7)))).bind
            drain_instructions).map (fun d => d.emitted)
        = ((fresh_iterator demo_opcodes none fan_in_list).bind drain_instructions).map
            (fun d => d.emitted) :=
  ⟨by decide,
    (graph_depends_on_base_sharing_only demo_opcodes none (fun b => 2 * b + 7) fan_in_list
      (fun _ _ _ _ a _ b _ h => by simp only at h; omega)).2.1,
    (graph_depends_on_base_sharing_only demo_opcodes none (fun b => 2 * b + 7) fan_in_list
      (fun _ _ _ _ a _ b _ h => by simp only at h; omega)).2.2.2.2⟩

/-- The slots of a handle outside the arena read `INVALID_NODE`. -/
theorem lookup_invalid_slots (nodes : List bh_graph_node) (x : Int)
    (h : ¬ valid_handle nodes x) :
    (NODE_LOOKUP nodes x).left_child = INVALID_NODE
    ∧ (NODE_LOOKUP nodes x).right_child = INVALID_NODE
    ∧ (NODE_LOOKUP nodes x).left_parent = INVALID_NODE
    ∧ (NODE_LOOKUP nodes x).right_parent = INVALID_NODE := by
  rw [lookup_invalid nodes x h]
  exact ⟨rfl, rfl, rfl, rfl⟩

/-- A valid handle is not `INVALID_NODE`. -/
theorem valid_ne_invalid (nodes : List bh_graph_node) (x : Int) (h : valid_handle nodes x) :
    x ≠ INVALID_NODE := by
  unfold valid_handle at h; unfold INVALID_NODE; omega

/-- In a wired arena a node and the parents it lists are handles of the
arena. -/
theorem wired_valid (nodes : List bh_graph_node) (hw : parent_wired nodes) (c p : Int)
    (hp : p ≠ INVALID_NODE)
    (h : (NODE_LOOKUP nodes c).left_parent = p ∨ (NODE_LOOKUP nodes c).right_parent = p) :
    valid_handle nodes c ∧ valid_handle nodes p := by
  have hc : valid_handle nodes c := by
    by_contra hv
    obtain ⟨-, -, h1, h2⟩ := lookup_invalid_slots nodes c hv
    rw [h1, h2] at h
    rcases h with h | h <;> exact hp h.symm
  refine ⟨hc, ?_⟩
  by_contra hv
  obtain ⟨h1, h2, -, -⟩ := lookup_invalid_slots nodes p hv
  have := hw.mirrored c p hp h
  rw [h1, h2] at this
  rcases this with h3 | h3 <;> exact valid_ne_invalid nodes c hc h3.symm

/-- A failed `bh_grap_node_add_parent` leaves the arena as it was. -/
theorem add_parent_fail_same (mem : Option Nat) (nodes : List bh_graph_node)
    (self newparent : Int)
    (h : (bh_grap_node_add_parent mem nodes self newparent).1 ≠ BH_SUCCESS) :
    (bh_grap_node_add_parent mem nodes self newparent).2 = nodes := by
  rcases add_parent_cases mem nodes self newparent with
    ⟨-, e⟩ | ⟨-, -, e⟩ | ⟨-, -, -, e⟩ | ⟨-, -, -, -, e⟩ | ⟨-, -, -, -, -, -, e⟩
  · rw [e]
  · rw [e] at h; exact absurd rfl h
  · rw [e] at h; exact absurd rfl h
  · rw [e]
  · rw [e] at h; exact absurd rfl h

/-- The call `bh_grap_node_add_parent(self, newparent)` keeps the arena wired
when `newparent` already holds `self` in a child slot, whatever the outcome
of the call. -/
theorem wired_add_parent (mem : Option Nat) (nodes : List bh_graph_node)
    (self newparent : Int) (hw : parent_wired nodes) (hs : valid_handle nodes self)
    (hnp : valid_handle nodes newparent)
    (hold : (NODE_LOOKUP nodes newparent).left_child = self
      ∨ (NODE_LOOKUP nodes newparent).right_child = self) :
    parent_wired (bh_grap_node_add_parent mem nodes self newparent).2 := by
  have hnp0 := valid_ne_invalid nodes newparent hnp
  have hslen : self ≠ (nodes.length : Int) := by
    unfold valid_handle at hs; omega
  by_cases hno : (NODE_LOOKUP nodes self).left_parent = newparent
      ∨ (NODE_LOOKUP nodes self).right_parent = newparent ∨ newparent = INVALID_NODE
  · have e : bh_grap_node_add_parent mem nodes self newparent = (BH_SUCCESS, nodes) := by
      unfold bh_grap_node_add_parent
      rw [if_pos hno]
    rw [e]; exact hw
  have hnl : (NODE_LOOKUP nodes self).left_parent ≠ newparent := fun h => hno (Or.inl h)
  have hnr : (NODE_LOOKUP nodes self).right_parent ≠ newparent :=
    fun h => hno (Or.inr (Or.inl h))
  rcases add_parent_cases mem nodes self newparent with
    ⟨h, -⟩ | ⟨-, hl, e⟩ | ⟨-, hl, hr, e⟩ | ⟨-, -, -, -, e⟩ | ⟨-, hl, hr, hl2, hr2, -, e⟩
  · exact absurd h hno
  · rw [e]
    dsimp only
    have hU : ∀ x, NODE_LOOKUP (NODE_UPDATE nodes self
        (fun x => { x with left_parent := newparent })) x
        = if x = self then ⟨(NODE_LOOKUP nodes self).type, (NODE_LOOKUP nodes self).instruction,
            (NODE_LOOKUP nodes self).left_child, (NODE_LOOKUP nodes self).right_child,
            newparent, (NODE_LOOKUP nodes self).right_parent⟩
          else NODE_LOOKUP nodes x := fun x => lookup_update nodes self _ x hs
    have hC : ∀ x, (NODE_LOOKUP (NODE_UPDATE nodes self
        (fun x => { x with left_parent := newparent })) x).left_child
          = (NODE_LOOKUP nodes x).left_child
        ∧ (NODE_LOOKUP (NODE_UPDATE nodes self
        (fun x => { x with left_parent := newparent })) x).right_child
          = (NODE_LOOKUP nodes x).right_child := by
      intro x
      rw [hU]
      split_ifs with hx
      · rw [hx]; exact ⟨rfl, rfl⟩
      · exact ⟨rfl, rfl⟩
    constructor
    · intro c p hp hcp
      rw [(hC p).1, (hC p).2]
      rw [hU] at hcp
      by_cases hc : c = self
      · rw [if_pos hc] at hcp
        dsimp only at hcp
        rcases hcp with h1 | h1
        · rw [← h1, hc]; exact hold
        · apply hw.mirrored c p hp
          right; rw [hc]; exact h1
      · rw [if_neg hc] at hcp
        exact hw.mirrored c p hp hcp
    · intro c
      rw [hU]
      by_cases hc : c = self
      · rw [if_pos hc]
        dsimp only
        intro h1
        exact absurd h1.symm hnr
      · rw [if_neg hc]
        exact hw.distinct c
  · rw [e]
    dsimp only
    have hU : ∀ x, NODE_LOOKUP (NODE_UPDATE nodes self
        (fun x => { x with right_parent := newparent })) x
        = if x = self then ⟨(NODE_LOOKUP nodes self).type, (NODE_LOOKUP nodes self).instruction,
            (NODE_LOOKUP nodes self).left_child, (NODE_LOOKUP nodes self).right_child,
            (NODE_LOOKUP nodes self).left_parent, newparent⟩
          else NODE_LOOKUP nodes x := fun x => lookup_update nodes self _ x hs
    have hC : ∀ x, (NODE_LOOKUP (NODE_UPDATE nodes self
        (fun x => { x with right_parent := newparent })) x).left_child
          = (NODE_LOOKUP nodes x).left_child
        ∧ (NODE_LOOKUP (NODE_UPDATE nodes self
        (fun x => { x with right_parent := newparent })) x).right_child
          = (NODE_LOOKUP nodes x).right_child := by
      intro x
      rw [hU]
      split_ifs with hx
      · rw [hx]; exact ⟨rfl, rfl⟩
      · exact ⟨rfl, rfl⟩
    constructor
    · intro c p hp hcp
      rw [(hC p).1, (hC p).2]
      rw [hU] at hcp
      by_cases hc : c = self
      · rw [if_pos hc] at hcp
        dsimp only at hcp
        rcases hcp with h1 | h1
        · apply hw.mirrored c p hp
          left; rw [hc]; exact h1
        · rw [← h1, hc]; exact hold
      · rw [if_neg hc] at hcp
        exact hw.mirrored c p hp hcp
    · intro c
      rw [hU]
      by_cases hc : c = self
      · rw [if_pos hc]
        dsimp only
        intro h1
        exact absurd h1 hnl
      · rw [if_neg hc]
        exact hw.distinct c
  · rw [e]; exact hw
  · have hok : (bh_grap_node_add_parent mem nodes self newparent).1 = BH_SUCCESS := by rw [e]
    have A := add_parent_effect mem nodes self newparent hs hnp0 hok
    have Rr := add_parent_rewires_right mem nodes self newparent hs hnp0 hok
    have hf : fan_in_full nodes self newparent := ⟨hl, hr, hl2, hr2⟩
    obtain ⟨k0, k1, k2, k3⟩ := A.new_node hf
    generalize (bh_grap_node_add_parent mem nodes self newparent).2 = u at A Rr k0 k1 k2 k3
    have hvx : ∀ x, valid_handle nodes x → x ≠ (nodes.length : Int) := by
      intro x hx; unfold valid_handle at hx; omega
    -- a child slot that does not hold `self` is not touched
    have hkeepl : ∀ x c, valid_handle nodes x → c ≠ self →
        (NODE_LOOKUP nodes x).left_child = c → (NODE_LOOKUP u x).left_child = c := by
      intro x c hx hc h
      rcases A.left_child x hx with h1 | ⟨-, h1, -⟩
      · rw [h1]; exact h
      · exact absurd (h.symm.trans h1) hc
    have hkeepr : ∀ x c, valid_handle nodes x → c ≠ self →
        (NODE_LOOKUP nodes x).right_child = c → (NODE_LOOKUP u x).right_child = c := by
      intro x c hx hc h
      rcases A.right_child x hx with h1 | ⟨-, h1, -⟩
      · rw [h1]; exact h
      · exact absurd (h.symm.trans h1) hc
    constructor
    · intro c p hp hcp
      by_cases hcv : valid_handle nodes c
      · by_cases hc : c = self
        · rw [hc] at hcp ⊢
          rw [k2, k3] at hcp
          rcases hcp with h1 | h1
          · left; rw [← h1, k1]
          · rw [← h1]
            rcases hold with h2 | h2
            · left
              rcases A.left_child newparent hnp with h3 | ⟨-, -, -, h3⟩
              · rw [h3]; exact h2
              · rcases h3 with h3 | h3
                · exact absurd h3.symm hl2
                · exact absurd h3.symm hr2
            · right
              rcases A.right_child newparent hnp with h3 | ⟨-, -, -, h3⟩
              · rw [h3]; exact h2
              · rcases h3 with h3 | h3
                · exact absurd h3.symm hl2
                · exact absurd h3.symm hr2
        · obtain ⟨j1, j2⟩ := A.parents c hc hcv
          rw [j1, j2] at hcp
          have hpv := (wired_valid nodes hw c p hp hcp).2
          rcases hw.mirrored c p hp hcp with h1 | h1
          · left; exact hkeepl p c hpv hc h1
          · right; exact hkeepr p c hpv hc h1
      · by_cases hc : c = (nodes.length : Int)
        · rw [hc] at hcp ⊢
          rw [k1] at hcp
          dsimp only at hcp
          have hsp : (NODE_LOOKUP nodes self).left_parent = p
              ∨ (NODE_LOOKUP nodes self).right_parent = p := hcp
          have hpv := (wired_valid nodes hw self p hp hsp).2
          by_cases hlc : (NODE_LOOKUP nodes p).left_child = self
          · left
            exact A.rewires hf p (hsp.imp Eq.symm Eq.symm) hlc
          · right
            exact Rr hf p (hsp.imp Eq.symm Eq.symm) hlc
              ((hw.mirrored self p hp hsp).resolve_left hlc)
        · exfalso
          have hcu : ¬ valid_handle u c := by
            unfold valid_handle at hcv ⊢
            rw [k0]
            push_cast
            omega
          obtain ⟨-, -, h1, h2⟩ := lookup_invalid_slots u c hcu
          rw [h1, h2] at hcp
          rcases hcp with h | h <;> exact hp h.symm
    · intro c
      by_cases hcv : valid_handle nodes c
      · by_cases hc : c = self
        · rw [hc, k2, k3]
          intro h
          exact absurd h.symm (hvx newparent hnp)
        · obtain ⟨j1, j2⟩ := A.parents c hc hcv
          rw [j1, j2]
          exact hw.distinct c
      · by_cases hc : c = (nodes.length : Int)
        · rw [hc, k1]
          exact hw.distinct self
        · have hcu : ¬ valid_handle u c := by
            unfold valid_handle at hcv ⊢
            rw [k0]
            push_cast
            omega
          intro _
          exact (lookup_invalid_slots u c hcu).2.2.1

/-- The fan-out overflow block when the displaced child does not list `self`:
the block ends in "Bad graph" with the collection node holding the displaced
child and `newchild`, the left child slot of `self` holding the collection
node, and every parent slot as it was. -/
theorem add_child_overflow_bad (mem : Option Nat) (nodes : List bh_graph_node)
    (self newchild cn d : Int) (hs : valid_handle nodes self) (hcn : valid_handle nodes cn)
    (hne : self ≠ cn) (hd : (NODE_LOOKUP nodes self).left_child = d)
    (hbad : ¬ ((NODE_LOOKUP nodes d).left_parent = self
      ∨ (NODE_LOOKUP nodes d).right_parent = self)) :
    ∃ n3, add_child_overflow mem nodes self newchild cn = (BH_ERROR, n3)
      ∧ n3.length = nodes.length
      ∧ (∀ y, (NODE_LOOKUP n3 y).left_parent = (NODE_LOOKUP nodes y).left_parent
          ∧ (NODE_LOOKUP n3 y).right_parent = (NODE_LOOKUP nodes y).right_parent)
      ∧ (∀ y, y ≠ cn → y ≠ self →
          (NODE_LOOKUP n3 y).left_child = (NODE_LOOKUP nodes y).left_child
          ∧ (NODE_LOOKUP n3 y).right_child = (NODE_LOOKUP nodes y).right_child)
      ∧ (NODE_LOOKUP n3 self).left_child = cn
      ∧ (NODE_LOOKUP n3 self).right_child = (NODE_LOOKUP nodes self).right_child
      ∧ (NODE_LOOKUP n3 cn).left_child = d
      ∧ (NODE_LOOKUP n3 cn).right_child = newchild := by
  have hcs : ¬ cn = self := fun h => hne h.symm
  unfold add_child_overflow
  lift_lets
  intro n1 n2 n3 dd n4 p n4b pb
  have v1 : valid_handle n1 cn := (valid_update nodes cn _ cn).2 hcn
  have e1 : ∀ y, NODE_LOOKUP n1 y = if y = cn then
      ⟨(NODE_LOOKUP nodes cn).type, (NODE_LOOKUP nodes cn).instruction,
        d, (NODE_LOOKUP nodes cn).right_child,
        (NODE_LOOKUP nodes cn).left_parent, (NODE_LOOKUP nodes cn).right_parent⟩
      else NODE_LOOKUP nodes y := by
    intro y
    have h1 : NODE_LOOKUP n1 y = if y = cn then
        ⟨(NODE_LOOKUP nodes cn).type, (NODE_LOOKUP nodes cn).instruction,
          (NODE_LOOKUP nodes self).left_child, (NODE_LOOKUP nodes cn).right_child,
          (NODE_LOOKUP nodes cn).left_parent, (NODE_LOOKUP nodes cn).right_parent⟩
        else NODE_LOOKUP nodes y := lookup_update nodes cn _ y hcn
    rw [h1, hd]
  have v2 : valid_handle n2 self := by
    apply (valid_update n1 cn _ self).2
    exact (valid_update nodes cn _ self).2 hs
  have e2 : ∀ y, NODE_LOOKUP n2 y = if y = cn then
      ⟨(NODE_LOOKUP nodes cn).type, (NODE_LOOKUP nodes cn).instruction, d, newchild,
        (NODE_LOOKUP nodes cn).left_parent, (NODE_LOOKUP nodes cn).right_parent⟩
      else NODE_LOOKUP nodes y := by
    intro y
    have h2 : NODE_LOOKUP n2 y = if y = cn then
        ⟨(NODE_LOOKUP n1 cn).type, (NODE_LOOKUP n1 cn).instruction,
          (NODE_LOOKUP n1 cn).left_child, newchild,
          (NODE_LOOKUP n1 cn).left_parent, (NODE_LOOKUP n1 cn).right_parent⟩
        else NODE_LOOKUP n1 y := lookup_update n1 cn _ y v1
    rw [h2]
    by_cases hy : y = cn
    · simp only [if_pos hy, e1, if_true]
    · simp only [if_neg hy, e1]
  have e3 : ∀ y, NODE_LOOKUP n3 y = if y = self then
      ⟨(NODE_LOOKUP nodes self).type, (NODE_LOOKUP nodes self).instruction, cn,
        (NODE_LOOKUP nodes self).right_child,
        (NODE_LOOKUP nodes self).left_parent, (NODE_LOOKUP nodes self).right_parent⟩
      else NODE_LOOKUP n2 y := by
    intro y
    have h3 : NODE_LOOKUP n3 y = if y = self then
        ⟨(NODE_LOOKUP n2 self).type, (NODE_LOOKUP n2 self).instruction, cn,
          (NODE_LOOKUP n2 self).right_child,
          (NODE_LOOKUP n2 self).left_parent, (NODE_LOOKUP n2 self).right_parent⟩
        else NODE_LOOKUP n2 y := lookup_update n2 self _ y v2
    rw [h3]
    by_cases hy : y = self
    · simp only [if_pos hy, e2, if_neg hne]
    · simp only [if_neg hy]
  have l3 : n3.length = nodes.length := by
    simp only [n3, n2, n1, length_update]
  have hdd : dd = d := by
    show (NODE_LOOKUP n3 cn).left_child = d
    rw [e3, if_neg hcs, e2, if_pos rfl]
  have e3p : ∀ y, (NODE_LOOKUP n3 y).left_parent = (NODE_LOOKUP nodes y).left_parent
      ∧ (NODE_LOOKUP n3 y).right_parent = (NODE_LOOKUP nodes y).right_parent := by
    intro y
    rw [e3]
    by_cases hy : y = self
    · rw [if_pos hy, hy]; exact ⟨rfl, rfl⟩
    · rw [if_neg hy, e2]
      by_cases hy2 : y = cn
      · rw [if_pos hy2, hy2]; exact ⟨rfl, rfl⟩
      · rw [if_neg hy2]; exact ⟨rfl, rfl⟩
  have e3c : ∀ y, y ≠ cn → y ≠ self →
      (NODE_LOOKUP n3 y).left_child = (NODE_LOOKUP nodes y).left_child
      ∧ (NODE_LOOKUP n3 y).right_child = (NODE_LOOKUP nodes y).right_child := by
    intro y h1 h2
    rw [e3, if_neg h2, e2, if_neg h1]
    exact ⟨rfl, rfl⟩
  have e3n : (NODE_LOOKUP n3 cn).left_child = d ∧ (NODE_LOOKUP n3 cn).right_child = newchild := by
    rw [e3, if_neg hcs, e2, if_pos rfl]
    exact ⟨rfl, rfl⟩
  have e3s : (NODE_LOOKUP n3 self).left_child = cn
      ∧ (NODE_LOOKUP n3 self).right_child = (NODE_LOOKUP nodes self).right_child := by
    rw [e3, if_pos rfl]; exact ⟨rfl, rfl⟩
  have c1 : ¬ (NODE_LOOKUP n3 dd).left_parent = self := by
    rw [hdd, (e3p d).1]
    exact fun h => hbad (Or.inl h)
  have c2 : ¬ (NODE_LOOKUP n3 dd).right_parent = self := by
    rw [hdd, (e3p d).2]
    exact fun h => hbad (Or.inr h)
  rw [if_neg c1, if_neg c2]
  exact ⟨n3, rfl, l3, e3p, e3c, e3s.1, e3s.2, e3n.1, e3n.2⟩

/-- A freshly allocated node keeps the arena wired. -/
theorem wired_append (nodes : List bh_graph_node) (t : bh_node_type) (ins : Int)
    (hw : parent_wired nodes) :
    parent_wired
      (nodes ++ [⟨t, ins, INVALID_NODE, INVALID_NODE, INVALID_NODE, INVALID_NODE⟩]) := by
  have hnew := lookup_append_new nodes
    ⟨t, ins, INVALID_NODE, INVALID_NODE, INVALID_NODE, INVALID_NODE⟩
  have hold : ∀ y, y ≠ (nodes.length : Int) →
      NODE_LOOKUP (nodes ++ [⟨t, ins, INVALID_NODE, INVALID_NODE, INVALID_NODE,
        INVALID_NODE⟩]) y = NODE_LOOKUP nodes y :=
    fun y hy => lookup_append_old nodes _ y hy
  constructor
  · intro c p hp hcp
    by_cases hc : c = (nodes.length : Int)
    · rw [hc, hnew] at hcp
      rcases hcp with h | h <;> exact absurd h.symm hp
    · rw [hold c hc] at hcp
      obtain ⟨-, hpv⟩ := wired_valid nodes hw c p hp hcp
      rw [hold p (by unfold valid_handle at hpv; omega)]
      exact hw.mirrored c p hp hcp
  · intro c
    by_cases hc : c = (nodes.length : Int)
    · rw [hc, hnew]; intro _; rfl
    · rw [hold c hc]; exact hw.distinct c

/-- Storing a child in a free child slot keeps the arena wired. -/
theorem wired_set_child (nodes : List bh_graph_node) (s : Int) (f : bh_graph_node → bh_graph_node)
    (hw : parent_wired nodes) (hs : valid_handle nodes s)
    (hp : ∀ nd, (f nd).left_parent = nd.left_parent ∧ (f nd).right_parent = nd.right_parent)
    (hc : ((f (NODE_LOOKUP nodes s)).left_child = (NODE_LOOKUP nodes s).left_child
        ∨ (NODE_LOOKUP nodes s).left_child = INVALID_NODE)
      ∧ ((f (NODE_LOOKUP nodes s)).right_child = (NODE_LOOKUP nodes s).right_child
        ∨ (NODE_LOOKUP nodes s).right_child = INVALID_NODE)) :
    parent_wired (NODE_UPDATE nodes s f) := by
  have hU : ∀ x, NODE_LOOKUP (NODE_UPDATE nodes s f) x
      = if x = s then f (NODE_LOOKUP nodes s) else NODE_LOOKUP nodes x :=
    fun x => lookup_update nodes s f x hs
  have hP := fun x => update_keeps_parents nodes s x f hp
  constructor
  · intro c p hp0 hcp
    rw [(hP c).1, (hP c).2] at hcp
    obtain ⟨hcv, -⟩ := wired_valid nodes hw c p hp0 hcp
    have hc0 := valid_ne_invalid nodes c hcv
    have hm := hw.mirrored c p hp0 hcp
    rw [hU]
    by_cases hps : p = s
    · rw [if_pos hps]
      rw [hps] at hm
      rcases hm with h | h
      · left
        rcases hc.1 with h1 | h1
        · rw [h1]; exact h
        · exact absurd (h.symm.trans h1) hc0
      · right
        rcases hc.2 with h1 | h1
        · rw [h1]; exact h
        · exact absurd (h.symm.trans h1) hc0
    · rw [if_neg hps]; exact hm
  · intro c
    rw [(hP c).1, (hP c).2]
    exact hw.distinct c

/-- The arena the fan-out overflow prepares for the nested `add_parent` is
wired when the arena with the fresh collection node was. -/
theorem wired_prepared (n0 n4 : List bh_graph_node) (s c cn d : Int)
    (hw : parent_wired n0) (F : fan_out_prepared n0 n4 s c cn d)
    (hs : valid_handle n0 s) (hcn : valid_handle n0 cn)
    (hfl : (NODE_LOOKUP n0 cn).left_child = INVALID_NODE)
    (hfr : (NODE_LOOKUP n0 cn).right_child = INVALID_NODE)
    (hd : (NODE_LOOKUP n0 s).left_child = d) :
    parent_wired n4 := by
  have hs0 := valid_ne_invalid n0 s hs
  -- a parent listed in the old arena still holds the child, unless the child is `d` and the
  -- parent is `s`
  have hkeep : ∀ c' p, p ≠ INVALID_NODE →
      ((NODE_LOOKUP n0 c').left_parent = p ∨ (NODE_LOOKUP n0 c').right_parent = p) →
      ¬ (c' = d ∧ p = s) →
      ((NODE_LOOKUP n4 p).left_child = c' ∨ (NODE_LOOKUP n4 p).right_child = c') := by
    intro c' p hp hcp hex
    obtain ⟨hcv, -⟩ := wired_valid n0 hw c' p hp hcp
    have hc0 := valid_ne_invalid n0 c' hcv
    have hm := hw.mirrored c' p hp hcp
    by_cases hpc : p = cn
    · rw [hpc, hfl, hfr] at hm
      rcases hm with h | h <;> exact absurd h.symm hc0
    by_cases hps : p = s
    · rw [hps] at hm ⊢
      rcases hm with h | h
      · exact absurd ⟨(hd.symm.trans h).symm, hps⟩ hex
      · right; rw [F.parent_children.2]; exact h
    · obtain ⟨j1, j2⟩ := F.children p hpc hps
      rw [j1, j2]; exact hm
  have hother : ∀ q, ((NODE_LOOKUP n0 d).left_parent = q ∨ (NODE_LOOKUP n0 d).right_parent = q) →
      q ≠ INVALID_NODE → q ≠ cn := by
    intro q hq hq0 hqc
    have hm := hw.mirrored d q hq0 hq
    rw [hqc, hfl, hfr] at hm
    have hdv := (wired_valid n0 hw d q hq0 hq).1
    rcases hm with h | h <;> exact valid_ne_invalid n0 d hdv h.symm
  constructor
  · intro c' p hp hcp
    by_cases hcd : c' = d
    · rw [hcd] at hcp ⊢
      by_cases hdl : (NODE_LOOKUP n0 d).left_parent = s
      · obtain ⟨k1, k2⟩ := F.displaced_left hdl
        rw [k1, k2] at hcp
        rcases hcp with h | h
        · left; rw [← h, F.new_node]
        · apply hkeep d p hp (Or.inr h)
          rintro ⟨-, hps⟩
          have := hw.distinct d (hdl.trans (hps.symm.trans h.symm))
          exact hs0 (hdl.symm.trans this)
      · obtain ⟨k1, k2⟩ := F.displaced_right hdl
        rw [k1, k2] at hcp
        rcases hcp with h | h
        · apply hkeep d p hp (Or.inl h)
          rintro ⟨-, hps⟩
          exact hdl (h.trans hps)
        · left; rw [← h, F.new_node]
    · obtain ⟨j1, j2⟩ := F.parents c' hcd
      rw [j1, j2] at hcp
      exact hkeep c' p hp hcp (fun h => hcd h.1)
  · intro c'
    by_cases hcd : c' = d
    · rw [hcd]
      by_cases hdl : (NODE_LOOKUP n0 d).left_parent = s
      · obtain ⟨k1, k2⟩ := F.displaced_left hdl
        rw [k1, k2]
        intro h
        exfalso
        have hq0 : (NODE_LOOKUP n0 d).right_parent ≠ INVALID_NODE := by
          rw [← h]; exact valid_ne_invalid n0 cn hcn
        exact hother _ (Or.inr rfl) hq0 h.symm
      · obtain ⟨k1, k2⟩ := F.displaced_right hdl
        rw [k1, k2]
        intro h
        exfalso
        have hq0 : (NODE_LOOKUP n0 d).left_parent ≠ INVALID_NODE := by
          rw [h]; exact valid_ne_invalid n0 cn hcn
        exact hother _ (Or.inl rfl) hq0 h
    · obtain ⟨j1, j2⟩ := F.parents c' hcd
      rw [j1, j2]
      exact hw.distinct c'

/-- Storing a first parent in a node without parents keeps the arena wired
when that parent holds the node in a child slot. -/
theorem wired_set_left_parent (w : List bh_graph_node) (cn s : Int) (hw : parent_wired w)
    (hcn : valid_handle w cn) (hs0 : s ≠ INVALID_NODE)
    (hpar : (NODE_LOOKUP w cn).right_parent = INVALID_NODE)
    (hold : (NODE_LOOKUP w s).left_child = cn ∨ (NODE_LOOKUP w s).right_child = cn) :
    parent_wired (NODE_UPDATE w cn (fun x => { x with left_parent := s })) := by
  have hU : ∀ x, NODE_LOOKUP (NODE_UPDATE w cn (fun x => { x with left_parent := s })) x
      = if x = cn then ⟨(NODE_LOOKUP w cn).type, (NODE_LOOKUP w cn).instruction,
          (NODE_LOOKUP w cn).left_child, (NODE_LOOKUP w cn).right_child, s,
          (NODE_LOOKUP w cn).right_parent⟩
        else NODE_LOOKUP w x := fun x => lookup_update w cn _ x hcn
  have hC : ∀ x, (NODE_LOOKUP (NODE_UPDATE w cn (fun x => { x with left_parent := s })) x).left_child
        = (NODE_LOOKUP w x).left_child
      ∧ (NODE_LOOKUP (NODE_UPDATE w cn (fun x => { x with left_parent := s })) x).right_child
        = (NODE_LOOKUP w x).right_child := by
    intro x
    rw [hU]
    split_ifs with hx
    · rw [hx]; exact ⟨rfl, rfl⟩
    · exact ⟨rfl, rfl⟩
  constructor
  · intro c p hp hcp
    rw [(hC p).1, (hC p).2]
    rw [hU] at hcp
    by_cases hc : c = cn
    · rw [if_pos hc] at hcp
      dsimp only at hcp
      rcases hcp with h | h
      · rw [← h, hc]; exact hold
      · rw [hpar] at h; exact absurd h.symm hp
    · rw [if_neg hc] at hcp
      exact hw.mirrored c p hp hcp
  · intro c
    rw [hU]
    by_cases hc : c = cn
    · rw [if_pos hc]
      dsimp only
      intro h
      rw [hpar] at h
      exact absurd h hs0
    · rw [if_neg hc]
      exact hw.distinct c

/-- The call `bh_grap_node_add_child(s, c)` on two handles of a
wired arena leaves a wired arena, whatever the memory bound and the outcome
of the call. -/
theorem wired_add_child (mem : Option Nat) (nodes : List bh_graph_node) (s c : Int)
    (hw : parent_wired nodes) (hs : valid_handle nodes s) (hc : valid_handle nodes c) :
    parent_wired (bh_grap_node_add_child mem nodes s c).2 := by
  have hs0 := valid_ne_invalid nodes s hs
  rcases add_child_cases mem nodes s c with
    ⟨-, e⟩ | ⟨-, hl, e⟩ | ⟨-, hl, hr, e⟩ | ⟨-, -, -, -, e⟩ | ⟨-, hl, hr, -, e⟩
  · rw [e]; exact hw
  · rw [e]
    dsimp only
    apply wired_add_parent mem _ c s
      (wired_set_child nodes s (fun x => { x with left_child := c }) hw hs
        (fun _ => ⟨rfl, rfl⟩) ⟨Or.inr hl, Or.inl rfl⟩)
      ((valid_update nodes s _ c).2 hc) ((valid_update nodes s _ s).2 hs)
    left
    rw [lookup_update nodes s _ s hs, if_pos rfl]
  · rw [e]
    dsimp only
    apply wired_add_parent mem _ c s
      (wired_set_child nodes s (fun x => { x with right_child := c }) hw hs
        (fun _ => ⟨rfl, rfl⟩) ⟨Or.inl rfl, Or.inr hr⟩)
      ((valid_update nodes s _ c).2 hc) ((valid_update nodes s _ s).2 hs)
    right
    rw [lookup_update nodes s _ s hs, if_pos rfl]
  · rw [e]; exact hw
  rw [e]
  have hw0 := wired_append nodes BH_COLLECTION INVALID_INSTRUCTION hw
  generalize hn0 : nodes ++ [(⟨BH_COLLECTION, INVALID_INSTRUCTION, INVALID_NODE,
    INVALID_NODE, INVALID_NODE, INVALID_NODE⟩ : bh_graph_node)] = n0 at hw0
  have hlen0 : n0.length = nodes.length + 1 := by
    rw [← hn0, List.length_append]; rfl
  have hnew : NODE_LOOKUP n0 (nodes.length : Int)
      = ⟨BH_COLLECTION, INVALID_INSTRUCTION, INVALID_NODE, INVALID_NODE, INVALID_NODE,
        INVALID_NODE⟩ := by rw [← hn0]; exact lookup_append_new nodes _
  have hold : ∀ y, y ≠ (nodes.length : Int) → NODE_LOOKUP n0 y = NODE_LOOKUP nodes y := by
    intro y hy; rw [← hn0]; exact lookup_append_old nodes _ y hy
  have hvx : ∀ x, valid_handle nodes x → x ≠ (nodes.length : Int) := by
    intro x hx; unfold valid_handle at hx; omega
  have hv0 : ∀ x, valid_handle nodes x → valid_handle n0 x := by
    intro x hx; unfold valid_handle at hx ⊢; rw [hlen0]; push_cast; omega
  have hc0 : valid_handle n0 (nodes.length : Int) := by
    unfold valid_handle; rw [hlen0]; push_cast; omega
  have hfl : (NODE_LOOKUP n0 (nodes.length : Int)).left_child = INVALID_NODE := by rw [hnew]
  have hfr : (NODE_LOOKUP n0 (nodes.length : Int)).right_child = INVALID_NODE := by rw [hnew]
  generalize hd : (NODE_LOOKUP nodes s).left_child = d at hl
  have hd0 : (NODE_LOOKUP n0 s).left_child = d := by rw [hold s (hvx s hs)]; exact hd
  by_cases hlist : (NODE_LOOKUP n0 d).left_parent = s ∨ (NODE_LOOKUP n0 d).right_parent = s
  · have hdv0 : valid_handle n0 d := (wired_valid n0 hw0 d s hs0 hlist).1
    have hdc : d ≠ (nodes.length : Int) := by
      intro h
      rw [h, hnew] at hlist
      rcases hlist with h1 | h1 <;> exact hs0 h1.symm
    obtain ⟨n4, F, e4⟩ := add_child_overflow_prepare mem n0 s c (nodes.length : Int) d
      (hv0 s hs) hc0 (hvx s hs) hd0 hdv0 hdc hlist
    have hw4 := wired_prepared n0 n4 s c (nodes.length : Int) d hw0 F (hv0 s hs) hc0 hfl hfr
      hd0
    have hv4 : ∀ x, valid_handle n0 x → valid_handle n4 x := by
      intro x hx; unfold valid_handle at hx ⊢; rw [F.length]; exact hx
    have hcn0 : ((nodes.length : Int)) ≠ INVALID_NODE := by unfold INVALID_NODE; omega
    have W := wired_add_parent mem n4 c (nodes.length : Int) hw4 (hv4 c (hv0 c hc))
      (hv4 _ hc0) (Or.inr (by rw [F.new_node]))
    rw [e4]
    by_cases hok : (bh_grap_node_add_parent mem n4 c (nodes.length : Int)).1 = BH_SUCCESS
    · rw [if_neg (not_not.2 hok)]
      dsimp only
      have A := add_parent_effect mem n4 c (nodes.length : Int) (hv4 c (hv0 c hc)) hcn0 hok
      generalize (bh_grap_node_add_parent mem n4 c (nodes.length : Int)).2 = w at A W
      have hlenw : n4.length ≤ w.length := parent_added_length _ _ _ _ A
      have hvw : valid_handle w (nodes.length : Int) := by
        unfold valid_handle; rw [F.length, hlen0] at hlenw; omega
      have hwp := A.parents (nodes.length : Int) (fun h => hvx c hc h.symm) (hv4 _ hc0)
      rw [(F.parents _ (fun h => hdc h.symm)).2, hnew] at hwp
      have hsc : (NODE_LOOKUP w s).left_child = (nodes.length : Int) := by
        rcases A.left_child s (hv4 s (hv0 s hs)) with h | ⟨-, h, -⟩
        · rw [h]; exact F.parent_children.1
        · rw [F.parent_children.1] at h
          exact absurd h.symm (hvx c hc)
      exact wired_set_left_parent w _ s W hvw hs0 hwp.2 (Or.inl hsc)
    · rw [if_pos hok]
      exact W
  · obtain ⟨n3, e3, -, hp3, hc3, hs3l, hs3r, -, -⟩ := add_child_overflow_bad mem n0 s c
      (nodes.length : Int) d (hv0 s hs) hc0 (hvx s hs) hd0 hlist
    rw [e3]
    dsimp only
    constructor
    · intro c' p hp hcp
      rw [(hp3 c').1, (hp3 c').2] at hcp
      obtain ⟨hcv, -⟩ := wired_valid n0 hw0 c' p hp hcp
      have hc'0 := valid_ne_invalid n0 c' hcv
      have hm := hw0.mirrored c' p hp hcp
      by_cases hpc : p = (nodes.length : Int)
      · rw [hpc, hfl, hfr] at hm
        rcases hm with h | h <;> exact absurd h.symm hc'0
      by_cases hps : p = s
      · rw [hps] at hm hcp ⊢
        rcases hm with h | h
        · exfalso
          rw [hd0] at h
          rw [← h] at hcp
          exact hlist hcp
        · right; rw [hs3r]; exact h
      · obtain ⟨j1, j2⟩ := hc3 p hpc hps
        rw [j1, j2]; exact hm
    · intro c'
      rw [(hp3 c').1, (hp3 c').2]
      exact hw0.distinct c'

/-- A handle outside the arena has no parent. -/
theorem parentless_invalid (nodes : List bh_graph_node) (x : Int)
    (h : ¬ valid_handle nodes x) : parentless nodes x :=
  ⟨(lookup_invalid_slots nodes x h).2.2.1, (lookup_invalid_slots nodes x h).2.2.2⟩

/-- What `bh_grap_node_add_parent(self, newparent)` keeps for a `self` other
than the root, whatever its outcome: the root stays without parent and
nobody's child, the arena does not shrink, no node loses its last parent,
every node the call creates has a parent, and `self` has a parent
afterwards. -/
theorem grounded_add_parent (mem : Option Nat) (nodes : List bh_graph_node)
    (root self newparent : Int) (hr : rooted nodes root) (hroot : valid_handle nodes root)
    (hs : valid_handle nodes self) (hsr : self ≠ root) (hnp : newparent ≠ INVALID_NODE) :
    rooted (bh_grap_node_add_parent mem nodes self newparent).2 root
    ∧ nodes.length ≤ (bh_grap_node_add_parent mem nodes self newparent).2.length
    ∧ (∀ x, ¬ parentless nodes x →
        ¬ parentless (bh_grap_node_add_parent mem nodes self newparent).2 x)
    ∧ (∀ x, valid_handle (bh_grap_node_add_parent mem nodes self newparent).2 x →
        ¬ valid_handle nodes x →
        ¬ parentless (bh_grap_node_add_parent mem nodes self newparent).2 x)
    ∧ ¬ parentless (bh_grap_node_add_parent mem nodes self newparent).2 self := by
  have hroot0 := valid_ne_invalid nodes root hroot
  have hrs : ¬ root = self := fun h => hsr h.symm
  rcases add_parent_cases mem nodes self newparent with
    ⟨h, e⟩ | ⟨-, hl, e⟩ | ⟨-, hl, hr2, e⟩ | ⟨-, hl, -, -, e⟩ | ⟨-, hl, hr2, hl2, hr3, -, e⟩
  · rw [e]
    refine ⟨hr, le_refl _, fun _ hx => hx, fun _ hx hnx => absurd hx hnx, ?_⟩
    rintro ⟨h1, h2⟩
    rcases h with h | h | h
    · exact hnp (h.symm.trans h1)
    · exact hnp (h.symm.trans h2)
    · exact hnp h
  · rw [e]
    dsimp only
    have hU : ∀ x, NODE_LOOKUP (NODE_UPDATE nodes self
        (fun x => { x with left_parent := newparent })) x
        = if x = self then ⟨(NODE_LOOKUP nodes self).type, (NODE_LOOKUP nodes self).instruction,
            (NODE_LOOKUP nodes self).left_child, (NODE_LOOKUP nodes self).right_child,
            newparent, (NODE_LOOKUP nodes self).right_parent⟩
          else NODE_LOOKUP nodes x := fun x => lookup_update nodes self _ x hs
    refine ⟨⟨?_, fun x => ?_⟩, by rw [length_update], fun x hx => ?_, fun x hx hnx => ?_, ?_⟩
    · unfold parentless
      rw [hU, if_neg hrs]
      exact hr.root_parentless
    · rw [hU]
      split_ifs with hx
      · exact hr.no_root_child self
      · exact hr.no_root_child x
    · unfold parentless at hx ⊢
      rw [hU]
      split_ifs with hxs
      · rintro ⟨h1, -⟩; exact hnp h1
      · exact hx
    · exact absurd ((valid_update nodes self _ x).1 hx) hnx
    · unfold parentless
      rw [hU, if_pos rfl]
      rintro ⟨h1, -⟩; exact hnp h1
  · rw [e]
    dsimp only
    have hU : ∀ x, NODE_LOOKUP (NODE_UPDATE nodes self
        (fun x => { x with right_parent := newparent })) x
        = if x = self then ⟨(NODE_LOOKUP nodes self).type, (NODE_LOOKUP nodes self).instruction,
            (NODE_LOOKUP nodes self).left_child, (NODE_LOOKUP nodes self).right_child,
            (NODE_LOOKUP nodes self).left_parent, newparent⟩
          else NODE_LOOKUP nodes x := fun x => lookup_update nodes self _ x hs
    refine ⟨⟨?_, fun x => ?_⟩, by rw [length_update], fun x hx => ?_, fun x hx hnx => ?_, ?_⟩
    · unfold parentless
      rw [hU, if_neg hrs]
      exact hr.root_parentless
    · rw [hU]
      split_ifs with hx
      · exact hr.no_root_child self
      · exact hr.no_root_child x
    · unfold parentless at hx ⊢
      rw [hU]
      split_ifs with hxs
      · rintro ⟨-, h1⟩; exact hnp h1
      · exact hx
    · exact absurd ((valid_update nodes self _ x).1 hx) hnx
    · unfold parentless
      rw [hU, if_pos rfl]
      rintro ⟨-, h1⟩; exact hnp h1
  · rw [e]
    exact ⟨hr, le_refl _, fun _ hx => hx, fun _ hx hnx => absurd hx hnx, fun h => hl h.1⟩
  · have hok : (bh_grap_node_add_parent mem nodes self newparent).1 = BH_SUCCESS := by rw [e]
    have A := add_parent_effect mem nodes self newparent hs hnp hok
    have hf : fan_in_full nodes self newparent := ⟨hl, hr2, hl2, hr3⟩
    obtain ⟨k0, k1, k2, k3⟩ := A.new_node hf
    generalize (bh_grap_node_add_parent mem nodes self newparent).2 = u at A k0 k1 k2 k3
    have hlen0 : ((nodes.length : Int)) ≠ INVALID_NODE := by unfold INVALID_NODE; omega
    have hrl : root ≠ (nodes.length : Int) := by unfold valid_handle at hroot; omega
    have hinv : ∀ x, ¬ valid_handle nodes x → x ≠ (nodes.length : Int) →
        ¬ valid_handle u x := by
      intro x hx hxl
      unfold valid_handle at hx ⊢
      rw [k0]; push_cast; omega
    refine ⟨⟨?_, fun x => ?_⟩, by rw [k0]; omega, fun x hx => ?_, fun x hx hnx => ?_, ?_⟩
    · obtain ⟨j1, j2⟩ := A.parents root (fun h => hsr h.symm) hroot
      unfold parentless
      rw [j1, j2]
      exact hr.root_parentless
    · by_cases hxv : valid_handle nodes x
      · constructor
        · rcases A.left_child x hxv with h | ⟨-, -, h, -⟩
          · rw [h]; exact (hr.no_root_child x).1
          · rw [h]; exact fun h2 => hrl h2.symm
        · rcases A.right_child x hxv with h | ⟨-, -, h, -⟩
          · rw [h]; exact (hr.no_root_child x).2
          · rw [h]; exact fun h2 => hrl h2.symm
      · by_cases hxl : x = (nodes.length : Int)
        · rw [hxl, k1]
          exact ⟨fun h => hsr h, fun h => hroot0 h.symm⟩
        · obtain ⟨h1, h2, -, -⟩ := lookup_invalid_slots u x (hinv x hxv hxl)
          rw [h1, h2]
          exact ⟨fun h => hroot0 h.symm, fun h => hroot0 h.symm⟩
    · have hxv : valid_handle nodes x := by
        by_contra hv
        exact hx (parentless_invalid nodes x hv)
      by_cases hxs : x = self
      · rw [hxs]
        unfold parentless
        rw [k2]
        rintro ⟨h1, -⟩; exact hlen0 h1
      · obtain ⟨j1, j2⟩ := A.parents x hxs hxv
        unfold parentless at hx ⊢
        rw [j1, j2]; exact hx
    · have hxl : x = (nodes.length : Int) := by
        by_contra hxl
        exact hinv x hnx hxl hx
      rw [hxl]
      unfold parentless
      rw [k1]
      rintro ⟨h1, -⟩
      exact hl h1
    · unfold parentless
      rw [k2]
      rintro ⟨h1, -⟩; exact hlen0 h1

/-- What a successful `bh_grap_node_add_child(s, c)` keeps for a child `c`
other than the root: the root stays without parent and nobody's child, the
arena does not shrink, no node loses its last parent, every node the call
creates has a parent, and `c` has a parent afterwards. -/
theorem grounded_add_child (mem : Option Nat) (nodes : List bh_graph_node)
    (root s c : Int) (hr : rooted nodes root) (hroot : valid_handle nodes root)
    (hs : valid_handle nodes s) (hc : valid_handle nodes c) (hcr : c ≠ root)
    (hok : (bh_grap_node_add_child mem nodes s c).1 = BH_SUCCESS) :
    rooted (bh_grap_node_add_child mem nodes s c).2 root
    ∧ nodes.length ≤ (bh_grap_node_add_child mem nodes s c).2.length
    ∧ (∀ x, ¬ parentless nodes x → ¬ parentless (bh_grap_node_add_child mem nodes s c).2 x)
    ∧ (∀ x, valid_handle (bh_grap_node_add_child mem nodes s c).2 x → ¬ valid_handle nodes x →
        ¬ parentless (bh_grap_node_add_child mem nodes s c).2 x)
    ∧ ¬ parentless (bh_grap_node_add_child mem nodes s c).2 c := by
  have hs0 := valid_ne_invalid nodes s hs
  have hroot0 := valid_ne_invalid nodes root hroot
  -- storing `c` in a child slot of `s`
  have hset : ∀ f : bh_graph_node → bh_graph_node,
      (∀ nd, (f nd).left_parent = nd.left_parent ∧ (f nd).right_parent = nd.right_parent) →
      ((f (NODE_LOOKUP nodes s)).left_child ≠ root ∧ (f (NODE_LOOKUP nodes s)).right_child ≠ root) →
      rooted (bh_grap_node_add_parent mem (NODE_UPDATE nodes s f) c s).2 root
      ∧ nodes.length ≤ (bh_grap_node_add_parent mem (NODE_UPDATE nodes s f) c s).2.length
      ∧ (∀ x, ¬ parentless nodes x →
          ¬ parentless (bh_grap_node_add_parent mem (NODE_UPDATE nodes s f) c s).2 x)
      ∧ (∀ x, valid_handle (bh_grap_node_add_parent mem (NODE_UPDATE nodes s f) c s).2 x →
          ¬ valid_handle nodes x →
          ¬ parentless (bh_grap_node_add_parent mem (NODE_UPDATE nodes s f) c s).2 x)
      ∧ ¬ parentless (bh_grap_node_add_parent mem (NODE_UPDATE nodes s f) c s).2 c := by
    intro f hp hch
    have hP := fun x => update_keeps_parents nodes s x f hp
    have hU : ∀ x, NODE_LOOKUP (NODE_UPDATE nodes s f) x
        = if x = s then f (NODE_LOOKUP nodes s) else NODE_LOOKUP nodes x :=
      fun x => lookup_update nodes s f x hs
    have hr1 : rooted (NODE_UPDATE nodes s f) root := by
      refine ⟨?_, fun x => ?_⟩
      · unfold parentless
        rw [(hP root).1, (hP root).2]
        exact hr.root_parentless
      · rw [hU]
        split_ifs
        · exact hch
        · exact hr.no_root_child x
    obtain ⟨g1, g2, g3, g4, g5⟩ := grounded_add_parent mem (NODE_UPDATE nodes s f) root c s hr1
      ((valid_update nodes s f root).2 hroot) ((valid_update nodes s f c).2 hc) hcr hs0
    refine ⟨g1, by rw [length_update] at g2; exact g2, fun x hx => g3 x ?_,
      fun x hx hnx => g4 x hx (fun h => hnx ((valid_update nodes s f x).1 h)), g5⟩
    unfold parentless at hx ⊢
    rw [(hP x).1, (hP x).2]
    exact hx
  rcases add_child_cases mem nodes s c with
    ⟨-, e⟩ | ⟨-, hl, e⟩ | ⟨-, hl, hr2, e⟩ | ⟨-, -, -, -, e⟩ | ⟨-, hl, hr2, -, e⟩
  · rw [e] at hok; cases hok
  · rw [e]
    exact hset (fun x => { x with left_child := c }) (fun _ => ⟨rfl, rfl⟩)
      ⟨hcr, (hr.no_root_child s).2⟩
  · rw [e]
    exact hset (fun x => { x with right_child := c }) (fun _ => ⟨rfl, rfl⟩)
      ⟨(hr.no_root_child s).1, hcr⟩
  · rw [e] at hok; cases hok
  rw [e] at hok ⊢
  generalize hn0 : nodes ++ [(⟨BH_COLLECTION, INVALID_INSTRUCTION, INVALID_NODE,
    INVALID_NODE, INVALID_NODE, INVALID_NODE⟩ : bh_graph_node)] = n0 at hok
  have hlen0 : n0.length = nodes.length + 1 := by
    rw [← hn0, List.length_append]; rfl
  have hnew : NODE_LOOKUP n0 (nodes.length : Int)
      = ⟨BH_COLLECTION, INVALID_INSTRUCTION, INVALID_NODE, INVALID_NODE, INVALID_NODE,
        INVALID_NODE⟩ := by rw [← hn0]; exact lookup_append_new nodes _
  have hold : ∀ y, y ≠ (nodes.length : Int) → NODE_LOOKUP n0 y = NODE_LOOKUP nodes y := by
    intro y hy; rw [← hn0]; exact lookup_append_old nodes _ y hy
  have hvx : ∀ x, valid_handle nodes x → x ≠ (nodes.length : Int) := by
    intro x hx; unfold valid_handle at hx; omega
  have hv0 : ∀ x, valid_handle nodes x → valid_handle n0 x := by
    intro x hx; unfold valid_handle at hx ⊢; rw [hlen0]; push_cast; omega
  have hc0 : valid_handle n0 (nodes.length : Int) := by
    unfold valid_handle; rw [hlen0]; push_cast; omega
  have hcn0 : ((nodes.length : Int)) ≠ INVALID_NODE := by unfold INVALID_NODE; omega
  generalize hd : (NODE_LOOKUP nodes s).left_child = d at hl
  have hd0 : (NODE_LOOKUP n0 s).left_child = d := by rw [hold s (hvx s hs)]; exact hd
  have hdr : d ≠ root := by rw [← hd]; exact (hr.no_root_child s).1
  by_cases hlist : (NODE_LOOKUP n0 d).left_parent = s ∨ (NODE_LOOKUP n0 d).right_parent = s
  swap
  · obtain ⟨n3, e3, -⟩ := add_child_overflow_bad mem n0 s c
      (nodes.length : Int) d (hv0 s hs) hc0 (hvx s hs) hd0 hlist
    rw [e3] at hok
    cases hok
  have hdv0 : valid_handle n0 d := by
    by_contra hv
    obtain ⟨-, -, h1, h2⟩ := lookup_invalid_slots n0 d hv
    rw [h1, h2] at hlist
    rcases hlist with h | h <;> exact hs0 h.symm
  have hdc : d ≠ (nodes.length : Int) := by
    intro h
    rw [h, hnew] at hlist
    rcases hlist with h1 | h1 <;> exact hs0 h1.symm
  have hdv : valid_handle nodes d := by
    unfold valid_handle at hdv0 ⊢
    rw [hlen0] at hdv0
    push_cast at hdv0
    omega
  obtain ⟨n4, F, e4⟩ := add_child_overflow_prepare mem n0 s c (nodes.length : Int) d
    (hv0 s hs) hc0 (hvx s hs) hd0 hdv0 hdc hlist
  have hv4 : ∀ x, valid_handle n0 x → valid_handle n4 x := by
    intro x hx; unfold valid_handle at hx ⊢; rw [F.length]; exact hx
  rw [e4] at hok ⊢
  by_cases hpok : (bh_grap_node_add_parent mem n4 c (nodes.length : Int)).1 = BH_SUCCESS
  swap
  · rw [if_pos hpok] at hok; cases hok
  rw [if_neg (not_not.2 hpok)]
  dsimp only
  -- the prepared arena
  have hr4 : rooted n4 root := by
    refine ⟨?_, fun x => ?_⟩
    · obtain ⟨j1, j2⟩ := F.parents root (fun h => hdr h.symm)
      unfold parentless
      rw [j1, j2, hold root (hvx root hroot)]
      exact hr.root_parentless
    · by_cases hxc : x = (nodes.length : Int)
      · rw [hxc, F.new_node]
        exact ⟨hdr, hcr⟩
      by_cases hxs : x = s
      · rw [hxs, F.parent_children.1, F.parent_children.2, hold s (hvx s hs)]
        exact ⟨fun h => hvx root hroot h.symm, (hr.no_root_child s).2⟩
      · obtain ⟨j1, j2⟩ := F.children x hxc hxs
        rw [j1, j2, hold x hxc]
        exact hr.no_root_child x
  have hk4 : ∀ x, ¬ parentless nodes x → ¬ parentless n4 x := by
    intro x hx
    have hxv : valid_handle nodes x := by
      by_contra hv
      exact hx (parentless_invalid nodes x hv)
    unfold parentless at hx ⊢
    by_cases hxd : x = d
    · rw [hxd]
      by_cases hdl : (NODE_LOOKUP n0 d).left_parent = s
      · rw [(F.displaced_left hdl).1]
        rintro ⟨h, -⟩; exact hcn0 h
      · rw [(F.displaced_right hdl).2]
        rintro ⟨-, h⟩; exact hcn0 h
    · obtain ⟨j1, j2⟩ := F.parents x hxd
      rw [j1, j2, hold x (hvx x hxv)]
      exact hx
  obtain ⟨g1, g2, g3, g4, g5⟩ := grounded_add_parent mem n4 root c (nodes.length : Int) hr4
    (hv4 root (hv0 root hroot)) (hv4 c (hv0 c hc)) hcr hcn0
  generalize (bh_grap_node_add_parent mem n4 c (nodes.length : Int)).2 = w at g1 g2 g3 g4 g5
  have hvw : valid_handle w (nodes.length : Int) := by
    unfold valid_handle; rw [F.length, hlen0] at g2; omega
  have hU : ∀ x, NODE_LOOKUP (NODE_UPDATE w (nodes.length : Int)
      (fun x => { x with left_parent := s })) x
      = if x = (nodes.length : Int) then
          ⟨(NODE_LOOKUP w (nodes.length : Int)).type, (NODE_LOOKUP w (nodes.length : Int)).instruction,
           (NODE_LOOKUP w (nodes.length : Int)).left_child,
           (NODE_LOOKUP w (nodes.length : Int)).right_child, s,
           (NODE_LOOKUP w (nodes.length : Int)).right_parent⟩
        else NODE_LOOKUP w x := fun x => lookup_update w _ _ x hvw
  have hkeep : ∀ x, ¬ parentless w x → ¬ parentless (NODE_UPDATE w (nodes.length : Int)
      (fun x => { x with left_parent := s })) x := by
    intro x hx
    unfold parentless at hx ⊢
    rw [hU]
    split_ifs with hxc
    · rintro ⟨h, -⟩; exact hs0 h
    · exact hx
  refine ⟨⟨?_, fun x => ?_⟩, ?_, fun x hx => hkeep x (g3 x (hk4 x hx)), fun x hx hnx => ?_,
    hkeep c g5⟩
  · unfold parentless
    rw [hU, if_neg (hvx root hroot)]
    exact g1.root_parentless
  · rw [hU]
    split_ifs with hxc
    · rw [← hxc]; exact g1.no_root_child x
    · exact g1.no_root_child x
  · rw [length_update]
    rw [F.length, hlen0] at g2
    omega
  · by_cases hxc : x = (nodes.length : Int)
    · unfold parentless
      rw [hU, if_pos hxc]
      rintro ⟨h, -⟩; exact hs0 h
    · apply hkeep
      apply g4 x ((valid_update w _ _ x).1 hx)
      unfold valid_handle at hnx ⊢
      rw [F.length, hlen0]
      push_cast
      omega

/-- A property of arenas that every successful `add_child(s, selfNode)` call
with `s` a handle of the arena `base` keeps, holds after a successful
write-after-read loop over readers that are handles of `base`. -/
theorem war_loop_valid_steps (P : List bh_graph_node → Prop) (mem : Option Nat)
    (base : List bh_graph_node) (selfNode leftDep rightDep : Int)
    (hstep : ∀ nodes s, P nodes → valid_handle base s →
      (bh_grap_node_add_child mem nodes s selfNode).1 = BH_SUCCESS →
      P (bh_grap_node_add_child mem nodes s selfNode).2)
    (readers : List Int) :
    ∀ nodes, P nodes → (∀ v ∈ readers, valid_handle base v) →
      (parse_war_loop mem selfNode leftDep rightDep nodes readers).1 = BH_SUCCESS →
      P (parse_war_loop mem selfNode leftDep rightDep nodes readers).2 := by
  induction readers with
  | nil =>
    intro nodes hP _ _
    rw [parse_war_loop]
    exact hP
  | cons r rest ih =>
    intro nodes hP hv hok
    rw [parse_war_loop] at hok ⊢
    by_cases c : r ≠ leftDep ∧ r ≠ rightDep
    · rw [if_pos c] at hok ⊢
      dsimp only at hok ⊢
      by_cases c2 : (bh_grap_node_add_child mem nodes r selfNode).1 ≠ BH_SUCCESS
      · rw [if_pos c2] at hok
        cases hok
      · rw [if_neg c2] at hok ⊢
        exact ih _ (hstep nodes r hP (hv r (List.mem_cons_self _ _)) (not_not.1 c2))
          (fun v hv2 => hv v (List.mem_cons_of_mem _ hv2)) hok
    · rw [if_neg c] at hok ⊢
      exact ih nodes hP (fun v hv2 => hv v (List.mem_cons_of_mem _ hv2)) hok

/-- A property of arenas that holds for the arena with the freshly allocated
node of the instruction, and that every successful `add_child(s, n)` call
with `s` a handle of the old arena keeps, holds after the edge part of the
iteration. -/
theorem parse_edges_valid_steps (P : List bh_graph_node → Prop) (T : bh_opcodes)
    (mem : Option Nat) (st : parse_state) (e : Int × parse_state) (i : Int)
    (instr : bh_instruction)
    (hwv : ∀ b v, st.writemap b = some v → valid_handle st.nodes v)
    (hrv : ∀ b l, st.readmap b = some l → ∀ v ∈ l, valid_handle st.nodes v)
    (hstep : ∀ nodes s, P nodes → valid_handle st.nodes s →
      (bh_grap_node_add_child mem nodes s (st.nodes.length : Int)).1 = BH_SUCCESS →
      P (bh_grap_node_add_child mem nodes s (st.nodes.length : Int)).2)
    (h0 : P (st.nodes ++ [⟨BH_INSTRUCTION, i, INVALID_NODE, INVALID_NODE, INVALID_NODE,
      INVALID_NODE⟩]))
    (h : parse_edges T mem st i instr = some e) : P e.2.nodes := by
  unfold parse_edges at h
  lift_lets at h
  extract_lets ids selfId leftId rightId r selfNode a1 writemap leftDep rightDep a2
    readmap1 readmap2 readmap3 a3 a4 at h
  by_cases c0 : ids.1 ≠ BH_SUCCESS
  · rw [if_pos c0] at h; cases h
  rw [if_neg c0] at h
  by_cases c1 : selfNode = INVALID_NODE
  · rw [if_pos c1] at h; cases h
  rw [if_neg c1] at h
  by_cases c2 : a1.1 ≠ BH_SUCCESS
  · rw [if_pos c2] at h; cases h
  rw [if_neg c2] at h
  by_cases c3 : a2.1 ≠ BH_SUCCESS
  · rw [if_pos c3] at h; cases h
  rw [if_neg c3] at h
  by_cases c4 : a3.1 ≠ BH_SUCCESS
  · rw [if_pos c4] at h; cases h
  rw [if_neg c4] at h
  by_cases c5 : a4.1 ≠ BH_SUCCESS
  · rw [if_pos c5] at h; cases h
  rw [if_neg c5] at h
  simp only [Option.some.injEq] at h
  have hr : r = ((st.nodes.length : Int), st.nodes ++ [⟨BH_INSTRUCTION, i, INVALID_NODE,
      INVALID_NODE, INVALID_NODE, INVALID_NODE⟩]) := by
    rcases new_node_cases mem st.nodes BH_INSTRUCTION i with e | e
    · exact absurd (show selfNode = INVALID_NODE from congrArg Prod.fst e) c1
    · exact e
  have hbase : r.2 = st.nodes ++ [⟨BH_INSTRUCTION, i, INVALID_NODE,
      INVALID_NODE, INVALID_NODE, INVALID_NODE⟩] := congrArg Prod.snd hr
  have hself : selfNode = (st.nodes.length : Int) := congrArg Prod.fst hr
  have hdep : ∀ b, (writemap b).getD INVALID_NODE = INVALID_NODE
      ∨ (writemap b).getD INVALID_NODE = selfNode
      ∨ valid_handle st.nodes ((writemap b).getD INVALID_NODE) := by
    intro b
    show (map_set st.writemap selfId selfNode b).getD INVALID_NODE = INVALID_NODE
      ∨ (map_set st.writemap selfId selfNode b).getD INVALID_NODE = selfNode
      ∨ valid_handle st.nodes ((map_set st.writemap selfId selfNode b).getD INVALID_NODE)
    unfold map_set
    by_cases hb : b = selfId
    · rw [if_pos hb]; right; left; rfl
    · rw [if_neg hb]
      rcases hw : st.writemap b with _ | v
      · left; rfl
      · right; right
        exact hwv b v hw
  have h1 : P a1.2 := by
    rcases hw : st.writemap selfId with _ | oldTarget
    · have : a1 = (BH_SUCCESS, r.2) := by simp only [a1, hw]
      rw [this, hbase]; exact h0
    · have e1 : a1 = bh_grap_node_add_child mem r.2 oldTarget selfNode := by simp only [a1, hw]
      rw [e1] at c2 ⊢
      rw [hself] at c2 ⊢
      rw [hbase] at c2 ⊢
      exact hstep _ oldTarget h0 (hwv _ _ hw) (not_not.1 c2)
  have h2 : P a2.2 := by
    rcases hrd : st.readmap selfId with _ | readers
    · have : a2 = (BH_SUCCESS, a1.2) := by simp only [a2, hrd]
      rw [this]; exact h1
    · have e2 : a2 = parse_war_loop mem selfNode leftDep rightDep a1.2 readers := by
        simp only [a2, hrd]
      rw [e2] at c3 ⊢
      rw [hself] at c3 ⊢
      exact war_loop_valid_steps P mem st.nodes _ leftDep rightDep hstep readers a1.2 h1
        (hrv _ _ hrd) (not_not.1 c3)
  have h3 : P a3.2 := by
    by_cases c : leftDep ≠ INVALID_NODE ∧ leftDep ≠ selfNode
    · have e3 : a3 = bh_grap_node_add_child mem a2.2 leftDep selfNode := by
        simp only [a3]; rw [if_pos c]
      rw [e3] at c4 ⊢
      rw [hself] at c4 ⊢
      exact hstep a2.2 leftDep h2 (((hdep leftId).resolve_left c.1).resolve_left c.2)
        (not_not.1 c4)
    · have : a3 = (BH_SUCCESS, a2.2) := by simp only [a3]; rw [if_neg c]
      rw [this]; exact h2
  have h4 : P a4.2 := by
    by_cases c : rightDep ≠ INVALID_NODE ∧ rightDep ≠ leftDep ∧ rightDep ≠ selfNode
    · have e4 : a4 = bh_grap_node_add_child mem a3.2 rightDep selfNode := by
        simp only [a4]; rw [if_pos c]
      rw [e4] at c5 ⊢
      rw [hself] at c5 ⊢
      exact hstep a3.2 rightDep h3 (((hdep rightId).resolve_left c.1).resolve_left c.2.2)
        (not_not.1 c5)
    · have : a4 = (BH_SUCCESS, a3.2) := by simp only [a4]; rw [if_neg c]
      rw [this]; exact h3
  rw [← h]
  exact h4

/-- The arena does not shrink across `bh_grap_node_add_child`. -/
theorem length_add_child_le (mem : Option Nat) (nodes : List bh_graph_node) (s c : Int) :
    nodes.length ≤ (bh_grap_node_add_child mem nodes s c).2.length := by
  obtain ⟨j, hj⟩ := typing_add_child mem nodes s c
  have := congrArg List.length hj
  unfold typing at this
  simp only [List.length_map, List.length_append, List.length_replicate] at this
  omega

/-- One iteration of the main loop keeps `graph_inv`. -/
theorem graph_inv_step (T : bh_opcodes) (mem : Option Nat) (root : Int)
    (st st' : parse_state) (i : Int) (instr : bh_instruction) (hinv : graph_inv root st)
    (h : parse_instruction T mem root st i instr = some st') : graph_inv root st' := by
  rw [parse_instruction_split] at h
  cases he : parse_edges T mem st i instr with
  | none => rw [he] at h; cases h
  | some e =>
    rw [he] at h
    change parse_root_attach mem root e = some st' at h
    obtain ⟨-, hself, -, hw, hrd⟩ := parse_edges_spec (fun _ _ => True) (fun _ => trivial)
      (fun _ _ _ _ _ => trivial) (fun _ _ _ _ => trivial) T mem st e i instr he
    have hroot := hinv.root_valid
    have hrK : root ≠ (st.nodes.length : Int) := by unfold valid_handle at hroot; omega
    have hold : ∀ y, y ≠ (st.nodes.length : Int) →
        NODE_LOOKUP (st.nodes ++ [⟨BH_INSTRUCTION, i, INVALID_NODE, INVALID_NODE, INVALID_NODE,
          INVALID_NODE⟩]) y = NODE_LOOKUP st.nodes y :=
      fun y hy => lookup_append_old st.nodes _ y hy
    have hnew := lookup_append_new st.nodes
      ⟨BH_INSTRUCTION, i, INVALID_NODE, INVALID_NODE, INVALID_NODE, INVALID_NODE⟩
    -- the property carried through the edge part
    have hP := parse_edges_valid_steps
      (fun nodes => st.nodes.length + 1 ≤ nodes.length ∧ parent_wired nodes ∧ rooted nodes root
        ∧ ∀ x, valid_handle nodes x → x ≠ root → x ≠ (st.nodes.length : Int) →
            ¬ parentless nodes x)
      T mem st e i instr hinv.writers hinv.readers
      (fun nodes s ⟨p1, p2, p3, p4⟩ hs hok => by
        have hsv : valid_handle nodes s := by unfold valid_handle at hs ⊢; omega
        have hkv : valid_handle nodes (st.nodes.length : Int) := by unfold valid_handle; omega
        have hrv : valid_handle nodes root := by unfold valid_handle at hroot ⊢; omega
        obtain ⟨g1, g2, g3, g4, -⟩ := grounded_add_child mem nodes root s _ p3 hrv hsv hkv
          (fun hc => hrK hc.symm) hok
        refine ⟨le_trans p1 g2, wired_add_child mem nodes s _ p2 hsv hkv, g1, fun x hx hxr hxk => ?_⟩
        by_cases hxv : valid_handle nodes x
        · exact g3 x (p4 x hxv hxr hxk)
        · exact g4 x hx hxv)
      ⟨by rw [List.length_append]; rfl,
        wired_append st.nodes BH_INSTRUCTION i hinv.wired,
        ⟨by
          unfold parentless
          rw [hold root hrK]
          exact hinv.rooted.root_parentless,
         fun x => by
          by_cases hx : x = (st.nodes.length : Int)
          · rw [hx, hnew]
            have := valid_ne_invalid st.nodes root hroot
            exact ⟨fun hc => this hc.symm, fun hc => this hc.symm⟩
          · rw [hold x hx]
            exact hinv.rooted.no_root_child x⟩,
        fun x hx hxr hxk => by
          unfold parentless
          rw [hold x hxk]
          apply hinv.others x _ hxr
          rcases (valid_append st.nodes _ x).1 hx with h1 | h1
          · exact h1
          · exact absurd h1 hxk⟩ he
    obtain ⟨q1, q2, q3, q4⟩ := hP
    have hkv : valid_handle e.2.nodes e.1 := by rw [hself]; unfold valid_handle; omega
    have hrv : valid_handle e.2.nodes root := by unfold valid_handle at hroot ⊢; omega
    have hwv : ∀ b v, e.2.writemap b = some v → valid_handle e.2.nodes v := by
      intro b v hb
      rw [hw] at hb
      unfold map_set at hb
      split_ifs at hb with hk
      · simp only [Option.some.injEq] at hb
        rw [← hb]; exact hkv
      · have := hinv.writers b v hb
        unfold valid_handle at this ⊢; omega
    have hrdv : ∀ b l, e.2.readmap b = some l → ∀ v ∈ l, valid_handle e.2.nodes v := by
      intro b l hb v hv
      rcases hrd b l hb v hv with hx | ⟨l0, h0, hv0⟩
      · rw [hx]; exact hkv
      · have := hinv.readers b l0 h0 v hv0
        unfold valid_handle at this ⊢; omega
    unfold parse_root_attach at h
    by_cases c : root_attach_test e.2.nodes e.1
    · rw [if_pos c] at h
      by_cases c2 : (bh_grap_node_add_child mem e.2.nodes root e.1).1 ≠ BH_SUCCESS
      · rw [if_pos c2] at h; cases h
      · rw [if_neg c2] at h
        simp only [Option.some.injEq] at h
        obtain ⟨g1, g2, g3, g4, g5⟩ := grounded_add_child mem e.2.nodes root root e.1 q3 hrv hrv
          hkv (by rw [hself]; exact fun hc => hrK hc.symm) (not_not.1 c2)
        rw [← h]
        refine ⟨wired_add_child mem e.2.nodes root e.1 q2 hrv hkv, g1,
          valid_mono _ _ g2 _ hrv, fun x hx hxr => ?_,
          fun b v hb => valid_mono _ _ g2 _ (hwv b v hb),
          fun b l hb v hv => valid_mono _ _ g2 _ (hrdv b l hb v hv)⟩
        dsimp only at hx ⊢
        by_cases hxv : valid_handle e.2.nodes x
        · by_cases hxk : x = (st.nodes.length : Int)
          · rw [hxk, ← hself]; exact g5
          · exact g3 x (q4 x hxv hxr hxk)
        · exact g4 x hx hxv
    · rw [if_neg c] at h
      simp only [ne_eq, not_true_eq_false, if_false, Option.some.injEq] at h
      rw [← h]
      refine ⟨q2, q3, hrv, fun x hx hxr => ?_, hwv, hrdv⟩
      dsimp only at hx ⊢
      by_cases hxk : x = (st.nodes.length : Int)
      · rw [hxk, ← hself]
        intro hp
        apply c
        unfold root_attach_test
        refine ⟨hp.1, ?_⟩
        rw [hp.2]; decide
      · exact q4 x hx hxr hxk

/-- The main loop keeps `graph_inv`. -/
theorem graph_inv_loop (T : bh_opcodes) (mem : Option Nat) (root : Int)
    (L : List bh_instruction) :
    ∀ (st st' : parse_state) (i : Int), graph_inv root st →
      parse_loop T mem root st i L = some st' → graph_inv root st' := by
  induction L with
  | nil =>
    intro st st' i hinv h
    rw [parse_loop] at h
    simp only [Option.some.injEq] at h
    rw [← h]; exact hinv
  | cons instr rest ih =>
    intro st st' i hinv h
    rw [parse_loop] at h
    cases hp : parse_instruction T mem root st i instr with
    | none => rw [hp] at h; cases h
    | some st1 =>
      rw [hp] at h
      exact ih st1 st' (i + 1) (graph_inv_step T mem root st st1 i instr hinv hp) h

/-- The state that holds the root node only satisfies `graph_inv`. -/
theorem graph_inv_init :
    graph_inv 0 ⟨[⟨BH_COLLECTION, INVALID_INSTRUCTION, INVALID_NODE, INVALID_NODE,
      INVALID_NODE, INVALID_NODE⟩], fun _ => none, fun _ => none⟩ := by
  have hl : ∀ x : Int, x ≠ 0 → NODE_LOOKUP [(⟨BH_COLLECTION, INVALID_INSTRUCTION, INVALID_NODE,
      INVALID_NODE, INVALID_NODE, INVALID_NODE⟩ : bh_graph_node)] x = default := by
    intro x hx
    exact lookup_invalid _ x (by unfold valid_handle; simp only [List.length_singleton]; omega)
  have h0 : NODE_LOOKUP [(⟨BH_COLLECTION, INVALID_INSTRUCTION, INVALID_NODE,
      INVALID_NODE, INVALID_NODE, INVALID_NODE⟩ : bh_graph_node)] 0
      = ⟨BH_COLLECTION, INVALID_INSTRUCTION, INVALID_NODE, INVALID_NODE, INVALID_NODE,
        INVALID_NODE⟩ := rfl
  have hall : ∀ x : Int, NODE_LOOKUP [(⟨BH_COLLECTION, INVALID_INSTRUCTION, INVALID_NODE,
      INVALID_NODE, INVALID_NODE, INVALID_NODE⟩ : bh_graph_node)] x
      = ⟨BH_COLLECTION, INVALID_INSTRUCTION, INVALID_NODE, INVALID_NODE, INVALID_NODE,
        INVALID_NODE⟩ := by
    intro x
    by_cases hx : x = 0
    · rw [hx, h0]
    · rw [hl x hx]; rfl
  refine ⟨⟨fun c p hp hcp => ?_, fun c _ => ?_⟩, ⟨⟨?_, ?_⟩, fun x => ?_⟩, by decide,
    fun x hx hxr => ?_, (fun _ _ h => by cases h), (fun _ _ h => by cases h)⟩
  · dsimp only at hcp
    rw [hall] at hcp
    rcases hcp with h | h <;> exact absurd h.symm hp
  · dsimp only
    rw [hall]
  · dsimp only; rw [hall]
  · dsimp only; rw [hall]
  · dsimp only
    rw [hall]
    exact ⟨by decide, by decide⟩
  · exfalso
    apply hxr
    unfold valid_handle at hx
    simp only [List.length_singleton] at hx
    omega

/-- Every arena reachable by allocations and edges between arena handles is
wired. -/
theorem wired_edge_reachable (nodes : List bh_graph_node) (h : edge_reachable nodes) :
    parent_wired nodes := by
  induction h with
  | empty =>
    have hd : ∀ x : Int, NODE_LOOKUP [] x = default := fun x =>
      lookup_invalid [] x (by unfold valid_handle; simp only [List.length_nil]; omega)
    constructor
    · intro c p hp hcp
      rw [hd] at hcp
      rcases hcp with h | h <;> exact absurd h.symm hp
    · intro c _
      rw [hd]; rfl
  | node mem nodes t i _ ih =>
    rcases new_node_cases mem nodes t i with e | e
    · rw [e]; exact ih
    · rw [e]; exact wired_append nodes t i ih
  | edge mem nodes p c _ hp hc ih => exact wired_add_child mem nodes p c ih hp hc

/-- The edge part of one iteration leads from an arena reachable by
allocations and edges between arena handles to such an arena. -/
theorem edge_reachable_edges (T : bh_opcodes) (mem : Option Nat)
    (st : parse_state) (e : Int × parse_state) (i : Int) (instr : bh_instruction)
    (hwv : ∀ b v, st.writemap b = some v → valid_handle st.nodes v)
    (hrv : ∀ b l, st.readmap b = some l → ∀ v ∈ l, valid_handle st.nodes v)
    (hr : edge_reachable st.nodes)
    (he : parse_edges T mem st i instr = some e) :
    st.nodes.length + 1 ≤ e.2.nodes.length ∧ edge_reachable e.2.nodes := by
  have hnew := edge_reachable.node mem st.nodes BH_INSTRUCTION i hr
  have halloc : bh_graph_new_node mem st.nodes BH_INSTRUCTION i
      = ((st.nodes.length : Int), st.nodes ++ [⟨BH_INSTRUCTION, i, INVALID_NODE, INVALID_NODE,
          INVALID_NODE, INVALID_NODE⟩]) := by
    rcases new_node_cases mem st.nodes BH_INSTRUCTION i with e0 | e0
    · exfalso
      unfold parse_edges at he
      simp only [e0] at he
      split_ifs at he
    · exact e0
  rw [halloc] at hnew
  exact parse_edges_valid_steps
    (fun nodes => st.nodes.length + 1 ≤ nodes.length ∧ edge_reachable nodes)
    T mem st e i instr hwv hrv
    (fun nodes s ⟨p1, p2⟩ hs _ =>
      ⟨le_trans p1 (length_add_child_le mem nodes s _),
        edge_reachable.edge mem nodes s _ p2
          (by unfold valid_handle at hs ⊢; omega) (by unfold valid_handle; omega)⟩)
    ⟨by rw [List.length_append]; rfl, hnew⟩ he

/-- One iteration of the main loop leads from an arena reachable by
allocations and edges between arena handles to such an arena. -/
theorem edge_reachable_step (T : bh_opcodes) (mem : Option Nat) (root : Int)
    (st st' : parse_state) (i : Int) (instr : bh_instruction)
    (hinv : graph_inv root st) (hr : edge_reachable st.nodes)
    (h : parse_instruction T mem root st i instr = some st') : edge_reachable st'.nodes := by
  rw [parse_instruction_split] at h
  cases he : parse_edges T mem st i instr with
  | none => rw [he] at h; cases h
  | some e =>
    rw [he] at h
    change parse_root_attach mem root e = some st' at h
    obtain ⟨-, hself, -⟩ := parse_edges_spec (fun _ _ => True) (fun _ => trivial)
      (fun _ _ _ _ _ => trivial) (fun _ _ _ _ => trivial) T mem st e i instr he
    obtain ⟨q1, q2⟩ := edge_reachable_edges T mem st e i instr hinv.writers hinv.readers hr he
    have hroot := hinv.root_valid
    unfold parse_root_attach at h
    by_cases c : root_attach_test e.2.nodes e.1
    · rw [if_pos c] at h
      by_cases c2 : (bh_grap_node_add_child mem e.2.nodes root e.1).1 ≠ BH_SUCCESS
      · rw [if_pos c2] at h; cases h
      · rw [if_neg c2] at h
        simp only [Option.some.injEq] at h
        rw [← h]
        exact edge_reachable.edge mem e.2.nodes root e.1 q2
          (by unfold valid_handle at hroot ⊢; omega)
          (by rw [hself]; unfold valid_handle; omega)
    · rw [if_neg c] at h
      simp only [ne_eq, not_true_eq_false, if_false, Option.some.injEq] at h
      rw [← h]
      exact q2

/-- The main loop leads from an arena reachable by allocations and edges
between arena handles to such an arena. -/
theorem edge_reachable_loop (T : bh_opcodes) (mem : Option Nat) (root : Int)
    (L : List bh_instruction) :
    ∀ (st st' : parse_state) (i : Int), graph_inv root st → edge_reachable st.nodes →
      parse_loop T mem root st i L = some st' → edge_reachable st'.nodes := by
  induction L with
  | nil =>
    intro st st' i _ hr h
    rw [parse_loop] at h
    simp only [Option.some.injEq] at h
    rw [← h]; exact hr
  | cons instr rest ih =>
    intro st st' i hinv hr h
    rw [parse_loop] at h
    cases hp : parse_instruction T mem root st i instr with
    | none => rw [hp] at h; cases h
    | some st1 =>
      rw [hp] at h
      exact ih st1 st' (i + 1) (graph_inv_step T mem root st st1 i instr hinv hp)
        (edge_reachable_step T mem root st st1 i instr hinv hr hp) h

/-- The main loop run from the state the build starts with: either the root
could not be allocated, the list is empty and the arena stays empty, or the
root is node 0 and the state reached satisfies `graph_inv`. -/
theorem parse_loop_fresh_cases (T : bh_opcodes) (mem : Option Nat) (L : List bh_instruction)
    (st : parse_state)
    (h : parse_loop T mem (bh_graph_new_node mem [] BH_COLLECTION INVALID_INSTRUCTION).1
      ⟨(bh_graph_new_node mem [] BH_COLLECTION INVALID_INSTRUCTION).2,
        fun _ => none, fun _ => none⟩ 0 L = some st) :
    (L = [] ∧ st.nodes = []
      ∧ (bh_graph_new_node mem [] BH_COLLECTION INVALID_INSTRUCTION).1 = INVALID_NODE)
    ∨ ((bh_graph_new_node mem [] BH_COLLECTION INVALID_INSTRUCTION).1 = 0
      ∧ (bh_graph_new_node mem [] BH_COLLECTION INVALID_INSTRUCTION).2
        = [⟨BH_COLLECTION, INVALID_INSTRUCTION, INVALID_NODE, INVALID_NODE,
            INVALID_NODE, INVALID_NODE⟩]
      ∧ graph_inv 0 st) := by
  rcases new_node_cases mem [] BH_COLLECTION INVALID_INSTRUCTION with e | e
  · left
    rw [e] at h
    have hfail : bh_dynamic_list_append mem ([] : List bh_graph_node).length < 0 := by
      unfold bh_graph_new_node at e
      simp only at e
      by_contra hc
      rw [if_neg hc] at e
      have := congrArg (fun q => q.2.length) e
      simp at this
    cases L with
    | nil =>
      rw [parse_loop] at h
      simp only [Option.some.injEq] at h
      rw [← h]
      exact ⟨rfl, rfl, congrArg Prod.fst e⟩
    | cons instr rest =>
      rw [parse_loop, parse_instruction_alloc_fail T mem _ _ 0 instr hfail] at h
      cases h
  · right
    rw [e] at h
    refine ⟨congrArg Prod.fst e, congrArg Prod.snd e, ?_⟩
    exact graph_inv_loop T mem _ L _ st 0 graph_inv_init h

/-- The arenas of the main loop run from the state the build starts with are
reachable by allocations and edges between arena handles. -/
theorem parse_loop_edge_reachable (T : bh_opcodes) (mem : Option Nat) (L : List bh_instruction)
    (st : parse_state)
    (h : parse_loop T mem (bh_graph_new_node mem [] BH_COLLECTION INVALID_INSTRUCTION).1
      ⟨(bh_graph_new_node mem [] BH_COLLECTION INVALID_INSTRUCTION).2,
        fun _ => none, fun _ => none⟩ 0 L = some st) :
    edge_reachable st.nodes := by
  have hroot : edge_reachable (bh_graph_new_node mem [] BH_COLLECTION INVALID_INSTRUCTION).2 :=
    edge_reachable.node mem [] _ _ edge_reachable.empty
  rcases parse_loop_fresh_cases T mem L st h with ⟨-, h2, -⟩ | ⟨h1, h2, -⟩
  · rw [h2]; exact edge_reachable.empty
  · rw [h1, h2] at h
    rw [h2] at hroot
    exact edge_reachable_loop T mem 0 L _ st 0 graph_inv_init hroot h

/-- C31. Parent handles always have a matching child handle. In every node
arena reachable by `bh_graph_new_node` calls and `bh_grap_node_add_child`
calls on handles of the arena (`edge_reachable`), whatever the memory bound
and the outcome of each call, every node `c` and every parent handle
`p = c.left_parent` or `p = c.right_parent` other than `INVALID_NODE` satisfy
`p.left_child = c` or `p.right_child = c`. The arenas `bh_graph_parse` goes
through are of this kind, every `add_child` call of the build being made on
handles of the arena: the arena between two instructions of the main loop,
the arena after the write-after-write, write-after-read and read-after-write
edges of an iteration, and the arena of a successful build. -/
theorem parent_handles_have_child_handles (T : bh_opcodes) (mem : Option Nat) :
    (∀ nodes, edge_reachable nodes → ∀ c p, p ≠ INVALID_NODE →
      ((NODE_LOOKUP nodes c).left_parent = p ∨ (NODE_LOOKUP nodes c).right_parent = p) →
      ((NODE_LOOKUP nodes p).left_child = c ∨ (NODE_LOOKUP nodes p).right_child = c))
    ∧ (∀ (pre : List bh_instruction) (st : parse_state),
        parse_loop T mem (bh_graph_new_node mem [] BH_COLLECTION INVALID_INSTRUCTION).1
          ⟨(bh_graph_new_node mem [] BH_COLLECTION INVALID_INSTRUCTION).2,
            fun _ => none, fun _ => none⟩ 0 pre = some st →
        edge_reachable st.nodes
        ∧ ∀ (instr : bh_instruction) (e : Int × parse_state),
            parse_edges T mem st (pre.length : Int) instr = some e →
            edge_reachable e.2.nodes)
    ∧ (∀ (L : List bh_instruction) (ir : bh_ir),
        bh_graph_parse T mem (fresh_ir L) = (BH_SUCCESS, ir) → edge_reachable ir.nodes) := by
  refine ⟨fun nodes h => (wired_edge_reachable nodes h).mirrored, fun pre st hst => ?_,
    fun L ir h => ?_⟩
  · have hst' := parse_loop_edge_reachable T mem pre st hst
    refine ⟨hst', fun instr e he => ?_⟩
    rcases parse_loop_fresh_cases T mem pre st hst with ⟨h1, -, -⟩ | ⟨-, -, hinv⟩
    · rw [h1, parse_loop] at hst
      simp only [Option.some.injEq] at hst
      refine (edge_reachable_edges T mem st e _ instr ?_ ?_ hst' he).2
      · intro b v hb
        rw [← hst] at hb
        cases hb
      · intro b l hb
        rw [← hst] at hb
        cases hb
    · exact (edge_reachable_edges T mem st e _ instr hinv.writers hinv.readers hst' he).2
  · obtain ⟨st, hst, hn, -, -⟩ := parse_fresh_loop T mem L ir h
    rw [hn]
    exact parse_loop_edge_reachable T mem L st hst
theorem parent_handles_have_child_handles_witness :
    edge_reachable (bh_graph_parse demo_opcodes none (fresh_ir fan_in_list)).2.nodes
    ∧ (NODE_LOOKUP (bh_graph_parse demo_opcodes none (fresh_ir fan_in_list)).2.nodes 5).right_parent
        = 2
    ∧ ((NODE_LOOKUP (bh_graph_parse demo_opcodes none (fresh_ir fan_in_list)).2.nodes 2).left_child
          = 5
      ∨ (NODE_LOOKUP (bh_graph_parse demo_opcodes none (fresh_ir fan_in_list)).2.nodes 2).right_child
          = 5) :=
  ⟨(parent_handles_have_child_handles demo_opcodes none).2.2 fan_in_list _ (by decide :
      bh_graph_parse demo_opcodes none (fresh_ir fan_in_list)
        = (BH_SUCCESS, (bh_graph_parse demo_opcodes none (fresh_ir fan_in_list)).2)),
    by decide,
    (parent_handles_have_child_handles demo_opcodes none).1 _
      ((parent_handles_have_child_handles demo_opcodes none).2.2 fan_in_list _ (by decide :
        bh_graph_parse demo_opcodes none (fresh_ir fan_in_list)
          = (BH_SUCCESS, (bh_graph_parse demo_opcodes none (fresh_ir fan_in_list)).2))) 5 2
      (by decide) (Or.inr (by decide))⟩

/-- The main loop run from the one-node arena holding the root reaches an
acyclic arena. -/
theorem parse_loop_root_acyclic (T : bh_opcodes) (mem : Option Nat) (L : List bh_instruction)
    (st : parse_state)
    (h : parse_loop T mem 0
      ⟨[⟨BH_COLLECTION, INVALID_INSTRUCTION, INVALID_NODE, INVALID_NODE,
          INVALID_NODE, INVALID_NODE⟩], fun _ => none, fun _ => none⟩ 0 L = some st) :
    acyclic st.nodes := by
  have hinv : parse_inv 0
      ⟨[⟨BH_COLLECTION, INVALID_INSTRUCTION, INVALID_NODE, INVALID_NODE,
        INVALID_NODE, INVALID_NODE⟩], fun _ => none, fun _ => none⟩ (fun _ => 0) 1 := by
    refine ⟨?_, (fun _ _ => by norm_num), (fun b v hb => by cases hb),
      (fun b l hb => by cases hb), ?_⟩
    · intro x hx
      have hx0 : x = 0 := by
        unfold valid_handle at hx
        simp at hx
        omega
      subst hx0
      exact ⟨Or.inl rfl, Or.inl rfl, Or.inl rfl, Or.inl rfl⟩
    · unfold valid_handle
      simp
  obtain ⟨rank', B', hinv'⟩ := parse_loop_inv T mem _ _ _ st _ _ 0 hinv h
  exact ranked_acyclic _ rank' hinv'.ranked

/-- In a wired acyclic arena whose nodes other than the root all have a
parent, every node is reached from the root along child handles. -/
theorem reachable_from_root (nodes : List bh_graph_node) (root : Int)
    (hw : parent_wired nodes) (hac : acyclic nodes)
    (hothers : ∀ x, valid_handle nodes x → x ≠ root → ¬ parentless nodes x) :
    ∀ x, valid_handle nodes x → Relation.ReflTransGen (is_child nodes) root x := by
  have hwf := ancestor_wellFounded nodes hac
  have key : ∀ a : Set.Ico (0 : Int) (nodes.length : Int),
      Relation.ReflTransGen (is_child nodes) root a.1 := by
    intro a
    induction a using hwf.induction with
    | _ a ih =>
      by_cases hr : a.1 = root
      · rw [hr]
      · have hva : valid_handle nodes a.1 := by
          unfold valid_handle
          exact ⟨a.2.1, a.2.2⟩
        have hnp := hothers a.1 hva hr
        have hex : ∃ p, p ≠ INVALID_NODE ∧ ((NODE_LOOKUP nodes a.1).left_parent = p
            ∨ (NODE_LOOKUP nodes a.1).right_parent = p) := by
          by_cases hl : (NODE_LOOKUP nodes a.1).left_parent = INVALID_NODE
          · by_cases hr2 : (NODE_LOOKUP nodes a.1).right_parent = INVALID_NODE
            · exact absurd ⟨hl, hr2⟩ hnp
            · exact ⟨_, hr2, Or.inr rfl⟩
          · exact ⟨_, hl, Or.inl rfl⟩
        obtain ⟨p, hp, hpa⟩ := hex
        have hvp := (wired_valid nodes hw a.1 p hp hpa).2
        have hch := hw.mirrored a.1 p hp hpa
        have hpv : p ∈ Set.Ico (0 : Int) (nodes.length : Int) := by
          unfold valid_handle at hvp
          exact ⟨hvp.1, hvp.2⟩
        have hip := ih ⟨p, hpv⟩ (Relation.TransGen.single ⟨hp, hpa⟩)
        exact Relation.ReflTransGen.tail hip
          ⟨valid_ne_invalid nodes a.1 hva, hch⟩
  intro x hx
  unfold valid_handle at hx
  exact key ⟨x, hx.1, hx.2⟩

/-- C32. The built graph has a single root. After a successful build the
root is the only node of the arena without a parent (both parent slots
`INVALID_NODE`), every node of the arena is reached from the root by
following child handles, and the root is a node of the arena unless the
arena is empty (which happens only when the root could not be allocated and
the instruction list is empty). -/
theorem single_root (T : bh_opcodes) (mem : Option Nat) (L : List bh_instruction)
    (ir : bh_ir) (h : bh_graph_parse T mem (fresh_ir L) = (BH_SUCCESS, ir)) :
    (∀ x, valid_handle ir.nodes x →
      (((NODE_LOOKUP ir.nodes x).left_parent = INVALID_NODE
          ∧ (NODE_LOOKUP ir.nodes x).right_parent = INVALID_NODE) ↔ x = ir.root))
    ∧ (∀ x, valid_handle ir.nodes x → Relation.ReflTransGen (is_child ir.nodes) ir.root x)
    ∧ ((ir.nodes = [] ∧ L = []) ∨ valid_handle ir.nodes ir.root) := by
  obtain ⟨st, hst, hn, hroot, -⟩ := parse_fresh_loop T mem L ir h
  rcases parse_loop_fresh_cases T mem L st hst with ⟨h1, h2, -⟩ | ⟨h1, h2, hinv⟩
  · rw [hn, h2]
    refine ⟨?_, ?_, Or.inl ⟨rfl, h1⟩⟩ <;>
    · intro x hx
      unfold valid_handle at hx
      simp only [List.length_nil] at hx
      omega
  · rw [h1, h2] at hst
    rw [hn, hroot, h1]
    refine ⟨fun x hx => ⟨fun hp => ?_, fun hx0 => ?_⟩, ?_, Or.inr hinv.root_valid⟩
    · by_contra hne
      exact hinv.others x hx hne hp
    · rw [hx0]
      exact hinv.rooted.root_parentless
    · exact reachable_from_root st.nodes 0 hinv.wired
        (parse_loop_root_acyclic T mem L st hst) hinv.others

theorem single_root_witness :
    bh_graph_parse demo_opcodes none (fresh_ir fan_in_list)
        = (BH_SUCCESS, (bh_graph_parse demo_opcodes none (fresh_ir fan_in_list)).2)
    ∧ (bh_graph_parse demo_opcodes none (fresh_ir fan_in_list)).2.nodes.length = 7
    ∧ (bh_graph_parse demo_opcodes none (fresh_ir fan_in_list)).2.root = 0
    ∧ ((∀ x, valid_handle (bh_graph_parse demo_opcodes none (fresh_ir fan_in_list)).2.nodes x →
        (((NODE_LOOKUP (bh_graph_parse demo_opcodes none (fresh_ir fan_in_list)).2.nodes
              x).left_parent = INVALID_NODE
          ∧ (NODE_LOOKUP (bh_graph_parse demo_opcodes none (fresh_ir fan_in_list)).2.nodes
              x).right_parent = INVALID_NODE)
          ↔ x = (bh_graph_parse demo_opcodes none (fresh_ir fan_in_list)).2.root))
      ∧ (∀ x, valid_handle (bh_graph_parse demo_opcodes none (fresh_ir fan_in_list)).2.nodes x →
        Relation.ReflTransGen
          (is_child (bh_graph_parse demo_opcodes none (fresh_ir fan_in_list)).2.nodes)
          (bh_graph_parse demo_opcodes none (fresh_ir fan_in_list)).2.root x)
      ∧ ((  (bh_graph_parse demo_opcodes none (fresh_ir fan_in_list)).2.nodes = []
            ∧ fan_in_list = [])
        ∨ valid_handle (bh_graph_parse demo_opcodes none (fresh_ir fan_in_list)).2.nodes
            (bh_graph_parse demo_opcodes none (fresh_ir fan_in_list)).2.root)) :=
  ⟨by decide, by decide, by decide,
    single_root demo_opcodes none fan_in_list _ (by decide :
      bh_graph_parse demo_opcodes none (fresh_ir fan_in_list)
        = (BH_SUCCESS, (bh_graph_parse demo_opcodes none (fresh_ir fan_in_list)).2))⟩

end Bohrium
